import Mathlib

/-! Set abstract data type: open-addressing hash tables.

Shallow embedding of the set implementations of the repository and the
properties stated about them.

* `Lab6` embeds `Lab 6/Lab 6 Code/table.c`: the generic open-addressing
  table with linear probing, tombstones and a quicksorted snapshot.
* `Lab3S` embeds `Lab 3/Lab 3 Code/strings/table.c`: the string table,
  which owns duplicated copies of its elements.
* `Lab4` embeds `Lab4/Lab4 Code/set.c` and `list.c`: the chained set.
* `Lab2U` and `Lab2S` embed `Lab 2/Lab 2 Code/unsorted.c` and
  `Lab2/Lab2 Code/sorted.c`: the array sets of strings.
* `TermProject` embeds `Term Project/Term Project Code/list.c`: the list of
  circular arrays.
* `Lab5` embeds `Lab5/Lab5 Code/pqueue.c`: the binary min heap.
* `Lab3G` embeds `search` and `addElement` of `Lab3/Lab3 Code/generic/table.c`,
  over the record of `Lab6`.

Conventions of the embedding.

* A C array is a `List`; `sp->length` is kept as a field of its own, and the
  malloc'd blocks `data` and `flags` have that many entries.
* `int` values that may be `-1` (the index returned by `search`, `count`,
  the bounds of `quicksort`) are `Int`; loop counters that only run upwards
  from `0` are `Nat`.
* An `unsigned` hash value is a `Nat`; arithmetic that wraps is written with
  an explicit `% 2 ^ 32`.
* A failed `assert` and an access outside an allocated block are results of
  their own (`Outcome.aborted`, `Outcome.undefined`, or `none`).
* Allocations succeed and the capacity is small enough for `start + i` to fit
  an `int`; the `assert`s on null pointers are not modelled, since elements
  and function arguments of the embedding are never null.
-/

/-- Result of running a C function that mutates a set.  `returned s`: the
function returned and left the memory in state `s`.  `aborted s`: an `assert`
failed while the memory was in state `s`.  `undefined`: the function accessed
memory outside an allocated block, or through a dangling or uninitialised
pointer. -/
inductive Outcome (σ : Type) where
  | returned (s : σ) : Outcome σ
  | aborted (s : σ) : Outcome σ
  | undefined : Outcome σ
  deriving DecidableEq

/-- Result of running a C function that only reads the set: the value it
returns, or `undefined` when it reads through a dangling or uninitialised
pointer. -/
inductive Result (β : Type) where
  | value (v : β) : Result β
  | undefined : Result β
  deriving DecidableEq

/-- Read `a[i]` for a C `int` index; `none` when the index is outside the block. -/
def readAt {β : Type} (a : List β) (i : Int) : Option β :=
  if 0 ≤ i then a[i.toNat]? else none

/-- Store `a[i] = v` for a C `int` index; `none` when the index is outside the block. -/
def writeAt {β : Type} (a : List β) (i : Int) (v : β) : Option (List β) :=
  if 0 ≤ i ∧ i < (a.length : Int) then some (a.set i.toNat v) else none

/-- Value of the macro `EMPTY` (the same in both tables). -/
abbrev EMPTY : Nat := 0
/-- Value of the macro `FILLED` (the same in both tables). -/
abbrev FILLED : Nat := 1
/-- Value of the macro `DELETED` (the same in both tables). -/
abbrev DELETED : Nat := 2

/-- The loop `for (i = 0; i < maxElts; i++) flags[i] = EMPTY;` of both
`createSet` functions, with `n` iterations left. -/
def clearFlags : Nat → Nat → List Nat → List Nat
  | 0, _, flags => flags
  | n + 1, i, flags => clearFlags n (i + 1) (flags.set i EMPTY)

namespace Lab6

/-- The record `struct set` of `Lab 6 Code/table.c`.  An element of `α` is a
(non-null) `void *` value; `data` holds whatever pointer value is in each slot,
initialised or not. -/
structure SET (α : Type) where
  count : Int
  length : Nat
  data : List α
  flags : List Nat
  compare : α → α → Int
  hash : α → Nat

variable {α : Type}

/-- The value read by `sp->flags[i]`. -/
abbrev flagAt (sp : SET α) (i : Nat) : Nat := sp.flags.getD i EMPTY

/-- The `for` loop of `search`, with `n` iterations left, loop counter `i` and
the current value of `available`. -/
def searchLoop (sp : SET α) (elt : α) (start : Nat) : Nat → Nat → Int → Int × Bool
  | 0, _, available => (available, false)
  | n + 1, i, available =>
    let locn := (start + i) % sp.length
    if flagAt sp locn = EMPTY then
      (if available ≠ -1 then available else (locn : Int), false)
    else if flagAt sp locn = DELETED then
      searchLoop sp elt start n (i + 1) (if available = -1 then (locn : Int) else available)
    else
      match sp.data[locn]? with
      | some x =>
        if sp.compare x elt = 0 then ((locn : Int), true)
        else searchLoop sp elt start n (i + 1) available
      | none => searchLoop sp elt start n (i + 1) available

/-- The function `search`: the returned pair is the location and `*found`.
The model is that of a table with `length > 0` and is used for such tables
only: with `length == 0` the C code divides by zero in `hash(elt) % length`. -/
def search (sp : SET α) (elt : α) : Int × Bool :=
  searchLoop sp elt (sp.hash elt % sp.length) sp.length 0 (-1)

/-- The function `createSet`.  `data0` and `flags0` are the indeterminate
contents of the two freshly allocated blocks. -/
def createSet (maxElts : Nat) (compare : α → α → Int) (hash : α → Nat)
    (data0 : Nat → α) (flags0 : Nat → Nat) : SET α :=
  { count := 0
    length := maxElts
    data := (List.range maxElts).map data0
    flags := clearFlags maxElts 0 ((List.range maxElts).map flags0)
    compare := compare
    hash := hash }

/-- The function `numElements`. -/
def numElements (sp : SET α) : Int := sp.count

/-- The function `addElement`. -/
def addElement (sp : SET α) (elt : α) : Outcome (SET α) :=
  match search sp elt with
  | (locn, found) =>
    if found = false then
      if sp.count < (sp.length : Int) then
        match writeAt sp.data locn elt, writeAt sp.flags locn FILLED with
        | some d, some f =>
          Outcome.returned { sp with data := d, flags := f, count := sp.count + 1 }
        | _, _ => Outcome.undefined
      else Outcome.aborted sp
    else Outcome.returned sp

/-- The function `removeElement`. -/
def removeElement (sp : SET α) (elt : α) : Outcome (SET α) :=
  match search sp elt with
  | (locn, found) =>
    if found = true then
      match writeAt sp.flags locn DELETED with
      | some f => Outcome.returned { sp with flags := f, count := sp.count - 1 }
      | none => Outcome.undefined
    else Outcome.returned sp

/-- The function `findElement`; `none` is `NULL`. -/
def findElement (sp : SET α) (elt : α) : Option α :=
  match search sp elt with
  | (locn, found) => if found = true then readAt sp.data locn else none

/-- Exchange `array[i]` and `array[j]` through a temporary, as both swaps of
`partition` do. -/
def swapAt (array : List α) (i j : Int) : Option (List α) :=
  match readAt array i, readAt array j with
  | some temp, some y =>
    match writeAt array i y with
    | some a1 => writeAt a1 j temp
    | none => none
  | _, _ => none

/-- The `for` loop of `partition`, with `n` iterations left. -/
def partitionLoop (sp : SET α) (pivotIndex : Int) :
    Nat → Int → Int → List α → Option (Int × List α)
  | 0, _, j, array => some (j, array)
  | n + 1, i, j, array =>
    match readAt array i, readAt array pivotIndex with
    | some x, some p =>
      if sp.compare x p < 0 then
        match swapAt array i j with
        | some a1 => partitionLoop sp pivotIndex n (i + 1) (j + 1) a1
        | none => none
      else partitionLoop sp pivotIndex n (i + 1) j array
    | _, _ => none

/-- The function `partition`: the returned pair is the index of the pivot and
the array after the exchanges; `none` when an index leaves the array. -/
def partition (low high : Int) (array : List α) (sp : SET α) : Option (Int × List α) :=
  match partitionLoop sp high (high - low).toNat low low array with
  | some (j, a1) =>
    match swapAt a1 j high with
    | some a2 => some (j, a2)
    | none => none
  | none => none

/-- The function `quicksort`, with a bound `fuel` on the depth of the
recursion; `none` when the bound is reached or an index leaves the array. -/
def quicksort : Nat → Int → Int → List α → SET α → Option (List α)
  | 0, low, high, array, _ => if low < high then none else some array
  | fuel + 1, low, high, array, sp =>
    if low < high then
      match partition low high array sp with
      | some (partitionIndex, a1) =>
        match quicksort fuel low (partitionIndex - 1) a1 sp with
        | some a2 => quicksort fuel (partitionIndex + 1) high a2 sp
        | none => none
      | none => none
    else some array

/-- The copying loop of `getElements`: the entries stored so far in `elts`
(`j` is its length), with `n` slots left to visit from slot `i`. -/
def copyFilled (sp : SET α) : Nat → Nat → List α → List α
  | 0, _, elts => elts
  | n + 1, i, elts =>
    if flagAt sp i = FILLED then
      match sp.data[i]? with
      | some x => copyFilled sp n (i + 1) (elts ++ [x])
      | none => copyFilled sp n (i + 1) elts
    else copyFilled sp n (i + 1) elts

/-- The function `getElements` (the allocation is taken to succeed).  The
block `elts` has `count` entries: when the loop stores a different number of
elements the C code writes past the block or sorts uninitialised entries, and
the result is `none`. -/
def getElements (sp : SET α) : Option (List α) :=
  let elts := copyFilled sp sp.length 0 []
  if (elts.length : Int) = sp.count then
    quicksort elts.length 0 (sp.count - 1) elts sp
  else none

end Lab6

/-! ## Predicates used to state the properties of the Lab 6 table -/

namespace Lab6

variable {α : Type}

/-- Slot `i` is `FILLED` and stores `x`. -/
def Holds (sp : SET α) (i : Nat) (x : α) : Prop :=
  flagAt sp i = FILLED ∧ sp.data[i]? = some x

/-- The slot visited by `search` at probe step `k` for `elt`:
`hash(elt) % length`, then `+1` modulo `length` at each step. -/
def probe (sp : SET α) (elt : α) (k : Nat) : Nat :=
  (sp.hash elt % sp.length + k) % sp.length

/-- Shape of a table: positive capacity, both blocks have `length` entries and
every flag is one of the three slot states. -/
structure WF (sp : SET α) : Prop where
  pos : 0 < sp.length
  flen : sp.flags.length = sp.length
  dlen : sp.data.length = sp.length
  fval : ∀ i, flagAt sp i = EMPTY ∨ flagAt sp i = FILLED ∨ flagAt sp i = DELETED

/-- The field `count` is the number of `FILLED` slots. -/
def CountInv (sp : SET α) : Prop :=
  sp.count = ((sp.flags.count FILLED : Nat) : Int)

/-- Probe-sequence invariant: the probe walk of every stored element reaches
its slot before it reaches an `EMPTY` slot. -/
def ProbeInv (sp : SET α) : Prop :=
  ∀ i x, Holds sp i x →
    ∃ k, k < sp.length ∧ probe sp x k = i ∧ ∀ k', k' < k → flagAt sp (probe sp x k') ≠ EMPTY

/-- No two distinct `FILLED` slots store elements that compare equal. -/
def NoDup (sp : SET α) : Prop :=
  ∀ i j x y, Holds sp i x → Holds sp j y → sp.compare x y = 0 → i = j

/-- Contract on the functions given to `createSet`: `compare(a, b) == 0` is an
equivalence relation and equal elements have the same hash value. -/
structure Lawful (sp : SET α) : Prop where
  refl : ∀ a, sp.compare a a = 0
  symm : ∀ a b, sp.compare a b = 0 → sp.compare b a = 0
  trans : ∀ a b c, sp.compare a b = 0 → sp.compare b c = 0 → sp.compare a c = 0
  hash_eq : ∀ a b, sp.compare a b = 0 → sp.hash a = sp.hash b

/-- Table states reachable from `createSet` with a positive capacity by calls
of `addElement` and `removeElement` that return. -/
inductive Reachable : SET α → Prop
  | create (maxElts : Nat) (compare : α → α → Int) (hash : α → Nat)
      (data0 : Nat → α) (flags0 : Nat → Nat) (hpos : 0 < maxElts) :
      Reachable (createSet maxElts compare hash data0 flags0)
  | add (sp sp' : SET α) (elt : α) (h : Reachable sp)
      (hadd : addElement sp elt = Outcome.returned sp') : Reachable sp'
  | remove (sp sp' : SET α) (elt : α) (h : Reachable sp)
      (hrem : removeElement sp elt = Outcome.returned sp') : Reachable sp'

/-- Comparison of numbers used in the examples: the difference. -/
def natCompare (a b : Nat) : Int := (a : Int) - (b : Int)

/-- Hash function used in the examples: the number itself. -/
def natHash (a : Nat) : Nat := a

/-- Example table: a new table of capacity 5 over numbers. -/
def ex5 : SET Nat :=
  createSet 5 natCompare natHash (fun _ => 0) (fun _ => 7)

/-- Example table: `ex5` after `addElement` of 2, 7 and 12 (slots 2, 3, 4). -/
def ex5abc : SET Nat :=
  { ex5 with count := 3, data := [0, 0, 2, 7, 12], flags := [0, 0, 1, 1, 1] }

/-- Example table: a new table of capacity 2 over numbers. -/
def ex2 : SET Nat :=
  createSet 2 natCompare natHash (fun _ => 0) (fun _ => 7)

/-- Example table: `ex2` after `addElement` of 0. -/
def ex2a : SET Nat :=
  { ex2 with count := 1, data := [0, 0], flags := [1, 0] }

/-- Example table: `ex2` after `addElement` of 0 and 1, which is full. -/
def exFull : SET Nat :=
  { ex2 with count := 2, data := [0, 1], flags := [1, 1] }

end Lab6

/-! ## The string table of `Lab 3 Code/strings/table.c` -/

namespace Lab3S

/-- A `char *` value stored in `data`: the indeterminate content of a fresh
block, a pointer to a live copy made by `strdup`, or a pointer whose block has
been passed to `free`. -/
inductive Ptr where
  | uninit : Ptr
  | live (s : String) : Ptr
  | freed : Ptr
  deriving DecidableEq

/-- The record `struct set` of `Lab 3 Code/strings/table.c`. -/
structure SET where
  data : List Ptr
  length : Nat
  count : Int
  flags : List Nat
  deriving DecidableEq

/-- The value read by `sp->flags[i]`. -/
abbrev flagAt (sp : SET) (i : Nat) : Nat := sp.flags.getD i EMPTY

/-- The loop of `strhash` over the characters of an ASCII string; `unsigned`
arithmetic wraps modulo `2 ^ 32`. -/
def strhashLoop : List Char → Nat → Nat
  | [], hash => hash
  | c :: s, hash => strhashLoop s ((31 * hash + c.toNat) % 2 ^ 32)

/-- The function `strhash`. -/
def strhash (s : String) : Nat := strhashLoop s.toList 0

/-- Comparison of two character sequences as the C library `strcmp` does it:
the difference of the first pair of characters that differ (a string that ends
first is smaller). -/
def strcmpChars : List Char → List Char → Int
  | [], [] => 0
  | [], c :: _ => -(c.toNat : Int)
  | c :: _, [] => (c.toNat : Int)
  | a :: as, b :: bs =>
    if a = b then strcmpChars as bs else (a.toNat : Int) - (b.toNat : Int)

/-- The C library function `strcmp` on the contents of two strings. -/
def strcmp (a b : String) : Int := strcmpChars a.toList b.toList

/-- The `for` loop of `search`, with `n` iterations left; `none` when
`strcmp` is given a pointer that is not live. -/
def searchLoop (sp : SET) (elt : String) (start : Nat) :
    Nat → Nat → Bool → Int → Option (Int × Bool)
  | 0, _, _, deleteIndex => some (deleteIndex, false)
  | n + 1, i, deleteFound, deleteIndex =>
    let location := (start + i) % sp.length
    if flagAt sp location = EMPTY then
      some (if deleteFound = true then deleteIndex else (location : Int), false)
    else if flagAt sp location = DELETED ∧ deleteFound = false then
      searchLoop sp elt start n (i + 1) true (location : Int)
    else
      match sp.data[location]? with
      | some (Ptr.live s) =>
        if strcmp s elt = 0 then some ((location : Int), true)
        else searchLoop sp elt start n (i + 1) deleteFound deleteIndex
      | _ => none

/-- The function `search`: the returned pair is the location and `*found`. -/
def search (sp : SET) (elt : String) : Option (Int × Bool) :=
  searchLoop sp elt (strhash elt % sp.length) sp.length 0 false (-1)

/-- The function `createSet`; `flags0` is the indeterminate content of the
freshly allocated block of flags. -/
def createSet (maxElts : Nat) (flags0 : Nat → Nat) : SET :=
  { length := maxElts
    data := List.replicate maxElts Ptr.uninit
    count := 0
    flags := clearFlags maxElts 0 ((List.range maxElts).map flags0) }

/-- The function `numElements`. -/
def numElements (sp : SET) : Int := sp.count

/-- The function `addElement`. -/
def addElement (sp : SET) (elt : String) : Outcome SET :=
  if sp.count < (sp.length : Int) then
    match search sp elt with
    | none => Outcome.undefined
    | some (location, found) =>
      if found = true then Outcome.returned sp
      else
        match writeAt sp.data location (Ptr.live elt) with
        | some d =>
          match writeAt sp.flags location FILLED with
          | some f => Outcome.returned { sp with data := d, flags := f, count := sp.count + 1 }
          | none => Outcome.undefined
        | none => Outcome.undefined
  else Outcome.aborted sp

/-- The function `removeElement`; `free` leaves a dangling pointer in the slot. -/
def removeElement (sp : SET) (elt : String) : Outcome SET :=
  match search sp elt with
  | none => Outcome.undefined
  | some (location, found) =>
    if found = false then Outcome.returned sp
    else
      match readAt sp.data location with
      | some (Ptr.live _) =>
        match writeAt sp.data location Ptr.freed, writeAt sp.flags location DELETED with
        | some d, some f => Outcome.returned { sp with data := d, flags := f, count := sp.count - 1 }
        | _, _ => Outcome.undefined
      | _ => Outcome.undefined

/-- The function `findElement`; the value `none` is `NULL`. -/
def findElement (sp : SET) (elt : String) : Result (Option Ptr) :=
  match search sp elt with
  | none => Result.undefined
  | some (location, found) =>
    if found = true then Result.value (readAt sp.data location) else Result.value none

/-- The copying loop of `getElements`, with `n` slots left to visit; `none`
when a store leaves the block `newData`. -/
def copyLoop (sp : SET) : Nat → Nat → Int → List Ptr → Option (List Ptr)
  | 0, _, _, newData => some newData
  | n + 1, dataIndex, newDataIndex, newData =>
    if flagAt sp dataIndex = FILLED then
      match sp.data[dataIndex]? with
      | some p =>
        match writeAt newData newDataIndex p with
        | some nd => copyLoop sp n (dataIndex + 1) (newDataIndex + 1) nd
        | none => none
      | none => none
    else copyLoop sp n (dataIndex + 1) newDataIndex newData

/-- The function `getElements`: a fresh block of `count` pointers, filled by
the copying loop. -/
def getElements (sp : SET) : Option (List Ptr) :=
  copyLoop sp sp.length 0 0 (List.replicate sp.count.toNat Ptr.uninit)

/-- Run a sequence of calls (`true`: `addElement`, `false`: `removeElement`)
as long as each of them returns. -/
def run (sp : SET) : List (Bool × String) → Outcome SET
  | [] => Outcome.returned sp
  | (true, e) :: rest =>
    match addElement sp e with
    | Outcome.returned s => run s rest
    | o => o
  | (false, e) :: rest =>
    match removeElement sp e with
    | Outcome.returned s => run s rest
    | o => o

end Lab3S

/-! ## Predicates used to state the properties of the Lab 3 string table -/

namespace Lab3S

/-- The pointers of the `FILLED` slots among the given flags and data, in
ascending slot order. -/
def filledOf (flags : List Nat) (data : List Ptr) : List Ptr :=
  ((flags.zip data).filter (fun fp => fp.1 = FILLED)).map Prod.snd

/-- The pointers stored in the `FILLED` slots of the table, in ascending slot
order. -/
def filledInOrder (sp : SET) : List Ptr := filledOf sp.flags sp.data

/-- The array holds live strings only and is non-decreasing under `strcmp`. -/
def nonDecreasing : List Ptr → Bool
  | [] => true
  | [Ptr.live _] => true
  | Ptr.live a :: Ptr.live b :: rest =>
    decide (strcmp a b ≤ 0) && nonDecreasing (Ptr.live b :: rest)
  | _ => false

/-- Shape of a string table: both blocks have `length` entries, `count` is
the number of `FILLED` slots and every live pointer is in a `FILLED` slot. -/
structure Inv (sp : SET) : Prop where
  flen : sp.flags.length = sp.length
  dlen : sp.data.length = sp.length
  cnt : sp.count = ((sp.flags.count FILLED : Nat) : Int)
  live : ∀ i s, sp.data[i]? = some (Ptr.live s) → flagAt sp i = FILLED

/-- Table states reachable from `createSet` with a positive capacity by calls
of `addElement` and `removeElement` that return. -/
inductive Reachable : SET → Prop
  | create (maxElts : Nat) (flags0 : Nat → Nat) (hpos : 0 < maxElts) :
      Reachable (createSet maxElts flags0)
  | add (sp sp' : SET) (elt : String) (h : Reachable sp)
      (hadd : addElement sp elt = Outcome.returned sp') : Reachable sp'
  | remove (sp sp' : SET) (elt : String) (h : Reachable sp)
      (hrem : removeElement sp elt = Outcome.returned sp') : Reachable sp'

/-- Example: a new string table of capacity 5. -/
def new5 : SET := createSet 5 (fun _ => 9)

/-- Example: capacity 5 after add "a", add "f", remove "a", remove "f"
(slots 2 and 3 are tombstones). -/
def twoTombstones : SET :=
  { data := [Ptr.uninit, Ptr.uninit, Ptr.freed, Ptr.freed, Ptr.uninit]
    length := 5
    count := 0
    flags := [0, 0, 2, 2, 0] }

/-- Example: capacity 5 after add "a", "b", "c", remove "b", add "d". -/
def mixed5 : SET :=
  { data := [Ptr.live "d", Ptr.uninit, Ptr.live "a", Ptr.freed, Ptr.live "c"]
    length := 5
    count := 3
    flags := [1, 0, 1, 2, 1] }

end Lab3S

/-! ## Predicates used to state the properties of the Lab 6 snapshot -/

namespace Lab6

variable {α : Type}

/-- The elements stored in the `FILLED` slots of the table, in ascending slot
order. -/
def filledInOrder (sp : SET α) : List α :=
  (List.range sp.length).filterMap
    (fun i => if flagAt sp i = FILLED then sp.data[i]? else none)

/-- The comparison function is the three-way comparison of a total order:
when `compare(a, b) ≥ 0` then `compare(b, a) ≤ 0`, and `≤ 0` is transitive. -/
structure TotalOrder (compare : α → α → Int) : Prop where
  total : ∀ a b, 0 ≤ compare a b → compare b a ≤ 0
  trans : ∀ a b c, compare a b ≤ 0 → compare b c ≤ 0 → compare a c ≤ 0

/-- An in-place step from `a` to `a'` that only rearranges the entries with
index in `[lo, hi]`. -/
structure Frame (lo : Nat) (hi : Int) (a a' : List α) : Prop where
  len : a'.length = a.length
  perm : a'.Perm a
  out : ∀ k : Nat, (k < lo ∨ hi < (k : Int)) → a'[k]? = a[k]?

end Lab6

/-! ## Example tables for the reuse of tombstones -/

namespace Lab6

/-- Example table: the full table `exFull` after `removeElement` of 0. -/
def exHole : SET Nat :=
  { ex2 with count := 1, data := [0, 1], flags := [2, 1] }

/-- Example table: `exHole` after `addElement` of 5, stored in the tombstone. -/
def exRefill : SET Nat :=
  { ex2 with count := 2, data := [5, 1], flags := [1, 1] }

end Lab6

namespace Lab3S

/-- Example: a string table of capacity 2 after add "a", add "b" (full). -/
def full2 : SET :=
  { data := [Ptr.live "b", Ptr.live "a"]
    length := 2
    count := 2
    flags := [1, 1] }

/-- Example: `full2` after remove "a" and add "c". -/
def refill2 : SET :=
  { data := [Ptr.live "b", Ptr.live "c"]
    length := 2
    count := 2
    flags := [1, 1] }

end Lab3S

/-! ## The chained set of `Lab4 Code/set.c` and its lists (`Lab4 Code/list.c`) -/

namespace Lab4

variable {α : Type}

/-- Value of the macro `ALPHA`. -/
abbrev ALPHA : Nat := 20

/-- The record `struct list`.  The circular chain of nodes `head->next`,
`head->next->next`, ... up to the dummy node is represented by the list
`items` of the `data` fields of its nodes, in chain order. -/
structure LIST (α : Type) where
  count : Int
  items : List α
  compare : α → α → Int

/-- The record `struct set` of `Lab4 Code/set.c`. -/
structure SET (α : Type) where
  lists : List (LIST α)
  length : Nat
  count : Int
  compare : α → α → Int
  hash : α → Nat

/-- The function `createList`: a dummy node that points to itself. -/
def createList (compare : α → α → Int) : LIST α :=
  { count := 0, items := [], compare := compare }

/-- The function `numItems`. -/
def numItems (lp : LIST α) : Int := lp.count

/-- The function `addFirst`: a new node between the dummy node and the old
first node. -/
def addFirst (lp : LIST α) (item : α) : LIST α :=
  { lp with items := item :: lp.items, count := lp.count + 1 }

/-- The `while` loop of `findItem` along the chain. -/
def findWalk (compare : α → α → Int) (item : α) : List α → Option α
  | [] => none
  | x :: rest => if compare x item = 0 then some x else findWalk compare item rest

/-- The function `findItem`; `none` is `NULL`. -/
def findItem (lp : LIST α) (item : α) : Option α :=
  findWalk lp.compare item lp.items

/-- The `while` loop of `removeItem` along the chain: the chain without the
first node equal to `item`, or `none` when the loop ends without a match. -/
def removeWalk (compare : α → α → Int) (item : α) : List α → Option (List α)
  | [] => none
  | x :: rest =>
    if compare x item = 0 then some rest
    else
      match removeWalk compare item rest with
      | some r => some (x :: r)
      | none => none

/-- The function `removeItem`. -/
def removeItem (lp : LIST α) (item : α) : LIST α :=
  match removeWalk lp.compare item lp.items with
  | some r => { lp with items := r, count := lp.count - 1 }
  | none => lp

/-- The loop of `createSet` that stores a new list in `lists[i]`, with `n`
iterations left. -/
def fillLists (compare : α → α → Int) : Nat → Nat → List (LIST α) → List (LIST α)
  | 0, _, lists => lists
  | n + 1, i, lists => fillLists compare n (i + 1) (lists.set i (createList compare))

/-- The function `createSet`; `lists0` is the indeterminate content of the
freshly allocated block of list pointers. -/
def createSet (maxElts : Nat) (compare : α → α → Int) (hash : α → Nat)
    (lists0 : Nat → LIST α) : SET α :=
  { length := maxElts / ALPHA
    count := 0
    compare := compare
    hash := hash
    lists := fillLists compare (maxElts / ALPHA) 0
      ((List.range (maxElts / ALPHA)).map lists0) }

/-- The function `numElements`. -/
def numElements (sp : SET α) : Int := sp.count

/-- The function `addElement`.  With no bucket the remainder `% sp->length`
divides by zero, which is undefined. -/
def addElement (sp : SET α) (elt : α) : Outcome (SET α) :=
  if sp.length = 0 then Outcome.undefined
  else
    match sp.lists[sp.hash elt % sp.length]? with
    | none => Outcome.undefined
    | some lp =>
      match findItem lp elt with
      | some _ => Outcome.returned sp
      | none =>
        Outcome.returned
          { sp with lists := sp.lists.set (sp.hash elt % sp.length) (addFirst lp elt)
                    count := sp.count + 1 }

/-- The function `removeElement`. -/
def removeElement (sp : SET α) (elt : α) : Outcome (SET α) :=
  if sp.length = 0 then Outcome.undefined
  else
    match sp.lists[sp.hash elt % sp.length]? with
    | none => Outcome.undefined
    | some lp =>
      match findItem lp elt with
      | some _ =>
        Outcome.returned
          { sp with lists := sp.lists.set (sp.hash elt % sp.length) (removeItem lp elt)
                    count := sp.count - 1 }
      | none => Outcome.returned sp

/-- The function `findElement`; the value `none` is `NULL`. -/
def findElement (sp : SET α) (elt : α) : Result (Option α) :=
  if sp.length = 0 then Result.undefined
  else
    match sp.lists[sp.hash elt % sp.length]? with
    | none => Result.undefined
    | some lp => Result.value (findItem lp elt)

/-- Run a sequence of `addElement` calls as long as each of them returns. -/
def addAll (sp : SET α) : List α → Outcome (SET α)
  | [] => Outcome.returned sp
  | e :: rest =>
    match addElement sp e with
    | Outcome.returned s => addAll s rest
    | o => o

/-! ### Predicates used to state the properties of the chained set -/

/-- Shape of a chained set: `length` buckets, every list compares with the
function of the set, and every element is in the bucket of its hash value. -/
structure Inv (sp : SET α) : Prop where
  llen : sp.lists.length = sp.length
  cmp : ∀ (b : Nat) (lp : LIST α), sp.lists[b]? = some lp → lp.compare = sp.compare
  home : ∀ (b : Nat) (lp : LIST α), sp.lists[b]? = some lp →
    ∀ x ∈ lp.items, sp.hash x % sp.length = b

/-- No bucket holds two elements that compare equal. -/
def NoDup (sp : SET α) : Prop :=
  ∀ (b : Nat) (lp : LIST α), sp.lists[b]? = some lp →
    lp.items.Pairwise (fun x y => sp.compare x y ≠ 0)

/-- Contract on the functions given to `createSet`: `compare(a, b) == 0` is an
equivalence relation and equal elements have the same hash value. -/
structure Lawful (sp : SET α) : Prop where
  refl : ∀ a, sp.compare a a = 0
  symm : ∀ a b, sp.compare a b = 0 → sp.compare b a = 0
  trans : ∀ a b c, sp.compare a b = 0 → sp.compare b c = 0 → sp.compare a c = 0
  hash_eq : ∀ a b, sp.compare a b = 0 → sp.hash a = sp.hash b

/-- The element `x` is stored in some bucket of the set. -/
def Stored (sp : SET α) (x : α) : Prop :=
  ∃ (b : Nat) (lp : LIST α), sp.lists[b]? = some lp ∧ x ∈ lp.items

/-- Set states reachable from `createSet` by calls of `addElement` and
`removeElement` that return. -/
inductive Reachable : SET α → Prop
  | create (maxElts : Nat) (compare : α → α → Int) (hash : α → Nat)
      (lists0 : Nat → LIST α) : Reachable (createSet maxElts compare hash lists0)
  | add (sp sp' : SET α) (elt : α) (h : Reachable sp)
      (hadd : addElement sp elt = Outcome.returned sp') : Reachable sp'
  | remove (sp sp' : SET α) (elt : α) (h : Reachable sp)
      (hrem : removeElement sp elt = Outcome.returned sp') : Reachable sp'

/-- Example: a new chained set created with `maxElts = 20` (one bucket). -/
def new20 : SET Nat :=
  createSet 20 Lab6.natCompare Lab6.natHash (fun _ => createList Lab6.natCompare)

/-- Example: `new20` after `addElement` of 0, 1, ..., 19. -/
def full20 : SET Nat :=
  { new20 with
    count := 20
    lists := [{ count := 20, items := (List.range 20).reverse, compare := Lab6.natCompare }] }

/-- Example: `full20` after `addElement` of 20. -/
def over20 : SET Nat :=
  { new20 with
    count := 21
    lists := [{ count := 21, items := (List.range 21).reverse, compare := Lab6.natCompare }] }

end Lab4

/-! ## The array sets of Lab 2: `unsorted.c` and `sorted.c`

Both files keep the strings in `data[0..count)`.  A read or a store of
`data[i]` outside the block is undefined (the shift loop of `sorted.c` reads
`data[-1]` when it inserts at index 0), and so are `strcmp` and `free` on a
pointer that is not live; a pointer read inside the block is copied whatever
its state. -/

open Lab3S (Ptr strcmp)

/-- The string is a C string: it does not contain the terminator `NUL`. -/
def cstring (s : String) : Bool := s.toList.all (fun c => c.toNat != 0)

namespace Lab2U

/-- The record `struct set` of `Lab 2 Code/unsorted.c`. -/
structure SET where
  data : List Ptr
  length : Nat
  count : Int
  deriving DecidableEq

/-- The function `createSet`: the block `data` is not initialised. -/
def createSet (maxElts : Nat) : SET :=
  { length := maxElts, data := List.replicate maxElts Ptr.uninit, count := 0 }

/-- The function `numElements`. -/
def numElements (sp : SET) : Int := sp.count

/-- The `for` loop of `search`, with `n` iterations left. -/
def searchLoop (sp : SET) (elt : String) : Nat → Int → Result Int
  | 0, _ => Result.value (-1)
  | n + 1, i =>
    match readAt sp.data i with
    | some (Ptr.live s) =>
      if strcmp s elt = 0 then Result.value i else searchLoop sp elt n (i + 1)
    | _ => Result.undefined

/-- The function `search` (sequential search). -/
def search (sp : SET) (elt : String) : Result Int :=
  searchLoop sp elt sp.count.toNat 0

/-- The function `addElement`. -/
def addElement (sp : SET) (elt : String) : Outcome SET :=
  if sp.count ≤ (sp.length : Int) then
    match search sp elt with
    | Result.undefined => Outcome.undefined
    | Result.value idx =>
      if idx ≠ -1 then Outcome.returned sp
      else
        match writeAt sp.data sp.count (Ptr.live elt) with
        | some d => Outcome.returned { sp with data := d, count := sp.count + 1 }
        | none => Outcome.undefined
  else Outcome.aborted sp

/-- The function `removeElement`: the slot is freed and then receives the
pointer read from `data[count-1]`. -/
def removeElement (sp : SET) (elt : String) : Outcome SET :=
  match search sp elt with
  | Result.undefined => Outcome.undefined
  | Result.value elementIndex =>
    if elementIndex = -1 then Outcome.returned sp
    else
      match readAt sp.data elementIndex with
      | some (Ptr.live _) =>
        match writeAt sp.data elementIndex Ptr.freed with
        | some d0 =>
          match readAt d0 (sp.count - 1) with
          | some last =>
            match writeAt d0 elementIndex last with
            | some d => Outcome.returned { sp with data := d, count := sp.count - 1 }
            | none => Outcome.undefined
          | none => Outcome.undefined
        | none => Outcome.undefined
      | _ => Outcome.undefined

/-- The function `findElement`; the value `none` is `NULL`. -/
def findElement (sp : SET) (elt : String) : Result (Option Ptr) :=
  match search sp elt with
  | Result.undefined => Result.undefined
  | Result.value elementIndex =>
    if elementIndex ≠ -1 then Result.value (readAt sp.data elementIndex)
    else Result.value none

/-- The function `getElements`: `memcpy` of the first `count` pointers. -/
def getElements (sp : SET) : Option (List Ptr) :=
  if 0 ≤ sp.count ∧ sp.count ≤ (sp.data.length : Int) then some (sp.data.take sp.count.toNat)
  else none

/-- The strings `xs` are the contents of `data[0..count)`, all live. -/
def Prefix (sp : SET) (xs : List String) : Prop :=
  sp.count = (xs.length : Int) ∧ sp.data.length = sp.length ∧
    ∀ (k : Nat) (x : String), xs[k]? = some x → sp.data[k]? = some (Ptr.live x)

/-- Example: the set of capacity 1 after `addElement("a")`, which is full. -/
def full1 : SET := { data := [Ptr.live "a"], length := 1, count := 1 }

/-- Example: a set of capacity 4 holding "a", "b", "c". -/
def abc4 : SET :=
  { data := [Ptr.live "a", Ptr.live "b", Ptr.live "c", Ptr.uninit], length := 4, count := 3 }

end Lab2U

namespace Lab2S

/-- The record `struct set` of `Lab2 Code/sorted.c`. -/
structure SET where
  data : List Ptr
  length : Nat
  count : Int
  deriving DecidableEq

/-- The function `createSet`: the block `data` is not initialised. -/
def createSet (maxElts : Nat) : SET :=
  { length := maxElts, data := List.replicate maxElts Ptr.uninit, count := 0 }

/-- The function `numElements`. -/
def numElements (sp : SET) : Int := sp.count

/-- The `while` loop of `search` (binary search), with a bound `fuel` on the
number of iterations: `none` when the bound is reached, `Result.undefined`
when `strcmp` is given a pointer that is not live. -/
def searchLoop (sp : SET) (elt : String) : Nat → Int → Int → Option (Result (Int × Bool))
  | 0, low, high => if low ≤ high then none else some (Result.value (low, false))
  | fuel + 1, low, high =>
    if low ≤ high then
      match readAt sp.data (Int.tdiv (high + low) 2) with
      | some (Ptr.live s) =>
        if strcmp s elt = 0 then some (Result.value (Int.tdiv (high + low) 2, true))
        else if strcmp s elt < 0 then searchLoop sp elt fuel (Int.tdiv (high + low) 2 + 1) high
        else searchLoop sp elt fuel low (Int.tdiv (high + low) 2 - 1)
      | _ => some Result.undefined
    else some (Result.value (low, false))

/-- The function `search`: the returned pair is the index and `*found`.  The
loop is run with `count` as bound, which it never reaches. -/
def search (sp : SET) (elt : String) : Result (Int × Bool) :=
  match searchLoop sp elt sp.count.toNat 0 (sp.count - 1) with
  | some r => r
  | none => Result.undefined

/-- The shift loop of `addElement`,
`for (i = count; i >= elementIndex; i--) data[i] = data[i-1]`,
with `n` iterations left; `none` when an iteration reads or writes outside
the block. -/
def shiftUp : Nat → Int → List Ptr → Option (List Ptr)
  | 0, _, data => some data
  | n + 1, i, data =>
    match readAt data (i - 1) with
    | some v =>
      match writeAt data i v with
      | some d => shiftUp n (i - 1) d
      | none => none
    | none => none

/-- The function `addElement`: undefined when the shift loop or the final
store leaves the block. -/
def addElement (sp : SET) (elt : String) : Outcome SET :=
  if sp.count ≤ (sp.length : Int) then
    match search sp elt with
    | Result.undefined => Outcome.undefined
    | Result.value (elementIndex, found) =>
      if found = true then Outcome.returned sp
      else
        match shiftUp (sp.count - elementIndex + 1).toNat sp.count sp.data with
        | some d =>
          match writeAt d elementIndex (Ptr.live elt) with
          | some d1 => Outcome.returned { sp with data := d1, count := sp.count + 1 }
          | none => Outcome.undefined
        | none => Outcome.undefined
  else Outcome.aborted sp

/-- The shift loop of `removeElement`,
`for (i = elementIndex; i < count-1; i++) data[i] = data[i+1]`,
with `n` iterations left; `none` when an iteration reads or writes outside
the block. -/
def shiftDown : Nat → Int → List Ptr → Option (List Ptr)
  | 0, _, data => some data
  | n + 1, i, data =>
    match readAt data (i + 1) with
    | some v =>
      match writeAt data i v with
      | some d => shiftDown n (i + 1) d
      | none => none
    | none => none

/-- The function `removeElement`. -/
def removeElement (sp : SET) (elt : String) : Outcome SET :=
  match search sp elt with
  | Result.undefined => Outcome.undefined
  | Result.value (elementIndex, found) =>
    if found = false then Outcome.returned sp
    else
      match readAt sp.data elementIndex with
      | some (Ptr.live _) =>
        match writeAt sp.data elementIndex Ptr.freed with
        | some d0 =>
          match shiftDown (sp.count - 1 - elementIndex).toNat elementIndex d0 with
          | some d => Outcome.returned { sp with data := d, count := sp.count - 1 }
          | none => Outcome.undefined
        | none => Outcome.undefined
      | _ => Outcome.undefined

/-- The function `findElement`; the value `none` is `NULL`. -/
def findElement (sp : SET) (elt : String) : Result (Option Ptr) :=
  match search sp elt with
  | Result.undefined => Result.undefined
  | Result.value (elementIndex, found) =>
    if found = true then Result.value (readAt sp.data elementIndex) else Result.value none

/-- The function `getElements`: `memcpy` of the first `count` pointers. -/
def getElements (sp : SET) : Option (List Ptr) :=
  if 0 ≤ sp.count ∧ sp.count ≤ (sp.data.length : Int) then some (sp.data.take sp.count.toNat)
  else none

/-- The strings `xs` are the contents of `data[0..count)`, all live. -/
def Prefix (sp : SET) (xs : List String) : Prop :=
  sp.count = (xs.length : Int) ∧ sp.data.length = sp.length ∧
    ∀ (k : Nat) (x : String), xs[k]? = some x → sp.data[k]? = some (Ptr.live x)

/-- The C strings `xs` are strictly ascending under `strcmp`. -/
def Ascending (xs : List String) : Prop :=
  (∀ x ∈ xs, cstring x = true) ∧
  ∀ (i j : Nat) (a b : String), i < j → xs[i]? = some a → xs[j]? = some b → strcmp a b < 0

/-- Set states reachable from `createSet` by calls of `addElement` (made with
`count < length`) and `removeElement` that return; the arguments are C strings. -/
inductive Reachable : SET → Prop
  | create (maxElts : Nat) : Reachable (createSet maxElts)
  | add (sp sp' : SET) (elt : String) (h : Reachable sp) (hc : cstring elt = true)
      (hlt : sp.count < (sp.length : Int))
      (hadd : addElement sp elt = Outcome.returned sp') : Reachable sp'
  | remove (sp sp' : SET) (elt : String) (h : Reachable sp) (hc : cstring elt = true)
      (hrem : removeElement sp elt = Outcome.returned sp') : Reachable sp'

/-- Example: a sorted set of capacity 4 holding "a", "c", "e". -/
def ace4 : SET :=
  { data := [Ptr.live "a", Ptr.live "c", Ptr.live "e", Ptr.uninit], length := 4, count := 3 }

end Lab2S


/-! ## Further example tables of Lab 6 -/

namespace Lab6

/-- Example table: `ex2` after `addElement` of 0 and 2 and `removeElement` of
0: the element 2 (home slot 0) is stored in slot 1, behind a tombstone. -/
def exPast : SET Nat :=
  { ex2 with count := 1, data := [0, 2], flags := [2, 1] }

/-- Example table: capacity 4, after `addElement` of 12, 3, 2, 7 and
`removeElement` of 3; it holds 12, 7 and 2 in slots 0, 1 and 2 and a tombstone
in slot 3. -/
def ex4abc : SET Nat :=
  { count := 3
    length := 4
    data := [12, 7, 2, 3]
    flags := [1, 1, 1, 2]
    compare := natCompare
    hash := natHash }

end Lab6

/-! ## The snapshot of the chained set (`getItems` of `list.c`, `getElements`
of `set.c`) -/

namespace Lab4

variable {α : Type}

/-- The `for` loop of `getItems`, with `n` iterations left and `curr` at the
head of the second list: the loop copies `curr->data` and follows `next`.
Behind the last node the chain returns to the dummy node, whose `data` is
`NULL` (`none`) and whose `next` is the first node again. -/
def getItemsLoop (items : List α) : Nat → List α → List (Option α)
  | 0, _ => []
  | n + 1, [] => none :: getItemsLoop items n items
  | n + 1, x :: rest => some x :: getItemsLoop items n rest

/-- The function `getItems`: an array of `count` pointers.  With a negative
`count` the allocation fails and its assertion stops the program (`none`). -/
def getItems (lp : LIST α) : Option (List (Option α)) :=
  if lp.count < 0 then none else some (getItemsLoop lp.items lp.count.toNat lp.items)

/-- The copying loop of `getElements` with `n` iterations left from bucket
`i`: `elts` are the entries of `newData` stored so far (`j` is its length) and
each iteration appends the `numItems(lists[i])` entries of `getItems(lists[i])`. -/
def copyLists (sp : SET α) : Nat → Nat → List (Option α) → Option (List (Option α))
  | 0, _, elts => some elts
  | n + 1, i, elts =>
    match sp.lists[i]? with
    | some lp =>
      match getItems lp with
      | some items => copyLists sp n (i + 1) (elts ++ items)
      | none => none
    | none => none

/-- The function `getElements` of `set.c`.  The block `newData` has `count`
entries: when the loop copies a different number of entries the C code writes
past the block or leaves entries uninitialised, and the result is `none`, as
it is when an allocation fails its assertion. -/
def getElements (sp : SET α) : Option (List (Option α)) :=
  if sp.count < 0 then none
  else
    match copyLists sp sp.length 0 [] with
    | some elts => if (elts.length : Int) = sp.count then some elts else none
    | none => none

/-- The field `count` of every list is the number of nodes of its chain, and
the field `count` of the set is the sum of `numItems` over all buckets. -/
def Counts (sp : SET α) : Prop :=
  (∀ (b : Nat) (lp : LIST α), sp.lists[b]? = some lp → lp.count = (lp.items.length : Int)) ∧
  sp.count = (sp.lists.map numItems).sum

/-- Example: `new20` after `addElement` of 3, 8 and `removeElement` of 3. -/
def one20 : SET Nat :=
  { new20 with
    count := 1
    lists := [{ count := 1, items := [8], compare := Lab6.natCompare }] }

end Lab4

/-! ## The list of arrays of `Term Project Code/list.c`

The list is a circular chain of nodes around a dummy node; every node owns a
block `data` of `length` pointers used as a circular window of `count` items
that starts at index `first`.  The chain `head->next`, ..., `head->prev` is
represented by the list `nodes`.  Only `data`, `next` and `prev` of the dummy
node are initialised: a read of its `count`, `first` or `length`, or an access
through its `data` (which is `NULL`), is `undefined`.  A slot of a block holds
`some x` once the item `x` was stored in it and `none` while its content is
indeterminate. -/

/-- Result of running a C function that returns a value: `returned s v`, the
function returned `v` and left the memory in state `s`; `aborted s`, an
`assert` failed in state `s`; `undefined`, the function accessed memory
outside an allocated block or read an uninitialised field. -/
inductive Reply (σ β : Type) where
  | returned (s : σ) (v : β) : Reply σ β
  | aborted (s : σ) : Reply σ β
  | undefined : Reply σ β
  deriving DecidableEq

namespace TermProject

/-- Value of the macro `MULTIPLIER`. -/
abbrev MULTIPLIER : Int := 2

/-- Value of the macro `INITIAL_LENGTH`. -/
abbrev INITIAL_LENGTH : Int := 10

/-- The record `struct node` (without the links). -/
structure NODE (α : Type) where
  data : List (Option α)
  first : Int
  count : Int
  length : Int
  deriving DecidableEq

/-- The record `struct list`. -/
structure LIST (α : Type) where
  count : Int
  nodes : List (NODE α)
  currLength : Int
  deriving DecidableEq

variable {α : Type}

/-- The function `createList`: only the dummy node. -/
def createList : LIST α :=
  { count := 0, nodes := [], currLength := INITIAL_LENGTH }

/-- The function `numItems`. -/
def numItems (lp : LIST α) : Int := lp.count

/-- The node allocated by `addFirst` and `addLast`: an uninitialised block of
`currLength` pointers. -/
def newNode (lp : LIST α) : NODE α :=
  { data := List.replicate lp.currLength.toNat none
    first := 0
    count := 0
    length := lp.currLength }

/-- The function `addFirst`. -/
def addFirst (lp : LIST α) (item : α) : Outcome (LIST α) :=
  let grown : LIST α :=
    { lp with nodes := newNode lp :: lp.nodes, currLength := lp.currLength * MULTIPLIER }
  let afterIf : Option (LIST α) :=
    if lp.count = 0 then some grown
    else
      match lp.nodes with
      | n :: _ => if n.count = n.length then some grown else some lp
      | [] => none
  match afterIf with
  | none => Outcome.undefined
  | some l1 =>
    match l1.nodes with
    | [] => Outcome.undefined
    | n :: rest =>
      if n.length = 0 then Outcome.undefined
      else
        match writeAt n.data (Int.tmod (n.first + n.length - 1) n.length) (some item) with
        | some d =>
          Outcome.returned
            { l1 with
              nodes := { n with first := Int.tmod (n.first + n.length - 1) n.length
                                data := d
                                count := n.count + 1 } :: rest
              count := l1.count + 1 }
        | none => Outcome.undefined

/-- The function `addLast`. -/
def addLast (lp : LIST α) (item : α) : Outcome (LIST α) :=
  let grown : LIST α :=
    { lp with nodes := lp.nodes ++ [newNode lp], currLength := lp.currLength * MULTIPLIER }
  let afterIf : Option (LIST α) :=
    if lp.count = 0 then some grown
    else
      match lp.nodes.getLast? with
      | some n => if n.count = n.length then some grown else some lp
      | none => none
  match afterIf with
  | none => Outcome.undefined
  | some l1 =>
    match l1.nodes.getLast? with
    | none => Outcome.undefined
    | some n =>
      if n.length = 0 then Outcome.undefined
      else
        match writeAt n.data (Int.tmod (n.first + n.count) n.length) (some item) with
        | some d =>
          Outcome.returned
            { l1 with
              nodes := l1.nodes.dropLast ++ [{ n with data := d, count := n.count + 1 }]
              count := l1.count + 1 }
        | none => Outcome.undefined

/-- The function `removeFirst`: one empty first node is unlinked, then the
assertion `count > 0`, then the item is read at `data[first]` of the first
node. -/
def removeFirst (lp : LIST α) : Reply (LIST α) (Option α) :=
  match lp.nodes with
  | [] => Reply.undefined
  | n :: rest =>
    let nodes1 := if n.count = 0 then rest else n :: rest
    if lp.count > 0 then
      match nodes1 with
      | [] => Reply.undefined
      | m :: rest1 =>
        match readAt m.data m.first with
        | none => Reply.undefined
        | some item =>
          if m.length = 0 then Reply.undefined
          else
            Reply.returned
              { lp with
                nodes := { m with first := Int.tmod (m.first + 1) m.length
                                  count := m.count - 1 } :: rest1
                count := lp.count - 1 }
              item
    else Reply.aborted { lp with nodes := nodes1 }

/-- The function `removeLast`: one empty last node is unlinked, then the
assertion `count > 0`, then the item is read at `data[first + count]` of the
last node. -/
def removeLast (lp : LIST α) : Reply (LIST α) (Option α) :=
  match lp.nodes.getLast? with
  | none => Reply.undefined
  | some n =>
    let nodes1 := if n.count = 0 then lp.nodes.dropLast else lp.nodes
    if lp.count > 0 then
      match nodes1.getLast? with
      | none => Reply.undefined
      | some m =>
        match readAt m.data (m.first + m.count) with
        | none => Reply.undefined
        | some item =>
          Reply.returned
            { lp with
              nodes := nodes1.dropLast ++ [{ m with count := m.count - 1 }]
              count := lp.count - 1 }
            item
    else Reply.aborted { lp with nodes := nodes1 }

/-- The `while` loop of `getItem` and the read behind it, with `curr` at the
head of the list of nodes. -/
def getItemWalk : List (NODE α) → Int → Result (Option α)
  | [], _ => Result.undefined
  | n :: rest, index =>
    if index > n.count then getItemWalk rest (index - n.count)
    else if n.length = 0 then Result.undefined
    else
      match readAt n.data (Int.tmod (n.first + index) n.length) with
      | some v => Result.value v
      | none => Result.undefined

/-- The function `getItem`; `none` when the assertion `index < count` fails. -/
def getItem (lp : LIST α) (index : Int) : Option (Result (Option α)) :=
  if index < lp.count then some (getItemWalk lp.nodes index) else none

/-! ### The abstract sequence held by the list, and sequences of calls -/

/-- The circular window of a node: the `count` slots from index `first`. -/
def window (n : NODE α) : List (Option α) :=
  (List.range n.count.toNat).map
    (fun k => (n.data.getD ((n.first.toNat + k) % n.length.toNat) none))

/-- The list viewed as one large array: the windows of the nodes in node
order. -/
def contents (lp : LIST α) : List (Option α) :=
  (lp.nodes.map window).flatten

/-- A call of one of the four functions that change the list. -/
inductive Op (α : Type) where
  | addFirst (x : α) : Op α
  | addLast (x : α) : Op α
  | removeFirst : Op α
  | removeLast : Op α
  deriving DecidableEq

/-- Run a sequence of calls on the list; the value is the list of the items
returned by the `removeFirst` and `removeLast` calls, in call order. -/
def run (lp : LIST α) (out : List (Option α)) : List (Op α) → Reply (LIST α) (List (Option α))
  | [] => Reply.returned lp out
  | Op.addFirst x :: ops =>
    match addFirst lp x with
    | Outcome.returned l1 => run l1 out ops
    | Outcome.aborted l1 => Reply.aborted l1
    | Outcome.undefined => Reply.undefined
  | Op.addLast x :: ops =>
    match addLast lp x with
    | Outcome.returned l1 => run l1 out ops
    | Outcome.aborted l1 => Reply.aborted l1
    | Outcome.undefined => Reply.undefined
  | Op.removeFirst :: ops =>
    match removeFirst lp with
    | Reply.returned l1 v => run l1 (out ++ [v]) ops
    | Reply.aborted l1 => Reply.aborted l1
    | Reply.undefined => Reply.undefined
  | Op.removeLast :: ops =>
    match removeLast lp with
    | Reply.returned l1 v => run l1 (out ++ [v]) ops
    | Reply.aborted l1 => Reply.aborted l1
    | Reply.undefined => Reply.undefined

/-- The deque that the list is meant to implement, following the
specification: `addFirst` prepends, `addLast` appends, `removeFirst` and
`removeLast` return and drop the front and the back item.  The value is the
final sequence and the items returned; `none` when an item is removed from
the empty sequence. -/
def dequeRun (xs : List α) (out : List α) : List (Op α) → Option (List α × List α)
  | [] => some (xs, out)
  | Op.addFirst x :: ops => dequeRun (x :: xs) out ops
  | Op.addLast x :: ops => dequeRun (xs ++ [x]) out ops
  | Op.removeFirst :: ops =>
    match xs with
    | [] => none
    | y :: rest => dequeRun rest (out ++ [y]) ops
  | Op.removeLast :: ops =>
    match xs.getLast? with
    | none => none
    | some y => dequeRun xs.dropLast (out ++ [y]) ops

end TermProject

/-! ## The priority queue of `Lab5 Code/pqueue.c`

The fields `count` and `length` are taken to stay within the range of `int`
(the block is doubled from 10 entries, so this bounds the number of entries by
`2 ^ 30`). -/

namespace Lab5

variable {α : Type}

/-- The macro `p(x)`: index of the parent, with the truncating division of C. -/
def p (x : Int) : Int := Int.tdiv (x - 1) 2

/-- The macro `l(x)`: index of the left child. -/
def l (x : Int) : Int := x * 2 + 1

/-- The macro `r(x)`: index of the right child. -/
def r (x : Int) : Int := x * 2 + 2

/-- Value of the macro `SIZE`. -/
abbrev SIZE : Nat := 10

/-- The record `struct pqueue`.  An element of `α` is a (non-null) `void *`
value; `data` holds whatever pointer value is in each slot of the block,
initialised or not. -/
structure PQ (α : Type) where
  count : Int
  length : Nat
  data : List α
  compare : α → α → Int

/-- The function `createQueue`; `data0` is the indeterminate content of the
freshly allocated block. -/
def createQueue (compare : α → α → Int) (data0 : Nat → α) : PQ α :=
  { count := 0
    length := SIZE
    data := (List.range SIZE).map data0
    compare := compare }

/-- The function `numEntries`. -/
def numEntries (pq : PQ α) : Int := pq.count

/-- The `while` loop of `addEntry` (heap-up), with a bound `fuel` on the
number of loop tests: `none` when the bound is reached, `Result.undefined`
when an index leaves the block.  The value is the final `i` and the block. -/
def heapUp (compare : α → α → Int) (entry : α) :
    Nat → Int → List α → Option (Result (Int × List α))
  | 0, _, _ => none
  | fuel + 1, i, data =>
    if i > 0 then
      match readAt data (p i) with
      | some parent =>
        if compare parent entry > 0 then
          match writeAt data i parent with
          | some d => heapUp compare entry fuel (p i) d
          | none => some Result.undefined
        else some (Result.value (i, data))
      | none => some Result.undefined
    else some (Result.value (i, data))

/-- The block after `realloc` to `length * 2` pointers: the old contents,
followed by indeterminate pointers `fresh`. -/
def grow (pq : PQ α) (fresh : Nat → α) : PQ α :=
  { pq with
    length := pq.length * 2
    data := (List.range (pq.length * 2)).map (fun k => (pq.data[k]?).getD (fresh k)) }

/-- The function `addEntry`; `fresh` is the indeterminate content of the new
half of the block when the block is doubled.  The loop is run with the bound
`count + 1`, which it never reaches. -/
def addEntry (pq : PQ α) (entry : α) (fresh : Nat → α) : Outcome (PQ α) :=
  let pq1 := if pq.count = (pq.length : Int) then grow pq fresh else pq
  match heapUp pq1.compare entry (pq1.count.toNat + 1) pq1.count pq1.data with
  | some (Result.value (i, d)) =>
    match writeAt d i entry with
    | some d1 => Outcome.returned { pq1 with data := d1, count := pq1.count + 1 }
    | none => Outcome.undefined
  | _ => Outcome.undefined

/-- The choice of `smallerLoc` in `removeEntry`; `none` when an index leaves
the block. -/
def smallerLoc (compare : α → α → Int) (count : Int) (i : Int) (data : List α) : Option Int :=
  if r i < count then
    match readAt data (l i), readAt data (r i) with
    | some a, some b => if compare a b < 0 then some (l i) else some (r i)
    | _, _ => none
  else some (l i)

/-- The `while` loop of `removeEntry` (heap-down) for the decremented `count`,
with a bound `fuel` on the number of loop tests: `none` when the bound is
reached, `Result.undefined` when an index leaves the block.  The value is the
final `i` and the block. -/
def heapDown (compare : α → α → Int) (count : Int) :
    Nat → Int → List α → Option (Result (Int × List α))
  | 0, _, _ => none
  | fuel + 1, i, data =>
    if l i < count then
      match smallerLoc compare count i data with
      | some s =>
        match readAt data s, readAt data count with
        | some c, some last =>
          if compare c last < 0 then
            match writeAt data i c with
            | some d => heapDown compare count fuel s d
            | none => some Result.undefined
          else some (Result.value (i, data))
        | _, _ => some Result.undefined
      | none => some Result.undefined
    else some (Result.value (i, data))

/-- The function `removeEntry`.  The loop is run with the bound `count + 1`,
which it never reaches. -/
def removeEntry (pq : PQ α) : Reply (PQ α) α :=
  if pq.count > 0 then
    match readAt pq.data 0, readAt pq.data (pq.count - 1) with
    | some min, some last =>
      match writeAt pq.data 0 last with
      | some d0 =>
        match heapDown pq.compare (pq.count - 1) pq.count.toNat 0 d0 with
        | some (Result.value (i, d)) =>
          match readAt d (pq.count - 1) with
          | some last1 =>
            match writeAt d i last1 with
            | some d1 => Reply.returned { pq with count := pq.count - 1, data := d1 } min
            | none => Reply.undefined
          | none => Reply.undefined
        | _ => Reply.undefined
      | none => Reply.undefined
    | _, _ => Reply.undefined
  else Reply.aborted pq

/-! ### Predicates used to state the properties of the priority queue -/

/-- The first `m` entries of the block `d` form a min heap: no entry is
smaller than its parent. -/
def HeapN (compare : α → α → Int) (d : List α) (m : Nat) : Prop :=
  ∀ (k : Nat) (a b : α), 1 ≤ k → k < m → d[(k - 1) / 2]? = some a → d[k]? = some b →
    compare a b ≤ 0

/-- Shape of a queue: `0 ≤ count ≤ length`, a block of `length > 0` entries. -/
structure WF (pq : PQ α) : Prop where
  pos : 0 < pq.length
  dlen : pq.data.length = pq.length
  cnt : 0 ≤ pq.count
  cap : pq.count ≤ (pq.length : Int)

/-- The entries of the queue: `data[0..count)`. -/
def entries (pq : PQ α) : List α := pq.data.take pq.count.toNat

/-- Queue states reachable from `createQueue` by calls of `addEntry` and
`removeEntry` that return. -/
inductive Reachable : PQ α → Prop
  | create (compare : α → α → Int) (data0 : Nat → α) : Reachable (createQueue compare data0)
  | add (pq pq' : PQ α) (entry : α) (fresh : Nat → α) (h : Reachable pq)
      (hadd : addEntry pq entry fresh = Outcome.returned pq') : Reachable pq'
  | remove (pq pq' : PQ α) (m : α) (h : Reachable pq)
      (hrem : removeEntry pq = Reply.returned pq' m) : Reachable pq'

/-- Run a sequence of `addEntry` calls as long as each of them returns. -/
def addAll (pq : PQ α) (fresh : Nat → α) : List α → Outcome (PQ α)
  | [] => Outcome.returned pq
  | e :: rest =>
    match addEntry pq e fresh with
    | Outcome.returned q => addAll q fresh rest
    | o => o

end Lab5

namespace Lab5

/-- Example: the queue after `createQueue` and `addEntry` of 5, 3 and 8. -/
def pq3 : PQ Nat :=
  { count := 3
    length := 10
    data := [3, 5, 8, 0, 0, 0, 0, 0, 0, 0]
    compare := Lab6.natCompare }

end Lab5

/-! ## The lifetime of a Lab 6 table -/

namespace Lab6

variable {α : Type}

/-- The table `sp'` is reached from the table `sp` by calls of `addElement`
and `removeElement` that return. -/
inductive Evolves (sp : SET α) : SET α → Prop
  | refl : Evolves sp sp
  | add (s1 s2 : SET α) (elt : α) (h : Evolves sp s1)
      (hadd : addElement s1 elt = Outcome.returned s2) : Evolves sp s2
  | remove (s1 s2 : SET α) (elt : α) (h : Evolves sp s1)
      (hrem : removeElement s1 elt = Outcome.returned s2) : Evolves sp s2

/-- The number of `EMPTY` slots of the table. -/
def emptySlots (sp : SET α) : Nat := sp.flags.count EMPTY

end Lab6

/-! ## The generic table of `Lab3 Code/generic/table.c`

Its record `struct set` has the fields of the record of `Lab 6 Code/table.c`
(`data`, `length`, `count`, `flags`, `compare`, `hash`), so the functions are
embedded over the same type `Lab6.SET`. -/

namespace Lab3G

open Lab6 (SET flagAt)

variable {α : Type}

/-- The `for` loop of `search`, with `n` iterations left, loop counter `i` and
the current values of `deleteFound` and `deleteIndex`.  The third test,
`flags[location] == FILLED && compare(data[location], elt) == 0`, reads `data`
only in a `FILLED` slot. -/
def searchLoop (sp : SET α) (elt : α) (start : Nat) : Nat → Nat → Bool → Int → Int × Bool
  | 0, _, _, deleteIndex => (deleteIndex, false)
  | n + 1, i, deleteFound, deleteIndex =>
    let location := (start + i) % sp.length
    if flagAt sp location = EMPTY then
      (if deleteFound = true then deleteIndex else (location : Int), false)
    else if flagAt sp location = DELETED ∧ deleteFound = false then
      searchLoop sp elt start n (i + 1) true (location : Int)
    else if flagAt sp location = FILLED then
      match sp.data[location]? with
      | some x =>
        if sp.compare x elt = 0 then ((location : Int), true)
        else searchLoop sp elt start n (i + 1) deleteFound deleteIndex
      | none => searchLoop sp elt start n (i + 1) deleteFound deleteIndex
    else searchLoop sp elt start n (i + 1) deleteFound deleteIndex

/-- The function `search`: the returned pair is the location and `*found`.
The model is that of a table with `length > 0` and is used for such tables
only: with `length == 0` the C code divides by zero in `hash(elt) % length`. -/
def search (sp : SET α) (elt : α) : Int × Bool :=
  searchLoop sp elt (sp.hash elt % sp.length) sp.length 0 false (-1)

/-- The function `addElement`: the capacity assertion comes before the
search. -/
def addElement (sp : SET α) (elt : α) : Outcome (SET α) :=
  if sp.count < (sp.length : Int) then
    match search sp elt with
    | (location, found) =>
      if found = true then Outcome.returned sp
      else
        match writeAt sp.data location elt, writeAt sp.flags location FILLED with
        | some d, some f =>
          Outcome.returned { sp with data := d, flags := f, count := sp.count + 1 }
        | _, _ => Outcome.undefined
  else Outcome.aborted sp

end Lab3G

/-! ## The array indices used by the shift loop of `sorted.c` -/

namespace Lab2S

/-- The indices used by the loop
`for (i = count; i >= elementIndex; i--) data[i] = data[i-1]` of `addElement`,
with `n` iterations left: each iteration writes index `i` and reads index
`i - 1`.  The value is the list of pairs (index written, index read), in
order. -/
def shiftUpIndices : Nat → Int → List (Int × Int)
  | 0, _ => []
  | n + 1, i => (i, i - 1) :: shiftUpIndices n (i - 1)

end Lab2S

/-! ## A full priority queue -/

namespace Lab5

/-- Example: the queue after `createQueue` and `addEntry` of 1, 2, ..., 10;
its block of 10 pointers is full. -/
def pq10 : PQ Nat :=
  { count := 10
    length := 10
    data := [1, 2, 3, 4, 5, 6, 7, 8, 9, 10]
    compare := Lab6.natCompare }

end Lab5

/-! ## Reading and storing at an `int` index -/

theorem writeAt_some {β : Type} (a : List β) (i : Int) (v : β) (r : List β)
    (h : writeAt a i v = some r) :
    ∃ l : Nat, i = (l : Int) ∧ l < a.length ∧ r = a.set l v := by
  unfold writeAt at h
  split at h
  · rename_i hb
    refine ⟨i.toNat, by omega, by omega, ?_⟩
    simpa using h.symm
  · cases h

theorem writeAt_nat {β : Type} (a : List β) (l : Nat) (v : β) (h : l < a.length) :
    writeAt a (l : Int) v = some (a.set l v) := by
  unfold writeAt
  rw [if_pos ⟨by omega, by omega⟩]
  simp

theorem readAt_nat {β : Type} (a : List β) (l : Nat) : readAt a (l : Int) = a[l]? := by
  unfold readAt
  rw [if_pos (by omega)]
  simp

theorem getD_set_eq (l : List Nat) (i j v d : Nat) (hi : i < l.length) :
    (l.set i v).getD j d = if j = i then v else l.getD j d := by
  simp only [List.getD_eq_getElem?_getD, List.getElem?_set]
  by_cases h : i = j
  · subst h; simp [hi]
  · have h' : ¬ j = i := fun e => h e.symm
    simp [h, h']

theorem getD_getElem (l : List Nat) (i d : Nat) (hi : i < l.length) : l.getD i d = l[i] := by
  rw [List.getD_eq_getElem?_getD, List.getElem?_eq_getElem hi]
  rfl

/-! ## The loop that clears the flags -/

theorem clearFlags_length : ∀ (n i : Nat) (fl : List Nat), (clearFlags n i fl).length = fl.length := by
  intro n
  induction n with
  | zero => intro i fl; rfl
  | succ n ih => intro i fl; simp [clearFlags, ih]

theorem clearFlags_getD : ∀ (n i : Nat) (fl : List Nat) (j : Nat),
    (clearFlags n i fl).getD j EMPTY =
      if i ≤ j ∧ j < i + n then EMPTY else fl.getD j EMPTY := by
  intro n
  induction n with
  | zero =>
    intro i fl j
    simp only [clearFlags]
    rw [if_neg (by omega)]
  | succ n ih =>
    intro i fl j
    simp only [clearFlags]
    rw [ih]
    by_cases hj : i + 1 ≤ j ∧ j < i + 1 + n
    · rw [if_pos hj, if_pos (by omega)]
    · rw [if_neg hj]
      by_cases hji : j = i
      · subst hji
        rw [if_pos (by omega)]
        simp only [List.getD_eq_getElem?_getD, List.getElem?_set]
        by_cases hl : j < fl.length
        · simp [hl]
        · simp [hl]
      · rw [if_neg (by omega)]
        simp only [List.getD_eq_getElem?_getD, List.getElem?_set]
        rw [if_neg (fun e => hji e.symm)]

theorem count_eq_zero_of_flagAt (fl : List Nat) (h : ∀ i, fl.getD i EMPTY = EMPTY) :
    fl.count FILLED = 0 := by
  rw [List.count_eq_zero]
  intro hm
  obtain ⟨i, hi, he⟩ := List.getElem_of_mem hm
  have := h i
  rw [List.getD_eq_getElem?_getD, List.getElem?_eq_getElem hi] at this
  have h0 : fl[i] = 0 := this
  rw [he] at h0
  exact absurd h0 (by decide)


namespace Lab6
variable {α : Type}

/-! ### The probing loop of `search` -/

/-- When the loop reports a match, it is at a probe step `k` whose slot is
neither `EMPTY` nor `DELETED` and holds an element equal to `elt`, and no slot
visited before it is `EMPTY`. -/
theorem searchLoop_found (sp : SET α) (elt : α) (start : Nat) :
    ∀ (n i : Nat) (av l : Int), searchLoop sp elt start n i av = (l, true) →
      ∃ k, i ≤ k ∧ k < i + n ∧ l = (((start + k) % sp.length : Nat) : Int) ∧
        flagAt sp ((start + k) % sp.length) ≠ EMPTY ∧
        flagAt sp ((start + k) % sp.length) ≠ DELETED ∧
        (∃ x, sp.data[(start + k) % sp.length]? = some x ∧ sp.compare x elt = 0) ∧
        ∀ k', i ≤ k' → k' < k → flagAt sp ((start + k') % sp.length) ≠ EMPTY := by
  intro n
  induction n with
  | zero => intro i av l h; simp [searchLoop] at h
  | succ n ih =>
    intro i av l h
    have step : ∀ av', searchLoop sp elt start n (i + 1) av' = (l, true) →
        flagAt sp ((start + i) % sp.length) ≠ EMPTY →
        ∃ k, i ≤ k ∧ k < i + (n + 1) ∧ l = (((start + k) % sp.length : Nat) : Int) ∧
        flagAt sp ((start + k) % sp.length) ≠ EMPTY ∧
        flagAt sp ((start + k) % sp.length) ≠ DELETED ∧
        (∃ x, sp.data[(start + k) % sp.length]? = some x ∧ sp.compare x elt = 0) ∧
        ∀ k', i ≤ k' → k' < k → flagAt sp ((start + k') % sp.length) ≠ EMPTY := by
      intro av' h' hne
      obtain ⟨k, hk1, hk2, hl, he, hd, hx, hall⟩ := ih (i + 1) av' l h'
      refine ⟨k, by omega, by omega, hl, he, hd, hx, ?_⟩
      intro k' h1 h2
      by_cases hk' : k' = i
      · subst hk'; exact hne
      · exact hall k' (by omega) h2
    simp only [searchLoop] at h
    split at h
    · simp at h
    · rename_i hE
      split at h
      · exact step _ h hE
      · rename_i hD
        split at h
        · rename_i x hx
          split at h
          · rename_i hc
            simp only [Prod.mk.injEq, and_true] at h
            exact ⟨i, le_refl _, by omega, h.symm, hE, hD, ⟨x, hx, hc⟩, fun k' h1 h2 => by omega⟩
          · exact step _ h hE
        · exact step _ h hE

/-- When the loop reports no match, no slot visited before the first `EMPTY`
slot holds an element equal to `elt`. -/
theorem searchLoop_not_found (sp : SET α) (elt : α) (start : Nat) :
    ∀ (n i : Nat) (av l : Int), searchLoop sp elt start n i av = (l, false) →
      ∀ k, i ≤ k → k < i + n →
        (∀ k', i ≤ k' → k' ≤ k → flagAt sp ((start + k') % sp.length) ≠ EMPTY) →
        flagAt sp ((start + k) % sp.length) ≠ DELETED →
        ∀ x, sp.data[(start + k) % sp.length]? = some x → sp.compare x elt ≠ 0 := by
  intro n
  induction n with
  | zero => intro i av l _ k h1 h2; omega
  | succ n ih =>
    intro i av l h k hk1 hk2 hall hd x hx
    have step : ∀ av', searchLoop sp elt start n (i + 1) av' = (l, false) → k ≠ i →
        sp.compare x elt ≠ 0 := by
      intro av' h' hki
      exact ih (i + 1) av' l h' k (by omega) (by omega)
        (fun k' h1 h2 => hall k' (by omega) h2) hd x hx
    simp only [searchLoop] at h
    split at h
    · rename_i hE
      exact absurd hE (hall i (le_refl _) hk1)
    · split at h
      · rename_i hD
        exact step _ h (fun e => hd (e ▸ hD))
      · split at h
        · rename_i y hy
          split at h
          · simp at h
          · rename_i hc
            by_cases hki : k = i
            · subst hki
              rw [hy] at hx
              cases hx
              exact hc
            · exact step _ h hki
        · rename_i hnone
          by_cases hki : k = i
          · subst hki
            rw [hnone] at hx
            cases hx
          · exact step _ h hki

/-- The location returned without a match is the incoming `available`, or,
when that was `-1`, a visited slot that is `EMPTY` or `DELETED` and is not
preceded by an `EMPTY` slot. -/
theorem searchLoop_locn (sp : SET α) (elt : α) (start : Nat) :
    ∀ (n i : Nat) (av l : Int), searchLoop sp elt start n i av = (l, false) →
      l = av ∨ (av = -1 ∧ ∃ k, i ≤ k ∧ k < i + n ∧
        l = (((start + k) % sp.length : Nat) : Int) ∧
        (flagAt sp ((start + k) % sp.length) = EMPTY ∨
          flagAt sp ((start + k) % sp.length) = DELETED) ∧
        ∀ k', i ≤ k' → k' < k → flagAt sp ((start + k') % sp.length) ≠ EMPTY) := by
  intro n
  induction n with
  | zero => intro i av l h; simp [searchLoop] at h; exact Or.inl h.symm
  | succ n ih =>
    intro i av l h
    have step : searchLoop sp elt start n (i + 1) av = (l, false) →
        flagAt sp ((start + i) % sp.length) ≠ EMPTY →
        l = av ∨ (av = -1 ∧ ∃ k, i ≤ k ∧ k < i + (n + 1) ∧
        l = (((start + k) % sp.length : Nat) : Int) ∧
        (flagAt sp ((start + k) % sp.length) = EMPTY ∨
          flagAt sp ((start + k) % sp.length) = DELETED) ∧
        ∀ k', i ≤ k' → k' < k → flagAt sp ((start + k') % sp.length) ≠ EMPTY) := by
      intro h' hne
      rcases ih (i + 1) av l h' with h1 | ⟨h1, k, hk1, hk2, hl, hf, hall⟩
      · exact Or.inl h1
      · refine Or.inr ⟨h1, k, by omega, by omega, hl, hf, ?_⟩
        intro k' h3 h4
        by_cases hk' : k' = i
        · subst hk'; exact hne
        · exact hall k' (by omega) h4
    simp only [searchLoop] at h
    split at h
    · rename_i hE
      simp only [Prod.mk.injEq, and_true] at h
      by_cases hav : av = -1
      · rw [if_neg (by simpa using hav)] at h
        exact Or.inr ⟨hav, i, le_refl _, by omega, h.symm, Or.inl hE, fun k' h1 h2 => by omega⟩
      · rw [if_pos hav] at h
        exact Or.inl h.symm
    · rename_i hE
      split at h
      · rename_i hD
        by_cases hav : av = -1
        · rw [if_pos hav] at h
          rcases ih (i + 1) _ l h with h1 | ⟨h1, _⟩
          · exact Or.inr ⟨hav, i, le_refl _, by omega, h1, Or.inr hD, fun k' h1 h2 => by omega⟩
          · omega
        · rw [if_neg hav] at h
          exact step h hE
      · split at h
        · split at h
          · simp at h
          · exact step h hE
        · exact step h hE

/-- The loop returns `-1` without a match only when every visited slot is
neither `EMPTY` nor `DELETED`. -/
theorem searchLoop_neg_one (sp : SET α) (elt : α) (start : Nat) :
    ∀ (n i : Nat) (av : Int), searchLoop sp elt start n i av = (-1, false) →
      ∀ k, i ≤ k → k < i + n →
        flagAt sp ((start + k) % sp.length) ≠ EMPTY ∧
        flagAt sp ((start + k) % sp.length) ≠ DELETED := by
  intro n
  induction n with
  | zero => intro i av _ k h1 h2; omega
  | succ n ih =>
    intro i av h k hk1 hk2
    simp only [searchLoop] at h
    split at h
    · simp only [Prod.mk.injEq, and_true] at h
      by_cases hav : av = -1
      · rw [if_neg (by simpa using hav)] at h
        omega
      · rw [if_pos hav] at h
        omega
    · rename_i hE
      split at h
      · exfalso
        rcases searchLoop_locn sp elt start n (i + 1) _ _ h with h1 | ⟨h1, _⟩
        · by_cases hav : av = -1
          · rw [if_pos hav] at h1; omega
          · rw [if_neg hav] at h1; exact hav h1.symm
        · by_cases hav : av = -1
          · rw [if_pos hav] at h1; omega
          · rw [if_neg hav] at h1; exact hav h1
      · rename_i hD
        have step : searchLoop sp elt start n (i + 1) av = (-1, false) →
            flagAt sp ((start + k) % sp.length) ≠ EMPTY ∧
            flagAt sp ((start + k) % sp.length) ≠ DELETED := by
          intro h'
          by_cases hki : k = i
          · subst hki; exact ⟨hE, hD⟩
          · exact ih (i + 1) av h' k (by omega) (by omega)
        split at h
        · split at h
          · simp at h
          · exact step h
        · exact step h

end Lab6

namespace Lab6
variable {α : Type}

/-! ### Reading the arrays after a store -/

/-- Every slot is visited by the probe walk of any element. -/
theorem probe_surj (sp : SET α) (elt : α) (i : Nat) (hi : i < sp.length) :
    ∃ k, k < sp.length ∧ probe sp elt k = i := by
  have hpos : 0 < sp.length := by omega
  have hs : sp.hash elt % sp.length < sp.length := Nat.mod_lt _ hpos
  refine ⟨(i + sp.length - sp.hash elt % sp.length) % sp.length, Nat.mod_lt _ hpos, ?_⟩
  unfold probe
  rw [Nat.add_mod_mod]
  have : sp.hash elt % sp.length + (i + sp.length - sp.hash elt % sp.length) = i + sp.length := by
    omega
  rw [this, Nat.add_mod_right, Nat.mod_eq_of_lt hi]

/-! ### The function `search` -/

/-- A match reported by `search` is a `FILLED` slot inside the table that
stores an element equal to `elt`. -/
theorem search_found (sp : SET α) (elt : α) (l : Int) (hwf : WF sp)
    (h : search sp elt = (l, true)) :
    ∃ (i : Nat) (x : α), l = (i : Int) ∧ i < sp.length ∧ Holds sp i x ∧ sp.compare x elt = 0 := by
  obtain ⟨k, _, _, hl, hE, hD, ⟨x, hx, hc⟩, _⟩ := searchLoop_found sp elt _ _ _ _ _ h
  refine ⟨_, x, hl, Nat.mod_lt _ hwf.pos, ⟨?_, hx⟩, hc⟩
  rcases hwf.fval ((sp.hash elt % sp.length + k) % sp.length) with h1 | h1 | h1
  · exact absurd h1 hE
  · exact h1
  · exact absurd h1 hD

/-- In a table with the probe-sequence invariant `search` finds every stored
element that is equal to `elt` and has the same hash value. -/
theorem search_complete (sp : SET α) (elt : α) (hp : ProbeInv sp)
    (i : Nat) (x : α) (hx : Holds sp i x) (hc : sp.compare x elt = 0)
    (hh : sp.hash x = sp.hash elt) : (search sp elt).2 = true := by
  obtain ⟨k, hk, hki, hall⟩ := hp i x hx
  cases hs : search sp elt with
  | mk l found =>
    cases found with
    | true => rfl
    | false =>
      exfalso
      unfold probe at hki hall
      rw [hh] at hki hall
      refine searchLoop_not_found sp elt _ _ _ _ _ hs k (Nat.zero_le _) (by omega) ?_ ?_ x ?_ hc
      · intro k' _ h2
        rcases Nat.lt_or_eq_of_le h2 with h3 | h3
        · exact hall k' h3
        · rw [h3, hki, hx.1]; decide
      · rw [hki, hx.1]; decide
      · rw [hki]; exact hx.2

/-- The location returned without a match, when it is not `-1`, is a slot on
the probe walk of `elt` that is `EMPTY` or `DELETED` and is reached before any
`EMPTY` slot. -/
theorem search_free (sp : SET α) (elt : α) (l : Nat)
    (h : search sp elt = ((l : Int), false)) :
    ∃ k, k < sp.length ∧ probe sp elt k = l ∧
      (flagAt sp l = EMPTY ∨ flagAt sp l = DELETED) ∧
      ∀ k', k' < k → flagAt sp (probe sp elt k') ≠ EMPTY := by
  rcases searchLoop_locn sp elt _ _ _ _ _ h with h1 | ⟨_, k, _, hk, hl, hf, hall⟩
  · omega
  · have hl' : l = (sp.hash elt % sp.length + k) % sp.length := by exact_mod_cast hl
    refine ⟨k, by omega, hl'.symm, ?_, fun k' hk' => hall k' (Nat.zero_le _) hk'⟩
    rw [hl']; exact hf

/-- When some slot is not `FILLED`, the location returned without a match is
an index of the table. -/
theorem search_in_bounds (sp : SET α) (elt : α) (l : Int) (hwf : WF sp)
    (hfree : ∃ i, i < sp.length ∧ flagAt sp i ≠ FILLED)
    (h : search sp elt = (l, false)) : ∃ i : Nat, l = (i : Int) ∧ i < sp.length := by
  rcases searchLoop_locn sp elt _ _ _ _ _ h with h1 | ⟨_, k, _, hk, hl, _, _⟩
  · exfalso
    subst h1
    obtain ⟨i, hi, hne⟩ := hfree
    obtain ⟨k, hk, hki⟩ := probe_surj sp elt i hi
    have := searchLoop_neg_one sp elt _ _ _ _ h k (Nat.zero_le _) (by omega)
    unfold probe at hki
    rw [hki] at this
    rcases hwf.fval i with h1 | h1 | h1
    · exact this.1 h1
    · exact hne h1
    · exact this.2 h1
  · exact ⟨_, hl, Nat.mod_lt _ hwf.pos⟩

end Lab6

namespace Lab6
variable {α : Type}

/-! ### What `addElement` and `removeElement` do when they return -/

/-- A call of `addElement` that returns either found an equal element and
left the set as it was, or stored `elt` in the slot given by `search`. -/
theorem addElement_returned (sp sp' : SET α) (elt : α)
    (h : addElement sp elt = Outcome.returned sp') :
    ((search sp elt).2 = true ∧ sp' = sp) ∨
    (∃ l : Nat, search sp elt = ((l : Int), false) ∧ sp.count < (sp.length : Int) ∧
      l < sp.data.length ∧ l < sp.flags.length ∧
      sp' = { sp with data := sp.data.set l elt, flags := sp.flags.set l FILLED,
                      count := sp.count + 1 }) := by
  unfold addElement at h
  cases hs : search sp elt with
  | mk locn found =>
    rw [hs] at h
    cases found with
    | true =>
      left
      simp only [Bool.true_eq_false, if_false, Outcome.returned.injEq] at h
      exact ⟨rfl, h.symm⟩
    | false =>
      right
      simp only [if_true] at h
      split at h
      · rename_i hc
        split at h
        · rename_i d f hd hf
          obtain ⟨l, hl, hlt, hd'⟩ := writeAt_some _ _ _ _ hd
          obtain ⟨l', hl', hlt', hf'⟩ := writeAt_some _ _ _ _ hf
          have : l' = l := by omega
          subst this
          subst hl
          refine ⟨l', rfl, hc, hlt, hlt', ?_⟩
          simp only [Outcome.returned.injEq] at h
          rw [← h, hd', hf']
        · cases h
      · cases h

/-- A call of `removeElement` that returns either found no equal element and
left the set as it was, or marked the slot given by `search` as `DELETED`. -/
theorem removeElement_returned (sp sp' : SET α) (elt : α)
    (h : removeElement sp elt = Outcome.returned sp') :
    ((search sp elt).2 = false ∧ sp' = sp) ∨
    (∃ l : Nat, search sp elt = ((l : Int), true) ∧ l < sp.flags.length ∧
      sp' = { sp with flags := sp.flags.set l DELETED, count := sp.count - 1 }) := by
  unfold removeElement at h
  cases hs : search sp elt with
  | mk locn found =>
    rw [hs] at h
    cases found with
    | false =>
      left
      simp only [Bool.false_eq_true, if_false, Outcome.returned.injEq] at h
      exact ⟨rfl, h.symm⟩
    | true =>
      right
      simp only [if_true] at h
      split at h
      · rename_i f hf
        obtain ⟨l, hl, hlt, hf'⟩ := writeAt_some _ _ _ _ hf
        subst hl
        refine ⟨l, rfl, hlt, ?_⟩
        simp only [Outcome.returned.injEq] at h
        rw [← h, hf']
      · cases h

/-! ### Shape and cardinality -/

/-- Every slot of a new table is `EMPTY`. -/
theorem createSet_flagAt (n : Nat) (cmp : α → α → Int) (hash : α → Nat)
    (d0 : Nat → α) (f0 : Nat → Nat) (i : Nat) :
    flagAt (createSet n cmp hash d0 f0) i = EMPTY := by
  unfold flagAt createSet
  simp only
  rw [clearFlags_getD]
  by_cases h : 0 ≤ i ∧ i < 0 + n
  · rw [if_pos h]
  · rw [if_neg h]
    rw [List.getD_eq_getElem?_getD, List.getElem?_eq_none]
    · rfl
    · simp; omega

theorem createSet_wf (n : Nat) (cmp : α → α → Int) (hash : α → Nat)
    (d0 : Nat → α) (f0 : Nat → Nat) (hpos : 0 < n) : WF (createSet n cmp hash d0 f0) := by
  refine ⟨hpos, ?_, ?_, fun i => Or.inl (createSet_flagAt n cmp hash d0 f0 i)⟩
  · simp [createSet, clearFlags_length]
  · simp [createSet]

theorem createSet_countInv (n : Nat) (cmp : α → α → Int) (hash : α → Nat)
    (d0 : Nat → α) (f0 : Nat → Nat) : CountInv (createSet n cmp hash d0 f0) := by
  unfold CountInv
  rw [count_eq_zero_of_flagAt _ (fun i => createSet_flagAt n cmp hash d0 f0 i)]
  rfl

theorem flagAt_set (sp : SET α) (d : List α) (c : Int) (l v j : Nat) (hl : l < sp.flags.length) :
    flagAt { sp with data := d, flags := sp.flags.set l v, count := c } j =
      if j = l then v else flagAt sp j := by
  unfold flagAt
  exact getD_set_eq _ _ _ _ _ hl

theorem flagAt_getElem (sp : SET α) (l : Nat) (hl : l < sp.flags.length) :
    flagAt sp l = sp.flags[l] := by
  unfold flagAt
  rw [List.getD_eq_getElem?_getD, List.getElem?_eq_getElem hl]
  rfl

theorem wf_set (sp : SET α) (hwf : WF sp) (d : List α) (c : Int) (l v : Nat)
    (hl : l < sp.flags.length) (hd : d.length = sp.data.length)
    (hv : v = EMPTY ∨ v = FILLED ∨ v = DELETED) :
    WF { sp with data := d, flags := sp.flags.set l v, count := c } := by
  refine ⟨hwf.pos, ?_, ?_, ?_⟩
  · simpa using hwf.flen
  · simpa [hd] using hwf.dlen
  · intro i
    rw [flagAt_set sp d c l v i hl]
    by_cases h : i = l
    · rw [if_pos h]; exact hv
    · rw [if_neg h]; exact hwf.fval i

theorem addElement_wf (sp sp' : SET α) (elt : α) (hwf : WF sp)
    (h : addElement sp elt = Outcome.returned sp') : WF sp' := by
  rcases addElement_returned sp sp' elt h with ⟨_, h1⟩ | ⟨l, _, _, hld, hlf, h1⟩
  · rw [h1]; exact hwf
  · rw [h1]
    exact wf_set sp hwf _ _ l FILLED hlf (by simp) (Or.inr (Or.inl rfl))

theorem removeElement_wf (sp sp' : SET α) (elt : α) (hwf : WF sp)
    (h : removeElement sp elt = Outcome.returned sp') : WF sp' := by
  rcases removeElement_returned sp sp' elt h with ⟨_, h1⟩ | ⟨l, _, hlf, h1⟩
  · rw [h1]; exact hwf
  · rw [h1]
    exact wf_set sp hwf sp.data _ l DELETED hlf rfl (Or.inr (Or.inr rfl))

theorem addElement_countInv (sp sp' : SET α) (elt : α) (hc : CountInv sp)
    (h : addElement sp elt = Outcome.returned sp') : CountInv sp' := by
  rcases addElement_returned sp sp' elt h with ⟨_, h1⟩ | ⟨l, hs, _, hld, hlf, h1⟩
  · rw [h1]; exact hc
  · obtain ⟨k, _, _, hf, _⟩ := search_free sp elt l hs
    rw [flagAt_getElem sp l hlf] at hf
    rw [h1]
    unfold CountInv at hc ⊢
    simp only
    rw [List.count_set _ _ _ _ hlf, hc]
    have : (sp.flags[l] == FILLED) = false := by
      rcases hf with hf | hf <;> rw [hf] <;> decide
    simp [this]

theorem removeElement_countInv (sp sp' : SET α) (elt : α) (hwf : WF sp) (hc : CountInv sp)
    (h : removeElement sp elt = Outcome.returned sp') : CountInv sp' := by
  rcases removeElement_returned sp sp' elt h with ⟨_, h1⟩ | ⟨l, hs, hlf, h1⟩
  · rw [h1]; exact hc
  · obtain ⟨i, x, hl, _, hx, _⟩ := search_found sp elt _ hwf hs
    have hil : i = l := by omega
    subst hil
    have hf := hx.1
    rw [flagAt_getElem sp i hlf] at hf
    rw [h1]
    unfold CountInv at hc ⊢
    simp only
    rw [List.count_set _ _ _ _ hlf, hc]
    have hpos : 0 < sp.flags.count FILLED := by
      rw [List.count_pos_iff]
      rw [← hf]
      exact List.getElem_mem hlf
    simp [hf]
    omega

/-- Shape and cardinality hold in every reachable state. -/
theorem reachable_wf_count (sp : SET α) (h : Reachable sp) : WF sp ∧ CountInv sp := by
  induction h with
  | create n cmp hash d0 f0 hpos =>
    exact ⟨createSet_wf n cmp hash d0 f0 hpos, createSet_countInv n cmp hash d0 f0⟩
  | add sp sp' elt _ hadd ih =>
    exact ⟨addElement_wf sp sp' elt ih.1 hadd, addElement_countInv sp sp' elt ih.2 hadd⟩
  | remove sp sp' elt _ hrem ih =>
    exact ⟨removeElement_wf sp sp' elt ih.1 hrem,
      removeElement_countInv sp sp' elt ih.1 ih.2 hrem⟩

end Lab6

namespace Lab6
variable {α : Type}

/-! ### Probe-sequence invariant and absence of duplicates -/

theorem holds_add (sp : SET α) (c : Int) (l : Nat) (elt : α) (i : Nat) (x : α)
    (hlf : l < sp.flags.length) (hld : l < sp.data.length) :
    Holds { sp with data := sp.data.set l elt, flags := sp.flags.set l FILLED, count := c } i x ↔
      (i = l ∧ x = elt) ∨ (i ≠ l ∧ Holds sp i x) := by
  unfold Holds
  rw [flagAt_set sp _ c l FILLED i hlf]
  simp only [List.getElem?_set]
  by_cases h : i = l
  · subst h
    simp [hld, eq_comm]
  · have h' : ¬ l = i := fun e => h e.symm
    simp [h, h']

theorem holds_remove (sp : SET α) (c : Int) (l : Nat) (i : Nat) (x : α)
    (hlf : l < sp.flags.length) :
    Holds { sp with flags := sp.flags.set l DELETED, count := c } i x ↔
      (i ≠ l ∧ Holds sp i x) := by
  unfold Holds
  rw [flagAt_set sp sp.data c l DELETED i hlf]
  by_cases h : i = l
  · subst h
    simp
  · simp [h]

theorem createSet_not_holds (n : Nat) (cmp : α → α → Int) (hash : α → Nat)
    (d0 : Nat → α) (f0 : Nat → Nat) (i : Nat) (x : α) :
    ¬ Holds (createSet n cmp hash d0 f0) i x := by
  intro h
  have := h.1
  rw [createSet_flagAt] at this
  exact absurd this (by decide)

theorem addElement_probeInv (sp sp' : SET α) (elt : α) (hp : ProbeInv sp)
    (h : addElement sp elt = Outcome.returned sp') : ProbeInv sp' := by
  rcases addElement_returned sp sp' elt h with ⟨_, h1⟩ | ⟨l, hs, _, hld, hlf, h1⟩
  · rw [h1]; exact hp
  · obtain ⟨k, hk, hkl, _, hall⟩ := search_free sp elt l hs
    subst h1
    intro i x hx
    have keep : ∀ j, flagAt sp j ≠ EMPTY →
        flagAt { sp with data := sp.data.set l elt, flags := sp.flags.set l FILLED,
                         count := sp.count + 1 } j ≠ EMPTY := by
      intro j hj
      rw [flagAt_set sp _ _ l FILLED j hlf]
      by_cases hjl : j = l
      · rw [if_pos hjl]; decide
      · rw [if_neg hjl]; exact hj
    rcases (holds_add sp _ l elt i x hlf hld).1 hx with ⟨hi, hxe⟩ | ⟨_, hx'⟩
    · subst hi; subst hxe
      exact ⟨k, hk, hkl, fun k' hk' => keep _ (hall k' hk')⟩
    · obtain ⟨k2, hk2, hki, hall2⟩ := hp i x hx'
      exact ⟨k2, hk2, hki, fun k' hk' => keep _ (hall2 k' hk')⟩

theorem removeElement_probeInv (sp sp' : SET α) (elt : α) (hp : ProbeInv sp)
    (h : removeElement sp elt = Outcome.returned sp') : ProbeInv sp' := by
  rcases removeElement_returned sp sp' elt h with ⟨_, h1⟩ | ⟨l, hs, hlf, h1⟩
  · rw [h1]; exact hp
  · subst h1
    intro i x hx
    have hx' := ((holds_remove sp _ l i x hlf).1 hx).2
    obtain ⟨k, hk, hki, hall⟩ := hp i x hx'
    refine ⟨k, hk, hki, ?_⟩
    intro k' hk'
    rw [flagAt_set sp sp.data _ l DELETED _ hlf]
    by_cases hjl : probe sp x k' = l
    · have : probe { sp with flags := sp.flags.set l DELETED, count := sp.count - 1 } x k' = l := hjl
      rw [if_pos this]; decide
    · have : ¬ probe { sp with flags := sp.flags.set l DELETED, count := sp.count - 1 } x k' = l :=
        hjl
      rw [if_neg this]; exact hall k' hk'

/-- The probe-sequence invariant holds in every reachable state. -/
theorem reachable_probeInv (sp : SET α) (h : Reachable sp) : ProbeInv sp := by
  induction h with
  | create n cmp hash d0 f0 hpos =>
    intro i x hx
    exact absurd hx (createSet_not_holds n cmp hash d0 f0 i x)
  | add sp sp' elt _ hadd ih => exact addElement_probeInv sp sp' elt ih hadd
  | remove sp sp' elt _ hrem ih => exact removeElement_probeInv sp sp' elt ih hrem

theorem addElement_compare (sp sp' : SET α) (elt : α)
    (h : addElement sp elt = Outcome.returned sp') :
    sp'.compare = sp.compare ∧ sp'.hash = sp.hash ∧ sp'.length = sp.length := by
  rcases addElement_returned sp sp' elt h with ⟨_, h1⟩ | ⟨l, _, _, _, _, h1⟩
  · rw [h1]; exact ⟨rfl, rfl, rfl⟩
  · rw [h1]; exact ⟨rfl, rfl, rfl⟩

theorem removeElement_compare (sp sp' : SET α) (elt : α)
    (h : removeElement sp elt = Outcome.returned sp') :
    sp'.compare = sp.compare ∧ sp'.hash = sp.hash ∧ sp'.length = sp.length := by
  rcases removeElement_returned sp sp' elt h with ⟨_, h1⟩ | ⟨l, _, _, h1⟩
  · rw [h1]; exact ⟨rfl, rfl, rfl⟩
  · rw [h1]; exact ⟨rfl, rfl, rfl⟩

theorem lawful_of_eq (sp sp' : SET α) (hc : sp'.compare = sp.compare) (hh : sp'.hash = sp.hash)
    (hl : Lawful sp') : Lawful sp := by
  refine ⟨?_, ?_, ?_, ?_⟩
  · intro a; have := hl.refl a; rwa [hc] at this
  · intro a b; have := hl.symm a b; rwa [hc] at this
  · intro a b c; have := hl.trans a b c; rwa [hc] at this
  · intro a b; have := hl.hash_eq a b; rwa [hc, hh] at this

theorem addElement_noDup (sp sp' : SET α) (elt : α) (hl : Lawful sp) (hp : ProbeInv sp)
    (hn : NoDup sp) (h : addElement sp elt = Outcome.returned sp') : NoDup sp' := by
  rcases addElement_returned sp sp' elt h with ⟨_, h1⟩ | ⟨l, hs, _, hld, hlf, h1⟩
  · rw [h1]; exact hn
  · subst h1
    have absent : ∀ j y, Holds sp j y → sp.compare y elt ≠ 0 := by
      intro j y hy hc
      have := search_complete sp elt hp j y hy hc (hl.hash_eq _ _ hc)
      rw [hs] at this
      cases this
    intro i j x y hx hy hc
    have hc' : sp.compare x y = 0 := hc
    rcases (holds_add sp _ l elt i x hlf hld).1 hx with ⟨hi, hxe⟩ | ⟨_, hx'⟩
    · rcases (holds_add sp _ l elt j y hlf hld).1 hy with ⟨hj, _⟩ | ⟨_, hy'⟩
      · omega
      · subst hxe
        exact absurd (hl.symm _ _ hc') (absent j y hy')
    · rcases (holds_add sp _ l elt j y hlf hld).1 hy with ⟨_, hye⟩ | ⟨_, hy'⟩
      · subst hye
        exact absurd hc' (absent i x hx')
      · exact hn i j x y hx' hy' hc'

theorem removeElement_noDup (sp sp' : SET α) (elt : α) (hn : NoDup sp)
    (h : removeElement sp elt = Outcome.returned sp') : NoDup sp' := by
  rcases removeElement_returned sp sp' elt h with ⟨_, h1⟩ | ⟨l, hs, hlf, h1⟩
  · rw [h1]; exact hn
  · subst h1
    intro i j x y hx hy hc
    exact hn i j x y ((holds_remove sp _ l i x hlf).1 hx).2
      ((holds_remove sp _ l j y hlf).1 hy).2 hc

/-- With lawful `compare` and `hash`, no reachable state stores two equal elements. -/
theorem reachable_noDup (sp : SET α) (h : Reachable sp) : Lawful sp → NoDup sp := by
  induction h with
  | create n cmp hash d0 f0 hpos =>
    intro _ i j x y hx
    exact absurd hx (createSet_not_holds n cmp hash d0 f0 i x)
  | add sp sp' elt hr hadd ih =>
    intro hl
    obtain ⟨hc, hh, _⟩ := addElement_compare sp sp' elt hadd
    have hl' := lawful_of_eq sp sp' hc hh hl
    exact addElement_noDup sp sp' elt hl' (reachable_probeInv sp hr) (ih hl') hadd
  | remove sp sp' elt hr hrem ih =>
    intro hl
    obtain ⟨hc, hh, _⟩ := removeElement_compare sp sp' elt hrem
    exact removeElement_noDup sp sp' elt (ih (lawful_of_eq sp sp' hc hh hl)) hrem

end Lab6

namespace Lab6
variable {α : Type}

/-! ### Progress: when the calls return -/

theorem exists_not_filled (sp : SET α) (hwf : WF sp) (hc : CountInv sp)
    (hlt : sp.count < (sp.length : Int)) : ∃ i, i < sp.length ∧ flagAt sp i ≠ FILLED := by
  by_contra hcon
  have hall : ∀ b ∈ sp.flags, FILLED = b := by
    intro b hb
    obtain ⟨i, hi, he⟩ := List.getElem_of_mem hb
    by_contra hne
    apply hcon
    refine ⟨i, by rw [← hwf.flen]; exact hi, ?_⟩
    rw [flagAt_getElem sp i hi, he]
    exact fun e => hne e.symm
  have := List.count_eq_length.2 hall
  unfold CountInv at hc
  rw [this, hwf.flen] at hc
  omega

/-- With room left in a well-shaped table, `addElement` returns. -/
theorem addElement_progress (sp : SET α) (elt : α) (hwf : WF sp) (hc : CountInv sp)
    (hlt : sp.count < (sp.length : Int)) : ∃ sp', addElement sp elt = Outcome.returned sp' := by
  cases hs : search sp elt with
  | mk locn found =>
    cases found with
    | true => exact ⟨sp, by unfold addElement; rw [hs]; rfl⟩
    | false =>
      obtain ⟨i, hi, hilt⟩ :=
        search_in_bounds sp elt locn hwf (exists_not_filled sp hwf hc hlt) hs
      subst hi
      refine ⟨{ sp with data := sp.data.set i elt, flags := sp.flags.set i FILLED,
                        count := sp.count + 1 }, ?_⟩
      unfold addElement
      rw [hs]
      simp only [if_true]
      rw [if_pos hlt, writeAt_nat _ _ _ (by rw [hwf.dlen]; exact hilt),
        writeAt_nat _ _ _ (by rw [hwf.flen]; exact hilt)]

/-- In a well-shaped table `removeElement` returns. -/
theorem removeElement_progress (sp : SET α) (elt : α) (hwf : WF sp) :
    ∃ sp', removeElement sp elt = Outcome.returned sp' := by
  cases hs : search sp elt with
  | mk locn found =>
    cases found with
    | false => exact ⟨sp, by unfold removeElement; rw [hs]; rfl⟩
    | true =>
      obtain ⟨i, x, hi, hilt, _, _⟩ := search_found sp elt locn hwf hs
      subst hi
      refine ⟨{ sp with flags := sp.flags.set i DELETED, count := sp.count - 1 }, ?_⟩
      unfold removeElement
      rw [hs]
      simp only [if_true]
      rw [writeAt_nat _ _ _ (by rw [hwf.flen]; exact hilt)]

/-! ### The function `findElement` -/

/-- The stored element equal to `elt` is what `findElement` returns. -/
theorem findElement_of_holds (sp : SET α) (elt : α) (hwf : WF sp) (hl : Lawful sp)
    (hp : ProbeInv sp) (hn : NoDup sp) (i : Nat) (x : α) (hx : Holds sp i x)
    (hc : sp.compare x elt = 0) : findElement sp elt = some x := by
  have hf := search_complete sp elt hp i x hx hc (hl.hash_eq _ _ hc)
  cases hs : search sp elt with
  | mk locn found =>
    rw [hs] at hf
    simp only at hf
    subst hf
    obtain ⟨j, y, hj, _, hy, hcy⟩ := search_found sp elt locn hwf hs
    have hij : i = j := hn i j x y hx hy (hl.trans _ _ _ hc (hl.symm _ _ hcy))
    subst hij
    subst hj
    unfold findElement
    rw [hs]
    simp only [if_true]
    rw [readAt_nat]
    exact hx.2

/-- When no stored element is equal to `elt`, `findElement` returns `NULL`. -/
theorem findElement_none (sp : SET α) (elt : α) (hwf : WF sp)
    (habs : ∀ i y, Holds sp i y → sp.compare y elt ≠ 0) : findElement sp elt = none := by
  cases hs : search sp elt with
  | mk locn found =>
    cases found with
    | false => unfold findElement; rw [hs]; rfl
    | true =>
      obtain ⟨j, y, _, _, hy, hcy⟩ := search_found sp elt locn hwf hs
      exact absurd hcy (habs j y hy)

/-- When no stored element is equal to `elt`, `search` reports no match. -/
theorem search_absent (sp : SET α) (elt : α) (hwf : WF sp)
    (habs : ∀ i y, Holds sp i y → sp.compare y elt ≠ 0) : (search sp elt).2 = false := by
  cases hs : search sp elt with
  | mk locn found =>
    cases found with
    | false => rfl
    | true =>
      obtain ⟨j, y, _, _, hy, hcy⟩ := search_found sp elt locn hwf hs
      exact absurd hcy (habs j y hy)

end Lab6

namespace Lab6
variable {α : Type}

/-! ### The example tables -/

theorem natCompare_lawful (sp : SET Nat) (hc : sp.compare = natCompare) (hh : sp.hash = natHash) :
    Lawful sp := by
  refine ⟨?_, ?_, ?_, ?_⟩
  · intro a; rw [hc]; unfold natCompare; omega
  · intro a b; rw [hc]; unfold natCompare; omega
  · intro a b c; rw [hc]; unfold natCompare; omega
  · intro a b; rw [hc, hh]; unfold natCompare natHash; omega

theorem ex5_reachable : Reachable ex5 :=
  Reachable.create 5 natCompare natHash (fun _ => 0) (fun _ => 7) (by decide)

theorem ex5abc_reachable : Reachable ex5abc := by
  have h1 : Reachable { ex5 with count := 1, data := [0, 0, 2, 0, 0], flags := [0, 0, 1, 0, 0] } :=
    Reachable.add ex5 _ 2 ex5_reachable rfl
  have h2 : Reachable { ex5 with count := 2, data := [0, 0, 2, 7, 0], flags := [0, 0, 1, 1, 0] } :=
    Reachable.add _ _ 7 h1 rfl
  exact Reachable.add _ _ 12 h2 rfl

theorem exFull_reachable : Reachable exFull := by
  have h0 : Reachable ex2 :=
    Reachable.create 2 natCompare natHash (fun _ => 0) (fun _ => 7) (by decide)
  have h1 : Reachable ex2a := Reachable.add _ _ 0 h0 rfl
  exact Reachable.add _ _ 1 h1 rfl

end Lab6

namespace Lab6
variable {α : Type}

/-! ### Round trip, set semantics, cardinality, probe sequences, full tables -/

/-- When an equal element is stored, `addElement` returns and changes nothing. -/
theorem addElement_present (sp : SET α) (elt : α) (hl : Lawful sp) (hp : ProbeInv sp)
    (i : Nat) (y : α) (hy : Holds sp i y) (hc : sp.compare y elt = 0) :
    addElement sp elt = Outcome.returned sp := by
  have hf := search_complete sp elt hp i y hy hc (hl.hash_eq _ _ hc)
  cases hs : search sp elt with
  | mk locn found =>
    rw [hs] at hf
    simp only at hf
    subst hf
    unfold addElement
    rw [hs]
    rfl

theorem createSet_flags (n : Nat) (cmp : α → α → Int) (hash : α → Nat)
    (d0 : Nat → α) (f0 : Nat → Nat) :
    (createSet n cmp hash d0 f0).flags = List.replicate n EMPTY := by
  rw [List.eq_replicate_iff]
  constructor
  · simp [createSet, clearFlags_length]
  · intro b hb
    obtain ⟨i, hi, he⟩ := List.getElem_of_mem hb
    have := createSet_flagAt n cmp hash d0 f0 i
    rw [flagAt_getElem _ i hi, he] at this
    exact this

theorem all_filled (sp : SET α) (hwf : WF sp) (hc : CountInv sp)
    (hfull : sp.count = (sp.length : Int)) (i : Nat) (hi : i < sp.length) :
    flagAt sp i = FILLED := by
  unfold CountInv at hc
  have h1 : sp.flags.count FILLED = sp.flags.length := by
    rw [hwf.flen]; omega
  have hi' : i < sp.flags.length := by rw [hwf.flen]; exact hi
  rw [flagAt_getElem sp i hi']
  exact (List.count_eq_length.1 h1 _ (List.getElem_mem hi')).symm

/-- C1 (Lab 6, add-then-find).  In a state reachable from `createSet` with a
positive capacity, with `compare == 0` an equivalence and equal elements
hashing identically, and with `count < length`: `addElement(e)` returns, and
afterwards `findElement(e)` returns a stored element `x` with
`compare(x, e) == 0`; `x` is `e` itself when no equal element was stored
before, and is the previously stored instance otherwise. -/
theorem add_then_find (sp : SET α) (e : α) (hr : Reachable sp) (hl : Lawful sp)
    (hlt : sp.count < (sp.length : Int)) :
    ∃ sp' x, addElement sp e = Outcome.returned sp' ∧ findElement sp' e = some x ∧
      sp.compare x e = 0 ∧
      ((∀ i y, Holds sp i y → sp.compare y e ≠ 0) → x = e) ∧
      (∀ i y, Holds sp i y → sp.compare y e = 0 → x = y) := by
  obtain ⟨hwf, hcnt⟩ := reachable_wf_count sp hr
  have hp := reachable_probeInv sp hr
  have hn := reachable_noDup sp hr hl
  obtain ⟨sp', hadd⟩ := addElement_progress sp e hwf hcnt hlt
  rcases addElement_returned sp sp' e hadd with ⟨hf, h1⟩ | ⟨l, hs, _, hld, hlf, h1⟩
  · cases hs : search sp e with
    | mk locn found =>
      rw [hs] at hf
      simp only at hf
      subst hf
      obtain ⟨j, x, _, _, hx, hcx⟩ := search_found sp e locn hwf hs
      refine ⟨sp', x, hadd, ?_, hcx, ?_, ?_⟩
      · rw [h1]; exact findElement_of_holds sp e hwf hl hp hn j x hx hcx
      · intro habs; exact absurd hcx (habs j x hx)
      · intro i y hy hcy
        have hij : j = i := hn j i x y hx hy (hl.trans _ _ _ hcx (hl.symm _ _ hcy))
        subst hij
        have h2 := hx.2
        rw [hy.2] at h2
        cases h2
        rfl
  · have hr' : Reachable sp' := Reachable.add sp sp' e hr hadd
    obtain ⟨hc', hh', _⟩ := addElement_compare sp sp' e hadd
    have hl' : Lawful sp' := lawful_of_eq sp' sp hc'.symm hh'.symm hl
    obtain ⟨hwf', _⟩ := reachable_wf_count sp' hr'
    have hholds : Holds sp' l e := by
      rw [h1]; exact (holds_add sp _ l e l e hlf hld).2 (Or.inl ⟨rfl, rfl⟩)
    refine ⟨sp', e, hadd, ?_, hl.refl e, fun _ => rfl, ?_⟩
    · exact findElement_of_holds sp' e hwf' hl' (reachable_probeInv sp' hr')
        (reachable_noDup sp' hr' hl') l e hholds (hl'.refl e)
    · intro i y hy hcy
      have := search_complete sp e hp i y hy hcy (hl.hash_eq _ _ hcy)
      rw [hs] at this
      cases this

/-- Witness of `add_then_find`: adding 7 to the example table that holds 2, 7, 12. -/
theorem add_then_find_witness :
    ∃ sp' x, addElement ex5abc 7 = Outcome.returned sp' ∧ findElement sp' 7 = some x ∧
      ex5abc.compare x 7 = 0 ∧
      ((∀ i y, Holds ex5abc i y → ex5abc.compare y 7 ≠ 0) → x = 7) ∧
      (∀ i y, Holds ex5abc i y → ex5abc.compare y 7 = 0 → x = y) :=
  add_then_find ex5abc 7 ex5abc_reachable (natCompare_lawful ex5abc rfl rfl) (by decide)

/-- C2 (Lab 6, remove-then-find).  In a state reachable from `createSet` with
a positive capacity (lawful `compare` and `hash`), `removeElement(e)` returns
and afterwards `findElement(e)` returns `NULL`. -/
theorem remove_then_find (sp : SET α) (e : α) (hr : Reachable sp) (hl : Lawful sp) :
    ∃ sp', removeElement sp e = Outcome.returned sp' ∧ findElement sp' e = none := by
  obtain ⟨hwf, _⟩ := reachable_wf_count sp hr
  have hp := reachable_probeInv sp hr
  have hn := reachable_noDup sp hr hl
  obtain ⟨sp', hrem⟩ := removeElement_progress sp e hwf
  refine ⟨sp', hrem, ?_⟩
  have hwf' := removeElement_wf sp sp' e hwf hrem
  apply findElement_none sp' e hwf'
  rcases removeElement_returned sp sp' e hrem with ⟨hf, h1⟩ | ⟨l, hs, hlf, h1⟩
  · subst h1
    intro i y hy hcy
    have := search_complete sp' e hp i y hy hcy (hl.hash_eq _ _ hcy)
    rw [hf] at this
    cases this
  · obtain ⟨j, x, hj, _, hx, hcx⟩ := search_found sp e _ hwf hs
    have hjl : j = l := by omega
    subst hjl
    subst h1
    intro i y hy hcy
    have hy' := (holds_remove sp _ j i y hlf).1 hy
    have hcy' : sp.compare y e = 0 := hcy
    exact hy'.1 (hn i j y x hy'.2 hx (hl.trans _ _ _ hcy' (hl.symm _ _ hcx)))

/-- Witness of `remove_then_find`: removing 7 from the example table that holds 2, 7, 12. -/
theorem remove_then_find_witness :
    ∃ sp', removeElement ex5abc 7 = Outcome.returned sp' ∧ findElement sp' 7 = none :=
  remove_then_find ex5abc 7 ex5abc_reachable (natCompare_lawful ex5abc rfl rfl)

/-- C4 (Lab 6, set semantics).  In a reachable state with lawful `compare` and
`hash`: when an element equal to `e` is stored, `addElement(e)` returns and
leaves the whole set (count, flags, data) unchanged; and when no equal element
is stored and `count < length`, a first `addElement(e)` returns, a second one
returns without changing anything, and `numElements` has grown by exactly 1. -/
theorem add_twice_counts_once (sp : SET α) (e : α) (hr : Reachable sp) (hl : Lawful sp) :
    (∀ i y, Holds sp i y → sp.compare y e = 0 → addElement sp e = Outcome.returned sp) ∧
    ((∀ i y, Holds sp i y → sp.compare y e ≠ 0) → sp.count < (sp.length : Int) →
      ∃ s1, addElement sp e = Outcome.returned s1 ∧ addElement s1 e = Outcome.returned s1 ∧
        numElements s1 = numElements sp + 1) := by
  obtain ⟨hwf, hcnt⟩ := reachable_wf_count sp hr
  have hp := reachable_probeInv sp hr
  refine ⟨fun i y hy hcy => addElement_present sp e hl hp i y hy hcy, ?_⟩
  intro habs hlt
  obtain ⟨s1, hadd⟩ := addElement_progress sp e hwf hcnt hlt
  have hnf := search_absent sp e hwf habs
  rcases addElement_returned sp s1 e hadd with ⟨hf, _⟩ | ⟨l, hs, _, hld, hlf, h1⟩
  · rw [hnf] at hf; cases hf
  · have hr1 : Reachable s1 := Reachable.add sp s1 e hr hadd
    obtain ⟨hc1, hh1, _⟩ := addElement_compare sp s1 e hadd
    have hl1 : Lawful s1 := lawful_of_eq s1 sp hc1.symm hh1.symm hl
    have hholds : Holds s1 l e := by
      rw [h1]; exact (holds_add sp _ l e l e hlf hld).2 (Or.inl ⟨rfl, rfl⟩)
    refine ⟨s1, hadd, ?_, ?_⟩
    · exact addElement_present s1 e hl1 (reachable_probeInv s1 hr1) l e hholds (hl1.refl e)
    · rw [h1]; rfl

/-- Witness of `add_twice_counts_once` on the example table that holds 2, 7, 12. -/
theorem add_twice_counts_once_witness :
    (∀ i y, Holds ex5abc i y → ex5abc.compare y 3 = 0 →
      addElement ex5abc 3 = Outcome.returned ex5abc) ∧
    ((∀ i y, Holds ex5abc i y → ex5abc.compare y 3 ≠ 0) →
      ex5abc.count < (ex5abc.length : Int) →
      ∃ s1, addElement ex5abc 3 = Outcome.returned s1 ∧ addElement s1 3 = Outcome.returned s1 ∧
        numElements s1 = numElements ex5abc + 1) :=
  add_twice_counts_once ex5abc 3 ex5abc_reachable (natCompare_lawful ex5abc rfl rfl)

/-- C5 (Lab 6, cardinality invariant).  `createSet` yields `count = 0` with
every slot `EMPTY`; and in every state reachable by calls of `addElement` and
`removeElement` that return, `0 ≤ count ≤ length` and `count` is the number of
slots whose flag is `FILLED`. -/
theorem cardinality_invariant :
    (∀ (n : Nat) (cmp : α → α → Int) (hash : α → Nat) (d0 : Nat → α) (f0 : Nat → Nat),
      numElements (createSet n cmp hash d0 f0) = 0 ∧
      (createSet n cmp hash d0 f0).flags = List.replicate n EMPTY) ∧
    (∀ sp : SET α, Reachable sp →
      0 ≤ sp.count ∧ sp.count ≤ (sp.length : Int) ∧
      sp.count = ((sp.flags.count FILLED : Nat) : Int)) := by
  refine ⟨fun n cmp hash d0 f0 => ⟨rfl, createSet_flags n cmp hash d0 f0⟩, ?_⟩
  intro sp hr
  obtain ⟨hwf, hcnt⟩ := reachable_wf_count sp hr
  unfold CountInv at hcnt
  have := List.count_le_length FILLED sp.flags
  rw [hwf.flen] at this
  refine ⟨by omega, by omega, hcnt⟩

/-- Witness of `cardinality_invariant` on the example table that holds 2, 7, 12. -/
theorem cardinality_invariant_witness :
    0 ≤ ex5abc.count ∧ ex5abc.count ≤ (ex5abc.length : Int) ∧
      ex5abc.count = ((ex5abc.flags.count FILLED : Nat) : Int) :=
  (@cardinality_invariant Nat).2 ex5abc ex5abc_reachable

/-- C6 (Lab 6, probe-sequence invariant).  In every state reachable from
`createSet` by `addElement` and `removeElement`, for every `FILLED` slot `i`
holding `x`, the walk `hash(x) % length, +1, +2, ...` (modulo `length`) reaches
slot `i` at some step `k < length`, and no slot visited before step `k` is
`EMPTY`. -/
theorem probe_sequence_invariant (sp : SET α) (hr : Reachable sp) (i : Nat) (x : α)
    (hx : Holds sp i x) :
    ∃ k, k < sp.length ∧ probe sp x k = i ∧
      ∀ k', k' < k → flagAt sp (probe sp x k') ≠ EMPTY :=
  reachable_probeInv sp hr i x hx

/-- Witness of `probe_sequence_invariant`: slot 3 of the example table holds 7. -/
theorem probe_sequence_invariant_witness :
    ∃ k, k < ex5abc.length ∧ probe ex5abc 7 k = 3 ∧
      ∀ k', k' < k → flagAt ex5abc (probe ex5abc 7 k') ≠ EMPTY :=
  probe_sequence_invariant ex5abc ex5abc_reachable 3 7 ⟨rfl, rfl⟩

/-- C10 (Lab 6, full-capacity rejection).  In a reachable state with
`count == length`, for an element `e` equal to no stored element,
`addElement(e)` fails its assertion in the unchanged state: `search` has
returned `-1` with no match, and neither that index nor any other field is
written. -/
theorem add_full_aborts (sp : SET α) (e : α) (hr : Reachable sp)
    (hfull : sp.count = (sp.length : Int))
    (habs : ∀ i y, Holds sp i y → sp.compare y e ≠ 0) :
    search sp e = (-1, false) ∧ addElement sp e = Outcome.aborted sp := by
  obtain ⟨hwf, hcnt⟩ := reachable_wf_count sp hr
  have hnf := search_absent sp e hwf habs
  cases hs : search sp e with
  | mk locn found =>
    rw [hs] at hnf
    simp only at hnf
    subst hnf
    have hl : locn = -1 := by
      rcases searchLoop_locn sp e _ _ _ _ _ hs with h1 | ⟨_, k, _, _, _, hf, _⟩
      · exact h1
      · have := all_filled sp hwf hcnt hfull _ (Nat.mod_lt (sp.hash e % sp.length + k) hwf.pos)
        rw [this] at hf
        rcases hf with hf | hf <;> exact absurd hf (by decide)
    subst hl
    refine ⟨rfl, ?_⟩
    unfold addElement
    rw [hs]
    simp only [if_true]
    rw [if_neg (by omega)]

/-- Witness of `add_full_aborts`: adding 5 to the full example table of capacity 2. -/
theorem add_full_aborts_witness :
    search exFull 5 = (-1, false) ∧ addElement exFull 5 = Outcome.aborted exFull :=
  add_full_aborts exFull 5 exFull_reachable rfl (by
    intro i y hy
    have hi : i < 2 := by
      by_contra hge
      have h2 := hy.2
      rw [List.getElem?_eq_none (by simp [exFull]; omega)] at h2
      cases h2
    have h2 := hy.2
    interval_cases i
    · cases h2; decide
    · cases h2; decide)

end Lab6

namespace Lab6
variable {α : Type}

/-! ### Exchanging two entries of an array -/

theorem cons_set_perm : ∀ (t : List α) (j : Nat) (x y : α), t[j]? = some y →
    (y :: t.set j x).Perm (x :: t) := by
  intro t
  induction t with
  | nil => intro j x y h; simp at h
  | cons z t ih =>
    intro j x y h
    cases j with
    | zero =>
      simp only [List.getElem?_cons_zero, Option.some.injEq] at h
      subst h
      exact List.Perm.swap _ _ _
    | succ j =>
      simp only [List.getElem?_cons_succ] at h
      simp only [List.set_cons_succ]
      exact (List.Perm.swap _ _ _).trans (((ih j x y h).cons z).trans (List.Perm.swap _ _ _))

/-- Exchanging two entries gives a permutation of the array. -/
theorem set_set_perm : ∀ (a : List α) (i j : Nat) (x y : α), a[i]? = some x → a[j]? = some y →
    ((a.set i y).set j x).Perm a := by
  intro a
  induction a with
  | nil => intro i j x y h; simp at h
  | cons z t ih =>
    intro i j x y hi hj
    cases i with
    | zero =>
      simp only [List.getElem?_cons_zero, Option.some.injEq] at hi
      subst hi
      cases j with
      | zero =>
        simp only [List.getElem?_cons_zero, Option.some.injEq] at hj
        subst hj
        simp
      | succ j =>
        simp only [List.getElem?_cons_succ] at hj
        simp only [List.set_cons_zero, List.set_cons_succ]
        exact cons_set_perm t j z y hj
    | succ i =>
      simp only [List.getElem?_cons_succ] at hi
      cases j with
      | zero =>
        simp only [List.getElem?_cons_zero, Option.some.injEq] at hj
        subst hj
        simp only [List.set_cons_zero, List.set_cons_succ]
        exact cons_set_perm t i z x hi
      | succ j =>
        simp only [List.getElem?_cons_succ] at hj
        simp only [List.set_cons_succ]
        exact (ih i j x y hi hj).cons z

/-- The exchange of `array[i]` and `array[j]` succeeds inside the array. -/
theorem swapAt_nat (a : List α) (i j : Nat) (x y : α) (hi : a[i]? = some x)
    (hj : a[j]? = some y) :
    swapAt a (i : Int) (j : Int) = some ((a.set i y).set j x) := by
  have hil : i < a.length := by
    by_contra h
    rw [List.getElem?_eq_none (by omega)] at hi
    cases hi
  have hjl : j < a.length := by
    by_contra h
    rw [List.getElem?_eq_none (by omega)] at hj
    cases hj
  unfold swapAt
  rw [readAt_nat, readAt_nat, hi, hj]
  simp only
  rw [writeAt_nat _ _ _ hil]
  simp only
  rw [writeAt_nat _ _ _ (by simpa using hjl)]

theorem getElem?_swap (a : List α) (i j : Nat) (x y : α) (hi : a[i]? = some x)
    (hj : a[j]? = some y) (k : Nat) :
    ((a.set i y).set j x)[k]? = if k = j then some x else if k = i then some y else a[k]? := by
  have hil : i < a.length := by
    by_contra h
    rw [List.getElem?_eq_none (by omega)] at hi
    cases hi
  have hjl : j < a.length := by
    by_contra h
    rw [List.getElem?_eq_none (by omega)] at hj
    cases hj
  simp only [List.getElem?_set, List.length_set]
  by_cases hkj : k = j
  · subst hkj; simp [hjl]
  · by_cases hki : k = i
    · subst hki
      have : ¬ j = k := fun e => hkj e.symm
      simp [hkj, this, hil]
    · have h1 : ¬ j = k := fun e => hkj e.symm
      have h2 : ¬ i = k := fun e => hki e.symm
      simp [hkj, hki, h1, h2]

end Lab6

namespace Lab6
variable {α : Type}

/-! ### The function `partition` -/

theorem Frame.refl (lo : Nat) (hi : Int) (a : List α) : Frame lo hi a a :=
  ⟨rfl, List.Perm.refl _, fun _ _ => rfl⟩

theorem Frame.trans {lo : Nat} {hi : Int} {a b c : List α} (h1 : Frame lo hi a b)
    (h2 : Frame lo hi b c) : Frame lo hi a c :=
  ⟨h2.len.trans h1.len, h2.perm.trans h1.perm, fun k hk => (h2.out k hk).trans (h1.out k hk)⟩

theorem Frame.mono {lo lo' : Nat} {hi hi' : Int} {a b : List α} (h : Frame lo hi a b)
    (hlo : lo' ≤ lo) (hhi : hi ≤ hi') : Frame lo' hi' a b :=
  ⟨h.len, h.perm, fun k hk => h.out k (by omega)⟩

theorem frame_swap (lo : Nat) (hi : Int) (a : List α) (i j : Nat) (x y : α)
    (hx : a[i]? = some x) (hy : a[j]? = some y) (hi1 : lo ≤ i) (hi2 : (i : Int) ≤ hi)
    (hj1 : lo ≤ j) (hj2 : (j : Int) ≤ hi) : Frame lo hi a ((a.set i y).set j x) := by
  refine ⟨by simp, set_set_perm a i j x y hx hy, ?_⟩
  intro k hk
  rw [getElem?_swap a i j x y hx hy k, if_neg (by omega), if_neg (by omega)]

theorem getElem?_some_of_lt (a : List α) (k : Nat) (h : k < a.length) : ∃ x, a[k]? = some x :=
  ⟨a[k], List.getElem?_eq_getElem h⟩

theorem lt_length_of_getElem? (a : List α) (k : Nat) (x : α) (h : a[k]? = some x) :
    k < a.length := by
  by_contra hge
  rw [List.getElem?_eq_none (by omega)] at h
  cases h

/-- The loop of `partition`: entries below the returned index are smaller than
the pivot, the entries from it up to `high - 1` are not. -/
theorem partitionLoop_spec (sp : SET α) (high : Nat) (p : α) :
    ∀ (n i j : Nat) (a : List α), i + n = high → j ≤ i → a[high]? = some p →
      (∀ k, j ≤ k → k < i → ∃ x, a[k]? = some x ∧ ¬ sp.compare x p < 0) →
      ∃ (j' : Nat) (a' : List α),
        partitionLoop sp (high : Int) n (i : Int) (j : Int) a = some ((j' : Int), a') ∧
        j ≤ j' ∧ j' ≤ high ∧ Frame j ((high : Int) - 1) a a' ∧
        (∀ k, j ≤ k → k < j' → ∃ x, a'[k]? = some x ∧ sp.compare x p < 0) ∧
        (∀ k, j' ≤ k → k < high → ∃ x, a'[k]? = some x ∧ ¬ sp.compare x p < 0) := by
  intro n
  induction n with
  | zero =>
    intro i j a hi hji hp hpre
    refine ⟨j, a, rfl, le_refl _, by omega, Frame.refl _ _ _, ?_, ?_⟩
    · intro k h1 h2; omega
    · intro k h1 h2; exact hpre k h1 (by omega)
  | succ n ih =>
    intro i j a hi hji hp hpre
    have hhl := lt_length_of_getElem? a high p hp
    obtain ⟨x, hx⟩ := getElem?_some_of_lt a i (by omega)
    obtain ⟨y, hy⟩ := getElem?_some_of_lt a j (by omega)
    simp only [partitionLoop]
    rw [readAt_nat, readAt_nat, hx, hp]
    simp only
    by_cases hc : sp.compare x p < 0
    · rw [if_pos hc, swapAt_nat a i j x y hx hy]
      simp only
      have hsw := getElem?_swap a i j x y hx hy
      have hp1 : ((a.set i y).set j x)[high]? = some p := by
        rw [hsw, if_neg (by omega), if_neg (by omega)]; exact hp
      have hpre1 : ∀ k, j + 1 ≤ k → k < i + 1 →
          ∃ x', ((a.set i y).set j x)[k]? = some x' ∧ ¬ sp.compare x' p < 0 := by
        intro k h1 h2
        rw [hsw, if_neg (by omega)]
        by_cases hki : k = i
        · rw [if_pos hki]
          obtain ⟨y', hy', hcy⟩ := hpre j (le_refl _) (by omega)
          rw [hy] at hy'
          cases hy'
          exact ⟨y, rfl, hcy⟩
        · rw [if_neg hki]
          exact hpre k (by omega) (by omega)
      obtain ⟨j', a', hrun, hj1, hj2, hfr, hlt, hge⟩ :=
        ih (i + 1) (j + 1) _ (by omega) (by omega) hp1 hpre1
      refine ⟨j', a', ?_, by omega, hj2, ?_, ?_, hge⟩
      · have e1 : ((i : Int) + 1) = ((i + 1 : Nat) : Int) := by push_cast; rfl
        have e2 : ((j : Int) + 1) = ((j + 1 : Nat) : Int) := by push_cast; rfl
        rw [e1, e2]
        exact hrun
      · exact (frame_swap j ((high : Int) - 1) a i j x y hx hy hji (by omega) (le_refl _)
          (by omega)).trans (hfr.mono (by omega) (le_refl _))
      · intro k h1 h2
        by_cases hkj : k = j
        · subst hkj
          rw [hfr.out k (Or.inl (by omega)), hsw, if_pos rfl]
          exact ⟨x, rfl, hc⟩
        · exact hlt k (by omega) h2
    · rw [if_neg hc]
      have hpre1 : ∀ k, j ≤ k → k < i + 1 → ∃ x', a[k]? = some x' ∧ ¬ sp.compare x' p < 0 := by
        intro k h1 h2
        by_cases hki : k = i
        · subst hki; exact ⟨x, hx, hc⟩
        · exact hpre k h1 (by omega)
      obtain ⟨j', a', hrun, hj1, hj2, hfr, hlt, hge⟩ :=
        ih (i + 1) j a (by omega) (by omega) hp hpre1
      refine ⟨j', a', ?_, hj1, hj2, hfr, hlt, hge⟩
      have e1 : ((i : Int) + 1) = ((i + 1 : Nat) : Int) := by push_cast; rfl
      rw [e1]
      exact hrun

/-- The function `partition` on a range inside the array: it returns the final
index `j` of the pivot, with smaller entries before it and no smaller entry
after it, and only rearranges the entries of the range. -/
theorem partition_spec (sp : SET α) (low high : Nat) (a : List α) (hlh : low ≤ high)
    (hh : high < a.length) :
    ∃ (j : Nat) (a' : List α) (p : α),
      partition (low : Int) (high : Int) a sp = some ((j : Int), a') ∧
      low ≤ j ∧ j ≤ high ∧ Frame low (high : Int) a a' ∧
      a[high]? = some p ∧ a'[j]? = some p ∧
      (∀ k, low ≤ k → k < j → ∃ x, a'[k]? = some x ∧ sp.compare x p < 0) ∧
      (∀ k, j < k → k ≤ high → ∃ x, a'[k]? = some x ∧ ¬ sp.compare x p < 0) := by
  obtain ⟨p, hp⟩ := getElem?_some_of_lt a high hh
  obtain ⟨j, a1, hrun, hj1, hj2, hfr, hlt, hge⟩ :=
    partitionLoop_spec sp high p (high - low) low low a (by omega) (le_refl _) hp
      (fun k h1 h2 => by omega)
  have hn : ((high : Int) - (low : Int)).toNat = high - low := by omega
  have hp1 : a1[high]? = some p := by rw [hfr.out high (Or.inr (by omega))]; exact hp
  have hjl : j < a1.length := by rw [hfr.len]; omega
  obtain ⟨t, ht⟩ := getElem?_some_of_lt a1 j hjl
  have hsw := getElem?_swap a1 j high t p ht hp1
  refine ⟨j, (a1.set j p).set high t, p, ?_, hj1, hj2, ?_, hp, ?_, ?_, ?_⟩
  · unfold partition
    rw [hn, hrun]
    simp only
    rw [swapAt_nat a1 j high t p ht hp1]
  · exact (hfr.mono (le_refl _) (by omega)).trans
      (frame_swap low (high : Int) a1 j high t p ht hp1 hj1 (by omega) hlh (le_refl _))
  · rw [hsw]
    by_cases hjh : j = high
    · rw [if_pos hjh]
      subst hjh
      rw [hp1] at ht
      exact ht.symm
    · rw [if_neg hjh, if_pos rfl]
  · intro k h1 h2
    rw [hsw, if_neg (by omega), if_neg (by omega)]
    exact hlt k h1 h2
  · intro k h1 h2
    rw [hsw]
    by_cases hkh : k = high
    · rw [if_pos hkh]
      obtain ⟨t', ht', hct⟩ := hge j (le_refl _) (by omega)
      rw [ht] at ht'
      cases ht'
      exact ⟨t, rfl, hct⟩
    · rw [if_neg hkh, if_neg (by omega)]
      exact hge k (by omega) (by omega)

end Lab6

namespace Lab6
variable {α : Type}

/-! ### Entries of a range that is rearranged in place -/

theorem slice_decomp (a : List α) (lo hi : Nat) (h : lo ≤ hi + 1) :
    List.take lo a ++ (List.take (hi + 1 - lo) (List.drop lo a) ++ List.drop (hi + 1) a) = a := by
  have e : List.drop (hi + 1) a = List.drop (hi + 1 - lo) (List.drop lo a) := by
    rw [List.drop_drop]
    congr 1
    omega
  rw [e, List.take_append_drop, List.take_append_drop]

/-- After a step that only rearranges the range `[lo, hi]`, every entry of the
range was an entry of the range before. -/
theorem frame_mem (lo hi : Nat) (a a' : List α) (h : Frame lo (hi : Int) a a')
    (k : Nat) (hk1 : lo ≤ k) (hk2 : k ≤ hi) (x : α) (hx : a'[k]? = some x) :
    ∃ k', lo ≤ k' ∧ k' ≤ hi ∧ a[k']? = some x := by
  have e1 : List.take lo a' = List.take lo a := by
    apply List.ext_getElem?
    intro n
    rw [List.getElem?_take, List.getElem?_take]
    by_cases hn : n < lo
    · rw [if_pos hn, if_pos hn]; exact h.out n (Or.inl hn)
    · rw [if_neg hn, if_neg hn]
  have e2 : List.drop (hi + 1) a' = List.drop (hi + 1) a := by
    apply List.ext_getElem?
    intro n
    rw [List.getElem?_drop, List.getElem?_drop]
    exact h.out _ (Or.inr (by omega))
  have hperm : (List.take lo a' ++ (List.take (hi + 1 - lo) (List.drop lo a') ++
      List.drop (hi + 1) a')).Perm
      (List.take lo a ++ (List.take (hi + 1 - lo) (List.drop lo a) ++ List.drop (hi + 1) a)) := by
    rw [slice_decomp a lo hi (by omega), slice_decomp a' lo hi (by omega)]
    exact h.perm
  rw [e1, e2, List.perm_append_left_iff, List.perm_append_right_iff] at hperm
  have hmem : x ∈ List.take (hi + 1 - lo) (List.drop lo a') := by
    rw [List.mem_iff_getElem?]
    refine ⟨k - lo, ?_⟩
    rw [List.getElem?_take, if_pos (by omega), List.getElem?_drop]
    have : lo + (k - lo) = k := by omega
    rw [this]
    exact hx
  have hmem2 := hperm.mem_iff.1 hmem
  rw [List.mem_iff_getElem?] at hmem2
  obtain ⟨n, hn⟩ := hmem2
  rw [List.getElem?_take] at hn
  by_cases hnm : n < hi + 1 - lo
  · rw [if_pos hnm, List.getElem?_drop] at hn
    exact ⟨lo + n, by omega, by omega, hn⟩
  · rw [if_neg hnm] at hn
    cases hn

end Lab6

namespace Lab6
variable {α : Type}

/-! ### The function `quicksort` -/

theorem TotalOrder.self_le {compare : α → α → Int} (h : TotalOrder compare) (x : α) :
    compare x x ≤ 0 := by
  by_cases hx : 0 ≤ compare x x
  · exact h.total x x hx
  · omega

/-- With enough fuel for the length of the range, `quicksort` returns; it only
rearranges the entries of the range `[low, high]`, and under a total order the
range is non-decreasing afterwards. -/
theorem quicksort_spec (sp : SET α) :
    ∀ (fuel low : Nat) (high : Int) (a : List α), high < (a.length : Int) →
      high - (low : Int) + 1 ≤ (fuel : Int) →
      ∃ a', quicksort fuel (low : Int) high a sp = some a' ∧ Frame low high a a' ∧
        (TotalOrder sp.compare → ∀ (k1 k2 : Nat) (x y : α), low ≤ k1 → k1 ≤ k2 →
          (k2 : Int) ≤ high → a'[k1]? = some x → a'[k2]? = some y → sp.compare x y ≤ 0) := by
  intro fuel
  induction fuel with
  | zero =>
    intro low high a _ hfuel
    refine ⟨a, ?_, Frame.refl _ _ _, ?_⟩
    · simp only [quicksort]
      rw [if_neg (by omega)]
    · intro _ k1 k2 x y h1 h2 h3
      omega
  | succ fuel ih =>
    intro low high a hha hfuel
    by_cases hlt : (low : Int) < high
    · obtain ⟨h, rfl⟩ := Int.eq_ofNat_of_zero_le (by omega : 0 ≤ high)
      have hlh : low < h := by omega
      obtain ⟨j, a1, p, hpart, hj1, hj2, hfr1, _, hpj, hleft, hright⟩ :=
        partition_spec sp low h a (by omega) (by omega)
      obtain ⟨a2, hq1, hfr2, hs1⟩ :=
        ih low ((j : Int) - 1) a1 (by rw [hfr1.len]; omega) (by omega)
      obtain ⟨a3, hq2, hfr3, hs2⟩ :=
        ih (j + 1) (h : Int) a2 (by rw [hfr2.len, hfr1.len]; omega) (by push_cast; omega)
      refine ⟨a3, ?_, ?_, ?_⟩
      · simp only [quicksort]
        rw [if_pos hlt, hpart]
        simp only
        rw [hq1]
        simp only
        have e : ((j : Int) + 1) = ((j + 1 : Nat) : Int) := by push_cast; rfl
        rw [e]
        exact hq2
      · exact (hfr1.trans (hfr2.mono (le_refl _) (by omega))).trans (hfr3.mono (by omega) (le_refl _))
      · intro hto k1 k2 x y h1 h2 h3 hx hy
        have h3' : k2 ≤ h := by omega
        have a3lo : ∀ k, k ≤ j → a3[k]? = a2[k]? := fun k hk => hfr3.out k (Or.inl (by omega))
        have a2hi : ∀ k, j ≤ k → a2[k]? = a1[k]? := fun k hk => hfr2.out k (Or.inr (by omega))
        have Fmid : a3[j]? = some p := by rw [a3lo j (le_refl _), a2hi j (le_refl _)]; exact hpj
        have Fleft : ∀ k z, low ≤ k → k < j → a3[k]? = some z → sp.compare z p < 0 := by
          intro k z hk1 hk2 hz
          rw [a3lo k (by omega)] at hz
          have hfr2' : Frame low ((j - 1 : Nat) : Int) a1 a2 := hfr2.mono (le_refl _) (by omega)
          obtain ⟨k', hk'1, hk'2, hz'⟩ := frame_mem low (j - 1) a1 a2 hfr2' k hk1 (by omega) z hz
          obtain ⟨z', hz'', hc⟩ := hleft k' hk'1 (by omega)
          rw [hz'] at hz''
          cases hz''
          exact hc
        have Fright : ∀ k z, j < k → k ≤ h → a3[k]? = some z → ¬ sp.compare z p < 0 := by
          intro k z hk1 hk2 hz
          have hfr3' : Frame (j + 1) (h : Int) a2 a3 := hfr3
          obtain ⟨k', hk'1, hk'2, hz'⟩ := frame_mem (j + 1) h a2 a3 hfr3' k (by omega) hk2 z hz
          rw [a2hi k' (by omega)] at hz'
          obtain ⟨z', hz'', hc⟩ := hright k' (by omega) hk'2
          rw [hz'] at hz''
          cases hz''
          exact hc
        have Fpr : ∀ k z, j < k → k ≤ h → a3[k]? = some z → sp.compare p z ≤ 0 := by
          intro k z hk1 hk2 hz
          exact hto.total z p (by have := Fright k z hk1 hk2 hz; omega)
        rcases Nat.lt_trichotomy k1 j with hk1 | hk1 | hk1
        · rcases Nat.lt_trichotomy k2 j with hk2 | hk2 | hk2
          · rw [a3lo k1 (by omega)] at hx
            rw [a3lo k2 (by omega)] at hy
            exact hs1 hto k1 k2 x y h1 h2 (by omega) hx hy
          · subst hk2
            rw [Fmid] at hy
            cases hy
            have := Fleft k1 x h1 hk1 hx
            omega
          · have hxp := Fleft k1 x h1 hk1 hx
            exact hto.trans x p y (by omega) (Fpr k2 y hk2 h3' hy)
        · subst hk1
          rw [Fmid] at hx
          cases hx
          rcases Nat.eq_or_lt_of_le h2 with hk2 | hk2
          · subst hk2
            rw [Fmid] at hy
            cases hy
            exact hto.self_le _
          · exact Fpr k2 y hk2 h3' hy
        · exact hs2 hto k1 k2 x y (by omega) h2 h3 hx hy
    · refine ⟨a, ?_, Frame.refl _ _ _, ?_⟩
      · simp only [quicksort]
        rw [if_neg hlt]
      · intro hto k1 k2 x y h1 h2 h3 hx hy
        have : k1 = k2 := by omega
        subst this
        rw [hx] at hy
        cases hy
        exact hto.self_le _

end Lab6

namespace Lab6
variable {α : Type}

/-! ### The function `getElements` -/

theorem copyFilled_spec (sp : SET α) :
    ∀ (n i : Nat) (elts : List α),
      copyFilled sp n i elts = elts ++ (List.range' i n).filterMap
        (fun i => if flagAt sp i = FILLED then sp.data[i]? else none) := by
  intro n
  induction n with
  | zero => intro i elts; simp [copyFilled]
  | succ n ih =>
    intro i elts
    rw [List.range'_succ, List.filterMap_cons]
    simp only [copyFilled]
    by_cases hf : flagAt sp i = FILLED
    · rw [if_pos hf, if_pos hf]
      cases hd : sp.data[i]? with
      | none => simp only; exact ih _ _
      | some x =>
        simp only
        rw [ih]
        simp
    · rw [if_neg hf, if_neg hf]
      simp only
      exact ih _ _

theorem filled_length (sp : SET α) (hf : sp.flags.length = sp.length)
    (hd : sp.data.length = sp.length) :
    ∀ (n i : Nat), i + n = sp.length →
      ((List.range' i n).filterMap
        (fun i => if flagAt sp i = FILLED then sp.data[i]? else none)).length =
      (sp.flags.drop i).count FILLED := by
  intro n
  induction n with
  | zero =>
    intro i hi
    rw [List.drop_eq_nil_of_le (by omega)]
    simp
  | succ n ih =>
    intro i hi
    have hif : i < sp.flags.length := by omega
    have hid : i < sp.data.length := by omega
    rw [List.range'_succ, List.filterMap_cons, List.drop_eq_getElem_cons hif, List.count_cons]
    have hg : flagAt sp i = sp.flags[i] := flagAt_getElem sp i hif
    by_cases hfl : sp.flags[i] = FILLED
    · rw [if_pos (hg.trans hfl), List.getElem?_eq_getElem hid]
      simp only [List.length_cons]
      rw [ih (i + 1) (by omega)]
      simp [hfl]
    · rw [if_neg (fun e => hfl (hg.symm.trans e))]
      simp only
      rw [ih (i + 1) (by omega)]
      simp [hfl]

theorem filledInOrder_length (sp : SET α) (hwf : WF sp) :
    (filledInOrder sp).length = sp.flags.count FILLED := by
  unfold filledInOrder
  rw [List.range_eq_range', filled_length sp hwf.flen hwf.dlen sp.length 0 (by omega)]
  simp

/-- No two entries of `filledInOrder` compare equal when the table stores no
two equal elements. -/
theorem filledInOrder_pairwise (sp : SET α) (hn : NoDup sp) :
    (filledInOrder sp).Pairwise (fun a b => sp.compare a b ≠ 0) := by
  unfold filledInOrder
  rw [List.pairwise_filterMap]
  refine List.Pairwise.imp ?_ (List.nodup_range sp.length)
  intro i j hij x hx y hy hc
  apply hij
  by_cases hfi : flagAt sp i = FILLED
  · by_cases hfj : flagAt sp j = FILLED
    · rw [if_pos hfi] at hx
      rw [if_pos hfj] at hy
      exact hn i j x y ⟨hfi, hx⟩ ⟨hfj, hy⟩ hc
    · rw [if_neg hfj] at hy; cases hy
  · rw [if_neg hfi] at hx; cases hx

/-- In a reachable state `getElements` returns an array obtained from the
contents of the `FILLED` slots by rearranging them, non-decreasing when
`compare` is a total order. -/
theorem getElements_spec (sp : SET α) (hr : Reachable sp) :
    ∃ r, getElements sp = some r ∧ Frame 0 (sp.count - 1) (filledInOrder sp) r ∧
      ((filledInOrder sp).length : Int) = sp.count ∧
      (TotalOrder sp.compare → ∀ (k1 k2 : Nat) (x y : α), k1 ≤ k2 →
        (k2 : Int) ≤ sp.count - 1 → r[k1]? = some x → r[k2]? = some y → sp.compare x y ≤ 0) := by
  obtain ⟨hwf, hcnt⟩ := reachable_wf_count sp hr
  have hlen : ((filledInOrder sp).length : Int) = sp.count := by
    rw [filledInOrder_length sp hwf]; exact hcnt.symm
  have hcopy : copyFilled sp sp.length 0 [] = filledInOrder sp := by
    rw [copyFilled_spec, List.nil_append, ← List.range_eq_range']
    rfl
  obtain ⟨r, hq, hfr, hs⟩ := quicksort_spec sp (filledInOrder sp).length 0 (sp.count - 1)
    (filledInOrder sp) (by omega) (by push_cast; omega)
  refine ⟨r, ?_, hfr, hlen, fun hto k1 k2 x y h1 h2 hx hy =>
    hs hto k1 k2 x y (Nat.zero_le _) h1 h2 hx hy⟩
  unfold getElements
  simp only [hcopy]
  rw [if_pos hlen]
  exact hq

theorem natCompare_totalOrder : TotalOrder natCompare := by
  refine ⟨?_, ?_⟩
  · intro a b; unfold natCompare; omega
  · intro a b c; unfold natCompare; omega

/-- C7 (Lab 6, snapshot completeness).  In every reachable state
`getElements` returns an array of exactly `count` elements that is a
permutation of the contents of the `FILLED` slots; with lawful `compare` and
`hash` no two of its entries compare equal. -/
theorem getElements_complete (sp : SET α) (hr : Reachable sp) :
    ∃ r, getElements sp = some r ∧ (r.length : Int) = sp.count ∧
      r.Perm (filledInOrder sp) ∧
      (Lawful sp → r.Pairwise (fun a b => sp.compare a b ≠ 0)) := by
  obtain ⟨r, hget, hfr, hlen, _⟩ := getElements_spec sp hr
  refine ⟨r, hget, by rw [hfr.len]; exact hlen, hfr.perm, ?_⟩
  intro hl
  have hsymm : ∀ {x y : α}, sp.compare x y ≠ 0 → sp.compare y x ≠ 0 :=
    fun h e => h (hl.symm _ _ e)
  exact (List.Perm.pairwise_iff hsymm hfr.perm).2
    (filledInOrder_pairwise sp (reachable_noDup sp hr hl))

/-- Witness of `getElements_complete` on the example table that holds 2, 7, 12. -/
theorem getElements_complete_witness :
    ∃ r, getElements ex5abc = some r ∧ (r.length : Int) = ex5abc.count ∧
      r.Perm (filledInOrder ex5abc) ∧
      (Lawful ex5abc → r.Pairwise (fun a b => ex5abc.compare a b ≠ 0)) :=
  getElements_complete ex5abc ex5abc_reachable

/-- C8 (Lab 6, snapshot ordering).  In every reachable state, when `compare`
is a total order, the array returned by `getElements` is non-decreasing:
`compare(a[i], a[i+1]) ≤ 0` for all `0 ≤ i < count - 1`. -/
theorem getElements_sorted (sp : SET α) (hr : Reachable sp) (hto : TotalOrder sp.compare) :
    ∃ r, getElements sp = some r ∧ (r.length : Int) = sp.count ∧
      ∀ (i : Nat) (x y : α), r[i]? = some x → r[i + 1]? = some y → sp.compare x y ≤ 0 := by
  obtain ⟨r, hget, hfr, hlen, hs⟩ := getElements_spec sp hr
  have hrl : (r.length : Int) = sp.count := by rw [hfr.len]; exact hlen
  refine ⟨r, hget, hrl, ?_⟩
  intro i x y hx hy
  have := lt_length_of_getElem? r (i + 1) y hy
  exact hs hto i (i + 1) x y (by omega) (by omega) hx hy

/-- Witness of `getElements_sorted` on the example table that holds 2, 7, 12. -/
theorem getElements_sorted_witness :
    ∃ r, getElements ex5abc = some r ∧ (r.length : Int) = ex5abc.count ∧
      ∀ (i : Nat) (x y : Nat), r[i]? = some x → r[i + 1]? = some y →
        ex5abc.compare x y ≤ 0 :=
  getElements_sorted ex5abc ex5abc_reachable natCompare_totalOrder

end Lab6

namespace Lab3S

/-! ### Lab 3 string table: the probing loop of `search` -/

/-- A match reported by the loop is a slot that holds a live string equal to `elt`. -/
theorem str_searchLoop_found (sp : SET) (elt : String) (start : Nat) :
    ∀ (n i : Nat) (df : Bool) (di l : Int),
      searchLoop sp elt start n i df di = some (l, true) →
      ∃ (j : Nat) (s : String), l = (j : Int) ∧ sp.data[j]? = some (Ptr.live s) ∧
        flagAt sp j ≠ EMPTY ∧ strcmp s elt = 0 := by
  intro n
  induction n with
  | zero => intro i df di l h; simp [searchLoop] at h
  | succ n ih =>
    intro i df di l h
    simp only [searchLoop] at h
    split at h
    · simp at h
    · rename_i hE
      split at h
      · exact ih _ _ _ _ h
      · split at h
        · rename_i s hs
          split at h
          · rename_i hc
            simp only [Option.some.injEq, Prod.mk.injEq, and_true] at h
            exact ⟨_, s, h.symm, hs, hE, hc⟩
          · exact ih _ _ _ _ h
        · cases h

/-- The location returned without a match is the incoming `deleteIndex`, or a
slot that is `EMPTY` or `DELETED`. -/
theorem str_searchLoop_locn (sp : SET) (elt : String) (start : Nat) :
    ∀ (n i : Nat) (df : Bool) (di l : Int),
      searchLoop sp elt start n i df di = some (l, false) →
      l = di ∨ ∃ j : Nat, l = (j : Int) ∧ (flagAt sp j = EMPTY ∨ flagAt sp j = DELETED) := by
  intro n
  induction n with
  | zero =>
    intro i df di l h
    simp only [searchLoop, Option.some.injEq, Prod.mk.injEq, and_true] at h
    exact Or.inl h.symm
  | succ n ih =>
    intro i df di l h
    simp only [searchLoop] at h
    split at h
    · rename_i hE
      simp only [Option.some.injEq, Prod.mk.injEq, and_true] at h
      cases df with
      | true => simp only [if_true] at h; exact Or.inl h.symm
      | false =>
        simp only [Bool.false_eq_true, if_false] at h
        exact Or.inr ⟨_, h.symm, Or.inl hE⟩
    · split at h
      · rename_i hD
        rcases ih _ _ _ _ h with h1 | h1
        · exact Or.inr ⟨_, h1, Or.inr hD.1⟩
        · exact Or.inr h1
      · split at h
        · split at h
          · simp at h
          · exact ih _ _ _ _ h
        · cases h

/-! ### What `addElement` and `removeElement` do when they return -/

theorem str_addElement_returned (sp sp' : SET) (elt : String)
    (h : addElement sp elt = Outcome.returned sp') :
    sp' = sp ∨
    (∃ l : Nat, l < sp.data.length ∧ l < sp.flags.length ∧
      (flagAt sp l = EMPTY ∨ flagAt sp l = DELETED) ∧
      sp' = { sp with data := sp.data.set l (Ptr.live elt), flags := sp.flags.set l FILLED,
                      count := sp.count + 1 }) := by
  unfold addElement at h
  split at h
  · split at h
    · cases h
    · rename_i location found hs
      cases found with
      | true =>
        simp only [if_true, Outcome.returned.injEq] at h
        exact Or.inl h.symm
      | false =>
        simp only [Bool.false_eq_true, if_false] at h
        split at h
        · rename_i d hd
          split at h
          · rename_i f hf
            obtain ⟨l, hl, hlt, hd'⟩ := writeAt_some _ _ _ _ hd
            obtain ⟨l', hl', hlt', hf'⟩ := writeAt_some _ _ _ _ hf
            have : l' = l := by omega
            subst this
            subst hl
            right
            refine ⟨l', hlt, hlt', ?_, ?_⟩
            · rcases str_searchLoop_locn sp elt _ _ _ _ _ _ hs with h1 | ⟨j, hj, hflag⟩
              · omega
              · have : j = l' := by omega
                subst this
                exact hflag
            · simp only [Outcome.returned.injEq] at h
              rw [← h, hd', hf']
          · cases h
        · cases h
  · cases h

theorem str_removeElement_returned (sp sp' : SET) (elt : String)
    (h : removeElement sp elt = Outcome.returned sp') :
    sp' = sp ∨
    (∃ (l : Nat) (s : String), l < sp.data.length ∧ l < sp.flags.length ∧
      sp.data[l]? = some (Ptr.live s) ∧
      sp' = { sp with data := sp.data.set l Ptr.freed, flags := sp.flags.set l DELETED,
                      count := sp.count - 1 }) := by
  unfold removeElement at h
  split at h
  · cases h
  · rename_i location found hs
    cases found with
    | false =>
      simp only [if_true, Outcome.returned.injEq] at h
      exact Or.inl h.symm
    | true =>
      simp only [Bool.true_eq_false, if_false] at h
      split at h
      · rename_i s hr
        split at h
        · rename_i d f hd hf
          obtain ⟨l, hl, hlt, hd'⟩ := writeAt_some _ _ _ _ hd
          obtain ⟨l', hl', hlt', hf'⟩ := writeAt_some _ _ _ _ hf
          have : l' = l := by omega
          subst this
          subst hl
          right
          rw [readAt_nat] at hr
          refine ⟨l', s, hlt, hlt', hr, ?_⟩
          simp only [Outcome.returned.injEq] at h
          rw [← h, hd', hf']
        · cases h
      · cases h

end Lab3S

namespace Lab3S

/-! ### Lab 3 string table: shape of the reachable states -/

theorem str_createSet_flagAt (n : Nat) (f0 : Nat → Nat) (i : Nat) :
    flagAt (createSet n f0) i = EMPTY := by
  unfold flagAt createSet
  simp only
  rw [clearFlags_getD]
  by_cases h : 0 ≤ i ∧ i < 0 + n
  · rw [if_pos h]
  · rw [if_neg h]
    rw [List.getD_eq_getElem?_getD, List.getElem?_eq_none]
    · rfl
    · simp; omega

theorem str_createSet_inv (n : Nat) (f0 : Nat → Nat) : Inv (createSet n f0) := by
  refine ⟨?_, ?_, ?_, ?_⟩
  · simp [createSet, clearFlags_length]
  · simp [createSet]
  · rw [count_eq_zero_of_flagAt _ (fun i => str_createSet_flagAt n f0 i)]
    rfl
  · intro i s h
    simp only [createSet] at h
    rw [List.getElem?_replicate] at h
    split at h <;> cases h

theorem str_addElement_inv (sp sp' : SET) (elt : String) (hinv : Inv sp)
    (h : addElement sp elt = Outcome.returned sp') : Inv sp' := by
  rcases str_addElement_returned sp sp' elt h with h1 | ⟨l, hld, hlf, hflag, h1⟩
  · rw [h1]; exact hinv
  · subst h1
    refine ⟨?_, ?_, ?_, ?_⟩
    · simpa using hinv.flen
    · simpa using hinv.dlen
    · simp only
      rw [List.count_set _ _ _ _ hlf, hinv.cnt]
      have hne : (sp.flags[l] == FILLED) = false := by
        unfold flagAt at hflag
        rw [getD_getElem _ _ _ hlf] at hflag
        rcases hflag with hf | hf <;> rw [hf] <;> decide
      simp [hne]
    · intro i s hi
      simp only [flagAt]
      rw [getD_set_eq _ _ _ _ _ hlf]
      by_cases hil : i = l
      · rw [if_pos hil]
      · rw [if_neg hil]
        simp only [List.getElem?_set] at hi
        rw [if_neg (fun e => hil e.symm)] at hi
        exact hinv.live i s hi

theorem str_removeElement_inv (sp sp' : SET) (elt : String) (hinv : Inv sp)
    (h : removeElement sp elt = Outcome.returned sp') : Inv sp' := by
  rcases str_removeElement_returned sp sp' elt h with h1 | ⟨l, s, hld, hlf, hlive, h1⟩
  · rw [h1]; exact hinv
  · subst h1
    have hfl : sp.flags[l] = FILLED := by
      have := hinv.live l s hlive
      unfold flagAt at this
      rwa [getD_getElem _ _ _ hlf] at this
    refine ⟨?_, ?_, ?_, ?_⟩
    · simpa using hinv.flen
    · simpa using hinv.dlen
    · simp only
      rw [List.count_set _ _ _ _ hlf, hinv.cnt]
      have hpos : 0 < sp.flags.count FILLED := by
        rw [List.count_pos_iff, ← hfl]
        exact List.getElem_mem hlf
      simp [hfl]
      omega
    · intro i s' hi
      simp only [List.getElem?_set] at hi
      by_cases hil : l = i
      · rw [if_pos hil, if_pos hld] at hi
        cases hi
      · rw [if_neg hil] at hi
        simp only [flagAt]
        rw [getD_set_eq _ _ _ _ _ hlf, if_neg (fun e => hil e.symm)]
        exact hinv.live i s' hi

/-- Every reachable state of the string table has the shape `Inv`. -/
theorem str_reachable_inv (sp : SET) (h : Reachable sp) : Inv sp := by
  induction h with
  | create n f0 _ => exact str_createSet_inv n f0
  | add sp sp' elt _ hadd ih => exact str_addElement_inv sp sp' elt ih hadd
  | remove sp sp' elt _ hrem ih => exact str_removeElement_inv sp sp' elt ih hrem

/-! ### The copying loop of `getElements` -/

theorem filledOf_cons (f : Nat) (fs : List Nat) (d : Ptr) (ds : List Ptr) :
    filledOf (f :: fs) (d :: ds) =
      if f = FILLED then d :: filledOf fs ds else filledOf fs ds := by
  unfold filledOf
  by_cases h : f = FILLED
  · simp [h, List.filter_cons]
  · simp [h, List.filter_cons]

theorem filledOf_length : ∀ (fs : List Nat) (ds : List Ptr), fs.length = ds.length →
    (filledOf fs ds).length = fs.count FILLED := by
  intro fs
  induction fs with
  | nil => intro ds _; simp [filledOf]
  | cons f fs ih =>
    intro ds hlen
    cases ds with
    | nil => simp at hlen
    | cons d ds =>
      rw [filledOf_cons, List.count_cons]
      have := ih ds (by simpa using hlen)
      by_cases h : f = FILLED
      · simp [h, this]
      · simp [h, this]

theorem set_append_length (pre : List Ptr) (q p : Ptr) (suf : List Ptr) :
    (pre ++ q :: suf).set pre.length p = pre ++ p :: suf := by
  induction pre with
  | nil => rfl
  | cons a pre ih => simp [ih]

theorem copyLoop_spec (sp : SET) (hf : sp.flags.length = sp.length)
    (hd : sp.data.length = sp.length) :
    ∀ (n i : Nat) (pre suf : List Ptr), i + n = sp.length →
      suf.length = (filledOf (sp.flags.drop i) (sp.data.drop i)).length →
      copyLoop sp n i (pre.length : Int) (pre ++ suf) =
        some (pre ++ filledOf (sp.flags.drop i) (sp.data.drop i)) := by
  intro n
  induction n with
  | zero =>
    intro i pre suf hi hsuf
    have h1 : sp.flags.drop i = [] := List.drop_eq_nil_of_le (by omega)
    rw [h1] at hsuf ⊢
    simp only [filledOf, List.zip_nil_left, List.filter_nil, List.map_nil, List.length_nil,
      List.length_eq_zero] at hsuf
    subst hsuf
    simp [copyLoop, filledOf]
  | succ n ih =>
    intro i pre suf hi hsuf
    have hif : i < sp.flags.length := by omega
    have hid : i < sp.data.length := by omega
    rw [List.drop_eq_getElem_cons hif, List.drop_eq_getElem_cons hid, filledOf_cons] at hsuf ⊢
    have hg : sp.flags.getD i EMPTY = sp.flags[i] := getD_getElem _ _ _ hif
    simp only [copyLoop, flagAt]
    by_cases hfl : sp.flags[i] = FILLED
    · rw [if_pos hfl] at hsuf ⊢
      rw [if_pos (hg.trans hfl), List.getElem?_eq_getElem hid]
      cases suf with
      | nil => simp at hsuf
      | cons q suf' =>
        simp only
        rw [writeAt_nat _ _ _ (by simp), set_append_length]
        simp only
        have := ih (i + 1) (pre ++ [sp.data[i]]) suf' (by omega) (by simpa using hsuf)
        simp only [List.length_append, List.length_singleton, Nat.cast_add, Nat.cast_one,
          List.append_assoc, List.singleton_append] at this
        exact this
    · rw [if_neg hfl] at hsuf ⊢
      rw [if_neg (fun e => hfl (hg.symm.trans e))]
      exact ih (i + 1) pre suf (by omega) hsuf

end Lab3S

namespace Lab3S

/-! ### Lab 3 string table: tombstones and the snapshot -/

theorem str_reachable_run (ops : List (Bool × String)) :
    ∀ (sp sp' : SET), Reachable sp → run sp ops = Outcome.returned sp' → Reachable sp' := by
  induction ops with
  | nil =>
    intro sp sp' hr h
    simp only [run, Outcome.returned.injEq] at h
    rw [← h]; exact hr
  | cons op rest ih =>
    intro sp sp' hr h
    obtain ⟨b, e⟩ := op
    cases b with
    | true =>
      simp only [run] at h
      split at h
      · rename_i s hs
        exact ih s sp' (Reachable.add sp s e hr hs) h
      · rename_i o hne
        rw [h] at hne
        exact absurd rfl (hne sp')
    | false =>
      simp only [run] at h
      split at h
      · rename_i s hs
        exact ih s sp' (Reachable.remove sp s e hr hs) h
      · rename_i o hne
        rw [h] at hne
        exact absurd rfl (hne sp')

theorem new5_reachable : Reachable new5 := Reachable.create 5 (fun _ => 9) (by decide)

theorem mixed5_reachable : Reachable mixed5 :=
  str_reachable_run [(true, "a"), (true, "b"), (true, "c"), (false, "b"), (true, "d")]
    new5 mixed5 new5_reachable (by decide)

/-- C3 (Lab 3 string table, remove-then-find), evaluated at the input of the
claim: capacity 5, add "a", add "f", remove "a", remove "f" leaves slots 2 and
3 as tombstones, and `findElement("f")` then passes the freed pointer of slot
3 to `strcmp`, so its result is undefined instead of `NULL`. -/
theorem find_after_two_tombstones :
    run new5 [(true, "a"), (true, "f"), (false, "a"), (false, "f")] =
      Outcome.returned twoTombstones ∧
    search twoTombstones "f" = none ∧
    findElement twoTombstones "f" = Result.undefined := by
  decide

/-- C9 as stated fails: after capacity 5, add "a", "b", "c", remove "b",
add "d" the state is reachable and `getElements` returns "d", "a", "c", which
is not non-decreasing under `strcmp`. -/
theorem getElements_unsorted :
    Reachable mixed5 ∧
    getElements mixed5 = some [Ptr.live "d", Ptr.live "a", Ptr.live "c"] ∧
    nonDecreasing [Ptr.live "d", Ptr.live "a", Ptr.live "c"] = false ∧
    0 < strcmp "d" "a" :=
  ⟨mixed5_reachable, by decide, by decide, by decide⟩

/-- C9 (amended).  In every reachable state of the string table,
`getElements` returns the `count` pointers stored in the `FILLED` slots, in
ascending slot order (no sorting takes place). -/
theorem getElements_slot_order (sp : SET) (hr : Reachable sp) :
    getElements sp = some (filledInOrder sp) ∧
    ((filledInOrder sp).length : Int) = sp.count := by
  have hinv := str_reachable_inv sp hr
  have hlen : (filledOf sp.flags sp.data).length = sp.flags.count FILLED :=
    filledOf_length sp.flags sp.data (by rw [hinv.flen, hinv.dlen])
  constructor
  · have := copyLoop_spec sp hinv.flen hinv.dlen sp.length 0 []
      (List.replicate sp.count.toNat Ptr.uninit) (by omega) (by
        rw [List.drop_zero, List.drop_zero, hlen, List.length_replicate, hinv.cnt]
        simp)
    simpa [getElements, filledInOrder] using this
  · unfold filledInOrder
    rw [hlen, hinv.cnt]

/-- Witness of `getElements_slot_order` on the example state `mixed5`. -/
theorem getElements_slot_order_witness :
    getElements mixed5 = some (filledInOrder mixed5) ∧
    ((filledInOrder mixed5).length : Int) = mixed5.count :=
  getElements_slot_order mixed5 mixed5_reachable

end Lab3S

namespace Lab6
variable {α : Type}

/-! ### Absent elements and operations on other elements -/

theorem ex5abc_holds (i y : Nat) (h : Holds ex5abc i y) : y = 2 ∨ y = 7 ∨ y = 12 := by
  have hi : i < 5 := lt_length_of_getElem? _ i y h.2
  have h1 := h.1
  have h2 := h.2
  interval_cases i
  · exact absurd h1 (by decide)
  · exact absurd h1 (by decide)
  · cases h2; exact Or.inl rfl
  · cases h2; exact Or.inr (Or.inl rfl)
  · cases h2; exact Or.inr (Or.inr rfl)

theorem ex5abc_absent (e : Nat) (h2 : e ≠ 2) (h7 : e ≠ 7) (h12 : e ≠ 12) :
    ∀ i y, Holds ex5abc i y → ex5abc.compare y e ≠ 0 := by
  intro i y hy
  have hc : ex5abc.compare y e = natCompare y e := rfl
  rw [hc]
  unfold natCompare
  rcases ex5abc_holds i y hy with h | h | h <;> omega

/-- The result of `findElement` only depends on which stored elements are
equal to the element looked up. -/
theorem findElement_congr (s s' : SET α) (x : α) (hwf : WF s) (hwf' : WF s')
    (hl : Lawful s) (hc : s'.compare = s.compare) (hh : s'.hash = s.hash)
    (hp : ProbeInv s) (hp' : ProbeInv s') (hn : NoDup s) (hn' : NoDup s')
    (hsame : ∀ y, s.compare y x = 0 → ((∃ i, Holds s i y) ↔ (∃ i, Holds s' i y))) :
    findElement s' x = findElement s x := by
  have hl' : Lawful s' := lawful_of_eq s' s hc.symm hh.symm hl
  by_cases h : ∃ i y, Holds s i y ∧ s.compare y x = 0
  · obtain ⟨i, y, hy, hcy⟩ := h
    obtain ⟨j, hj⟩ := (hsame y hcy).1 ⟨i, hy⟩
    rw [findElement_of_holds s x hwf hl hp hn i y hy hcy,
      findElement_of_holds s' x hwf' hl' hp' hn' j y hj (by rw [hc]; exact hcy)]
  · have habs : ∀ i y, Holds s i y → s.compare y x ≠ 0 := fun i y hy hcy => h ⟨i, y, hy, hcy⟩
    have habs' : ∀ i y, Holds s' i y → s'.compare y x ≠ 0 := by
      intro i y hy hcy
      rw [hc] at hcy
      obtain ⟨j, hj⟩ := (hsame y hcy).2 ⟨i, hy⟩
      exact habs j y hj hcy
    rw [findElement_none s x hwf habs, findElement_none s' x hwf' habs']

/-- C14 (Lab 6, expected absence).  In every reachable state, for an element
`e` that compares equal to no stored element, `findElement(e)` returns `NULL`
and `removeElement(e)` returns with the set (count, flags, data) unchanged. -/
theorem absent_find_remove (sp : SET α) (e : α) (hr : Reachable sp)
    (habs : ∀ i y, Holds sp i y → sp.compare y e ≠ 0) :
    findElement sp e = none ∧ removeElement sp e = Outcome.returned sp := by
  obtain ⟨hwf, _⟩ := reachable_wf_count sp hr
  refine ⟨findElement_none sp e hwf habs, ?_⟩
  have hnf := search_absent sp e hwf habs
  cases hs : search sp e with
  | mk locn found =>
    rw [hs] at hnf
    simp only at hnf
    subst hnf
    unfold removeElement
    rw [hs]
    rfl

/-- Witness of `absent_find_remove`: 3 is not in the example table that holds 2, 7, 12. -/
theorem absent_find_remove_witness :
    findElement ex5abc 3 = none ∧ removeElement ex5abc 3 = Outcome.returned ex5abc :=
  absent_find_remove ex5abc 3 ex5abc_reachable
    (ex5abc_absent 3 (by decide) (by decide) (by decide))

/-- C15 (Lab 6, operations on other elements).  In a reachable state with
lawful `compare` and `hash`, for `x` with `compare(x, e) != 0`, a call of
`addElement(e)` or of `removeElement(e)` that returns does not change the
result of `findElement(x)`. -/
theorem find_unaffected (sp : SET α) (e x : α) (hr : Reachable sp) (hl : Lawful sp)
    (hne : sp.compare x e ≠ 0) :
    (∀ s', addElement sp e = Outcome.returned s' → findElement s' x = findElement sp x) ∧
    (∀ s', removeElement sp e = Outcome.returned s' → findElement s' x = findElement sp x) := by
  obtain ⟨hwf, _⟩ := reachable_wf_count sp hr
  have hp := reachable_probeInv sp hr
  have hn := reachable_noDup sp hr hl
  constructor
  · intro s' hadd
    have hr' : Reachable s' := Reachable.add sp s' e hr hadd
    obtain ⟨hc, hh, _⟩ := addElement_compare sp s' e hadd
    have hl' : Lawful s' := lawful_of_eq s' sp hc.symm hh.symm hl
    refine findElement_congr sp s' x hwf (reachable_wf_count s' hr').1 hl hc hh hp
      (reachable_probeInv s' hr') hn (reachable_noDup s' hr' hl') ?_
    intro y hcy
    rcases addElement_returned sp s' e hadd with ⟨_, h1⟩ | ⟨l, hs, _, hld, hlf, h1⟩
    · rw [h1]
    · subst h1
      obtain ⟨_, _, _, hfl, _⟩ := search_free sp e l hs
      constructor
      · rintro ⟨i, hy⟩
        refine ⟨i, (holds_add sp _ l e i y hlf hld).2 (Or.inr ⟨?_, hy⟩)⟩
        intro hil
        subst hil
        rw [hy.1] at hfl
        rcases hfl with h | h <;> exact absurd h (by decide)
      · rintro ⟨i, hy⟩
        rcases (holds_add sp _ l e i y hlf hld).1 hy with ⟨_, hye⟩ | ⟨_, hy'⟩
        · subst hye
          exact absurd (hl.symm _ _ hcy) hne
        · exact ⟨i, hy'⟩
  · intro s' hrem
    have hr' : Reachable s' := Reachable.remove sp s' e hr hrem
    obtain ⟨hc, hh, _⟩ := removeElement_compare sp s' e hrem
    have hl' : Lawful s' := lawful_of_eq s' sp hc.symm hh.symm hl
    refine findElement_congr sp s' x hwf (reachable_wf_count s' hr').1 hl hc hh hp
      (reachable_probeInv s' hr') hn (reachable_noDup s' hr' hl') ?_
    intro y hcy
    rcases removeElement_returned sp s' e hrem with ⟨_, h1⟩ | ⟨l, hs, hlf, h1⟩
    · rw [h1]
    · subst h1
      obtain ⟨j, z, hj, _, hz, hcz⟩ := search_found sp e _ hwf hs
      have hjl : j = l := by omega
      subst hjl
      constructor
      · rintro ⟨i, hy⟩
        refine ⟨i, (holds_remove sp _ j i y hlf).2 ⟨?_, hy⟩⟩
        intro hij
        subst hij
        have h2 := hy.2
        rw [hz.2] at h2
        cases h2
        exact hne (hl.trans _ _ _ (hl.symm _ _ hcy) hcz)
      · rintro ⟨i, hy⟩
        exact ⟨i, ((holds_remove sp _ j i y hlf).1 hy).2⟩

/-- Witness of `find_unaffected`: operations on 7 and the lookup of 12 in the
example table that holds 2, 7, 12. -/
theorem find_unaffected_witness :
    (∀ s', addElement ex5abc 7 = Outcome.returned s' →
      findElement s' 12 = findElement ex5abc 12) ∧
    (∀ s', removeElement ex5abc 7 = Outcome.returned s' →
      findElement s' 12 = findElement ex5abc 12) :=
  find_unaffected ex5abc 7 12 ex5abc_reachable (natCompare_lawful ex5abc rfl rfl) (by decide)

end Lab6

namespace Lab3S

/-! ### Lab 3 string table: the scenario of the specification -/

theorem createSet5_eq (flags0 : Nat → Nat) : createSet 5 flags0 = new5 := rfl

/-- C16 (Lab 3 string table, concrete scenario).  Starting from
`createSet(5)`, after add "a", add "b", add "c", remove "b", add "d":
`numElements` is 3, `findElement("b")` is `NULL`, `findElement` of "a", "c"
and "d" each return a live copy of the same string, and `getElements` returns
the three strings "a", "c", "d" (in the order "d", "a", "c"). -/
theorem concrete_scenario (flags0 : Nat → Nat) :
    run (createSet 5 flags0)
      [(true, "a"), (true, "b"), (true, "c"), (false, "b"), (true, "d")] =
      Outcome.returned mixed5 ∧
    numElements mixed5 = 3 ∧
    findElement mixed5 "b" = Result.value none ∧
    findElement mixed5 "a" = Result.value (some (Ptr.live "a")) ∧
    findElement mixed5 "c" = Result.value (some (Ptr.live "c")) ∧
    findElement mixed5 "d" = Result.value (some (Ptr.live "d")) ∧
    getElements mixed5 = some [Ptr.live "d", Ptr.live "a", Ptr.live "c"] ∧
    [Ptr.live "d", Ptr.live "a", Ptr.live "c"].Perm
      [Ptr.live "a", Ptr.live "c", Ptr.live "d"] := by
  rw [createSet5_eq]
  refine ⟨by decide, by decide, by decide, by decide, by decide, by decide, by decide, ?_⟩
  decide

end Lab3S

namespace Lab6
variable {α : Type}

/-! ### Reuse of tombstones -/

/-- In a full reachable Lab 6 table, removing a stored element and then adding
a new element succeeds and fills the table again: the removal turns a slot `l`
into a tombstone and the insertion stores the new element in that slot. -/
theorem remove_then_add_full (sp : SET α) (x e : α) (hr : Reachable sp) (hl : Lawful sp)
    (hfull : sp.count = (sp.length : Int)) (hx : ∃ i, Holds sp i x)
    (habs : ∀ i y, Holds sp i y → sp.compare y e ≠ 0) :
    ∃ (s1 s2 : SET α) (l : Nat), removeElement sp x = Outcome.returned s1 ∧
      addElement s1 e = Outcome.returned s2 ∧ s2.count = (sp.length : Int) ∧
      l < sp.length ∧ flagAt sp l = FILLED ∧
      s1.flags = sp.flags.set l DELETED ∧ s1.data = sp.data ∧
      s2.flags = sp.flags.set l FILLED ∧ s2.data = sp.data.set l e ∧
      Holds s2 l e := by
  obtain ⟨hwf, hcnt⟩ := reachable_wf_count sp hr
  have hp := reachable_probeInv sp hr
  obtain ⟨i, hix⟩ := hx
  obtain ⟨s1, hrem⟩ := removeElement_progress sp x hwf
  have hr1 : Reachable s1 := Reachable.remove sp s1 x hr hrem
  obtain ⟨hwf1, hcnt1⟩ := reachable_wf_count s1 hr1
  rcases removeElement_returned sp s1 x hrem with ⟨hf, _⟩ | ⟨l, hs, hlf, h1⟩
  · have := search_complete sp x hp i x hix (hl.refl x) rfl
    rw [hf] at this
    cases this
  · have hc1 : s1.count = sp.count - 1 := by rw [h1]
    have hlen1 : s1.length = sp.length := by rw [h1]
    have hfl1 : s1.flags = sp.flags.set l DELETED := by rw [h1]
    have hd1 : s1.data = sp.data := by rw [h1]
    have hll : l < sp.length := by rw [← hwf.flen]; exact hlf
    have hlt : s1.count < (s1.length : Int) := by rw [hc1, hlen1]; omega
    obtain ⟨s2, hadd⟩ := addElement_progress s1 e hwf1 hcnt1 hlt
    have habs1 : ∀ i y, Holds s1 i y → s1.compare y e ≠ 0 := by
      intro j y hy
      rw [h1] at hy
      have := habs j y ((holds_remove sp _ l j y hlf).1 hy).2
      rw [h1]
      exact this
    have hnf := search_absent s1 e hwf1 habs1
    rcases addElement_returned s1 s2 e hadd with ⟨hf, _⟩ | ⟨l2, hs2, _, hld2, hlf2, h2⟩
    · rw [hnf] at hf; cases hf
    · have hl2 : l2 = l := by
        by_contra hne
        obtain ⟨_, _, _, hfree, _⟩ := search_free s1 e l2 hs2
        have hl2f : l2 < sp.flags.length := by
          rw [hfl1, List.length_set] at hlf2; exact hlf2
        have hfl : flagAt s1 l2 = FILLED := by
          rw [h1, flagAt_set sp sp.data _ l DELETED l2 hlf, if_neg hne]
          exact all_filled sp hwf hcnt hfull l2 (by rw [← hwf.flen]; exact hl2f)
        rw [hfl] at hfree
        rcases hfree with h | h <;> cases h
      subst hl2
      refine ⟨s1, s2, l2, hrem, hadd, ?_, hll, all_filled sp hwf hcnt hfull l2 hll,
        hfl1, hd1, ?_, ?_, ?_⟩
      · rw [h2]
        simp only
        rw [hc1]
        omega
      · rw [h2]
        simp only
        rw [hfl1, List.set_set]
      · rw [h2]
        simp only
        rw [hd1]
      · rw [h2]
        exact (holds_add s1 _ l2 e l2 e hlf2 hld2).2 (Or.inl ⟨rfl, rfl⟩)

theorem exFull_holds (i y : Nat) (h : Holds exFull i y) : y = 0 ∨ y = 1 := by
  have hi : i < 2 := lt_length_of_getElem? _ i y h.2
  have h2 := h.2
  interval_cases i
  · cases h2; exact Or.inl rfl
  · cases h2; exact Or.inr rfl

end Lab6

/-! ## Probe walks modulo the capacity -/

theorem probe_slot_surj (len start j : Nat) (hs : start < len) (hj : j < len) :
    ∃ k, k < len ∧ (start + k) % len = j := by
  refine ⟨(j + len - start) % len, Nat.mod_lt _ (by omega), ?_⟩
  rw [Nat.add_mod_mod]
  have : start + (j + len - start) = j + len := by omega
  rw [this, Nat.add_mod_right, Nat.mod_eq_of_lt hj]

theorem probe_slot_inj (len start k1 k2 : Nat) (h1 : k1 < len) (h2 : k2 < len)
    (h : (start + k1) % len = (start + k2) % len) : k1 = k2 := by
  have hm : Nat.ModEq len (start + k1) (start + k2) := h
  have hm' : Nat.ModEq len k1 k2 := Nat.ModEq.add_left_cancel' start hm
  have := Nat.ModEq.eq_of_lt_of_lt hm' h1 h2
  exact this

namespace Lab3S

/-! ### Lab 3 string table: reuse of the tombstone of a full table -/

theorem strcmpChars_self : ∀ a : List Char, strcmpChars a a = 0 := by
  intro a
  induction a with
  | nil => rfl
  | cons c a ih => simp [strcmpChars, ih]

theorem strcmp_self (a : String) : strcmp a a = 0 := strcmpChars_self _

theorem str_createSet_data (n : Nat) (f0 : Nat → Nat) (i : Nat) (s : String) :
    (createSet n f0).data[i]? ≠ some (Ptr.live s) := by
  intro h
  simp only [createSet] at h
  rw [List.getElem?_replicate] at h
  split at h <;> cases h

/-- In a reachable state every `FILLED` slot holds a live string. -/
theorem str_reachable_filled_live (sp : SET) (h : Reachable sp) :
    ∀ i, i < sp.length → flagAt sp i = FILLED → ∃ s, sp.data[i]? = some (Ptr.live s) := by
  induction h with
  | create n f0 _ =>
    intro i _ hf
    rw [str_createSet_flagAt] at hf
    exact absurd hf (by decide)
  | add sp sp' elt hr hadd ih =>
    rcases str_addElement_returned sp sp' elt hadd with h1 | ⟨l, hld, hlf, _, h1⟩
    · rw [h1]; exact ih
    · subst h1
      intro i hi hf
      simp only [flagAt] at hf
      rw [getD_set_eq _ _ _ _ _ hlf] at hf
      simp only [List.getElem?_set]
      by_cases hil : i = l
      · subst hil
        exact ⟨elt, by simp [hld]⟩
      · rw [if_neg hil] at hf
        rw [if_neg (fun e => hil e.symm)]
        exact ih i hi hf
  | remove sp sp' elt hr hrem ih =>
    rcases str_removeElement_returned sp sp' elt hrem with h1 | ⟨l, s, hld, hlf, _, h1⟩
    · rw [h1]; exact ih
    · subst h1
      intro i hi hf
      simp only [flagAt] at hf
      rw [getD_set_eq _ _ _ _ _ hlf] at hf
      by_cases hil : i = l
      · rw [if_pos hil] at hf
        exact absurd hf (by decide)
      · rw [if_neg hil] at hf
        simp only [List.getElem?_set]
        rw [if_neg (fun e => hil e.symm)]
        exact ih i hi hf

/-- Over slots that are all `FILLED` with live strings, the loop finds a
string equal to `elt` when there is one. -/
theorem str_searchLoop_live_found (sp : SET) (elt : String) (start : Nat) :
    ∀ (n i : Nat) (df : Bool) (di : Int),
      (∀ k, i ≤ k → k < i + n → flagAt sp ((start + k) % sp.length) = FILLED ∧
        ∃ s, sp.data[(start + k) % sp.length]? = some (Ptr.live s)) →
      (∃ k, i ≤ k ∧ k < i + n ∧
        ∃ s, sp.data[(start + k) % sp.length]? = some (Ptr.live s) ∧ strcmp s elt = 0) →
      ∃ l, searchLoop sp elt start n i df di = some (l, true) := by
  intro n
  induction n with
  | zero => intro i df di _ ⟨k, h1, h2, _⟩; omega
  | succ n ih =>
    intro i df di hall hex
    obtain ⟨hfl, s, hs⟩ := hall i (le_refl _) (by omega)
    simp only [searchLoop]
    rw [if_neg (by rw [hfl]; decide),
      if_neg (by rw [hfl]; exact fun h => absurd h.1 (by decide)), hs]
    simp only
    by_cases hc : strcmp s elt = 0
    · rw [if_pos hc]; exact ⟨_, rfl⟩
    · rw [if_neg hc]
      apply ih
      · intro k h1 h2; exact hall k (by omega) (by omega)
      · obtain ⟨k, h1, h2, s', hs', hc'⟩ := hex
        by_cases hki : k = i
        · subst hki
          rw [hs] at hs'
          cases hs'
          exact absurd hc' hc
        · exact ⟨k, by omega, by omega, s', hs', hc'⟩

/-- Over slots that are all `FILLED` with live strings different from `elt`,
the loop runs to its end and returns `deleteIndex`. -/
theorem str_searchLoop_live_absent (sp : SET) (elt : String) (start : Nat) :
    ∀ (n i : Nat) (df : Bool) (di : Int),
      (∀ k, i ≤ k → k < i + n → flagAt sp ((start + k) % sp.length) = FILLED ∧
        ∃ s, sp.data[(start + k) % sp.length]? = some (Ptr.live s) ∧ strcmp s elt ≠ 0) →
      searchLoop sp elt start n i df di = some (di, false) := by
  intro n
  induction n with
  | zero => intro i df di _; rfl
  | succ n ih =>
    intro i df di hall
    obtain ⟨hfl, s, hs, hc⟩ := hall i (le_refl _) (by omega)
    simp only [searchLoop]
    rw [if_neg (by rw [hfl]; decide),
      if_neg (by rw [hfl]; exact fun h => absurd h.1 (by decide)), hs]
    simp only
    rw [if_neg hc]
    exact ih _ _ _ (fun k h1 h2 => hall k (by omega) (by omega))

/-- With a single tombstone at probe step `k0` and live strings different from
`elt` in all other slots, the loop returns the tombstone. -/
theorem str_searchLoop_one_tombstone (sp : SET) (elt : String) (start k0 : Nat)
    (hdel : flagAt sp ((start + k0) % sp.length) = DELETED) :
    ∀ (n i : Nat) (di : Int), i ≤ k0 → k0 < i + n →
      (∀ k, i ≤ k → k < i + n → k ≠ k0 → flagAt sp ((start + k) % sp.length) = FILLED ∧
        ∃ s, sp.data[(start + k) % sp.length]? = some (Ptr.live s) ∧ strcmp s elt ≠ 0) →
      searchLoop sp elt start n i false di =
        some ((((start + k0) % sp.length : Nat) : Int), false) := by
  intro n
  induction n with
  | zero => intro i di h1 h2; omega
  | succ n ih =>
    intro i di h1 h2 hall
    by_cases hik : i = k0
    · subst hik
      simp only [searchLoop]
      rw [if_neg (by rw [hdel]; decide), if_pos ⟨hdel, trivial⟩]
      exact str_searchLoop_live_absent sp elt start n (i + 1) true _
        (fun k h3 h4 => hall k (by omega) (by omega) (by omega))
    · obtain ⟨hfl, s, hs, hc⟩ := hall i (le_refl _) (by omega) hik
      simp only [searchLoop]
      rw [if_neg (by rw [hfl]; decide),
      if_neg (by rw [hfl]; exact fun h => absurd h.1 (by decide)), hs]
      simp only
      rw [if_neg hc]
      exact ih (i + 1) di (by omega) (by omega)
        (fun k h3 h4 hne => hall k (by omega) (by omega) hne)

end Lab3S

namespace Lab3S

theorem str_removeElement_of_found (sp : SET) (x s : String) (j : Nat)
    (hs : search sp x = some ((j : Int), true)) (hjs : sp.data[j]? = some (Ptr.live s))
    (hjf : j < sp.flags.length) :
    ∃ s1, removeElement sp x = Outcome.returned s1 ∧ s1.data = sp.data.set j Ptr.freed ∧
      s1.flags = sp.flags.set j DELETED ∧ s1.count = sp.count - 1 ∧ s1.length = sp.length := by
  have hjd : j < sp.data.length := Lab6.lt_length_of_getElem? _ _ _ hjs
  refine ⟨⟨sp.data.set j Ptr.freed, sp.length, sp.count - 1, sp.flags.set j DELETED⟩,
    ?_, rfl, rfl, rfl, rfl⟩
  unfold removeElement
  rw [hs]
  simp only [Bool.true_eq_false, if_false]
  rw [readAt_nat, hjs]
  simp only
  rw [writeAt_nat _ _ _ hjd, writeAt_nat _ _ _ hjf]

theorem str_addElement_of_not_found (sp : SET) (e : String) (j : Nat)
    (hlt : sp.count < (sp.length : Int)) (hs : search sp e = some ((j : Int), false))
    (hjd : j < sp.data.length) (hjf : j < sp.flags.length) :
    ∃ s2, addElement sp e = Outcome.returned s2 ∧ s2.count = sp.count + 1 ∧
      s2.length = sp.length ∧ s2.data = sp.data.set j (Ptr.live e) ∧
      s2.flags = sp.flags.set j FILLED := by
  refine ⟨⟨sp.data.set j (Ptr.live e), sp.length, sp.count + 1, sp.flags.set j FILLED⟩,
    ?_, rfl, rfl, rfl, rfl⟩
  unfold addElement
  rw [if_pos hlt, hs]
  simp only [Bool.false_eq_true, if_false]
  rw [writeAt_nat _ _ _ hjd, writeAt_nat _ _ _ hjf]

/-- In a full reachable Lab 3 table, removing a stored string and then adding
a new string succeeds and fills the table again: the removal frees the string
of a slot `j` and turns the slot into a tombstone, and the insertion stores the
copy of the new string in that slot. -/
theorem str_remove_then_add_full (sp : SET) (x e : String) (hr : Reachable sp)
    (hfull : sp.count = (sp.length : Int))
    (hx : ∃ i : Nat, sp.data[i]? = some (Ptr.live x))
    (habs : ∀ (i : Nat) (s : String), sp.data[i]? = some (Ptr.live s) → strcmp s e ≠ 0) :
    ∃ (s1 s2 : SET) (j : Nat), removeElement sp x = Outcome.returned s1 ∧
      addElement s1 e = Outcome.returned s2 ∧ s2.count = (sp.length : Int) ∧
      j < sp.length ∧ flagAt sp j = FILLED ∧
      s1.flags = sp.flags.set j DELETED ∧ s1.data = sp.data.set j Ptr.freed ∧
      s2.flags = sp.flags.set j FILLED ∧ s2.data = sp.data.set j (Ptr.live e) := by
  have hinv := str_reachable_inv sp hr
  obtain ⟨i0, hi0⟩ := hx
  have hi0l : i0 < sp.length := by
    rw [← hinv.dlen]; exact Lab6.lt_length_of_getElem? _ _ _ hi0
  have hpos : 0 < sp.length := by omega
  have hfilled : ∀ j, j < sp.length → flagAt sp j = FILLED := by
    intro j hj
    have h1 : sp.flags.count FILLED = sp.flags.length := by
      have := hinv.cnt
      rw [hinv.flen]; omega
    have hj' : j < sp.flags.length := by rw [hinv.flen]; exact hj
    unfold flagAt
    rw [getD_getElem _ _ _ hj']
    exact (List.count_eq_length.1 h1 _ (List.getElem_mem hj')).symm
  have hlive := str_reachable_filled_live sp hr
  obtain ⟨kx, hkx, hkx'⟩ := probe_slot_surj sp.length (strhash x % sp.length) i0
    (Nat.mod_lt _ hpos) hi0l
  obtain ⟨l, hs⟩ := str_searchLoop_live_found sp x (strhash x % sp.length) sp.length 0 false (-1)
    (fun k _ _ => ⟨hfilled _ (Nat.mod_lt _ hpos), hlive _ (Nat.mod_lt _ hpos)
      (hfilled _ (Nat.mod_lt _ hpos))⟩)
    ⟨kx, Nat.zero_le _, by omega, x, by rw [hkx']; exact hi0, strcmp_self x⟩
  obtain ⟨j, s, hl, hjs, _, _⟩ := str_searchLoop_found sp x _ _ _ _ _ _ hs
  subst hl
  have hjd : j < sp.data.length := Lab6.lt_length_of_getElem? _ _ _ hjs
  have hjf : j < sp.flags.length := by rw [hinv.flen, ← hinv.dlen]; exact hjd
  have hjl : j < sp.length := by rw [← hinv.dlen]; exact hjd
  obtain ⟨s1, hrem, hd1, hf1, hc1, hl1⟩ := str_removeElement_of_found sp x s j hs hjs hjf
  obtain ⟨k0, hk0, hk0'⟩ := probe_slot_surj sp.length (strhash e % sp.length) j
    (Nat.mod_lt _ hpos) hjl
  have hflag1 : ∀ i, flagAt s1 i = if i = j then DELETED else flagAt sp i := by
    intro i
    simp only [flagAt]
    rw [hf1, getD_set_eq _ _ _ _ _ hjf]
  have hsearch : search s1 e = some ((j : Int), false) := by
    unfold search
    rw [hl1]
    have := str_searchLoop_one_tombstone s1 e (strhash e % sp.length) k0
      (by rw [hl1, hk0', hflag1, if_pos rfl])
      sp.length 0 (-1) (Nat.zero_le _) (by omega)
      (by
        intro k _ hk hne
        have hkl : k < sp.length := by omega
        have hslot : (strhash e % sp.length + k) % sp.length ≠ j := by
          intro heq
          rw [← hk0'] at heq
          exact hne (probe_slot_inj sp.length _ k k0 hkl hk0 heq)
        have hsl : (strhash e % sp.length + k) % sp.length < sp.length := Nat.mod_lt _ hpos
        obtain ⟨s', hs'⟩ := hlive _ hsl (hfilled _ hsl)
        rw [hl1]
        refine ⟨?_, s', ?_, habs _ s' hs'⟩
        · rw [hflag1, if_neg hslot]
          exact hfilled _ hsl
        · rw [hd1, List.getElem?_set, if_neg (fun e => hslot e.symm)]
          exact hs')
    rw [hl1, hk0'] at this
    exact this
  obtain ⟨s2, hadd, hc2, _, hd2, hf2⟩ := str_addElement_of_not_found s1 e j
    (by rw [hc1, hl1]; omega)
    hsearch (by rw [hd1]; simpa using hjd) (by rw [hf1]; simpa using hjf)
  exact ⟨s1, s2, j, hrem, hadd, by rw [hc2, hc1]; omega, hjl, hfilled j hjl, hf1, hd1,
    by rw [hf2, hf1, List.set_set], by rw [hd2, hd1, List.set_set]⟩

/-- C13 as stated fails on both tables: from a full table, `removeElement` of
a stored element followed by `addElement` of a new element returns (the
capacity assertion holds) and the table is full again.  Lab 6: capacity 2
holding 0 and 1, remove 0, add 5.  Lab 3: capacity 2 holding "a" and "b",
remove "a", add "c". -/
theorem add_after_remove_accepted :
    (Lab6.exFull.count = (Lab6.exFull.length : Int) ∧
      Lab6.removeElement Lab6.exFull 0 = Outcome.returned Lab6.exHole ∧
      Lab6.addElement Lab6.exHole 5 = Outcome.returned Lab6.exRefill ∧
      Lab6.exRefill.count = 2) ∧
    (run (createSet 2 (fun _ => 9)) [(true, "a"), (true, "b")] = Outcome.returned full2 ∧
      full2.count = (full2.length : Int) ∧
      run full2 [(false, "a"), (true, "c")] = Outcome.returned refill2 ∧
      refill2.count = 2) :=
  ⟨⟨rfl, rfl, rfl, rfl⟩, ⟨by decide, by decide, by decide, by decide⟩⟩

end Lab3S

/-- C13 (amended).  Tombstones are reused on both open-addressing tables: in
a reachable table with `count == length`, after `removeElement` of a stored
element a subsequent `addElement` of a new absent element passes the capacity
assertion, returns, and brings `count` back to `length`, and the element is
stored in the tombstone: the removal marks one slot `l`, until then `FILLED`,
as `DELETED` (Lab 3 also frees its string) and the insertion stores the new
element (Lab 3: the copy of the new string) in this slot `l` and marks it
`FILLED` again (Lab 6 under lawful `compare` and `hash`). -/
theorem tombstone_reuse {α : Type} :
    (∀ (sp : Lab6.SET α) (x e : α), Lab6.Reachable sp → Lab6.Lawful sp →
      sp.count = (sp.length : Int) → (∃ i, Lab6.Holds sp i x) →
      (∀ i y, Lab6.Holds sp i y → sp.compare y e ≠ 0) →
      ∃ (s1 s2 : Lab6.SET α) (l : Nat), Lab6.removeElement sp x = Outcome.returned s1 ∧
        Lab6.addElement s1 e = Outcome.returned s2 ∧ s2.count = (sp.length : Int) ∧
        l < sp.length ∧ Lab6.flagAt sp l = FILLED ∧
        s1.flags = sp.flags.set l DELETED ∧ s1.data = sp.data ∧
        s2.flags = sp.flags.set l FILLED ∧ s2.data = sp.data.set l e ∧
        Lab6.Holds s2 l e) ∧
    (∀ (sp : Lab3S.SET) (x e : String), Lab3S.Reachable sp →
      sp.count = (sp.length : Int) → (∃ i : Nat, sp.data[i]? = some (Lab3S.Ptr.live x)) →
      (∀ (i : Nat) (s : String), sp.data[i]? = some (Lab3S.Ptr.live s) →
        Lab3S.strcmp s e ≠ 0) →
      ∃ (s1 s2 : Lab3S.SET) (l : Nat), Lab3S.removeElement sp x = Outcome.returned s1 ∧
        Lab3S.addElement s1 e = Outcome.returned s2 ∧ s2.count = (sp.length : Int) ∧
        l < sp.length ∧ Lab3S.flagAt sp l = FILLED ∧
        s1.flags = sp.flags.set l DELETED ∧ s1.data = sp.data.set l Lab3S.Ptr.freed ∧
        s2.flags = sp.flags.set l FILLED ∧ s2.data = sp.data.set l (Lab3S.Ptr.live e)) := by
  constructor
  · intro sp x e hr hl hfull hx habs
    exact Lab6.remove_then_add_full sp x e hr hl hfull hx habs
  · intro sp x e hr hfull hx habs
    exact Lab3S.str_remove_then_add_full sp x e hr hfull hx habs

namespace Lab3S

theorem full2_reachable : Reachable full2 :=
  str_reachable_run [(true, "a"), (true, "b")] (createSet 2 (fun _ => 9)) full2
    (Reachable.create 2 (fun _ => 9) (by decide)) (by decide)

theorem full2_absent (e : String) (hc : strcmp "b" e ≠ 0) (hd : strcmp "a" e ≠ 0) :
    ∀ (i : Nat) (s : String), full2.data[i]? = some (Ptr.live s) → strcmp s e ≠ 0 := by
  intro i s hs
  have hi : i < 2 := Lab6.lt_length_of_getElem? _ _ _ hs
  interval_cases i
  · cases hs; exact hc
  · cases hs; exact hd

end Lab3S

/-- Witness of `tombstone_reuse`: the full Lab 6 table holding 0 and 1 (remove
0, add 5) and the full Lab 3 table holding "a" and "b" (remove "a", add "c"). -/
theorem tombstone_reuse_witness :
    (∃ (s1 s2 : Lab6.SET Nat) (l : Nat),
        Lab6.removeElement Lab6.exFull 0 = Outcome.returned s1 ∧
        Lab6.addElement s1 5 = Outcome.returned s2 ∧
        s2.count = (Lab6.exFull.length : Int) ∧
        l < Lab6.exFull.length ∧ Lab6.flagAt Lab6.exFull l = FILLED ∧
        s1.flags = Lab6.exFull.flags.set l DELETED ∧ s1.data = Lab6.exFull.data ∧
        s2.flags = Lab6.exFull.flags.set l FILLED ∧ s2.data = Lab6.exFull.data.set l 5 ∧
        Lab6.Holds s2 l 5) ∧
    (∃ (s1 s2 : Lab3S.SET) (l : Nat),
        Lab3S.removeElement Lab3S.full2 "a" = Outcome.returned s1 ∧
        Lab3S.addElement s1 "c" = Outcome.returned s2 ∧
        s2.count = (Lab3S.full2.length : Int) ∧
        l < Lab3S.full2.length ∧ Lab3S.flagAt Lab3S.full2 l = FILLED ∧
        s1.flags = Lab3S.full2.flags.set l DELETED ∧
        s1.data = Lab3S.full2.data.set l Lab3S.Ptr.freed ∧
        s2.flags = Lab3S.full2.flags.set l FILLED ∧
        s2.data = Lab3S.full2.data.set l (Lab3S.Ptr.live "c")) :=
  ⟨(@tombstone_reuse Nat).1 Lab6.exFull 0 5 Lab6.exFull_reachable
      (Lab6.natCompare_lawful Lab6.exFull rfl rfl) rfl ⟨0, rfl, rfl⟩
      (by
        intro i y hy
        have hc : Lab6.exFull.compare y 5 = Lab6.natCompare y 5 := rfl
        rw [hc]
        unfold Lab6.natCompare
        rcases Lab6.exFull_holds i y hy with h | h <;> omega),
    (@tombstone_reuse Nat).2 Lab3S.full2 "a" "c" Lab3S.full2_reachable rfl ⟨1, rfl⟩
      (Lab3S.full2_absent "c" (by decide) (by decide))⟩

namespace Lab4
variable {α : Type}

/-! ### Lab 4 lists: the walks of `findItem` and `removeItem` -/

theorem findWalk_some (cmp : α → α → Int) (e : α) :
    ∀ (l : List α) (x : α), findWalk cmp e l = some x → x ∈ l ∧ cmp x e = 0 := by
  intro l
  induction l with
  | nil => intro x h; simp [findWalk] at h
  | cons y l ih =>
    intro x h
    simp only [findWalk] at h
    split at h
    · rename_i hc
      cases h
      exact ⟨List.mem_cons_self _ _, hc⟩
    · obtain ⟨h1, h2⟩ := ih x h
      exact ⟨List.mem_cons_of_mem _ h1, h2⟩

theorem findWalk_none (cmp : α → α → Int) (e : α) :
    ∀ (l : List α), findWalk cmp e l = none → ∀ x ∈ l, cmp x e ≠ 0 := by
  intro l
  induction l with
  | nil => intro _ x hx; simp at hx
  | cons y l ih =>
    intro h x hx
    simp only [findWalk] at h
    split at h
    · cases h
    · rename_i hc
      rcases List.mem_cons.1 hx with h1 | h1
      · rw [h1]; exact hc
      · exact ih h x h1

theorem findWalk_of_mem (cmp : α → α → Int) (e : α) (l : List α) (x : α) (hx : x ∈ l)
    (hc : cmp x e = 0) : ∃ y, findWalk cmp e l = some y := by
  cases h : findWalk cmp e l with
  | some y => exact ⟨y, rfl⟩
  | none => exact absurd hc (findWalk_none cmp e l h x hx)

/-- The head of the chain is found when it is equal to the item. -/
theorem findWalk_head (cmp : α → α → Int) (e x : α) (l : List α) (hc : cmp x e = 0) :
    findWalk cmp e (x :: l) = some x := by
  simp [findWalk, hc]

theorem removeWalk_of_find (cmp : α → α → Int) (e : α) :
    ∀ (l : List α) (x : α), findWalk cmp e l = some x → ∃ r, removeWalk cmp e l = some r := by
  intro l
  induction l with
  | nil => intro x h; simp [findWalk] at h
  | cons y l ih =>
    intro x h
    simp only [findWalk] at h
    simp only [removeWalk]
    split at h
    · rename_i hc
      rw [if_pos hc]
      exact ⟨l, rfl⟩
    · rename_i hc
      rw [if_neg hc]
      obtain ⟨r, hr⟩ := ih x h
      rw [hr]
      exact ⟨y :: r, rfl⟩

theorem removeWalk_sublist (cmp : α → α → Int) (e : α) :
    ∀ (l r : List α), removeWalk cmp e l = some r → r.Sublist l := by
  intro l
  induction l with
  | nil => intro r h; simp [removeWalk] at h
  | cons y l ih =>
    intro r h
    simp only [removeWalk] at h
    split at h
    · cases h
      exact List.sublist_cons_self _ _
    · split at h
      · rename_i r' hr'
        cases h
        exact (ih r' hr').cons₂ y
      · cases h

/-- After the removal of the first node equal to `e` from a chain without
two equal nodes, no node equal to `e` is left. -/
theorem removeWalk_absent (cmp : α → α → Int) (e : α)
    (hsymm : ∀ a b, cmp a b = 0 → cmp b a = 0)
    (htrans : ∀ a b c, cmp a b = 0 → cmp b c = 0 → cmp a c = 0) :
    ∀ (l r : List α), l.Pairwise (fun x y => cmp x y ≠ 0) → removeWalk cmp e l = some r →
      ∀ y ∈ r, cmp y e ≠ 0 := by
  intro l
  induction l with
  | nil => intro r _ h; simp [removeWalk] at h
  | cons x l ih =>
    intro r hp h y hy
    simp only [removeWalk] at h
    rw [List.pairwise_cons] at hp
    split at h
    · rename_i hc
      cases h
      intro hcy
      exact hp.1 y hy (htrans _ _ _ hc (hsymm _ _ hcy))
    · rename_i hc
      split at h
      · rename_i r' hr'
        cases h
        rcases List.mem_cons.1 hy with h1 | h1
        · rw [h1]; exact hc
        · exact ih r' hp.2 hr' y h1
      · cases h

/-! ### Lab 4 set: what the calls do when they return -/

theorem fillLists_length (cmp : α → α → Int) :
    ∀ (n i : Nat) (l : List (LIST α)), (fillLists cmp n i l).length = l.length := by
  intro n
  induction n with
  | zero => intro i l; rfl
  | succ n ih => intro i l; simp [fillLists, ih]

theorem fillLists_getElem? (cmp : α → α → Int) :
    ∀ (n i : Nat) (l : List (LIST α)) (j : Nat) (lp : LIST α), i + n = l.length →
      (fillLists cmp n i l)[j]? = some lp → i ≤ j → lp = createList cmp := by
  intro n
  induction n with
  | zero =>
    intro i l j lp hi h hij
    simp only [fillLists] at h
    have := Lab6.lt_length_of_getElem? _ _ _ h
    omega
  | succ n ih =>
    intro i l j lp hi h hij
    simp only [fillLists] at h
    by_cases hji : j = i
    · subst hji
      have hkeep : ∀ (m k : Nat) (l' : List (LIST α)), j < k →
          (fillLists cmp m k l')[j]? = l'[j]? := by
        intro m
        induction m with
        | zero => intro k l' _; rfl
        | succ m ihm =>
          intro k l' hk
          simp only [fillLists]
          rw [ihm (k + 1) _ (by omega), List.getElem?_set, if_neg (by omega)]
      rw [hkeep n (j + 1) _ (by omega), List.getElem?_set, if_pos rfl] at h
      split at h
      · cases h; rfl
      · cases h
    · exact ih (i + 1) _ j lp (by simp; omega) h (by omega)

theorem addElement_cases (sp sp' : SET α) (elt : α)
    (h : addElement sp elt = Outcome.returned sp') :
    0 < sp.length ∧ ∃ lp, sp.lists[sp.hash elt % sp.length]? = some lp ∧
      ((∃ y, findItem lp elt = some y ∧ sp' = sp) ∨
       (findItem lp elt = none ∧
        sp' = { sp with lists := sp.lists.set (sp.hash elt % sp.length) (addFirst lp elt)
                        count := sp.count + 1 })) := by
  unfold addElement at h
  split at h
  · cases h
  · rename_i hlen
    refine ⟨by omega, ?_⟩
    split at h
    · cases h
    · rename_i lp hlp
      refine ⟨lp, hlp, ?_⟩
      split at h
      · rename_i y hy
        simp only [Outcome.returned.injEq] at h
        exact Or.inl ⟨y, hy, h.symm⟩
      · rename_i hy
        simp only [Outcome.returned.injEq] at h
        exact Or.inr ⟨hy, h.symm⟩

theorem removeElement_cases (sp sp' : SET α) (elt : α)
    (h : removeElement sp elt = Outcome.returned sp') :
    0 < sp.length ∧ ∃ lp, sp.lists[sp.hash elt % sp.length]? = some lp ∧
      ((findItem lp elt = none ∧ sp' = sp) ∨
       (∃ y, findItem lp elt = some y ∧
        sp' = { sp with lists := sp.lists.set (sp.hash elt % sp.length) (removeItem lp elt)
                        count := sp.count - 1 })) := by
  unfold removeElement at h
  split at h
  · cases h
  · rename_i hlen
    refine ⟨by omega, ?_⟩
    split at h
    · cases h
    · rename_i lp hlp
      refine ⟨lp, hlp, ?_⟩
      split at h
      · rename_i y hy
        simp only [Outcome.returned.injEq] at h
        exact Or.inr ⟨y, hy, h.symm⟩
      · rename_i hy
        simp only [Outcome.returned.injEq] at h
        exact Or.inl ⟨hy, h.symm⟩

end Lab4

namespace Lab4
variable {α : Type}

/-! ### Lab 4 set: shape of the reachable states -/

theorem getElem?_set_cases {β : Type} (l : List β) (b b' : Nat) (v lp : β)
    (h : (l.set b v)[b']? = some lp) : (b' = b ∧ lp = v) ∨ (b' ≠ b ∧ l[b']? = some lp) := by
  rw [List.getElem?_set] at h
  by_cases hb : b = b'
  · rw [if_pos hb] at h
    split at h
    · cases h; exact Or.inl ⟨hb.symm, rfl⟩
    · cases h
  · rw [if_neg hb] at h
    exact Or.inr ⟨fun e => hb e.symm, h⟩

theorem removeItem_compare (lp : LIST α) (e : α) : (removeItem lp e).compare = lp.compare := by
  unfold removeItem
  split <;> rfl

theorem removeItem_items_sublist (lp : LIST α) (e : α) :
    (removeItem lp e).items.Sublist lp.items := by
  unfold removeItem
  split
  · rename_i r hr
    exact removeWalk_sublist _ _ _ _ hr
  · exact List.Sublist.refl _

theorem createSet_inv (n : Nat) (cmp : α → α → Int) (hash : α → Nat) (l0 : Nat → LIST α) :
    Inv (createSet n cmp hash l0) ∧ NoDup (createSet n cmp hash l0) := by
  have hfill : ∀ (b : Nat) (lp : LIST α), (createSet n cmp hash l0).lists[b]? = some lp →
      lp = createList cmp := by
    intro b lp h
    exact fillLists_getElem? cmp _ 0 _ b lp (by simp) h (Nat.zero_le _)
  refine ⟨⟨?_, ?_, ?_⟩, ?_⟩
  · simp [createSet, fillLists_length]
  · intro b lp h; rw [hfill b lp h]; rfl
  · intro b lp h x hx
    rw [hfill b lp h] at hx
    simp [createList] at hx
  · intro b lp h
    rw [hfill b lp h]
    exact List.Pairwise.nil

theorem addElement_inv (sp sp' : SET α) (elt : α) (hinv : Inv sp)
    (h : addElement sp elt = Outcome.returned sp') : Inv sp' := by
  obtain ⟨_, lp, hlp, h1 | h1⟩ := addElement_cases sp sp' elt h
  · obtain ⟨_, _, h2⟩ := h1; rw [h2]; exact hinv
  · obtain ⟨_, h2⟩ := h1
    subst h2
    refine ⟨?_, ?_, ?_⟩
    · simpa using hinv.llen
    · intro b lp' hb
      rcases getElem?_set_cases _ _ _ _ _ hb with ⟨_, h3⟩ | ⟨_, h3⟩
      · rw [h3]; exact hinv.cmp _ lp hlp
      · exact hinv.cmp b lp' h3
    · intro b lp' hb x hx
      rcases getElem?_set_cases _ _ _ _ _ hb with ⟨h4, h3⟩ | ⟨_, h3⟩
      · rw [h3] at hx
        rcases List.mem_cons.1 hx with h5 | h5
        · rw [h5, h4]
        · rw [h4]; exact hinv.home _ lp hlp x h5
      · exact hinv.home b lp' h3 x hx

theorem removeElement_inv (sp sp' : SET α) (elt : α) (hinv : Inv sp)
    (h : removeElement sp elt = Outcome.returned sp') : Inv sp' := by
  obtain ⟨_, lp, hlp, h1 | h1⟩ := removeElement_cases sp sp' elt h
  · obtain ⟨_, h2⟩ := h1; rw [h2]; exact hinv
  · obtain ⟨_, _, h2⟩ := h1
    subst h2
    refine ⟨?_, ?_, ?_⟩
    · simpa using hinv.llen
    · intro b lp' hb
      rcases getElem?_set_cases _ _ _ _ _ hb with ⟨_, h3⟩ | ⟨_, h3⟩
      · rw [h3, removeItem_compare]; exact hinv.cmp _ lp hlp
      · exact hinv.cmp b lp' h3
    · intro b lp' hb x hx
      rcases getElem?_set_cases _ _ _ _ _ hb with ⟨h4, h3⟩ | ⟨_, h3⟩
      · rw [h3] at hx
        rw [h4]
        exact hinv.home _ lp hlp x ((removeItem_items_sublist lp elt).subset hx)
      · exact hinv.home b lp' h3 x hx

theorem addElement_noDup4 (sp sp' : SET α) (elt : α) (hinv : Inv sp) (hl : Lawful sp)
    (hn : NoDup sp) (h : addElement sp elt = Outcome.returned sp') : NoDup sp' := by
  obtain ⟨_, lp, hlp, h1 | h1⟩ := addElement_cases sp sp' elt h
  · obtain ⟨_, _, h2⟩ := h1; rw [h2]; exact hn
  · obtain ⟨hnone, h2⟩ := h1
    subst h2
    intro b lp' hb
    rcases getElem?_set_cases _ _ _ _ _ hb with ⟨_, h3⟩ | ⟨_, h3⟩
    · rw [h3]
      simp only [addFirst]
      rw [List.pairwise_cons]
      refine ⟨?_, hn _ lp hlp⟩
      intro y hy hc
      have := findWalk_none lp.compare elt lp.items hnone y hy
      rw [hinv.cmp _ lp hlp] at this
      exact this (hl.symm _ _ hc)
    · exact hn b lp' h3

theorem removeElement_noDup4 (sp sp' : SET α) (elt : α) (hn : NoDup sp)
    (h : removeElement sp elt = Outcome.returned sp') : NoDup sp' := by
  obtain ⟨_, lp, hlp, h1 | h1⟩ := removeElement_cases sp sp' elt h
  · obtain ⟨_, h2⟩ := h1; rw [h2]; exact hn
  · obtain ⟨_, _, h2⟩ := h1
    subst h2
    intro b lp' hb
    rcases getElem?_set_cases _ _ _ _ _ hb with ⟨_, h3⟩ | ⟨_, h3⟩
    · rw [h3]
      exact (hn _ lp hlp).sublist (removeItem_items_sublist lp elt)
    · exact hn b lp' h3

theorem addElement_same (sp sp' : SET α) (elt : α)
    (h : addElement sp elt = Outcome.returned sp') :
    sp'.compare = sp.compare ∧ sp'.hash = sp.hash ∧ sp'.length = sp.length := by
  obtain ⟨_, lp, _, h1 | h1⟩ := addElement_cases sp sp' elt h
  · obtain ⟨_, _, h2⟩ := h1; rw [h2]; exact ⟨rfl, rfl, rfl⟩
  · obtain ⟨_, h2⟩ := h1; rw [h2]; exact ⟨rfl, rfl, rfl⟩

theorem removeElement_same (sp sp' : SET α) (elt : α)
    (h : removeElement sp elt = Outcome.returned sp') :
    sp'.compare = sp.compare ∧ sp'.hash = sp.hash ∧ sp'.length = sp.length := by
  obtain ⟨_, lp, _, h1 | h1⟩ := removeElement_cases sp sp' elt h
  · obtain ⟨_, h2⟩ := h1; rw [h2]; exact ⟨rfl, rfl, rfl⟩
  · obtain ⟨_, _, h2⟩ := h1; rw [h2]; exact ⟨rfl, rfl, rfl⟩

theorem lawful_transfer (sp sp' : SET α) (hc : sp'.compare = sp.compare)
    (hh : sp'.hash = sp.hash) (hl : Lawful sp') : Lawful sp := by
  refine ⟨?_, ?_, ?_, ?_⟩
  · intro a; have := hl.refl a; rwa [hc] at this
  · intro a b; have := hl.symm a b; rwa [hc] at this
  · intro a b c; have := hl.trans a b c; rwa [hc] at this
  · intro a b; have := hl.hash_eq a b; rwa [hc, hh] at this

/-- Every reachable state of the chained set has the shape `Inv`. -/
theorem reachable_inv4 (sp : SET α) (h : Reachable sp) : Inv sp := by
  induction h with
  | create n cmp hash l0 => exact (createSet_inv n cmp hash l0).1
  | add sp sp' elt _ hadd ih => exact addElement_inv sp sp' elt ih hadd
  | remove sp sp' elt _ hrem ih => exact removeElement_inv sp sp' elt ih hrem

/-- With lawful `compare` and `hash`, no bucket of a reachable state holds two
equal elements. -/
theorem reachable_noDup4 (sp : SET α) (h : Reachable sp) : Lawful sp → NoDup sp := by
  induction h with
  | create n cmp hash l0 => intro _; exact (createSet_inv n cmp hash l0).2
  | add sp sp' elt hr hadd ih =>
    intro hl
    obtain ⟨hc, hh, _⟩ := addElement_same sp sp' elt hadd
    have hl' := lawful_transfer sp sp' hc hh hl
    exact addElement_noDup4 sp sp' elt (reachable_inv4 sp hr) hl' (ih hl') hadd
  | remove sp sp' elt hr hrem ih =>
    intro hl
    obtain ⟨hc, hh, _⟩ := removeElement_same sp sp' elt hrem
    exact removeElement_noDup4 sp sp' elt (ih (lawful_transfer sp sp' hc hh hl)) hrem

/-- The bucket of every element exists when the set has at least one bucket. -/
theorem bucket_exists (sp : SET α) (hinv : Inv sp) (hpos : 0 < sp.length) (e : α) :
    ∃ lp, sp.lists[sp.hash e % sp.length]? = some lp := by
  apply Lab6.getElem?_some_of_lt
  rw [hinv.llen]
  exact Nat.mod_lt _ hpos

theorem reachable_addAll (es : List α) :
    ∀ (sp sp' : SET α), Reachable sp → addAll sp es = Outcome.returned sp' → Reachable sp' := by
  induction es with
  | nil =>
    intro sp sp' hr h
    simp only [addAll, Outcome.returned.injEq] at h
    rw [← h]; exact hr
  | cons e rest ih =>
    intro sp sp' hr h
    simp only [addAll] at h
    split at h
    · rename_i s hs
      exact ih s sp' (Reachable.add sp s e hr hs) h
    · rename_i o hne
      rw [h] at hne
      exact absurd rfl (hne sp')

theorem full20_reachable : Reachable full20 :=
  reachable_addAll (List.range 20) new20 full20
    (Reachable.create 20 Lab6.natCompare Lab6.natHash (fun _ => createList Lab6.natCompare)) rfl

end Lab4

namespace Lab4
variable {α : Type}

/-! ### Lab 4 set: capacity and round trip -/

theorem addElement_of_found (sp : SET α) (e y : α) (lp : LIST α) (hpos : 0 < sp.length)
    (hlp : sp.lists[sp.hash e % sp.length]? = some lp) (hf : findItem lp e = some y) :
    addElement sp e = Outcome.returned sp := by
  unfold addElement
  rw [if_neg (by omega), hlp]
  simp only
  rw [hf]

theorem addElement_of_absent (sp : SET α) (e : α) (lp : LIST α) (hpos : 0 < sp.length)
    (hlp : sp.lists[sp.hash e % sp.length]? = some lp) (hf : findItem lp e = none) :
    addElement sp e = Outcome.returned
      { sp with lists := sp.lists.set (sp.hash e % sp.length) (addFirst lp e)
                count := sp.count + 1 } := by
  unfold addElement
  rw [if_neg (by omega), hlp]
  simp only
  rw [hf]

theorem removeElement_of_found (sp : SET α) (e y : α) (lp : LIST α) (hpos : 0 < sp.length)
    (hlp : sp.lists[sp.hash e % sp.length]? = some lp) (hf : findItem lp e = some y) :
    removeElement sp e = Outcome.returned
      { sp with lists := sp.lists.set (sp.hash e % sp.length) (removeItem lp e)
                count := sp.count - 1 } := by
  unfold removeElement
  rw [if_neg (by omega), hlp]
  simp only
  rw [hf]

theorem removeElement_of_absent (sp : SET α) (e : α) (lp : LIST α) (hpos : 0 < sp.length)
    (hlp : sp.lists[sp.hash e % sp.length]? = some lp) (hf : findItem lp e = none) :
    removeElement sp e = Outcome.returned sp := by
  unfold removeElement
  rw [if_neg (by omega), hlp]
  simp only
  rw [hf]

theorem findElement_bucket (sp : SET α) (e : α) (lp : LIST α) (hpos : 0 < sp.length)
    (hlp : sp.lists[sp.hash e % sp.length]? = some lp) :
    findElement sp e = Result.value (findItem lp e) := by
  unfold findElement
  rw [if_neg (by omega), hlp]

theorem natCompare_lawful4 (sp : SET Nat) (hc : sp.compare = Lab6.natCompare)
    (hh : sp.hash = Lab6.natHash) : Lawful sp := by
  refine ⟨?_, ?_, ?_, ?_⟩
  · intro a; rw [hc]; unfold Lab6.natCompare; omega
  · intro a b; rw [hc]; unfold Lab6.natCompare; omega
  · intro a b c; rw [hc]; unfold Lab6.natCompare; omega
  · intro a b; rw [hc, hh]; unfold Lab6.natCompare Lab6.natHash; omega

/-- C12 as stated fails: the set created by `createSet(20, ...)` holds 20
elements after `addElement` of 0, ..., 19, and `addElement` of 20 still
returns, with `numElements` equal to 21. -/
theorem chained_add_beyond_capacity :
    addAll (createSet 20 Lab6.natCompare Lab6.natHash (fun _ => createList Lab6.natCompare))
      (List.range 20) = Outcome.returned full20 ∧
    numElements full20 = 20 ∧
    addElement full20 20 = Outcome.returned over20 ∧
    numElements over20 = 21 :=
  ⟨rfl, rfl, rfl, rfl⟩

/-- C12 (amended).  The chained set has no capacity check: in every reachable
state with at least one bucket, whatever its `count`, `addElement` of an
element equal to none in its bucket returns and increases `numElements` by 1. -/
theorem chained_add_unbounded (sp : SET α) (e : α) (hr : Reachable sp)
    (hpos : 0 < sp.length)
    (habs : ∀ lp, sp.lists[sp.hash e % sp.length]? = some lp →
      ∀ y ∈ lp.items, sp.compare y e ≠ 0) :
    ∃ s', addElement sp e = Outcome.returned s' ∧ numElements s' = numElements sp + 1 := by
  have hinv := reachable_inv4 sp hr
  obtain ⟨lp, hlp⟩ := bucket_exists sp hinv hpos e
  have hnone : findItem lp e = none := by
    cases hf : findItem lp e with
    | none => rfl
    | some y =>
      obtain ⟨hy, hc⟩ := findWalk_some lp.compare e lp.items y hf
      rw [hinv.cmp _ lp hlp] at hc
      exact absurd hc (habs lp hlp y hy)
  exact ⟨_, addElement_of_absent sp e lp hpos hlp hnone, rfl⟩

/-- Witness of `chained_add_unbounded`: adding 20 to the set that already
holds the 20 elements it was created for. -/
theorem chained_add_unbounded_witness :
    ∃ s', addElement full20 20 = Outcome.returned s' ∧
      numElements s' = numElements full20 + 1 :=
  chained_add_unbounded full20 20 full20_reachable (by decide) (by
    intro lp hlp y hy
    have h0 : full20.lists[0]? = some lp := hlp
    simp only [full20, List.getElem?_cons_zero, Option.some.injEq] at h0
    rw [← h0] at hy
    simp only [List.mem_reverse, List.mem_range] at hy
    have hc : full20.compare y 20 = Lab6.natCompare y 20 := rfl
    rw [hc]
    unfold Lab6.natCompare
    omega)

/-- C20 (Lab 4 chained set, round trip).  In a reachable state with at least
one bucket and lawful `compare` and `hash`: `addElement(e)` returns and then
`findElement(e)` returns a stored element equal to `e` that lies in bucket
`hash(e) % length`; `removeElement(e)` returns and then `findElement(e)` is
`NULL`; and when an element equal to `e` is stored, `addElement(e)` returns
the set unchanged (count and every bucket). -/
theorem chained_round_trip (sp : SET α) (e : α) (hr : Reachable sp) (hpos : 0 < sp.length)
    (hl : Lawful sp) :
    (∃ s1 x lp, addElement sp e = Outcome.returned s1 ∧
      findElement s1 e = Result.value (some x) ∧ sp.compare x e = 0 ∧
      s1.lists[sp.hash e % sp.length]? = some lp ∧ x ∈ lp.items) ∧
    (∃ s2, removeElement sp e = Outcome.returned s2 ∧ findElement s2 e = Result.value none) ∧
    ((∃ y, Stored sp y ∧ sp.compare y e = 0) → addElement sp e = Outcome.returned sp) := by
  have hinv := reachable_inv4 sp hr
  have hn := reachable_noDup4 sp hr hl
  obtain ⟨lp, hlp⟩ := bucket_exists sp hinv hpos e
  have hcmp := hinv.cmp _ lp hlp
  have hb : sp.hash e % sp.length < sp.lists.length := by
    rw [hinv.llen]; exact Nat.mod_lt _ hpos
  refine ⟨?_, ?_, ?_⟩
  · cases hf : findItem lp e with
    | some y =>
      obtain ⟨hy, hc⟩ := findWalk_some lp.compare e lp.items y hf
      rw [hcmp] at hc
      refine ⟨sp, y, lp, addElement_of_found sp e y lp hpos hlp hf, ?_, hc, hlp, hy⟩
      rw [findElement_bucket sp e lp hpos hlp, hf]
    | none =>
      have hlp' : (sp.lists.set (sp.hash e % sp.length) (addFirst lp e))[sp.hash e %
          sp.length]? = some (addFirst lp e) := by
        rw [List.getElem?_set, if_pos rfl, if_pos hb]
      refine ⟨_, e, addFirst lp e, addElement_of_absent sp e lp hpos hlp hf, ?_, hl.refl e,
        hlp', List.mem_cons_self _ _⟩
      have hfe := findElement_bucket (⟨sp.lists.set (sp.hash e % sp.length) (addFirst lp e),
        sp.length, sp.count + 1, sp.compare, sp.hash⟩ : SET α) e (addFirst lp e) hpos hlp'
      rw [hfe]
      have : findItem (addFirst lp e) e = some e := by
        unfold findItem addFirst
        exact findWalk_head _ e e _ (by rw [hcmp]; exact hl.refl e)
      rw [this]
  · cases hf : findItem lp e with
    | none =>
      refine ⟨sp, removeElement_of_absent sp e lp hpos hlp hf, ?_⟩
      rw [findElement_bucket sp e lp hpos hlp, hf]
    | some y =>
      have hlp' : (sp.lists.set (sp.hash e % sp.length) (removeItem lp e))[sp.hash e %
          sp.length]? = some (removeItem lp e) := by
        rw [List.getElem?_set, if_pos rfl, if_pos hb]
      refine ⟨_, removeElement_of_found sp e y lp hpos hlp hf, ?_⟩
      have hfe := findElement_bucket (⟨sp.lists.set (sp.hash e % sp.length) (removeItem lp e),
        sp.length, sp.count - 1, sp.compare, sp.hash⟩ : SET α) e (removeItem lp e) hpos hlp'
      rw [hfe]
      obtain ⟨r, hr'⟩ := removeWalk_of_find lp.compare e lp.items y hf
      have hpair : lp.items.Pairwise (fun x y => lp.compare x y ≠ 0) := by
        rw [hcmp]; exact hn _ lp hlp
      have habs := removeWalk_absent lp.compare e (by rw [hcmp]; exact hl.symm)
        (by rw [hcmp]; exact hl.trans) lp.items r hpair hr'
      have hitem : removeItem lp e = { lp with items := r, count := lp.count - 1 } := by
        unfold removeItem
        rw [hr']
      rw [hitem]
      cases hf2 : findItem { lp with items := r, count := lp.count - 1 } e with
      | none => rfl
      | some z =>
        obtain ⟨hz, hc⟩ := findWalk_some lp.compare e r z hf2
        exact absurd hc (habs z hz)
  · rintro ⟨y, ⟨b, lp', hlp', hy⟩, hc⟩
    have hhome := hinv.home b lp' hlp' y hy
    rw [hl.hash_eq y e hc] at hhome
    rw [← hhome] at hlp'
    rw [hlp] at hlp'
    cases hlp'
    obtain ⟨z, hz⟩ := findWalk_of_mem lp.compare e lp.items y hy (by rw [hcmp]; exact hc)
    exact addElement_of_found sp e z lp hpos hlp hz

/-- Witness of `chained_round_trip`: the element 5 in the set holding 0, ..., 19. -/
theorem chained_round_trip_witness :
    (∃ s1 x lp, addElement full20 5 = Outcome.returned s1 ∧
      findElement s1 5 = Result.value (some x) ∧ full20.compare x 5 = 0 ∧
      s1.lists[full20.hash 5 % full20.length]? = some lp ∧ x ∈ lp.items) ∧
    (∃ s2, removeElement full20 5 = Outcome.returned s2 ∧
      findElement s2 5 = Result.value none) ∧
    ((∃ y, Stored full20 y ∧ full20.compare y 5 = 0) →
      addElement full20 5 = Outcome.returned full20) :=
  chained_round_trip full20 5 full20_reachable (by decide) (natCompare_lawful4 full20 rfl rfl)

end Lab4

/-! ## The order of `strcmp` -/

namespace Lab3S

theorem char_toNat_inj (a b : Char) (h : a.toNat = b.toNat) : a = b := by
  apply Char.ext
  apply UInt32.ext
  exact h

theorem strcmpChars_neg : ∀ a b : List Char, strcmpChars b a = -strcmpChars a b := by
  intro a
  induction a with
  | nil =>
    intro b
    cases b with
    | nil => rfl
    | cons y bs => simp [strcmpChars]
  | cons x as ih =>
    intro b
    cases b with
    | nil => simp [strcmpChars]
    | cons y bs =>
      simp only [strcmpChars]
      by_cases hxy : x = y
      · subst hxy
        simp only [if_true]
        exact ih bs
      · rw [if_neg hxy, if_neg (fun e => hxy e.symm)]
        omega

theorem strcmpChars_lt_trans : ∀ a b c : List Char,
    strcmpChars a b < 0 → strcmpChars b c < 0 → strcmpChars a c < 0 := by
  intro a
  induction a with
  | nil =>
    intro b c h1 h2
    cases b with
    | nil => simp [strcmpChars] at h1
    | cons y bs =>
      cases c with
      | nil => simp only [strcmpChars] at h2; omega
      | cons z cs =>
        simp only [strcmpChars] at h1 h2 ⊢
        by_cases hyz : y = z
        · subst hyz; omega
        · rw [if_neg hyz] at h2; omega
  | cons x as ih =>
    intro b c h1 h2
    cases b with
    | nil => simp only [strcmpChars] at h1; omega
    | cons y bs =>
      cases c with
      | nil => simp only [strcmpChars] at h2; omega
      | cons z cs =>
        simp only [strcmpChars] at h1 h2 ⊢
        by_cases hxy : x = y
        · subst hxy
          rw [if_pos rfl] at h1
          by_cases hyz : x = z
          · subst hyz
            rw [if_pos rfl] at h2 ⊢
            exact ih bs cs h1 h2
          · rw [if_neg hyz] at h2 ⊢
            exact h2
        · rw [if_neg hxy] at h1
          by_cases hyz : y = z
          · subst hyz
            rw [if_neg hxy]
            exact h1
          · rw [if_neg hyz] at h2
            have hxz : x ≠ z := by
              intro e
              subst e
              omega
            rw [if_neg hxz]
            omega

theorem strcmpChars_eq : ∀ a b : List Char, (∀ c ∈ a, c.toNat ≠ 0) → (∀ c ∈ b, c.toNat ≠ 0) →
    strcmpChars a b = 0 → a = b := by
  intro a
  induction a with
  | nil =>
    intro b _ hb h
    cases b with
    | nil => rfl
    | cons y bs =>
      simp only [strcmpChars] at h
      exact absurd (by omega) (hb y (List.mem_cons_self _ _))
  | cons x as ih =>
    intro b ha hb h
    cases b with
    | nil =>
      simp only [strcmpChars] at h
      exact absurd (by omega) (ha x (List.mem_cons_self _ _))
    | cons y bs =>
      simp only [strcmpChars] at h
      by_cases hxy : x = y
      · subst hxy
        rw [if_pos rfl] at h
        rw [ih bs (fun c hc => ha c (List.mem_cons_of_mem _ hc))
          (fun c hc => hb c (List.mem_cons_of_mem _ hc)) h]
      · rw [if_neg hxy] at h
        exact absurd (char_toNat_inj x y (by omega)) hxy

end Lab3S

theorem cstring_iff (s : String) : cstring s = true ↔ ∀ c ∈ s.toList, c.toNat ≠ 0 := by
  unfold cstring
  simp [List.all_eq_true]

namespace Lab3S

theorem strcmp_neg (a b : String) : strcmp b a = -strcmp a b := strcmpChars_neg _ _

theorem strcmp_lt_trans (a b c : String) (h1 : strcmp a b < 0) (h2 : strcmp b c < 0) :
    strcmp a c < 0 := strcmpChars_lt_trans _ _ _ h1 h2

theorem strcmp_eq (a b : String) (ha : cstring a = true) (hb : cstring b = true)
    (h : strcmp a b = 0) : a = b := by
  have := strcmpChars_eq a.toList b.toList ((cstring_iff a).1 ha) ((cstring_iff b).1 hb) h
  exact String.ext this

end Lab3S

namespace Lab2U

open Lab3S (Ptr strcmp)

/-! ### Lab 2 unsorted array: sequential search -/

theorem u_searchLoop_absent (sp : SET) (e : String) (xs : List String)
    (hpre : ∀ (k : Nat) (x : String), xs[k]? = some x → sp.data[k]? = some (Ptr.live x)) :
    ∀ (n i : Nat), i + n = xs.length →
      (∀ (k : Nat) (x : String), i ≤ k → xs[k]? = some x → strcmp x e ≠ 0) →
      searchLoop sp e n (i : Int) = Result.value (-1) := by
  intro n
  induction n with
  | zero => intro i _ _; rfl
  | succ n ih =>
    intro i hi hall
    obtain ⟨x, hx⟩ := Lab6.getElem?_some_of_lt xs i (by omega)
    simp only [searchLoop]
    rw [readAt_nat, hpre i x hx]
    simp only
    rw [if_neg (hall i x (le_refl _) hx)]
    have e1 : ((i : Int) + 1) = ((i + 1 : Nat) : Int) := by push_cast; rfl
    rw [e1]
    exact ih (i + 1) (by omega) (fun k y hk hy => hall k y (by omega) hy)

theorem u_searchLoop_found (sp : SET) (e : String) (xs : List String) (k0 : Nat) (x0 : String)
    (hpre : ∀ (k : Nat) (x : String), xs[k]? = some x → sp.data[k]? = some (Ptr.live x))
    (hx0 : xs[k0]? = some x0) (hc0 : strcmp x0 e = 0) :
    ∀ (n i : Nat), i + n = xs.length → i ≤ k0 →
      (∀ (k : Nat) (x : String), i ≤ k → k < k0 → xs[k]? = some x → strcmp x e ≠ 0) →
      searchLoop sp e n (i : Int) = Result.value (k0 : Int) := by
  intro n
  induction n with
  | zero =>
    intro i hi hik _
    have := Lab6.lt_length_of_getElem? _ _ _ hx0
    omega
  | succ n ih =>
    intro i hi hik hall
    obtain ⟨x, hx⟩ := Lab6.getElem?_some_of_lt xs i (by omega)
    simp only [searchLoop]
    rw [readAt_nat, hpre i x hx]
    simp only
    by_cases hk : i = k0
    · subst hk
      rw [hx0] at hx
      cases hx
      rw [if_pos hc0]
    · rw [if_neg (hall i x (le_refl _) (by omega) hx)]
      have e1 : ((i : Int) + 1) = ((i + 1 : Nat) : Int) := by push_cast; rfl
      rw [e1]
      exact ih (i + 1) (by omega) (by omega) (fun k y hk1 hk2 hy => hall k y (by omega) hk2 hy)

theorem cstring_of_getElem? (xs : List String) (hcs : ∀ x ∈ xs, cstring x = true) (k : Nat)
    (x : String) (hx : xs[k]? = some x) : cstring x = true :=
  hcs x (List.mem_iff_getElem?.2 ⟨k, hx⟩)

/-- On a set without the string, `search` returns `-1`. -/
theorem u_search_absent (sp : SET) (e : String) (xs : List String) (hp : Prefix sp xs)
    (hcs : ∀ x ∈ xs, cstring x = true) (he : cstring e = true) (hne : e ∉ xs) :
    search sp e = Result.value (-1) := by
  unfold search
  have hn : sp.count.toNat = xs.length := by rw [hp.1]; simp
  rw [hn]
  have := u_searchLoop_absent sp e xs hp.2.2 xs.length 0 (by omega) (by
    intro k x _ hx hc
    have := Lab3S.strcmp_eq x e (cstring_of_getElem? xs hcs k x hx) he hc
    subst this
    exact hne (List.mem_iff_getElem?.2 ⟨k, hx⟩))
  exact this

/-- On a duplicate-free set, `search` returns the index of the string. -/
theorem u_search_found (sp : SET) (e : String) (xs : List String) (hp : Prefix sp xs)
    (hcs : ∀ x ∈ xs, cstring x = true) (he : cstring e = true) (hnd : xs.Nodup) (k0 : Nat)
    (hk0 : xs[k0]? = some e) : search sp e = Result.value (k0 : Int) := by
  unfold search
  have hn : sp.count.toNat = xs.length := by rw [hp.1]; simp
  rw [hn]
  have := u_searchLoop_found sp e xs k0 e hp.2.2 hk0 (Lab3S.strcmp_self e) xs.length 0
    (by omega) (Nat.zero_le _) (by
      intro k x _ hk hx hc
      have := Lab3S.strcmp_eq x e (cstring_of_getElem? xs hcs k x hx) he hc
      subst this
      have hkl := Lab6.lt_length_of_getElem? _ _ _ hx
      have := List.getElem?_inj hkl hnd (hx.trans hk0.symm)
      omega)
  exact this

/-- What `findElement` returns on a duplicate-free set. -/
theorem u_findElement_spec (sp : SET) (x : String) (xs : List String) (hp : Prefix sp xs)
    (hcs : ∀ y ∈ xs, cstring y = true) (hx : cstring x = true) (hnd : xs.Nodup) :
    (x ∈ xs → findElement sp x = Result.value (some (Ptr.live x))) ∧
    (x ∉ xs → findElement sp x = Result.value none) := by
  constructor
  · intro hmem
    obtain ⟨k, hk⟩ := List.mem_iff_getElem?.1 hmem
    unfold findElement
    rw [u_search_found sp x xs hp hcs hx hnd k hk]
    simp only
    rw [if_pos (by omega), readAt_nat, hp.2.2 k x hk]
  · intro hmem
    unfold findElement
    rw [u_search_absent sp x xs hp hcs hx hmem]
    simp

/-- C11 (Lab 2 unsorted array, full capacity), evaluated at a failing input:
the set of capacity 1 that holds "a" has `count == length`, "b" is not stored
(`search` returns `-1`), and `addElement("b")` does not fail its assertion
(`count <= length` holds) but stores outside the block, at `data[1]`. -/
theorem unsorted_add_full_overflows :
    addElement (createSet 1) "a" = Outcome.returned full1 ∧
    full1.count = (full1.length : Int) ∧
    search full1 "b" = Result.value (-1) ∧
    writeAt full1.data full1.count (Ptr.live "b") = none ∧
    addElement full1 "b" = Outcome.undefined := by
  decide

end Lab2U

/-! ## Overwriting an entry with the last one and dropping the last -/

theorem swapLast_getElem? {β : Type} (xs : List β) (i : Nat) (last : β) (hi : i < xs.length)
    (k : Nat) :
    ((xs.set i last).dropLast)[k]? =
      if k + 1 < xs.length then (if k = i then some last else xs[k]?) else none := by
  rw [List.dropLast_eq_take, List.getElem?_take, List.length_set, List.getElem?_set]
  by_cases hk : k + 1 < xs.length
  · rw [if_pos (by omega), if_pos hk]
    by_cases hki : k = i
    · subst hki; rw [if_pos rfl, if_pos hi, if_pos rfl]
    · rw [if_neg (fun e => hki e.symm), if_neg hki]
  · rw [if_neg (by omega), if_neg hk]

theorem swapLast_mem {β : Type} (xs : List β) (i : Nat) (e last : β) (hnd : xs.Nodup)
    (hi : xs[i]? = some e) (hlast : xs[xs.length - 1]? = some last) (x : β) :
    x ∈ (xs.set i last).dropLast ↔ x ∈ xs ∧ x ≠ e := by
  have hil : i < xs.length := Lab6.lt_length_of_getElem? _ _ _ hi
  rw [List.mem_iff_getElem?, List.mem_iff_getElem?]
  constructor
  · rintro ⟨k, hk⟩
    rw [swapLast_getElem? xs i last hil k] at hk
    by_cases hkn : k + 1 < xs.length
    · rw [if_pos hkn] at hk
      by_cases hki : k = i
      · rw [if_pos hki] at hk
        cases hk
        refine ⟨⟨xs.length - 1, hlast⟩, ?_⟩
        intro hxe
        subst hxe
        have := List.getElem?_inj hil hnd (hi.trans hlast.symm)
        omega
      · rw [if_neg hki] at hk
        refine ⟨⟨k, hk⟩, ?_⟩
        intro hxe
        subst hxe
        have := List.getElem?_inj hil hnd (hi.trans hk.symm)
        omega
    · rw [if_neg hkn] at hk
      cases hk
  · rintro ⟨⟨k, hk⟩, hne⟩
    have hkl : k < xs.length := Lab6.lt_length_of_getElem? _ _ _ hk
    have hki : k ≠ i := by
      intro e1
      subst e1
      rw [hi] at hk
      cases hk
      exact hne rfl
    by_cases hkn : k + 1 < xs.length
    · refine ⟨k, ?_⟩
      rw [swapLast_getElem? xs i last hil k, if_pos hkn, if_neg hki]
      exact hk
    · have hk' : k = xs.length - 1 := by omega
      subst hk'
      rw [hlast] at hk
      cases hk
      refine ⟨i, ?_⟩
      rw [swapLast_getElem? xs i last hil i, if_pos (by omega), if_pos rfl]

theorem swapLast_nodup {β : Type} (xs : List β) (i : Nat) (e last : β) (hnd : xs.Nodup)
    (hi : xs[i]? = some e) (hlast : xs[xs.length - 1]? = some last) :
    ((xs.set i last).dropLast).Nodup := by
  have hil : i < xs.length := Lab6.lt_length_of_getElem? _ _ _ hi
  rw [List.nodup_iff_getElem?_ne_getElem?]
  intro k1 k2 h12 hk2
  simp only [List.length_dropLast, List.length_set] at hk2
  have hk1n : k1 + 1 < xs.length := by omega
  have hk2n : k2 + 1 < xs.length := by omega
  rw [swapLast_getElem? xs i last hil k1, swapLast_getElem? xs i last hil k2,
    if_pos hk1n, if_pos hk2n]
  have hne : ∀ a b : Nat, a < xs.length → a ≠ b → xs[a]? ≠ xs[b]? :=
    fun a b ha hab h => hab (List.getElem?_inj ha hnd h)
  by_cases h1 : k1 = i
  · have h2 : ¬ k2 = i := by omega
    rw [if_pos h1, if_neg h2, ← hlast]
    exact hne (xs.length - 1) k2 (by omega) (by omega)
  · rw [if_neg h1]
    by_cases h2 : k2 = i
    · rw [if_pos h2, ← hlast]
      exact hne k1 (xs.length - 1) (by omega) (by omega)
    · rw [if_neg h2]
      exact hne k1 k2 (by omega) (by omega)

namespace Lab2U

open Lab3S (Ptr strcmp)

/-! ### Lab 2 unsorted array: append and swap-remove -/

theorem u_add_absent (sp : SET) (e : String) (xs : List String) (hp : Prefix sp xs)
    (hcs : ∀ x ∈ xs, cstring x = true) (he : cstring e = true)
    (hlt : sp.count < (sp.length : Int)) (hne : e ∉ xs) :
    addElement sp e = Outcome.returned
        ⟨sp.data.set xs.length (Ptr.live e), sp.length, sp.count + 1⟩ ∧
      Prefix ⟨sp.data.set xs.length (Ptr.live e), sp.length, sp.count + 1⟩ (xs ++ [e]) := by
  have hnl : xs.length < sp.data.length := by
    have := hp.1
    rw [hp.2.1]; omega
  constructor
  · unfold addElement
    rw [if_pos (by omega), u_search_absent sp e xs hp hcs he hne]
    simp only [ne_eq, not_true_eq_false, if_false]
    rw [hp.1, writeAt_nat _ _ _ hnl]
  · refine ⟨?_, ?_, ?_⟩
    · simp only [List.length_append, List.length_singleton]
      rw [hp.1]
      push_cast
      rfl
    · simpa using hp.2.1
    · intro k x hk
      simp only [List.getElem?_set]
      rw [List.getElem?_append] at hk
      by_cases hkn : k < xs.length
      · rw [if_pos hkn] at hk
        rw [if_neg (by omega)]
        exact hp.2.2 k x hk
      · rw [if_neg hkn] at hk
        have hk0 : k - xs.length = 0 := by
          by_contra hne0
          rw [List.getElem?_eq_none (by simp; omega)] at hk
          cases hk
        rw [hk0] at hk
        simp only [List.getElem?_cons_zero, Option.some.injEq] at hk
        subst hk
        rw [if_pos (by omega), if_pos hnl]

theorem u_remove_stored (sp : SET) (e last : String) (xs : List String) (i : Nat)
    (hp : Prefix sp xs) (hcs : ∀ x ∈ xs, cstring x = true) (he : cstring e = true)
    (hnd : xs.Nodup) (hi : xs[i]? = some e) (hlast : xs[xs.length - 1]? = some last) :
    ∃ s', removeElement sp e = Outcome.returned s' ∧ s'.count = sp.count - 1 ∧
      s'.length = sp.length ∧ Prefix s' ((xs.set i last).dropLast) := by
  have hil : i < xs.length := Lab6.lt_length_of_getElem? _ _ _ hi
  have hdi := hp.2.2 i e hi
  have hdl := hp.2.2 _ last hlast
  have hid : i < sp.data.length := Lab6.lt_length_of_getElem? _ _ _ hdi
  have hcnt : sp.count - 1 = ((xs.length - 1 : Nat) : Int) := by
    rw [hp.1]; omega
  have hcl : xs.length - 1 < (sp.data.set i Ptr.freed).length := by
    rw [List.length_set]; exact Lab6.lt_length_of_getElem? _ _ _ hdl
  obtain ⟨v, hv⟩ := Lab6.getElem?_some_of_lt (sp.data.set i Ptr.freed) (xs.length - 1) hcl
  refine ⟨⟨(sp.data.set i Ptr.freed).set i v, sp.length, sp.count - 1⟩, ?_, rfl, rfl, ?_, ?_, ?_⟩
  · unfold removeElement
    rw [u_search_found sp e xs hp hcs he hnd i hi]
    simp only
    rw [if_neg (by omega), readAt_nat, hdi]
    simp only
    rw [writeAt_nat _ _ _ hid]
    simp only
    rw [hcnt, readAt_nat, hv]
    simp only
    rw [writeAt_nat _ _ _ (by simpa using hid)]
  · simp only [List.length_dropLast, List.length_set]
    exact hcnt
  · simpa using hp.2.1
  · intro k x hk
    rw [swapLast_getElem? xs i last hil k] at hk
    by_cases hkn : k + 1 < xs.length
    · rw [if_pos hkn] at hk
      simp only [List.getElem?_set, List.length_set]
      by_cases hki : k = i
      · rw [if_pos hki] at hk
        cases hk
        rw [if_pos hki.symm, if_pos hid]
        rw [List.getElem?_set, if_neg (by omega), hdl] at hv
        rw [← hv]
      · rw [if_neg hki] at hk
        rw [if_neg (fun e => hki e.symm), if_neg (fun e => hki e.symm)]
        exact hp.2.2 k x hk
    · rw [if_neg hkn] at hk
      cases hk

/-- C19 (Lab 2 unsorted array, append and swap-remove).  For a set whose
prefix `data[0..count)` holds the duplicate-free C strings `xs`: with
`count < length`, `addElement` of an absent `e` stores a copy of `e` at index
`count` and increments `count`; for `e` stored at index `i`, `removeElement(e)`
overwrites slot `i` with the old last string and decrements `count`, after
which `findElement(e)` is `NULL` and `findElement(x)` is non-`NULL` exactly for
the other previously stored strings; the prefix stays duplicate-free. -/
theorem unsorted_append_swap_remove (sp : SET) (e : String) (xs : List String)
    (hp : Prefix sp xs) (hcs : ∀ x ∈ xs, cstring x = true) (he : cstring e = true)
    (hnd : xs.Nodup) :
    (sp.count < (sp.length : Int) → e ∉ xs →
      ∃ s', addElement sp e = Outcome.returned s' ∧
        s'.data[xs.length]? = some (Ptr.live e) ∧ s'.count = sp.count + 1 ∧
        Prefix s' (xs ++ [e]) ∧ (xs ++ [e]).Nodup) ∧
    (∀ (i : Nat), xs[i]? = some e →
      ∃ s' last, xs.getLast? = some last ∧ removeElement sp e = Outcome.returned s' ∧
        s'.count = sp.count - 1 ∧ Prefix s' ((xs.set i last).dropLast) ∧
        ((xs.set i last).dropLast).Nodup ∧
        findElement s' e = Result.value none ∧
        ∀ x, cstring x = true →
          ((∃ p, findElement s' x = Result.value (some p)) ↔ (x ∈ xs ∧ x ≠ e))) := by
  constructor
  · intro hlt hne
    obtain ⟨hadd, hpre⟩ := u_add_absent sp e xs hp hcs he hlt hne
    refine ⟨_, hadd, ?_, rfl, hpre, ?_⟩
    · exact hpre.2.2 xs.length e (by simp)
    · rw [List.nodup_append]
      refine ⟨hnd, List.nodup_singleton e, ?_⟩
      intro a ha hb
      simp only [List.mem_singleton] at hb
      subst hb
      exact hne ha
  · intro i hi
    have hil : i < xs.length := Lab6.lt_length_of_getElem? _ _ _ hi
    obtain ⟨last, hlast⟩ := Lab6.getElem?_some_of_lt xs (xs.length - 1) (by omega)
    obtain ⟨s', hrem, hcnt, _, hpre⟩ := u_remove_stored sp e last xs i hp hcs he hnd hi hlast
    have hnd' := swapLast_nodup xs i e last hnd hi hlast
    have hmem := swapLast_mem xs i e last hnd hi hlast
    have hcs' : ∀ x ∈ (xs.set i last).dropLast, cstring x = true :=
      fun x hx => hcs x ((hmem x).1 hx).1
    refine ⟨s', last, ?_, hrem, hcnt, hpre, hnd', ?_, ?_⟩
    · rw [List.getLast?_eq_getElem?]; exact hlast
    · exact (u_findElement_spec s' e _ hpre hcs' he hnd').2 (fun h => ((hmem e).1 h).2 rfl)
    · intro x hx
      have hspec := u_findElement_spec s' x _ hpre hcs' hx hnd'
      constructor
      · rintro ⟨p, hfind⟩
        by_contra hcon
        have hnot : x ∉ (xs.set i last).dropLast := fun h => hcon ((hmem x).1 h)
        rw [hspec.2 hnot] at hfind
        cases hfind
      · intro hx2
        exact ⟨_, hspec.1 ((hmem x).2 hx2)⟩

/-- Witness of `unsorted_append_swap_remove`: the string "b" in the set of
capacity 4 that holds "a", "b", "c". -/
theorem unsorted_append_swap_remove_witness :
    (abc4.count < (abc4.length : Int) → "b" ∉ ["a", "b", "c"] →
      ∃ s', addElement abc4 "b" = Outcome.returned s' ∧
        s'.data[["a", "b", "c"].length]? = some (Ptr.live "b") ∧ s'.count = abc4.count + 1 ∧
        Prefix s' (["a", "b", "c"] ++ ["b"]) ∧ (["a", "b", "c"] ++ ["b"]).Nodup) ∧
    (∀ (i : Nat), ["a", "b", "c"][i]? = some "b" →
      ∃ s' last, ["a", "b", "c"].getLast? = some last ∧
        removeElement abc4 "b" = Outcome.returned s' ∧
        s'.count = abc4.count - 1 ∧ Prefix s' ((["a", "b", "c"].set i last).dropLast) ∧
        ((["a", "b", "c"].set i last).dropLast).Nodup ∧
        findElement s' "b" = Result.value none ∧
        ∀ x, cstring x = true →
          ((∃ p, findElement s' x = Result.value (some p)) ↔
            (x ∈ ["a", "b", "c"] ∧ x ≠ "b"))) :=
  unsorted_append_swap_remove abc4 "b" ["a", "b", "c"]
    ⟨rfl, rfl, by
      intro k x hk
      have hk3 : k < 3 := Lab6.lt_length_of_getElem? _ _ _ hk
      interval_cases k <;> cases hk <;> rfl⟩
    (by decide) (by decide) (by decide)

end Lab2U

namespace Lab2S

open Lab3S (Ptr strcmp)

/-! ### Lab 2 sorted array: binary search -/

/-- More fuel does not change a result of the loop. -/
theorem s_searchLoop_mono (sp : SET) (e : String) :
    ∀ (fuel : Nat) (low high : Int) (r : Result (Int × Bool)),
      searchLoop sp e fuel low high = some r →
      ∀ fuel', fuel ≤ fuel' → searchLoop sp e fuel' low high = some r := by
  intro fuel
  induction fuel with
  | zero =>
    intro low high r h fuel' _
    simp only [searchLoop] at h
    split at h
    · cases h
    · rename_i hlh
      cases fuel' with
      | zero => simp only [searchLoop]; rw [if_neg hlh]; exact h
      | succ f => simp only [searchLoop]; rw [if_neg hlh]; exact h
  | succ fuel ih =>
    intro low high r h fuel' hf
    cases fuel' with
    | zero => omega
    | succ f =>
      simp only [searchLoop] at h ⊢
      split at h
      · rename_i hlh
        rw [if_pos hlh]
        split at h
        · rename_i s hs
          split at h
          · rename_i hc; rw [if_pos hc]; exact h
          · rename_i hc
            rw [if_neg hc]
            split at h
            · rename_i hlt; rw [if_pos hlt]; exact ih _ _ _ h f (by omega)
            · rename_i hlt; rw [if_neg hlt]; exact ih _ _ _ h f (by omega)
        · exact h
      · rename_i hlh
        rw [if_neg hlh]; exact h

/-- The loop of the binary search on a strictly ascending prefix: it ends
within `high - low + 1` iterations, with a match or with the insertion point. -/
theorem s_searchLoop_spec (sp : SET) (e : String) (xs : List String) (hp : Prefix sp xs)
    (ha : Ascending xs) (he : cstring e = true) :
    ∀ (fuel low : Nat) (high : Int), high < (xs.length : Int) → (low : Int) ≤ high + 1 →
      high - (low : Int) + 1 ≤ (fuel : Int) →
      (∀ (k : Nat) (x : String), k < low → xs[k]? = some x → strcmp x e < 0) →
      (∀ (k : Nat) (x : String), high < (k : Int) → xs[k]? = some x → 0 < strcmp x e) →
      (∃ i : Nat, searchLoop sp e fuel (low : Int) high = some (Result.value ((i : Int), true)) ∧
        xs[i]? = some e) ∨
      (∃ p : Nat, searchLoop sp e fuel (low : Int) high = some (Result.value ((p : Int), false)) ∧
        p ≤ xs.length ∧
        (∀ (k : Nat) (x : String), k < p → xs[k]? = some x → strcmp x e < 0) ∧
        (∀ (k : Nat) (x : String), p ≤ k → xs[k]? = some x → 0 < strcmp x e)) := by
  intro fuel
  induction fuel with
  | zero =>
    intro low high hh hl hf h2 h3
    right
    refine ⟨low, ?_, by omega, h2, fun k x hk hx => h3 k x (by omega) hx⟩
    simp only [searchLoop]
    rw [if_neg (by omega)]
  | succ fuel ih =>
    intro low high hh hl hf h2 h3
    by_cases hlh : (low : Int) ≤ high
    · obtain ⟨h, rfl⟩ := Int.eq_ofNat_of_zero_le (by omega : 0 ≤ high)
      have hm : Int.tdiv ((h : Int) + (low : Int)) 2 = (((h + low) / 2 : Nat) : Int) := by
        rw [Int.tdiv_eq_ediv (by omega) (by omega)]
        omega
      have hm1 : low ≤ (h + low) / 2 := by omega
      have hm2 : (h + low) / 2 ≤ h := by omega
      obtain ⟨x, hx⟩ := Lab6.getElem?_some_of_lt xs ((h + low) / 2) (by omega)
      have hcx : cstring x = true := ha.1 x (List.mem_iff_getElem?.2 ⟨_, hx⟩)
      simp only [searchLoop]
      rw [if_pos hlh, hm, readAt_nat, hp.2.2 _ x hx]
      simp only
      by_cases hc0 : strcmp x e = 0
      · left
        rw [if_pos hc0]
        have := Lab3S.strcmp_eq x e hcx he hc0
        subst this
        exact ⟨_, rfl, hx⟩
      · rw [if_neg hc0]
        by_cases hlt : strcmp x e < 0
        · rw [if_pos hlt]
          have e1 : (((h + low) / 2 : Nat) : Int) + 1 = (((h + low) / 2 + 1 : Nat) : Int) := by
            push_cast; rfl
          rw [e1]
          refine ih ((h + low) / 2 + 1) (h : Int) hh (by omega) (by omega) ?_ h3
          intro k y hk hy
          by_cases hkm : k = (h + low) / 2
          · subst hkm
            rw [hx] at hy
            cases hy
            exact hlt
          · exact Lab3S.strcmp_lt_trans y x e (ha.2 k _ y x (by omega) hy hx) hlt
        · rw [if_neg hlt]
          have hgt : 0 < strcmp x e := by omega
          refine ih low ((((h + low) / 2 : Nat) : Int) - 1) (by omega) (by omega) (by omega)
            h2 ?_
          intro k y hk hy
          by_cases hkm : k = (h + low) / 2
          · subst hkm
            rw [hx] at hy
            cases hy
            exact hgt
          · have h1 : strcmp e x < 0 := by rw [Lab3S.strcmp_neg x e]; omega
            have h4 := Lab3S.strcmp_lt_trans e x y h1 (ha.2 _ k x y (by omega) hx hy)
            rw [Lab3S.strcmp_neg y e] at h4
            omega
    · right
      refine ⟨low, ?_, by omega, h2, fun k x hk hx => h3 k x (by omega) hx⟩
      simp only [searchLoop]
      rw [if_neg hlh]

/-- The function `search` on a strictly ascending prefix. -/
theorem s_search_spec (sp : SET) (e : String) (xs : List String) (hp : Prefix sp xs)
    (ha : Ascending xs) (he : cstring e = true) :
    (∃ i : Nat, searchLoop sp e xs.length 0 (sp.count - 1) =
          some (Result.value ((i : Int), true)) ∧
        search sp e = Result.value ((i : Int), true) ∧ xs[i]? = some e) ∨
    (∃ p : Nat, searchLoop sp e xs.length 0 (sp.count - 1) =
          some (Result.value ((p : Int), false)) ∧
        search sp e = Result.value ((p : Int), false) ∧ p ≤ xs.length ∧
        (∀ (k : Nat) (x : String), k < p → xs[k]? = some x → strcmp x e < 0) ∧
        (∀ (k : Nat) (x : String), p ≤ k → xs[k]? = some x → 0 < strcmp x e)) := by
  have hn : sp.count.toNat = xs.length := by rw [hp.1]; simp
  have hc := hp.1
  have hsp := s_searchLoop_spec sp e xs hp ha he xs.length 0 (sp.count - 1) (by omega)
    (by omega) (by omega) (fun k x hk => by omega)
    (fun k x hk hx => by
      have := Lab6.lt_length_of_getElem? _ _ _ hx
      omega)
  rcases hsp with ⟨i, h1, h2⟩ | ⟨p, h1, h2⟩
  · left
    refine ⟨i, h1, ?_, h2⟩
    unfold search
    rw [hn]
    have : ((0 : Nat) : Int) = 0 := rfl
    rw [this] at h1
    rw [h1]
  · right
    refine ⟨p, h1, ?_, h2⟩
    unfold search
    rw [hn]
    have : ((0 : Nat) : Int) = 0 := rfl
    rw [this] at h1
    rw [h1]

end Lab2S

namespace Lab2S

open Lab3S (Ptr strcmp)

theorem ascending_of_pairwise (xs : List String) (hcs : ∀ x ∈ xs, cstring x = true)
    (hpw : xs.Pairwise (fun a b => strcmp a b < 0)) : Ascending xs := by
  refine ⟨hcs, ?_⟩
  intro i j a b hij ha hb
  obtain ⟨hi, hai⟩ := List.getElem?_eq_some.1 ha
  obtain ⟨hj, hbj⟩ := List.getElem?_eq_some.1 hb
  rw [← hai, ← hbj]
  exact List.pairwise_iff_getElem.1 hpw i j hi hj hij

theorem ace4_prefix : Prefix ace4 ["a", "c", "e"] :=
  ⟨rfl, rfl, by
    intro k x hk
    have hk3 : k < 3 := Lab6.lt_length_of_getElem? _ _ _ hk
    interval_cases k <;> cases hk <;> rfl⟩

theorem ace_ascending : Ascending ["a", "c", "e"] :=
  ascending_of_pairwise _ (by decide) (by decide)

/-- C18 (Lab 2 sorted array, binary search).  For a set whose prefix
`data[0..count)` holds the strictly ascending C strings `xs`, and a C string
`e`: the loop of `search` ends (with any bound of at least `count` iterations
it gives the result of `search`), and either `found` is true and the index
returned is the unique index of `e`, or `found` is false and the index
returned is the insertion point `p` in `[0, count]`: the number of stored
strings less than `e`, with all of `data[0..p)` less and all of
`data[p..count)` greater than `e`. -/
theorem sorted_binary_search (sp : SET) (e : String) (xs : List String) (hp : Prefix sp xs)
    (ha : Ascending xs) (he : cstring e = true) :
    (∀ fuel, xs.length ≤ fuel →
      searchLoop sp e fuel 0 (sp.count - 1) = some (search sp e)) ∧
    ((∃ i : Nat, search sp e = Result.value ((i : Int), true) ∧ xs[i]? = some e ∧
        ∀ j : Nat, xs[j]? = some e → j = i) ∨
     (∃ p : Nat, search sp e = Result.value ((p : Int), false) ∧ p ≤ xs.length ∧
        p = xs.countP (fun x => decide (strcmp x e < 0)) ∧
        (∀ x ∈ xs.take p, strcmp x e < 0) ∧ (∀ x ∈ xs.drop p, 0 < strcmp x e))) := by
  rcases s_search_spec sp e xs hp ha he with ⟨i, hloop, hs, hi⟩ | ⟨p, hloop, hs, hpl, hlt, hgt⟩
  · refine ⟨fun fuel hf => ?_, Or.inl ⟨i, hs, hi, ?_⟩⟩
    · rw [hs]
      exact s_searchLoop_mono sp e _ _ _ _ hloop fuel hf
    · intro j hj
      by_contra hne
      have hself := Lab3S.strcmp_self e
      rcases Nat.lt_or_gt_of_ne hne with h | h
      · have := ha.2 j i e e h hj hi
        omega
      · have := ha.2 i j e e h hi hj
        omega
  · have htake : ∀ x ∈ xs.take p, strcmp x e < 0 := by
      intro x hx
      obtain ⟨k, hk⟩ := List.mem_iff_getElem?.1 hx
      rw [List.getElem?_take] at hk
      by_cases hkp : k < p
      · rw [if_pos hkp] at hk
        exact hlt k x hkp hk
      · rw [if_neg hkp] at hk
        cases hk
    have hdrop : ∀ x ∈ xs.drop p, 0 < strcmp x e := by
      intro x hx
      obtain ⟨k, hk⟩ := List.mem_iff_getElem?.1 hx
      rw [List.getElem?_drop] at hk
      exact hgt (p + k) x (by omega) hk
    refine ⟨fun fuel hf => ?_, Or.inr ⟨p, hs, hpl, ?_, htake, hdrop⟩⟩
    · rw [hs]
      exact s_searchLoop_mono sp e _ _ _ _ hloop fuel hf
    · have h1 : (xs.take p).countP (fun x => decide (strcmp x e < 0)) = (xs.take p).length :=
        List.countP_eq_length.2 (fun x hx => by simpa using htake x hx)
      have h2 : (xs.drop p).countP (fun x => decide (strcmp x e < 0)) = 0 :=
        List.countP_eq_zero.2 (fun x hx => by
          have := hdrop x hx
          simp only [decide_eq_true_eq]
          omega)
      have h3 : xs.countP (fun x => decide (strcmp x e < 0)) =
          (xs.take p).countP (fun x => decide (strcmp x e < 0)) +
          (xs.drop p).countP (fun x => decide (strcmp x e < 0)) := by
        rw [← List.countP_append, List.take_append_drop]
      rw [h3, h1, h2, List.length_take]
      omega

/-- Witness of `sorted_binary_search`: the string "d" in the sorted set that
holds "a", "c", "e". -/
theorem sorted_binary_search_witness :
    (∀ fuel, ["a", "c", "e"].length ≤ fuel →
      searchLoop ace4 "d" fuel 0 (ace4.count - 1) = some (search ace4 "d")) ∧
    ((∃ i : Nat, search ace4 "d" = Result.value ((i : Int), true) ∧
        ["a", "c", "e"][i]? = some "d" ∧
        ∀ j : Nat, ["a", "c", "e"][j]? = some "d" → j = i) ∨
     (∃ p : Nat, search ace4 "d" = Result.value ((p : Int), false) ∧
        p ≤ ["a", "c", "e"].length ∧
        p = ["a", "c", "e"].countP (fun x => decide (strcmp x "d" < 0)) ∧
        (∀ x ∈ ["a", "c", "e"].take p, strcmp x "d" < 0) ∧
        (∀ x ∈ ["a", "c", "e"].drop p, 0 < strcmp x "d"))) :=
  sorted_binary_search ace4 "d" ["a", "c", "e"] ace4_prefix ace_ascending (by decide)

end Lab2S

/-! ## Inserting into and shifting a list -/

theorem insert_getElem? {β : Type} (xs : List β) (p : Nat) (e : β) (hp : p ≤ xs.length)
    (k : Nat) :
    (xs.take p ++ e :: xs.drop p)[k]? =
      if k < p then xs[k]? else if k = p then some e else xs[k - 1]? := by
  have hlen : (xs.take p).length = p := by rw [List.length_take]; omega
  rw [List.getElem?_append, hlen]
  by_cases hk : k < p
  · rw [if_pos hk, if_pos hk, List.getElem?_take, if_pos hk]
  · rw [if_neg hk, if_neg hk]
    by_cases hkp : k = p
    · subst hkp
      rw [if_pos rfl, Nat.sub_self]
      simp
    · rw [if_neg hkp]
      have : k - p = (k - p - 1) + 1 := by omega
      rw [this, List.getElem?_cons_succ, List.getElem?_drop]
      congr 1
      omega

namespace Lab2S

open Lab3S (Ptr strcmp)

/-! ### Lab 2 sorted array: the shift loops -/

/-- The shift loop of `addElement` from index `i` down to an index `p` that
is at least 1: every read is inside the block, the entries of `(p, i]` and
also the entry `p` receive their left neighbours, the entries outside `[p, i]`
are unchanged. -/
theorem shiftUp_spec (p : Nat) (hp1 : 1 ≤ p) :
    ∀ (n i : Nat) (data : List Ptr), i + 1 = p + n → (0 < n → i < data.length) →
      ∃ d', shiftUp n (i : Int) data = some d' ∧ d'.length = data.length ∧
        (∀ k, k < p ∨ i < k → d'[k]? = data[k]?) ∧
        (∀ k, p < k → k ≤ i → d'[k]? = data[k - 1]?) := by
  intro n
  induction n with
  | zero =>
    intro i data hi _
    exact ⟨data, rfl, rfl, fun _ _ => rfl, fun k h1 h2 => by omega⟩
  | succ n ih =>
    intro i data hi hil
    have hil' : i < data.length := hil (by omega)
    have e1 : ((i : Int) - 1) = ((i - 1 : Nat) : Int) := by omega
    obtain ⟨v, hv⟩ := Lab6.getElem?_some_of_lt data (i - 1) (by omega)
    simp only [shiftUp]
    rw [e1, readAt_nat, hv]
    simp only
    rw [writeAt_nat _ _ _ hil']
    simp only
    cases n with
    | zero =>
      refine ⟨_, rfl, by simp, ?_, fun k h1 h2 => by omega⟩
      intro k hk
      rw [List.getElem?_set, if_neg (by omega)]
    | succ m =>
      obtain ⟨d', hrun, hlen, hout, hin⟩ := ih (i - 1) (data.set i v)
        (by omega) (fun _ => by simp; omega)
      refine ⟨d', hrun, by simpa using hlen, ?_, ?_⟩
      · intro k hk
        rw [hout k (by omega), List.getElem?_set, if_neg (by omega)]
      · intro k h1 h2
        by_cases hki : k = i
        · subst hki
          rw [hout k (Or.inr (by omega)), List.getElem?_set, if_pos rfl, if_pos hil']
          exact hv.symm
        · rw [hin k h1 (by omega), List.getElem?_set, if_neg (by omega)]

/-- The shift loop of `addElement` run from index `i` down to index 0 does
not complete: its last iteration, with `i == 0`, reads `data[-1]`. -/
theorem shiftUp_front :
    ∀ (n i : Nat) (data : List Ptr), i + 1 = n → shiftUp n (i : Int) data = none := by
  intro n
  induction n with
  | zero => intro i data hi; omega
  | succ n ih =>
    intro i data hi
    simp only [shiftUp]
    cases hr : readAt data ((i : Int) - 1) with
    | none => rfl
    | some v =>
      simp only
      cases hw : writeAt data (i : Int) v with
      | none => rfl
      | some d =>
        simp only
        cases n with
        | zero =>
          have hi0 : i = 0 := by omega
          subst hi0
          unfold readAt at hr
          rw [if_neg (by omega)] at hr
          cases hr
        | succ m =>
          have e1 : ((i : Int) - 1) = ((i - 1 : Nat) : Int) := by omega
          rw [e1]
          exact ih (i - 1) d (by omega)

/-- The shift loop of `removeElement` from index `i` over `n` entries: the
entries of `[i, i + n)` receive their right neighbours, the others are
unchanged. -/
theorem shiftDown_spec :
    ∀ (n i : Nat) (data : List Ptr), i + n + 1 ≤ data.length ∨ n = 0 →
      ∃ d', shiftDown n (i : Int) data = some d' ∧ d'.length = data.length ∧
        (∀ k, i ≤ k → k < i + n → d'[k]? = data[k + 1]?) ∧
        (∀ k, k < i ∨ i + n ≤ k → d'[k]? = data[k]?) := by
  intro n
  induction n with
  | zero =>
    intro i data _
    exact ⟨data, rfl, rfl, fun k h1 h2 => by omega, fun _ _ => rfl⟩
  | succ n ih =>
    intro i data hi
    have hil : i + n + 2 ≤ data.length := by omega
    have e1 : ((i : Int) + 1) = ((i + 1 : Nat) : Int) := by push_cast; rfl
    obtain ⟨v, hv⟩ := Lab6.getElem?_some_of_lt data (i + 1) (by omega)
    simp only [shiftDown]
    rw [e1, readAt_nat, hv]
    simp only
    rw [writeAt_nat _ _ _ (by omega)]
    simp only
    obtain ⟨d', hrun, hlen, hin, hout⟩ := ih (i + 1) (data.set i v)
      (Or.inl (by simp; omega))
    refine ⟨d', hrun, by simpa using hlen, ?_, ?_⟩
    · intro k h1 h2
      by_cases hki : k = i
      · subst hki
        rw [hout k (Or.inl (by omega)), List.getElem?_set, if_pos rfl, if_pos (by omega)]
        exact hv.symm
      · rw [hin k (by omega) (by omega), List.getElem?_set, if_neg (by omega)]
    · intro k hk
      rw [hout k (by omega), List.getElem?_set, if_neg (by omega)]

end Lab2S

namespace Lab2S

open Lab3S (Ptr strcmp)

/-! ### Lab 2 sorted array: insertion and removal keep the prefix ascending -/

theorem prefix_length_le (sp : SET) (xs : List String) (hp : Prefix sp xs) :
    xs.length ≤ sp.data.length := by
  by_contra hlt
  have hk : xs.length - 1 < xs.length := by omega
  have h := hp.2.2 (xs.length - 1) _ (List.getElem?_eq_getElem hk)
  have := Lab6.lt_length_of_getElem? _ _ _ h
  omega

theorem ascending_insert (xs : List String) (e : String) (p : Nat) (ha : Ascending xs)
    (he : cstring e = true) (hpl : p ≤ xs.length)
    (hlt : ∀ (k : Nat) (x : String), k < p → xs[k]? = some x → strcmp x e < 0)
    (hgt : ∀ (k : Nat) (x : String), p ≤ k → xs[k]? = some x → 0 < strcmp x e) :
    Ascending (xs.take p ++ e :: xs.drop p) := by
  constructor
  · intro x hx
    rw [List.mem_append, List.mem_cons] at hx
    rcases hx with h | h | h
    · exact ha.1 x (List.mem_of_mem_take h)
    · rw [h]; exact he
    · exact ha.1 x (List.mem_of_mem_drop h)
  · intro i j a b hij hi hj
    rw [insert_getElem? xs p e hpl] at hi hj
    by_cases hip : i < p
    · rw [if_pos hip] at hi
      by_cases hjp : j < p
      · rw [if_pos hjp] at hj
        exact ha.2 i j a b hij hi hj
      · rw [if_neg hjp] at hj
        by_cases hjq : j = p
        · rw [if_pos hjq] at hj
          cases hj
          exact hlt i a hip hi
        · rw [if_neg hjq] at hj
          exact ha.2 i (j - 1) a b (by omega) hi hj
    · rw [if_neg hip] at hi
      rw [if_neg (by omega), if_neg (by omega)] at hj
      by_cases hiq : i = p
      · rw [if_pos hiq] at hi
        cases hi
        have := hgt (j - 1) b (by omega) hj
        rw [Lab3S.strcmp_neg]
        omega
      · rw [if_neg hiq] at hi
        exact ha.2 (i - 1) (j - 1) a b (by omega) hi hj

theorem ascending_eraseIdx (xs : List String) (i : Nat) (ha : Ascending xs) :
    Ascending (xs.eraseIdx i) := by
  constructor
  · intro x hx
    exact ha.1 x ((List.eraseIdx_sublist xs i).subset hx)
  · intro k j a b hkj hk hj
    rw [List.getElem?_eraseIdx] at hk hj
    by_cases hki : k < i
    · rw [if_pos hki] at hk
      by_cases hji : j < i
      · rw [if_pos hji] at hj
        exact ha.2 k j a b hkj hk hj
      · rw [if_neg hji] at hj
        exact ha.2 k (j + 1) a b (by omega) hk hj
    · rw [if_neg hki] at hk
      rw [if_neg (by omega)] at hj
      exact ha.2 (k + 1) (j + 1) a b (by omega) hk hj

/-- The function `addElement` on an absent string whose insertion index `p`
is at least 1: the loop shifts `data[p..count)` up by one and the string is
stored at the index `p` that `search` returned. -/
theorem s_add_absent (sp : SET) (e : String) (xs : List String) (p : Nat) (hp : Prefix sp xs)
    (hlt : sp.count < (sp.length : Int))
    (hs : search sp e = Result.value ((p : Int), false)) (hp1 : 1 ≤ p) (hpl : p ≤ xs.length) :
    ∃ s', addElement sp e = Outcome.returned s' ∧
      Prefix s' (xs.take p ++ e :: xs.drop p) := by
  have hc := hp.1
  have hdl := hp.2.1
  have hnl : xs.length < sp.data.length := by omega
  obtain ⟨d', hrun, hlen, hout, hin⟩ :=
    shiftUp_spec p hp1 (xs.length - p + 1) xs.length sp.data (by omega) (fun _ => hnl)
  have hn : (sp.count - (p : Int) + 1).toNat = xs.length - p + 1 := by omega
  refine ⟨⟨d'.set p (Ptr.live e), sp.length, sp.count + 1⟩, ?_, ?_, ?_, ?_⟩
  · unfold addElement
    rw [if_pos (by omega), hs]
    simp only [Bool.false_eq_true, if_false]
    rw [hn, hc, hrun]
    simp only
    rw [writeAt_nat _ _ _ (by omega)]
  · show sp.count + 1 = _
    simp only [List.length_append, List.length_cons, List.length_take, List.length_drop]
    omega
  · show (d'.set p (Ptr.live e)).length = sp.length
    simp only [List.length_set]
    omega
  · intro k x hk
    show (d'.set p (Ptr.live e))[k]? = _
    rw [insert_getElem? xs p e hpl] at hk
    rw [List.getElem?_set]
    by_cases hkp : k < p
    · rw [if_pos hkp] at hk
      rw [if_neg (by omega), hout k (Or.inl hkp)]
      exact hp.2.2 k x hk
    · rw [if_neg hkp] at hk
      by_cases hkq : k = p
      · rw [if_pos hkq] at hk
        cases hk
        rw [if_pos hkq.symm, if_pos (by omega)]
      · rw [if_neg hkq] at hk
        have hk1 := Lab6.lt_length_of_getElem? _ _ _ hk
        rw [if_neg (by omega), hin k (by omega) (by omega)]
        exact hp.2.2 (k - 1) x hk

/-- The function `addElement` on an absent string whose insertion index is 0
is undefined: the last iteration of the shift loop reads `data[-1]`. -/
theorem s_add_front (sp : SET) (e : String) (h0 : 0 ≤ sp.count)
    (hle : sp.count ≤ (sp.length : Int)) (hs : search sp e = Result.value (0, false)) :
    addElement sp e = Outcome.undefined := by
  unfold addElement
  rw [if_pos hle, hs]
  simp only [Bool.false_eq_true, if_false]
  obtain ⟨c, hc⟩ : ∃ c : Nat, sp.count = (c : Int) := ⟨sp.count.toNat, by omega⟩
  have hn : (sp.count - 0 + 1).toNat = c + 1 := by omega
  rw [hn, hc, shiftUp_front (c + 1) c sp.data rfl]

/-- The function `search` on a set with `count == 0` reads nothing and
returns index 0, not found. -/
theorem s_search_empty (sp : SET) (e : String) (h0 : sp.count = 0) :
    search sp e = Result.value (0, false) := by
  unfold search
  rw [h0]
  rfl

/-- The function `removeElement` on a stored string: the pointer at the
index `i` that `search` returned is freed and the loop shifts
`data(i..count)` down by one. -/
theorem s_remove_present (sp : SET) (e : String) (xs : List String) (i : Nat)
    (hp : Prefix sp xs) (hs : search sp e = Result.value ((i : Int), true))
    (hi : xs[i]? = some e) :
    ∃ s', removeElement sp e = Outcome.returned s' ∧ Prefix s' (xs.eraseIdx i) := by
  have hc := hp.1
  have hdl := hp.2.1
  have hil := Lab6.lt_length_of_getElem? _ _ _ hi
  have hle := prefix_length_le sp xs hp
  obtain ⟨d', hrun, hlen, hin, hout⟩ :=
    shiftDown_spec (xs.length - 1 - i) i (sp.data.set i Ptr.freed)
      (Or.inl (by simp only [List.length_set]; omega))
  have hn : (sp.count - 1 - (i : Int)).toNat = xs.length - 1 - i := by omega
  refine ⟨⟨d', sp.length, sp.count - 1⟩, ?_, ?_, ?_, ?_⟩
  · unfold removeElement
    rw [hs]
    simp only [Bool.true_eq_false, if_false]
    rw [readAt_nat, hp.2.2 i e hi]
    simp only
    rw [writeAt_nat _ _ _ (by omega)]
    simp only
    rw [hn, hrun]
  · show sp.count - 1 = _
    rw [List.length_eraseIdx, if_pos hil]
    omega
  · show d'.length = sp.length
    rw [hlen, List.length_set]
    exact hdl
  · intro k x hk
    show d'[k]? = _
    have hkl := Lab6.lt_length_of_getElem? _ _ _ hk
    rw [List.length_eraseIdx, if_pos hil] at hkl
    rw [List.getElem?_eraseIdx] at hk
    by_cases hki : k < i
    · rw [if_pos hki] at hk
      rw [hout k (Or.inl hki), List.getElem?_set, if_neg (by omega)]
      exact hp.2.2 k x hk
    · rw [if_neg hki] at hk
      rw [hin k (by omega) (by omega), List.getElem?_set, if_neg (by omega)]
      exact hp.2.2 (k + 1) x hk

theorem s_add_present (sp : SET) (e : String) (i : Int)
    (hlt : sp.count < (sp.length : Int)) (hs : search sp e = Result.value (i, true)) :
    addElement sp e = Outcome.returned sp := by
  unfold addElement
  rw [if_pos (by omega), hs]
  rfl

theorem s_remove_absent (sp : SET) (e : String) (p : Int)
    (hs : search sp e = Result.value (p, false)) :
    removeElement sp e = Outcome.returned sp := by
  unfold removeElement
  rw [hs]
  rfl

theorem s_getElements_prefix (sp : SET) (xs : List String) (hp : Prefix sp xs) :
    getElements sp = some (xs.map Ptr.live) := by
  have hle := prefix_length_le sp xs hp
  have hc := hp.1
  unfold getElements
  rw [if_pos ⟨by omega, by omega⟩]
  congr 1
  apply List.ext_getElem?
  intro k
  rw [List.getElem?_take, List.getElem?_map]
  have hn : sp.count.toNat = xs.length := by omega
  rw [hn]
  by_cases hk : k < xs.length
  · rw [if_pos hk, List.getElem?_eq_getElem hk]
    exact hp.2.2 k _ (List.getElem?_eq_getElem hk)
  · rw [if_neg hk, List.getElem?_eq_none (by omega)]
    rfl

theorem s_createSet_prefix (maxElts : Nat) : Prefix (createSet maxElts) [] :=
  ⟨rfl, by simp [createSet], fun k x hk => by cases hk⟩

theorem ascending_nil : Ascending [] := by
  constructor
  · intro x hx
    cases hx
  · intro i j a b _ hi _
    cases hi

/-- No call of `addElement` that stores a string returns from a state reached
from `createSet`: the first insertion is at index 0, so every reachable state
has `count == 0`. -/
theorem s_reachable_empty (sp : SET) (hr : Reachable sp) : sp.count = 0 := by
  induction hr with
  | create maxElts => rfl
  | add sp sp' e _ hc hlt hadd ih =>
    rw [s_add_front sp e (by omega) (by omega) (s_search_empty sp e ih)] at hadd
    cases hadd
  | remove sp sp' e _ hc hrem ih =>
    rw [s_remove_absent sp e _ (s_search_empty sp e ih)] at hrem
    cases hrem
    exact ih

end Lab2S

namespace Lab2S

open Lab3S (Ptr strcmp)

/-- C17 (Lab 2 sorted array, order invariant): the claim fails on the code.
The first `addElement` after `createSet` does not yield the prefix with the
string inserted: `search` returns index 0 and the shift loop
`for (i = count; i >= elementIndex; i--) data[i] = data[i-1]` reads
`data[-1]`, outside the block, so the call is undefined, for every capacity
and every string.  The same holds for every insertion at index 0, as "0" into
the set holding "a", "c", "e"; an insertion at a later index, as "d" into that
set, returns with the string inserted in order. -/
theorem sorted_first_insert_undefined :
    search (createSet 1) "a" = Result.value (0, false) ∧
    addElement (createSet 1) "a" = Outcome.undefined ∧
    (∀ (maxElts : Nat) (e : String), addElement (createSet maxElts) e = Outcome.undefined) ∧
    search ace4 "0" = Result.value (0, false) ∧
    addElement ace4 "0" = Outcome.undefined ∧
    addElement ace4 "d" = Outcome.returned
      { data := [Ptr.live "a", Ptr.live "c", Ptr.live "d", Ptr.live "e"],
        length := 4, count := 4 } := by
  refine ⟨by decide, by decide, ?_, by decide, by decide, by decide⟩
  intro maxElts e
  exact s_add_front (createSet maxElts) e (le_refl _) (Int.ofNat_nonneg _)
    (s_search_empty _ e rfl)

end Lab2S

namespace Lab6

variable {α : Type}

/-! ### Lab 6: the slot that `search` returns for an absent element -/

theorem searchLoop_step_deleted (sp : SET α) (elt : α) (start n i : Nat) (av : Int)
    (hd : flagAt sp ((start + i) % sp.length) = DELETED) :
    searchLoop sp elt start (n + 1) i av =
      searchLoop sp elt start n (i + 1)
        (if av = -1 then (((start + i) % sp.length : Nat) : Int) else av) := by
  simp only [searchLoop]
  rw [if_neg (by rw [hd]; decide), if_pos hd]

theorem searchLoop_step_other (sp : SET α) (elt : α) (start n i : Nat) (av : Int)
    (he : flagAt sp ((start + i) % sp.length) ≠ EMPTY)
    (hd : flagAt sp ((start + i) % sp.length) ≠ DELETED)
    (hno : ∀ x, sp.data[(start + i) % sp.length]? = some x → sp.compare x elt ≠ 0) :
    searchLoop sp elt start (n + 1) i av = searchLoop sp elt start n (i + 1) av := by
  simp only [searchLoop]
  rw [if_neg he, if_neg hd]
  cases hx : sp.data[(start + i) % sp.length]? with
  | none => rfl
  | some x => simp only; rw [if_neg (hno x hx)]

/-- With a candidate slot already recorded, the loop of `search` returns it
when it stops without a match: at an `EMPTY` slot at step `m`, or after the
last step (`m = i + n`). -/
theorem searchLoop_keeps_available (sp : SET α) (elt : α) (start : Nat) :
    ∀ (n i m : Nat) (av : Int), av ≠ -1 → i ≤ m → m ≤ i + n →
      (∀ j, i ≤ j → j < m → flagAt sp ((start + j) % sp.length) ≠ EMPTY ∧
        (flagAt sp ((start + j) % sp.length) ≠ DELETED →
          ∀ x, sp.data[(start + j) % sp.length]? = some x → sp.compare x elt ≠ 0)) →
      (m = i + n ∨ flagAt sp ((start + m) % sp.length) = EMPTY) →
      searchLoop sp elt start n i av = (av, false) := by
  intro n
  induction n with
  | zero =>
    intro i m av _ _ _ _ _
    rfl
  | succ n ih =>
    intro i m av hav him hmn hpath hstop
    by_cases hmi : m = i
    · subst hmi
      rcases hstop with h | h
      · omega
      · simp only [searchLoop]
        rw [if_pos h, if_pos hav]
    · have hi := hpath i (le_refl i) (by omega)
      by_cases hd : flagAt sp ((start + i) % sp.length) = DELETED
      · rw [searchLoop_step_deleted sp elt start n i av hd, if_neg hav]
        exact ih (i + 1) m av hav (by omega) (by omega)
          (fun j h1 h2 => hpath j (by omega) h2)
          (hstop.imp (fun h => by omega) id)
      · rw [searchLoop_step_other sp elt start n i av hi.1 hd (hi.2 hd)]
        exact ih (i + 1) m av hav (by omega) (by omega)
          (fun j h1 h2 => hpath j (by omega) h2)
          (hstop.imp (fun h => by omega) id)

/-- With no candidate recorded and no `DELETED` slot on the way, the loop of
`search` returns the `EMPTY` slot at which it stops, or `-1` after the last
step. -/
theorem searchLoop_no_deleted (sp : SET α) (elt : α) (start : Nat) :
    ∀ (n i m : Nat), i ≤ m → m ≤ i + n →
      (∀ j, i ≤ j → j < m → flagAt sp ((start + j) % sp.length) ≠ EMPTY ∧
        flagAt sp ((start + j) % sp.length) ≠ DELETED ∧
        ∀ x, sp.data[(start + j) % sp.length]? = some x → sp.compare x elt ≠ 0) →
      (flagAt sp ((start + m) % sp.length) = EMPTY → m < i + n →
        searchLoop sp elt start n i (-1) = ((((start + m) % sp.length : Nat) : Int), false)) ∧
      (m = i + n → searchLoop sp elt start n i (-1) = (-1, false)) := by
  intro n
  induction n with
  | zero =>
    intro i m him hmn _
    have : m = i := by omega
    subst this
    exact ⟨fun _ h => by omega, fun _ => rfl⟩
  | succ n ih =>
    intro i m him hmn hpath
    by_cases hmi : m = i
    · subst hmi
      refine ⟨fun h _ => ?_, fun h => by omega⟩
      simp only [searchLoop]
      rw [if_pos h]
      simp
    · have hi := hpath i (le_refl i) (by omega)
      rw [searchLoop_step_other sp elt start n i (-1) hi.1 hi.2.1 hi.2.2]
      have := ih (i + 1) m (by omega) (by omega) (fun j h1 h2 => hpath j (by omega) h2)
      exact ⟨fun h hlt => this.1 h (by omega), fun h => this.2 (by omega)⟩

/-- With no candidate recorded, the loop of `search` returns the first
`DELETED` slot on the way when it stops without a match. -/
theorem searchLoop_first_deleted (sp : SET α) (elt : α) (start : Nat) :
    ∀ (n i m j0 : Nat), i ≤ j0 → j0 < m → m ≤ i + n →
      (∀ j, i ≤ j → j < m → flagAt sp ((start + j) % sp.length) ≠ EMPTY ∧
        (flagAt sp ((start + j) % sp.length) ≠ DELETED →
          ∀ x, sp.data[(start + j) % sp.length]? = some x → sp.compare x elt ≠ 0)) →
      flagAt sp ((start + j0) % sp.length) = DELETED →
      (∀ j, i ≤ j → j < j0 → flagAt sp ((start + j) % sp.length) ≠ DELETED) →
      (m = i + n ∨ flagAt sp ((start + m) % sp.length) = EMPTY) →
      searchLoop sp elt start n i (-1) = ((((start + j0) % sp.length : Nat) : Int), false) := by
  intro n
  induction n with
  | zero =>
    intro i m j0 h1 h2 h3
    omega
  | succ n ih =>
    intro i m j0 hij hjm hmn hpath hdel hfirst hstop
    by_cases hji : j0 = i
    · subst hji
      rw [searchLoop_step_deleted sp elt start n j0 (-1) hdel, if_pos rfl]
      exact searchLoop_keeps_available sp elt start n (j0 + 1) m _ (by omega) (by omega)
        (by omega) (fun j h1 h2 => hpath j (by omega) h2) (hstop.imp (fun h => by omega) id)
    · have hi := hpath i (le_refl i) (by omega)
      have hnd := hfirst i (le_refl i) (by omega)
      rw [searchLoop_step_other sp elt start n i (-1) hi.1 hnd (hi.2 hnd)]
      exact ih (i + 1) m j0 (by omega) hjm (by omega)
        (fun j h1 h2 => hpath j (by omega) h2) hdel
        (fun j h1 h2 => hfirst j (by omega) h2) (hstop.imp (fun h => by omega) id)

end Lab6

namespace Lab6

variable {α : Type}

/-- C29 (Lab 6 table, insertion slot chosen by `search`).  For a table with
`length > 0` and flags in `{EMPTY, FILLED, DELETED}`, let the probe steps
`0..m-1` of `elt` be non-`EMPTY` and without a match, where either step `m` is
an `EMPTY` slot or `m = length` (all slots probed).  Then `search` reports
`found = false` and returns the first `DELETED` slot among the steps `0..m-1`
when there is one; otherwise it returns the `EMPTY` slot of step `m`, and `-1`
when all `length` slots were probed. -/
theorem search_insertion_slot (sp : SET α) (elt : α) (hwf : WF sp) (m : Nat)
    (hm : m ≤ sp.length)
    (hpath : ∀ j, j < m → flagAt sp (probe sp elt j) ≠ EMPTY ∧
      (flagAt sp (probe sp elt j) = FILLED →
        ∀ x, sp.data[probe sp elt j]? = some x → sp.compare x elt ≠ 0))
    (hstop : m = sp.length ∨ flagAt sp (probe sp elt m) = EMPTY) :
    (∀ j0, j0 < m → flagAt sp (probe sp elt j0) = DELETED →
      (∀ j, j < j0 → flagAt sp (probe sp elt j) ≠ DELETED) →
      search sp elt = (((probe sp elt j0 : Nat) : Int), false)) ∧
    ((∀ j, j < m → flagAt sp (probe sp elt j) ≠ DELETED) →
      (m < sp.length → search sp elt = (((probe sp elt m : Nat) : Int), false)) ∧
      (m = sp.length → search sp elt = (-1, false))) := by
  have hpath' : ∀ j, 0 ≤ j → j < m →
      flagAt sp ((sp.hash elt % sp.length + j) % sp.length) ≠ EMPTY ∧
      (flagAt sp ((sp.hash elt % sp.length + j) % sp.length) ≠ DELETED →
        ∀ x, sp.data[(sp.hash elt % sp.length + j) % sp.length]? = some x →
          sp.compare x elt ≠ 0) := by
    intro j _ hj
    refine ⟨(hpath j hj).1, fun hd => (hpath j hj).2 ?_⟩
    rcases hwf.fval (probe sp elt j) with h | h | h
    · exact absurd h (hpath j hj).1
    · exact h
    · exact absurd h hd
  constructor
  · intro j0 hj0 hdel hfirst
    exact searchLoop_first_deleted sp elt _ sp.length 0 m j0 (Nat.zero_le _) hj0 (by omega)
      hpath' hdel (fun j _ hj => hfirst j hj) (hstop.imp (fun h => by omega) id)
  · intro hnd
    have h := searchLoop_no_deleted sp elt (sp.hash elt % sp.length) sp.length 0 m
      (Nat.zero_le _) (by omega)
      (fun j h0 hj => ⟨(hpath' j h0 hj).1, hnd j hj, (hpath' j h0 hj).2 (hnd j hj)⟩)
    refine ⟨fun hlt => ?_, fun heq => h.2 (by omega)⟩
    rcases hstop with hs | hs
    · omega
    · exact h.1 hs (by omega)

/-- Witness of `search_insertion_slot`: in the table of capacity 2 with a
tombstone in slot 0 and the element 1 in slot 1, both slots are probed for the
absent element 4 and the tombstone is returned. -/
theorem search_insertion_slot_witness :
    (∀ j0, j0 < 2 → flagAt exHole (probe exHole 4 j0) = DELETED →
      (∀ j, j < j0 → flagAt exHole (probe exHole 4 j) ≠ DELETED) →
      search exHole 4 = (((probe exHole 4 j0 : Nat) : Int), false)) ∧
    ((∀ j, j < 2 → flagAt exHole (probe exHole 4 j) ≠ DELETED) →
      (2 < exHole.length → search exHole 4 = (((probe exHole 4 2 : Nat) : Int), false)) ∧
      (2 = exHole.length → search exHole 4 = (-1, false))) :=
  search_insertion_slot exHole 4
    ⟨by decide, rfl, rfl, fun i => by
      by_cases h0 : i = 0
      · subst h0; exact Or.inr (Or.inr rfl)
      · by_cases h1 : i = 1
        · subst h1; exact Or.inr (Or.inl rfl)
        · left
          show exHole.flags.getD i EMPTY = EMPTY
          rw [List.getD_eq_default]
          show 2 ≤ i
          omega⟩
    2 (le_refl 2)
    (fun j hj => by
      interval_cases j
      · exact ⟨by decide, fun h => absurd h (by decide)⟩
      · refine ⟨by decide, fun _ x hx => ?_⟩
        have : x = 1 := by
          have h1 : exHole.data[probe exHole 4 1]? = some 1 := rfl
          rw [h1] at hx
          exact (Option.some.inj hx).symm
        subst this
        decide)
    (Or.inl rfl)

/-- C30 (Lab 6 table, `search` decides membership).  In every reachable table
state (where the probe invariant holds), with equal elements hashing
identically: `search` sets `found = true` exactly when some `FILLED` slot holds
an element that compares equal to `e`, and the index it then returns is such a
`FILLED` slot, whatever tombstones precede it on the probe path. -/
theorem search_decides_membership (sp : SET α) (e : α) (hr : Reachable sp)
    (hh : ∀ a b, sp.compare a b = 0 → sp.hash a = sp.hash b) :
    ProbeInv sp ∧
    ((search sp e).2 = true ↔ ∃ i x, Holds sp i x ∧ sp.compare x e = 0) ∧
    (∀ l, search sp e = (l, true) →
      ∃ (i : Nat) (x : α), l = (i : Int) ∧ i < sp.length ∧ Holds sp i x ∧
        sp.compare x e = 0) := by
  have hwf := (reachable_wf_count sp hr).1
  have hp := reachable_probeInv sp hr
  refine ⟨hp, ⟨fun h => ?_, fun h => ?_⟩, fun l h => search_found sp e l hwf h⟩
  · obtain ⟨i, x, _, _, hx, hc⟩ := search_found sp e (search sp e).1 hwf
      (by rw [← h])
    exact ⟨i, x, hx, hc⟩
  · obtain ⟨i, x, hx, hc⟩ := h
    exact search_complete sp e hp i x hx hc (hh x e hc)

end Lab6

namespace Lab6

variable {α : Type}

theorem exPast_reachable : Reachable exPast := by
  have h0 : Reachable ex2 :=
    Reachable.create 2 natCompare natHash (fun _ => 0) (fun _ => 7) (by decide)
  have h1 : Reachable ex2a := Reachable.add _ _ 0 h0 rfl
  have h2 : Reachable { ex2 with count := 2, data := [0, 2], flags := [1, 1] } :=
    Reachable.add _ _ 2 h1 rfl
  exact Reachable.remove _ _ 0 h2 rfl

/-- Witness of `search_decides_membership`: the element 2 is stored in slot 1
behind the tombstone in its home slot 0, and `search` returns slot 1. -/
theorem search_decides_membership_witness :
    ProbeInv exPast ∧
    ((search exPast 2).2 = true ↔ ∃ i x, Holds exPast i x ∧ exPast.compare x 2 = 0) ∧
    (∀ l, search exPast 2 = (l, true) →
      ∃ (i : Nat) (x : Nat), l = (i : Int) ∧ i < exPast.length ∧ Holds exPast i x ∧
        exPast.compare x 2 = 0) :=
  search_decides_membership exPast 2 exPast_reachable
    (fun a b h => by
      have h' : natCompare a b = 0 := h
      show natHash a = natHash b
      unfold natCompare at h'
      unfold natHash
      omega)

end Lab6

namespace Lab6

variable {α : Type}

/-! ### Lab 6: the snapshot depends only on the set of stored elements -/

theorem holds_lt_length (sp : SET α) (hwf : WF sp) (i : Nat) (x : α) (h : Holds sp i x) :
    i < sp.length := by
  by_contra hge
  have h1 : flagAt sp i = EMPTY := by
    show sp.flags.getD i EMPTY = EMPTY
    rw [List.getD_eq_default]
    rw [hwf.flen]
    omega
  rw [h.1] at h1
  exact absurd h1 (by decide)

theorem mem_filledInOrder (sp : SET α) (hwf : WF sp) (x : α) :
    x ∈ filledInOrder sp ↔ ∃ i, Holds sp i x := by
  unfold filledInOrder
  rw [List.mem_filterMap]
  constructor
  · rintro ⟨i, _, hi⟩
    by_cases hf : flagAt sp i = FILLED
    · rw [if_pos hf] at hi
      exact ⟨i, hf, hi⟩
    · rw [if_neg hf] at hi
      cases hi
  · rintro ⟨i, hi⟩
    refine ⟨i, List.mem_range.2 (holds_lt_length sp hwf i x hi), ?_⟩
    rw [if_pos hi.1]
    exact hi.2

/-- C28 (Lab 6 table, canonical snapshot).  Let two reachable tables (of any
capacities and hash functions, reached by any insertions and removals) have
the same comparison function, the three-way comparison of a total order in
which `compare(a, b) == 0` only for identical elements, and let them hold the
same set of live elements.  Then `getElements` returns the same array `r` on
both: it has `count` entries, holds exactly the live elements and is strictly
ascending. -/
theorem canonical_snapshot (s1 s2 : SET α) (hr1 : Reachable s1) (hr2 : Reachable s2)
    (hc : s2.compare = s1.compare) (hto : TotalOrder s1.compare)
    (hsign : ∀ a b, s1.compare a b < 0 → 0 < s1.compare b a)
    (hid : ∀ a b, s1.compare a b = 0 → a = b)
    (hsame : ∀ x, (∃ i, Holds s1 i x) ↔ (∃ j, Holds s2 j x)) :
    ∃ r, getElements s1 = some r ∧ getElements s2 = some r ∧
      (r.length : Int) = s1.count ∧ s2.count = s1.count ∧
      (∀ x, x ∈ r ↔ ∃ i, Holds s1 i x) ∧
      r.Pairwise (fun a b => s1.compare a b < 0) := by
  have hrefl : ∀ a, s1.compare a a = 0 := by
    intro a
    by_contra hne
    rcases lt_or_gt_of_ne hne with h | h
    · have := hsign a a h
      omega
    · have := hto.total a a (le_of_lt h)
      omega
  have hl1 : Lawful s1 :=
    ⟨hrefl, fun a b h => by rw [← hid a b h]; exact hrefl a,
      fun a b c h1 h2 => by rw [hid a b h1]; exact h2,
      fun a b h => by rw [hid a b h]⟩
  have hl2 : Lawful s2 :=
    ⟨fun a => by rw [hc]; exact hrefl a,
      fun a b h => by rw [hc] at h ⊢; exact hl1.symm a b h,
      fun a b c h1 h2 => by rw [hc] at h1 h2 ⊢; exact hl1.trans a b c h1 h2,
      fun a b h => by rw [hc] at h; rw [hid a b h]⟩
  have hwf1 := (reachable_wf_count s1 hr1).1
  have hwf2 := (reachable_wf_count s2 hr2).1
  have hnd1 : (filledInOrder s1).Nodup :=
    (filledInOrder_pairwise s1 (reachable_noDup s1 hr1 hl1)).imp
      (fun {a b} h hab => h (by rw [hab]; exact hrefl b))
  have hnd2 : (filledInOrder s2).Nodup :=
    (filledInOrder_pairwise s2 (reachable_noDup s2 hr2 hl2)).imp
      (fun {a b} h hab => h (by rw [hc, hab]; exact hrefl b))
  have hperm : (filledInOrder s1).Perm (filledInOrder s2) :=
    (List.perm_ext_iff_of_nodup hnd1 hnd2).2 (fun x => by
      rw [mem_filledInOrder s1 hwf1, mem_filledInOrder s2 hwf2]
      exact hsame x)
  obtain ⟨r1, hg1, hf1, hlen1, hs1⟩ := getElements_spec s1 hr1
  obtain ⟨r2, hg2, hf2, hlen2, hs2⟩ := getElements_spec s2 hr2
  have hcount : s2.count = s1.count := by
    rw [← hlen1, ← hlen2, hperm.length_eq]
  have hsorted : ∀ (s : SET α) (r : List α), s.compare = s1.compare →
      (r.length : Int) = s.count →
      (∀ (k1 k2 : Nat) (x y : α), k1 ≤ k2 → (k2 : Int) ≤ s.count - 1 →
        r[k1]? = some x → r[k2]? = some y → s.compare x y ≤ 0) →
      r.Pairwise (fun a b => s1.compare a b ≤ 0) := by
    intro s r hcs hlen hs
    rw [List.pairwise_iff_getElem]
    intro i j hi hj hij
    have := hs i j r[i] r[j] (le_of_lt hij) (by omega)
      (List.getElem?_eq_getElem hi) (List.getElem?_eq_getElem hj)
    rw [hcs] at this
    exact this
  have hr1len : (r1.length : Int) = s1.count := by rw [hf1.len]; exact hlen1
  have hr2len : (r2.length : Int) = s2.count := by rw [hf2.len]; exact hlen2
  have hp1 := hsorted s1 r1 rfl hr1len (hs1 hto)
  have hp2 := hsorted s2 r2 hc hr2len (hs2 (by rw [hc]; exact hto))
  have hanti : ∀ a b, s1.compare a b ≤ 0 → s1.compare b a ≤ 0 → a = b := by
    intro a b h1 h2
    apply hid
    by_contra hne
    have := hsign a b (lt_of_le_of_ne h1 hne)
    omega
  have heq : r1 = r2 := by
    haveI : IsAntisymm α (fun a b => s1.compare a b ≤ 0) := ⟨hanti⟩
    exact List.eq_of_perm_of_sorted ((hf1.perm.trans hperm).trans hf2.perm.symm) hp1 hp2
  refine ⟨r1, hg1, by rw [heq]; exact hg2, hr1len, hcount, ?_, ?_⟩
  · intro x
    rw [hf1.perm.mem_iff, mem_filledInOrder s1 hwf1]
  · have hndr : r1.Nodup := hf1.perm.nodup_iff.2 hnd1
    have hboth := hp1.and hndr
    exact hboth.imp (fun {a b} h => by
      rcases lt_or_eq_of_le h.1 with h1 | h1
      · exact h1
      · exact absurd (hid a b h1) h.2)

theorem ex4abc_reachable : Reachable ex4abc := by
  have h0 : Reachable (createSet 4 natCompare natHash (fun _ => 0) (fun _ => 7)) :=
    Reachable.create 4 natCompare natHash (fun _ => 0) (fun _ => 7) (by decide)
  have h1 : Reachable ⟨1, 4, [12, 0, 0, 0], [1, 0, 0, 0], natCompare, natHash⟩ :=
    Reachable.add _ _ 12 h0 rfl
  have h2 : Reachable ⟨2, 4, [12, 0, 0, 3], [1, 0, 0, 1], natCompare, natHash⟩ :=
    Reachable.add _ _ 3 h1 rfl
  have h3 : Reachable ⟨3, 4, [12, 0, 2, 3], [1, 0, 1, 1], natCompare, natHash⟩ :=
    Reachable.add _ _ 2 h2 rfl
  have h4 : Reachable ⟨4, 4, [12, 7, 2, 3], [1, 1, 1, 1], natCompare, natHash⟩ :=
    Reachable.add _ _ 7 h3 rfl
  exact Reachable.remove _ _ 3 h4 rfl

/-- Witness of `canonical_snapshot`: the table of capacity 5 that holds 2, 7,
12 in slots 2, 3, 4 and the table of capacity 4 that holds 12, 7, 2 in slots
0, 1, 2 next to a tombstone. -/
theorem canonical_snapshot_witness :
    ∃ r, getElements ex5abc = some r ∧ getElements ex4abc = some r ∧
      (r.length : Int) = ex5abc.count ∧ ex4abc.count = ex5abc.count ∧
      (∀ x, x ∈ r ↔ ∃ i, Holds ex5abc i x) ∧
      r.Pairwise (fun a b => ex5abc.compare a b < 0) :=
  canonical_snapshot ex5abc ex4abc ex5abc_reachable ex4abc_reachable rfl
    natCompare_totalOrder
    (fun a b h => by
      have h' : natCompare a b < 0 := h
      show 0 < natCompare b a
      unfold natCompare at h' ⊢
      omega)
    (fun a b h => by
      have h' : natCompare a b = 0 := h
      unfold natCompare at h'
      omega)
    (fun x => by
      rw [← mem_filledInOrder ex5abc (reachable_wf_count _ ex5abc_reachable).1,
        ← mem_filledInOrder ex4abc (reachable_wf_count _ ex4abc_reachable).1]
      have h1 : filledInOrder ex5abc = [2, 7, 12] := by decide
      have h2 : filledInOrder ex4abc = [12, 7, 2] := by decide
      rw [h1, h2]
      simp only [List.mem_cons, List.mem_singleton, List.not_mem_nil, or_false]
      tauto)

end Lab6

namespace Lab4

variable {α : Type}

/-! ### Lab 4: the bucket counts and the snapshot -/

theorem sum_map_set {β : Type} (f : β → Int) :
    ∀ (l : List β) (i : Nat) (x y : β), l[i]? = some x →
      ((l.set i y).map f).sum = (l.map f).sum - f x + f y := by
  intro l
  induction l with
  | nil => intro i x y h; cases h
  | cons a l ih =>
    intro i x y h
    cases i with
    | zero =>
      simp only [List.getElem?_cons_zero, Option.some.injEq] at h
      subst h
      simp only [List.set_cons_zero, List.map_cons, List.sum_cons]
      omega
    | succ i =>
      simp only [List.getElem?_cons_succ] at h
      simp only [List.set_cons_succ, List.map_cons, List.sum_cons]
      rw [ih i x y h]
      omega

theorem removeWalk_length (cmp : α → α → Int) (e : α) :
    ∀ (l r : List α), removeWalk cmp e l = some r → r.length + 1 = l.length := by
  intro l
  induction l with
  | nil => intro r h; cases h
  | cons a l ih =>
    intro r h
    simp only [removeWalk] at h
    by_cases hc : cmp a e = 0
    · rw [if_pos hc] at h
      cases h
      rfl
    · rw [if_neg hc] at h
      cases hw : removeWalk cmp e l with
      | none => rw [hw] at h; cases h
      | some r' =>
        rw [hw] at h
        cases h
        simp only [List.length_cons]
        rw [ih r' hw]

theorem removeItem_counts (lp : LIST α) (e y : α) (hf : findItem lp e = some y)
    (hc : lp.count = (lp.items.length : Int)) :
    (removeItem lp e).count = ((removeItem lp e).items.length : Int) ∧
      numItems (removeItem lp e) = numItems lp - 1 := by
  obtain ⟨r, hr⟩ := removeWalk_of_find lp.compare e lp.items y hf
  have hlen := removeWalk_length lp.compare e lp.items r hr
  have hrm : removeItem lp e = { lp with items := r, count := lp.count - 1 } := by
    unfold removeItem
    rw [hr]
  rw [hrm]
  constructor
  · show lp.count - 1 = (r.length : Int)
    omega
  · rfl

theorem fillLists_all (cmp : α → α → Int) (n : Nat) (l : List (LIST α)) (hn : n = l.length) :
    fillLists cmp n 0 l = List.replicate n (createList cmp) := by
  apply List.ext_getElem?
  intro j
  by_cases hj : j < n
  · have hlen : j < (fillLists cmp n 0 l).length := by rw [fillLists_length]; omega
    rw [List.getElem?_eq_getElem hlen, List.getElem?_replicate, if_pos hj]
    have := fillLists_getElem? cmp n 0 l j _ (by omega) (List.getElem?_eq_getElem hlen)
      (Nat.zero_le _)
    rw [this]
  · rw [List.getElem?_eq_none (by rw [fillLists_length]; omega),
      List.getElem?_eq_none (by simp; omega)]

theorem createSet_lists (n : Nat) (cmp : α → α → Int) (hash : α → Nat) (l0 : Nat → LIST α) :
    (createSet n cmp hash l0).lists = List.replicate (n / ALPHA) (createList cmp) := by
  unfold createSet
  simp only
  exact fillLists_all cmp _ _ (by simp)

theorem createSet_counts (n : Nat) (cmp : α → α → Int) (hash : α → Nat) (l0 : Nat → LIST α) :
    Counts (createSet n cmp hash l0) := by
  constructor
  · intro b lp hb
    rw [createSet_lists, List.getElem?_replicate] at hb
    by_cases h : b < n / ALPHA
    · rw [if_pos h] at hb
      cases hb
      rfl
    · rw [if_neg h] at hb
      cases hb
  · rw [createSet_lists]
    show (0 : Int) = _
    rw [List.map_replicate, List.sum_replicate]
    simp [numItems, createList]

theorem addElement_counts (sp sp' : SET α) (elt : α) (hc : Counts sp)
    (h : addElement sp elt = Outcome.returned sp') : Counts sp' := by
  obtain ⟨_, lp, hlp, hcase⟩ := addElement_cases sp sp' elt h
  rcases hcase with ⟨_, _, rfl⟩ | ⟨_, rfl⟩
  · exact hc
  · constructor
    · intro b lp' hb
      rcases getElem?_set_cases _ _ _ _ _ hb with ⟨_, rfl⟩ | ⟨_, hb'⟩
      · show lp.count + 1 = (((elt :: lp.items).length : Nat) : Int)
        rw [hc.1 _ lp hlp]
        simp
      · exact hc.1 b lp' hb'
    · show sp.count + 1 = _
      rw [sum_map_set numItems sp.lists _ lp _ hlp, hc.2]
      show _ = _ - lp.count + (lp.count + 1)
      omega

theorem removeElement_counts (sp sp' : SET α) (elt : α) (hc : Counts sp)
    (h : removeElement sp elt = Outcome.returned sp') : Counts sp' := by
  obtain ⟨_, lp, hlp, hcase⟩ := removeElement_cases sp sp' elt h
  rcases hcase with ⟨_, rfl⟩ | ⟨y, hf, rfl⟩
  · exact hc
  · have hrc := removeItem_counts lp elt y hf (hc.1 _ lp hlp)
    constructor
    · intro b lp' hb
      rcases getElem?_set_cases _ _ _ _ _ hb with ⟨_, rfl⟩ | ⟨_, hb'⟩
      · exact hrc.1
      · exact hc.1 b lp' hb'
    · show sp.count - 1 = _
      rw [sum_map_set numItems sp.lists _ lp _ hlp, hc.2, hrc.2]
      omega

theorem reachable_counts (sp : SET α) (h : Reachable sp) : Counts sp := by
  induction h with
  | create n cmp hash l0 => exact createSet_counts n cmp hash l0
  | add sp sp' elt _ hadd ih => exact addElement_counts sp sp' elt ih hadd
  | remove sp sp' elt _ hrem ih => exact removeElement_counts sp sp' elt ih hrem

theorem getItemsLoop_chain (items : List α) :
    ∀ rest : List α, getItemsLoop items rest.length rest = rest.map some := by
  intro rest
  induction rest with
  | nil => rfl
  | cons x rest ih =>
    simp only [List.length_cons, getItemsLoop, List.map_cons]
    rw [ih]

theorem getItems_of_count (lp : LIST α) (hc : lp.count = (lp.items.length : Int)) :
    getItems lp = some (lp.items.map some) := by
  unfold getItems
  rw [if_neg (by omega)]
  have : lp.count.toNat = lp.items.length := by omega
  rw [this, getItemsLoop_chain]

theorem copyLists_spec (sp : SET α)
    (hc : ∀ (b : Nat) (lp : LIST α), sp.lists[b]? = some lp →
      lp.count = (lp.items.length : Int)) :
    ∀ (n i : Nat) (elts : List (Option α)), i + n ≤ sp.lists.length →
      copyLists sp n i elts =
        some (elts ++ ((((sp.lists.drop i).take n).map (fun lp => lp.items)).flatten.map some)) := by
  intro n
  induction n with
  | zero =>
    intro i elts _
    simp [copyLists]
  | succ n ih =>
    intro i elts hi
    have hil : i < sp.lists.length := by omega
    simp only [copyLists]
    rw [List.getElem?_eq_getElem hil]
    simp only
    rw [getItems_of_count _ (hc i _ (List.getElem?_eq_getElem hil))]
    simp only
    rw [ih (i + 1) _ (by omega), List.drop_eq_getElem_cons hil]
    simp only [List.take_succ_cons, List.map_cons, List.flatten_cons, List.map_append,
      List.append_assoc]

end Lab4

namespace Lab4

variable {α : Type}

theorem flatten_length_counts :
    ∀ (l : List (LIST α)), (∀ lp ∈ l, lp.count = (lp.items.length : Int)) →
      (((l.map (fun lp => lp.items)).flatten.length : Nat) : Int) = (l.map numItems).sum := by
  intro l
  induction l with
  | nil => intro _; rfl
  | cons a l ih =>
    intro h
    simp only [List.map_cons, List.flatten_cons, List.length_append, List.sum_cons]
    push_cast
    rw [ih (fun lp hlp => h lp (List.mem_cons_of_mem a hlp))]
    have := h a (List.mem_cons_self a l)
    unfold numItems
    omega

theorem one20_reachable : Reachable one20 := by
  have h0 : Reachable new20 := Reachable.create 20 _ _ _
  have h1 : Reachable { new20 with
      count := 1
      lists := [{ count := 1, items := [3], compare := Lab6.natCompare }] } :=
    Reachable.add _ _ 3 h0 rfl
  have h2 : Reachable { new20 with
      count := 2
      lists := [{ count := 2, items := [8, 3], compare := Lab6.natCompare }] } :=
    Reachable.add _ _ 8 h1 rfl
  exact Reachable.remove _ _ 3 h2 rfl

/-- C21 (Lab 4 chained set, bucket-sum invariant).  In every state reachable
from `createSet` by `addElement` and `removeElement`: the `count` of the set is
the sum of `numItems` over all buckets, the `count` of each bucket is the
number of nodes of its chain, and `getElements` returns an array of exactly
`count` elements, the concatenation of the contents of the buckets in bucket
order. -/
theorem bucket_sum_invariant (sp : SET α) (hr : Reachable sp) :
    numElements sp = (sp.lists.map numItems).sum ∧
    (∀ (b : Nat) (lp : LIST α), sp.lists[b]? = some lp →
      numItems lp = (lp.items.length : Int)) ∧
    getElements sp = some ((sp.lists.map (fun lp => lp.items)).flatten.map some) ∧
    (((sp.lists.map (fun lp => lp.items)).flatten.map some).length : Int) =
      numElements sp := by
  have hc := reachable_counts sp hr
  have hinv := reachable_inv4 sp hr
  have hlen : (((sp.lists.map (fun lp => lp.items)).flatten.length : Nat) : Int) =
      sp.count := by
    rw [hc.2]
    apply flatten_length_counts
    intro lp hlp
    obtain ⟨b, hb⟩ := List.mem_iff_getElem?.1 hlp
    exact hc.1 b lp hb
  refine ⟨hc.2, hc.1, ?_, by rw [List.length_map]; exact hlen⟩
  unfold getElements
  rw [if_neg (by omega), copyLists_spec sp hc.1 sp.length 0 [] (by rw [hinv.llen]; omega)]
  simp only [List.drop_zero, List.nil_append]
  rw [← hinv.llen, List.take_length, if_pos (by rw [List.length_map]; exact hlen)]

/-- Witness of `bucket_sum_invariant`: the one-bucket set after `addElement`
of 3 and 8 and `removeElement` of 3. -/
theorem bucket_sum_invariant_witness :
    numElements one20 = (one20.lists.map numItems).sum ∧
    (∀ (b : Nat) (lp : LIST Nat), one20.lists[b]? = some lp →
      numItems lp = (lp.items.length : Int)) ∧
    getElements one20 = some ((one20.lists.map (fun lp => lp.items)).flatten.map some) ∧
    (((one20.lists.map (fun lp => lp.items)).flatten.map some).length : Int) =
      numElements one20 :=
  bucket_sum_invariant one20 one20_reachable

/-- C22 (Lab 4 chained set, construction), evaluated at a failing input: the
positive capacity 10.  `createSet(10, ...)` returns an empty set with
`10 / 20 = 0` buckets, and `addElement`, `findElement` and `removeElement`
compute `hash(e) % 0`, a division by zero, instead of storing and finding
the element. -/
theorem chained_small_capacity :
    (createSet 10 Lab6.natCompare Lab6.natHash (fun _ => createList Lab6.natCompare)).length
        = 0 ∧
    numElements
        (createSet 10 Lab6.natCompare Lab6.natHash (fun _ => createList Lab6.natCompare)) = 0 ∧
    addElement
        (createSet 10 Lab6.natCompare Lab6.natHash (fun _ => createList Lab6.natCompare)) 7
      = Outcome.undefined ∧
    findElement
        (createSet 10 Lab6.natCompare Lab6.natHash (fun _ => createList Lab6.natCompare)) 7
      = Result.undefined ∧
    removeElement
        (createSet 10 Lab6.natCompare Lab6.natHash (fun _ => createList Lab6.natCompare)) 7
      = Outcome.undefined :=
  ⟨rfl, rfl, rfl, rfl, rfl⟩

/-- The set returned by `createSet(maxElts, compare, hash)` is empty and has
`maxElts / 20` empty buckets.  Below 20 there is no bucket and the bucket
index of `addElement`, `removeElement` and `findElement` is undefined.  From
20 on there is at least one bucket, the bucket index is below the number of
buckets, and for an element with `compare(e, e) == 0`, `addElement(e)` returns
with one element stored and `findElement(e)` then returns `e`. -/
theorem createSet_buckets (maxElts : Nat) (compare : α → α → Int) (hash : α → Nat)
    (lists0 : Nat → LIST α) (e : α) (hrefl : compare e e = 0) :
    numElements (createSet maxElts compare hash lists0) = 0 ∧
    (createSet maxElts compare hash lists0).length = maxElts / 20 ∧
    (createSet maxElts compare hash lists0).lists =
      List.replicate (maxElts / 20) (createList compare) ∧
    (maxElts < 20 →
      addElement (createSet maxElts compare hash lists0) e = Outcome.undefined ∧
      removeElement (createSet maxElts compare hash lists0) e = Outcome.undefined ∧
      findElement (createSet maxElts compare hash lists0) e = Result.undefined) ∧
    (20 ≤ maxElts →
      1 ≤ (createSet maxElts compare hash lists0).length ∧
      hash e % (createSet maxElts compare hash lists0).length <
        (createSet maxElts compare hash lists0).lists.length ∧
      ∃ s', addElement (createSet maxElts compare hash lists0) e = Outcome.returned s' ∧
        numElements s' = 1 ∧ findElement s' e = Result.value (some e)) := by
  have hlists := createSet_lists maxElts compare hash lists0
  refine ⟨rfl, rfl, hlists, fun hlt => ?_, fun hge => ?_⟩
  · have h0 : (createSet maxElts compare hash lists0).length = 0 :=
      Nat.div_eq_of_lt hlt
    refine ⟨?_, ?_, ?_⟩
    · unfold addElement
      rw [if_pos h0]
    · unfold removeElement
      rw [if_pos h0]
    · unfold findElement
      rw [if_pos h0]
  · have hpos : 0 < (createSet maxElts compare hash lists0).length :=
      Nat.div_pos hge (by decide)
    have hb : hash e % (createSet maxElts compare hash lists0).length <
        (createSet maxElts compare hash lists0).length := Nat.mod_lt _ hpos
    have hlp : (createSet maxElts compare hash lists0).lists[
        (createSet maxElts compare hash lists0).hash e %
          (createSet maxElts compare hash lists0).length]? = some (createList compare) := by
      rw [hlists, List.getElem?_replicate]
      exact if_pos hb
    refine ⟨hpos, by rw [hlists, List.length_replicate]; exact hb, _,
      addElement_of_absent _ e _ hpos hlp rfl, rfl, ?_⟩
    have hlp' : ({ createSet maxElts compare hash lists0 with
        lists := (createSet maxElts compare hash lists0).lists.set
          (hash e % (createSet maxElts compare hash lists0).length)
          (addFirst (createList compare) e)
        count := (createSet maxElts compare hash lists0).count + 1 } : SET α).lists[
          hash e % (createSet maxElts compare hash lists0).length]? =
        some (addFirst (createList compare) e) := by
      show ((createSet maxElts compare hash lists0).lists.set _ _)[_]? = _
      rw [List.getElem?_set, if_pos rfl, if_pos (by
        rw [hlists, List.length_replicate]; exact hb)]
    have hfe := findElement_bucket
      ({ createSet maxElts compare hash lists0 with
        lists := (createSet maxElts compare hash lists0).lists.set
          (hash e % (createSet maxElts compare hash lists0).length)
          (addFirst (createList compare) e)
        count := (createSet maxElts compare hash lists0).count + 1 } : SET α)
      e (addFirst (createList compare) e) hpos hlp'
    refine hfe.trans ?_
    show Result.value (findWalk compare e [e]) = _
    rw [findWalk_head compare e e [] hrefl]

end Lab4

namespace TermProject

/-! ### Term Project list: the three functions that miss their item -/

/-- C25 (Term Project list, `removeLast`), evaluated at failing inputs.  After
`createList` and `addLast(7)` the list holds the one item 7, in slot 0 of its
node, but `removeLast` reads `data[first + count] = data[1]`, a slot that was
never written, and returns its indeterminate content (`none`) instead of 7; the
abstract deque returns 7.  After ten `addLast` calls the node is full and
`removeLast` reads `data[10]`, outside the block of 10 pointers. -/
theorem removeLast_reads_past_last :
    (∃ l1 l2 : LIST Nat, addLast createList 7 = Outcome.returned l1 ∧
      contents l1 = [some 7] ∧ numItems l1 = 1 ∧
      removeLast l1 = Reply.returned l2 none ∧ numItems l2 = 0) ∧
    dequeRun ([] : List Nat) [] [Op.addLast 7, Op.removeLast] = some ([], [7]) ∧
    run (createList : LIST Nat) [] [Op.addLast 7, Op.removeLast] ≠
      Reply.undefined ∧
    run (createList : LIST Nat) [] ((List.range 10).map Op.addLast ++ [Op.removeLast]) =
      Reply.undefined := by
  refine ⟨⟨_, _, rfl, ?_, rfl, rfl, rfl⟩, ?_, ?_, ?_⟩ <;> decide

/-- C26 (Term Project list, `getItem`), evaluated at a failing input.  After
`createList` and `addLast` of 0, 1, ..., 10 the list viewed as one array is
`[0, 1, ..., 10]` (ten items in the first node, one in the second), and
`getItem(10)` returns 0 instead of 10: the loop test `index > curr->count` does
not leave the first node when `index` equals its `count`, and the read wraps to
`data[(0 + 10) % 10]`.  `getItem(9)` returns 9. -/
theorem getItem_at_node_boundary :
    ∃ l : LIST Nat,
      run createList [] ((List.range 11).map Op.addLast) = Reply.returned l [] ∧
      numItems l = 11 ∧
      contents l = (List.range 11).map some ∧
      getItem l 9 = some (Result.value (some 9)) ∧
      getItem l 10 = some (Result.value (some 0)) := by
  refine ⟨_, rfl, ?_, ?_, ?_, ?_⟩ <;> decide

/-- C27 (Term Project list, `removeFirst` against the deque), evaluated at
the failing input of the claim: `addFirst 1, removeFirst, addFirst 2,
removeFirst, addLast 3, removeFirst`.  The deque returns 1, 2, 3.  The code
returns 1, 2 and then the indeterminate content (`none`) of a slot of a
drained node: the first two removals leave two empty nodes at the front, the
third `removeFirst` unlinks only one of them and reads `data[first]` of the
other; the item 3 stays in the list while `numItems` is 0.  With a single empty
node at the front (`addFirst 1, removeFirst, addLast 3, removeFirst`) the code
agrees with the deque. -/
theorem removeFirst_two_empty_nodes :
    dequeRun ([] : List Nat) []
        [Op.addFirst 1, Op.removeFirst, Op.addFirst 2, Op.removeFirst, Op.addLast 3,
          Op.removeFirst] = some ([], [1, 2, 3]) ∧
    (∃ l : LIST Nat,
      run createList []
        [Op.addFirst 1, Op.removeFirst, Op.addFirst 2, Op.removeFirst, Op.addLast 3,
          Op.removeFirst] = Reply.returned l [some 1, some 2, none] ∧
      numItems l = 0 ∧ (l.nodes.map (fun n => n.count)) = [-1, 1]) ∧
    (∃ l : LIST Nat,
      run createList [] [Op.addFirst 1, Op.removeFirst, Op.addLast 3, Op.removeFirst] =
        Reply.returned l [some 1, some 3]) ∧
    dequeRun ([] : List Nat) [] [Op.addFirst 1, Op.removeFirst, Op.addLast 3, Op.removeFirst] =
      some ([], [1, 3]) := by
  refine ⟨?_, ⟨_, rfl, ?_, ?_⟩, ⟨_, rfl⟩, ?_⟩ <;> decide

end TermProject

namespace Lab5

open Lab6 (TotalOrder)

variable {α : Type}

/-! ### Lab 5: index arithmetic -/

theorem p_nat (i : Nat) (h : 0 < i) : p (i : Int) = (((i - 1) / 2 : Nat) : Int) := by
  unfold p
  rw [Int.tdiv_eq_ediv (by omega) (by omega)]
  omega

theorem l_nat (i : Nat) : l (i : Int) = ((2 * i + 1 : Nat) : Int) := by
  unfold l
  omega

theorem r_nat (i : Nat) : r (i : Int) = ((2 * i + 2 : Nat) : Int) := by
  unfold r
  omega

theorem cmp_refl (cmp : α → α → Int) (hto : TotalOrder cmp) (a : α) : cmp a a ≤ 0 := by
  by_cases h : 0 ≤ cmp a a
  · exact hto.total a a h
  · omega

/-! ### Lab 5: the heap-up loop of `addEntry` -/

/-- The loop of `addEntry` returns (with more than `i` loop tests allowed),
with a final index `j ≤ i` and a block of the same size. -/
theorem heapUp_returns (cmp : α → α → Int) (entry : α) :
    ∀ (fuel i : Nat) (data : List α), i < fuel → i < data.length →
      ∃ (j : Nat) (d : List α), heapUp cmp entry fuel (i : Int) data =
          some (Result.value ((j : Int), d)) ∧ j ≤ i ∧ d.length = data.length := by
  intro fuel
  induction fuel with
  | zero => intro i data h; omega
  | succ fuel ih =>
    intro i data hf hlen
    simp only [heapUp]
    by_cases hi : (i : Int) > 0
    · rw [if_pos hi, p_nat i (by omega), readAt_nat]
      obtain ⟨parent, hpar⟩ := Lab6.getElem?_some_of_lt data ((i - 1) / 2) (by omega)
      rw [hpar]
      simp only
      by_cases hc : cmp parent entry > 0
      · rw [if_pos hc, writeAt_nat _ _ _ hlen]
        simp only
        obtain ⟨j, d, hrun, hj, hd⟩ := ih ((i - 1) / 2) (data.set i parent) (by omega)
          (by rw [List.length_set]; omega)
        exact ⟨j, d, hrun, by omega, by rw [hd, List.length_set]⟩
      · rw [if_neg hc]
        exact ⟨i, data, rfl, le_refl _, rfl⟩
    · rw [if_neg hi]
      exact ⟨i, data, rfl, le_refl _, rfl⟩

/-- One move of the heap-up loop keeps its invariant: with the hole at `i`
and the parent entry greater than `entry`, after `data[i] = data[p(i)]` the
hole is at `p(i)`. -/
theorem heapUp_step (cmp : α → α → Int) (hto : TotalOrder cmp) (entry parent : α)
    (n i : Nat) (data : List α) (hin : i ≤ n) (hlen : n < data.length) (hi : 1 ≤ i)
    (ha : ∀ (k : Nat) (a b : α), 1 ≤ k → k ≤ n → (k ≠ i ∨ i ≠ n) →
      data[(k - 1) / 2]? = some a → data[k]? = some b → cmp a b ≤ 0)
    (hpar : data[(i - 1) / 2]? = some parent) (hc : cmp parent entry > 0) :
    (∀ (k : Nat) (a b : α), 1 ≤ k → k ≤ n → (k ≠ (i - 1) / 2 ∨ (i - 1) / 2 ≠ n) →
      (data.set i parent)[(k - 1) / 2]? = some a → (data.set i parent)[k]? = some b →
      cmp a b ≤ 0) ∧
    (∀ (k : Nat) (b : α), 1 ≤ k → k ≤ n → (k - 1) / 2 = (i - 1) / 2 →
      (data.set i parent)[k]? = some b → cmp entry b ≤ 0) := by
  have hep : cmp entry parent ≤ 0 := hto.total parent entry (le_of_lt hc)
  have hil : i < data.length := by omega
  constructor
  · intro k a b hk1 hkn _ hka hkb
    rw [List.getElem?_set] at hka hkb
    by_cases hki : k = i
    · subst hki
      rw [if_pos rfl, if_pos hil] at hkb
      rw [if_neg (by omega), hpar] at hka
      cases hka
      cases hkb
      exact cmp_refl cmp hto _
    · rw [if_neg (fun h => hki h.symm)] at hkb
      by_cases hpk : (k - 1) / 2 = i
      · rw [if_pos hpk.symm, if_pos hil] at hka
        cases hka
        obtain ⟨x, hx⟩ := Lab6.getElem?_some_of_lt data i hil
        have h1 : cmp parent x ≤ 0 :=
          ha i parent x hi hin (Or.inr (by omega)) hpar hx
        have h2 : cmp x b ≤ 0 := ha k x b hk1 hkn (Or.inl hki) (by rw [hpk]; exact hx) hkb
        exact hto.trans _ _ _ h1 h2
      · rw [if_neg (fun h => hpk h.symm)] at hka
        exact ha k a b hk1 hkn (Or.inl hki) hka hkb
  · intro k b hk1 hkn hpk hkb
    rw [List.getElem?_set] at hkb
    by_cases hki : k = i
    · subst hki
      rw [if_pos rfl, if_pos hil] at hkb
      cases hkb
      exact hep
    · rw [if_neg (fun h => hki h.symm)] at hkb
      have h1 : cmp parent b ≤ 0 :=
        ha k parent b hk1 hkn (Or.inl hki) (by rw [hpk]; exact hpar) hkb
      exact hto.trans _ _ _ hep h1

/-- Storing `entry` in the hole closes the heap when the loop has ended: the
hole is the root or its parent is not greater than `entry`. -/
theorem heapUp_exit (cmp : α → α → Int) (entry : α)
    (n i : Nat) (data : List α) (hlen : n < data.length) (hin : i ≤ n)
    (ha : ∀ (k : Nat) (a b : α), 1 ≤ k → k ≤ n → (k ≠ i ∨ i ≠ n) →
      data[(k - 1) / 2]? = some a → data[k]? = some b → cmp a b ≤ 0)
    (hb : ∀ (k : Nat) (b : α), 1 ≤ k → k ≤ n → (k - 1) / 2 = i →
      data[k]? = some b → cmp entry b ≤ 0)
    (hexit : i = 0 ∨ ∀ a, data[(i - 1) / 2]? = some a → cmp a entry ≤ 0) :
    HeapN cmp (data.set i entry) (n + 1) := by
  have hil : i < data.length := by omega
  intro k a b hk1 hkn hka hkb
  rw [List.getElem?_set] at hka hkb
  by_cases hki : k = i
  · subst hki
    rw [if_pos rfl, if_pos hil] at hkb
    rw [if_neg (by omega)] at hka
    cases hkb
    rcases hexit with h | h
    · omega
    · exact h a hka
  · rw [if_neg (fun h => hki h.symm)] at hkb
    by_cases hpk : (k - 1) / 2 = i
    · rw [if_pos hpk.symm, if_pos hil] at hka
      cases hka
      exact hb k b hk1 (by omega) hpk hkb
    · rw [if_neg (fun h => hpk h.symm)] at hka
      exact ha k a b hk1 (by omega) (Or.inl hki) hka hkb

/-- The loop of `addEntry` on a block whose entries `0..n` form a heap except
for the hole at `i`: storing `entry` at the final index gives a heap of
`n + 1` entries. -/
theorem heapUp_heap (cmp : α → α → Int) (hto : TotalOrder cmp) (entry : α) (n : Nat) :
    ∀ (fuel i j : Nat) (data d : List α), i ≤ n → n < data.length →
      (∀ (k : Nat) (a b : α), 1 ≤ k → k ≤ n → (k ≠ i ∨ i ≠ n) →
        data[(k - 1) / 2]? = some a → data[k]? = some b → cmp a b ≤ 0) →
      (∀ (k : Nat) (b : α), 1 ≤ k → k ≤ n → (k - 1) / 2 = i →
        data[k]? = some b → cmp entry b ≤ 0) →
      heapUp cmp entry fuel (i : Int) data = some (Result.value ((j : Int), d)) →
      HeapN cmp (d.set j entry) (n + 1) := by
  intro fuel
  induction fuel with
  | zero => intro i j data d _ _ _ _ h; cases h
  | succ fuel ih =>
    intro i j data d hin hlen ha hb h
    simp only [heapUp] at h
    by_cases hi : (i : Int) > 0
    · rw [if_pos hi, p_nat i (by omega), readAt_nat] at h
      obtain ⟨parent, hpar⟩ := Lab6.getElem?_some_of_lt data ((i - 1) / 2) (by omega)
      rw [hpar] at h
      simp only at h
      by_cases hc : cmp parent entry > 0
      · rw [if_pos hc, writeAt_nat _ _ _ (by omega)] at h
        simp only at h
        obtain ⟨ha', hb'⟩ := heapUp_step cmp hto entry parent n i data hin hlen (by omega)
          ha hpar hc
        exact ih ((i - 1) / 2) j (data.set i parent) d (by omega)
          (by rw [List.length_set]; exact hlen) ha' hb' h
      · rw [if_neg hc] at h
        simp only [Option.some.injEq, Result.value.injEq, Prod.mk.injEq] at h
        obtain ⟨h1, h2⟩ := h
        have hji : j = i := by omega
        subst hji
        subst h2
        exact heapUp_exit cmp entry n j data hlen hin ha hb
          (Or.inr (fun a hka => by
            rw [hpar] at hka
            cases hka
            omega))
    · rw [if_neg hi] at h
      simp only [Option.some.injEq, Result.value.injEq, Prod.mk.injEq] at h
      obtain ⟨h1, h2⟩ := h
      have hji : j = i := by omega
      subst hji
      subst h2
      exact heapUp_exit cmp entry n j data hlen hin ha hb (Or.inl (by omega))

end Lab5

namespace Lab5

open Lab6 (TotalOrder)

variable {α : Type}

/-! ### Lab 5: the heap-down loop of `removeEntry` -/

/-- The choice of `smallerLoc` when the left child exists: a child of `i`
below `m` whose entry is not greater than the entry of any child of `i`. -/
theorem smallerLoc_spec (cmp : α → α → Int) (m i : Nat) (data : List α)
    (hl : 2 * i + 1 < m) (hlen : m ≤ data.length) :
    ∃ s : Nat, smallerLoc cmp (m : Int) (i : Int) data = some (s : Int) ∧
      (s = 2 * i + 1 ∨ s = 2 * i + 2) ∧ s < m ∧
      (TotalOrder cmp → ∀ c, data[s]? = some c →
        ∀ (k : Nat) (b : α), 1 ≤ k → k < m → (k - 1) / 2 = i → data[k]? = some b →
          cmp c b ≤ 0) := by
  unfold smallerLoc
  rw [r_nat, l_nat]
  by_cases hr : ((2 * i + 2 : Nat) : Int) < (m : Int)
  · rw [if_pos hr, readAt_nat, readAt_nat]
    obtain ⟨a, ha⟩ := Lab6.getElem?_some_of_lt data (2 * i + 1) (by omega)
    obtain ⟨b, hb⟩ := Lab6.getElem?_some_of_lt data (2 * i + 2) (by omega)
    rw [ha, hb]
    simp only
    by_cases hc : cmp a b < 0
    · rw [if_pos hc]
      refine ⟨2 * i + 1, rfl, Or.inl rfl, hl, ?_⟩
      intro hto c hcs k x hk1 hkm hpk hkx
      rw [ha] at hcs
      cases hcs
      have hk : k = 2 * i + 1 ∨ k = 2 * i + 2 := by omega
      rcases hk with rfl | rfl
      · rw [ha] at hkx
        cases hkx
        exact cmp_refl cmp hto _
      · rw [hb] at hkx
        cases hkx
        exact le_of_lt hc
    · rw [if_neg hc]
      refine ⟨2 * i + 2, rfl, Or.inr rfl, by omega, ?_⟩
      intro hto c hcs k x hk1 hkm hpk hkx
      rw [hb] at hcs
      cases hcs
      have hk : k = 2 * i + 1 ∨ k = 2 * i + 2 := by omega
      rcases hk with rfl | rfl
      · rw [ha] at hkx
        cases hkx
        exact hto.total _ _ (by omega)
      · rw [hb] at hkx
        cases hkx
        exact cmp_refl cmp hto _
  · rw [if_neg hr]
    refine ⟨2 * i + 1, rfl, Or.inl rfl, hl, ?_⟩
    intro hto c hcs k x hk1 hkm hpk hkx
    have hk : k = 2 * i + 1 := by omega
    subst hk
    rw [hcs] at hkx
    cases hkx
    exact cmp_refl cmp hto _

/-- The loop of `removeEntry` returns (with enough loop tests allowed), with
a final index `j` in `[i, m)` or equal to `i`, a block of the same size and
the entry `data[m]` unchanged. -/
theorem heapDown_returns (cmp : α → α → Int) (m : Nat) :
    ∀ (fuel i : Nat) (data : List α), m + 1 ≤ i + fuel → i ≤ m → m < data.length →
      ∃ (j : Nat) (d : List α), heapDown cmp (m : Int) fuel (i : Int) data =
          some (Result.value ((j : Int), d)) ∧ i ≤ j ∧ (j = i ∨ j < m) ∧
        d.length = data.length ∧ d[m]? = data[m]? := by
  intro fuel
  induction fuel with
  | zero => intro i data h1 h2; omega
  | succ fuel ih =>
    intro i data hf him hlen
    simp only [heapDown]
    rw [l_nat]
    by_cases hl : ((2 * i + 1 : Nat) : Int) < (m : Int)
    · rw [if_pos hl]
      obtain ⟨s, hs, hs2, hsm, _⟩ := smallerLoc_spec cmp m i data (by omega) (by omega)
      rw [hs]
      simp only
      rw [readAt_nat, readAt_nat]
      obtain ⟨c, hc⟩ := Lab6.getElem?_some_of_lt data s (by omega)
      obtain ⟨last, hlast⟩ := Lab6.getElem?_some_of_lt data m hlen
      rw [hc, hlast]
      simp only
      by_cases hcl : cmp c last < 0
      · rw [if_pos hcl, writeAt_nat _ _ _ (by omega)]
        simp only
        obtain ⟨j, d, hrun, hj, hjm, hd, hdm⟩ := ih s (data.set i c) (by omega) (by omega)
          (by rw [List.length_set]; exact hlen)
        refine ⟨j, d, hrun, by omega, Or.inr (by omega), by rw [hd, List.length_set], ?_⟩
        rw [hdm, List.getElem?_set, if_neg (by omega)]
        exact hlast
      · rw [if_neg hcl]
        exact ⟨i, data, rfl, le_refl _, Or.inl rfl, rfl, hlast⟩
    · rw [if_neg hl]
      exact ⟨i, data, rfl, le_refl _, Or.inl rfl, rfl, rfl⟩

/-- Storing the displaced last entry in the hole closes the heap when the
loop has ended: no child of the hole is smaller than that entry. -/
theorem heapDown_exit (cmp : α → α → Int) (last : α) (m i : Nat) (data : List α)
    (hil : i < data.length)
    (ha : ∀ (k : Nat) (a b : α), 1 ≤ k → k < m → ((k - 1) / 2 ≠ i ∨ 0 < i) →
      data[(k - 1) / 2]? = some a → data[k]? = some b → cmp a b ≤ 0)
    (hb : 0 < i → ∀ a, data[(i - 1) / 2]? = some a → cmp a last ≤ 0)
    (hexit : ∀ (k : Nat) (b : α), 1 ≤ k → k < m → (k - 1) / 2 = i → data[k]? = some b →
      cmp last b ≤ 0) :
    HeapN cmp (data.set i last) m := by
  intro k a b hk1 hkm hka hkb
  rw [List.getElem?_set] at hka hkb
  by_cases hki : k = i
  · subst hki
    rw [if_pos rfl, if_pos hil] at hkb
    rw [if_neg (by omega)] at hka
    cases hkb
    exact hb (by omega) a hka
  · rw [if_neg (fun h => hki h.symm)] at hkb
    by_cases hpk : (k - 1) / 2 = i
    · rw [if_pos hpk.symm, if_pos hil] at hka
      cases hka
      exact hexit k b hk1 hkm hpk hkb
    · rw [if_neg (fun h => hpk h.symm)] at hka
      exact ha k a b hk1 hkm (Or.inl hpk) hka hkb

/-- One move of the heap-down loop keeps its invariant: with the hole at `i`
and the smaller child `s` smaller than the displaced entry, after
`data[i] = data[s]` the hole is at `s`. -/
theorem heapDown_step (cmp : α → α → Int) (hto : TotalOrder cmp) (last c : α)
    (m i s : Nat) (data : List α) (hlen : m < data.length) (hsm : s < m)
    (hs2 : s = 2 * i + 1 ∨ s = 2 * i + 2)
    (ha : ∀ (k : Nat) (a b : α), 1 ≤ k → k < m → ((k - 1) / 2 ≠ i ∨ 0 < i) →
      data[(k - 1) / 2]? = some a → data[k]? = some b → cmp a b ≤ 0)
    (hc : data[s]? = some c) (hcl : cmp c last < 0)
    (hmin : ∀ (k : Nat) (b : α), 1 ≤ k → k < m → (k - 1) / 2 = i → data[k]? = some b →
      cmp c b ≤ 0) :
    (∀ (k : Nat) (a b : α), 1 ≤ k → k < m → ((k - 1) / 2 ≠ s ∨ 0 < s) →
      (data.set i c)[(k - 1) / 2]? = some a → (data.set i c)[k]? = some b → cmp a b ≤ 0) ∧
    (0 < s → ∀ a, (data.set i c)[(s - 1) / 2]? = some a → cmp a last ≤ 0) := by
  have hil : i < data.length := by omega
  constructor
  · intro k a b hk1 hkm _ hka hkb
    rw [List.getElem?_set] at hka hkb
    by_cases hpk : (k - 1) / 2 = i
    · rw [if_pos hpk.symm, if_pos hil] at hka
      rw [if_neg (by omega)] at hkb
      cases hka
      exact hmin k b hk1 hkm hpk hkb
    · rw [if_neg (fun h => hpk h.symm)] at hka
      by_cases hki : k = i
      · subst hki
        rw [if_pos rfl, if_pos hil] at hkb
        cases hkb
        obtain ⟨x, hx⟩ := Lab6.getElem?_some_of_lt data k hil
        have h1 : cmp a x ≤ 0 := ha k a x hk1 hkm (Or.inr (by omega)) hka hx
        have h2 : cmp x c ≤ 0 :=
          ha s x c (by omega) hsm (Or.inr (by omega))
            (by
              have : (s - 1) / 2 = k := by omega
              rw [this]
              exact hx) hc
        exact hto.trans _ _ _ h1 h2
      · rw [if_neg (fun h => hki h.symm)] at hkb
        exact ha k a b hk1 hkm (Or.inl hpk) hka hkb
  · intro _ a hka
    have hps : (s - 1) / 2 = i := by omega
    rw [hps, List.getElem?_set, if_pos rfl, if_pos hil] at hka
    cases hka
    exact le_of_lt hcl

/-- The loop of `removeEntry` on a block whose entries below `m` form a heap
except at the hole `i`, with the displaced entry `last` at `data[m]`: storing
`last` at the final index gives a heap of `m` entries. -/
theorem heapDown_heap (cmp : α → α → Int) (hto : TotalOrder cmp) (last : α) (m : Nat) :
    ∀ (fuel i j : Nat) (data d : List α), i ≤ m → m < data.length →
      data[m]? = some last →
      (∀ (k : Nat) (a b : α), 1 ≤ k → k < m → ((k - 1) / 2 ≠ i ∨ 0 < i) →
        data[(k - 1) / 2]? = some a → data[k]? = some b → cmp a b ≤ 0) →
      (0 < i → ∀ a, data[(i - 1) / 2]? = some a → cmp a last ≤ 0) →
      heapDown cmp (m : Int) fuel (i : Int) data = some (Result.value ((j : Int), d)) →
      HeapN cmp (d.set j last) m := by
  intro fuel
  induction fuel with
  | zero => intro i j data d _ _ _ _ _ h; cases h
  | succ fuel ih =>
    intro i j data d him hlen hlast ha hb h
    simp only [heapDown] at h
    rw [l_nat] at h
    by_cases hl : ((2 * i + 1 : Nat) : Int) < (m : Int)
    · rw [if_pos hl] at h
      obtain ⟨s, hs, hs2, hsm, hmin⟩ := smallerLoc_spec cmp m i data (by omega) (by omega)
      rw [hs] at h
      simp only at h
      rw [readAt_nat, readAt_nat] at h
      obtain ⟨c, hc⟩ := Lab6.getElem?_some_of_lt data s (by omega)
      rw [hc, hlast] at h
      simp only at h
      by_cases hcl : cmp c last < 0
      · rw [if_pos hcl, writeAt_nat _ _ _ (by omega)] at h
        simp only at h
        obtain ⟨ha', hb'⟩ := heapDown_step cmp hto last c m i s data hlen hsm hs2 ha hc hcl
          (hmin hto c hc)
        exact ih s j (data.set i c) d (by omega) (by rw [List.length_set]; exact hlen)
          (by rw [List.getElem?_set, if_neg (by omega)]; exact hlast) ha' hb' h
      · rw [if_neg hcl] at h
        simp only [Option.some.injEq, Result.value.injEq, Prod.mk.injEq] at h
        obtain ⟨h1, h2⟩ := h
        have hji : j = i := by omega
        subst hji
        subst h2
        refine heapDown_exit cmp last m j data (by omega) ha hb ?_
        intro k b hk1 hkm hpk hkb
        have h1 : cmp last c ≤ 0 := hto.total _ _ (by omega)
        exact hto.trans _ _ _ h1 (hmin hto c hc k b hk1 hkm hpk hkb)
    · rw [if_neg hl] at h
      simp only [Option.some.injEq, Result.value.injEq, Prod.mk.injEq] at h
      obtain ⟨h1, h2⟩ := h
      have hji : j = i := by omega
      subst hji
      subst h2
      refine heapDown_exit cmp last m j data (by omega) ha hb ?_
      intro k b hk1 hkm hpk hkb
      omega

end Lab5

namespace Lab5

open Lab6 (TotalOrder)

variable {α : Type}

/-! ### Lab 5: `addEntry` and `removeEntry` keep the heap -/

theorem grow_getElem? (pq : PQ α) (fresh : Nat → α) (hdl : pq.data.length = pq.length)
    (k : Nat) (hk : k < pq.data.length) : (grow pq fresh).data[k]? = pq.data[k]? := by
  unfold grow
  simp only
  rw [List.getElem?_map, List.getElem?_range (by omega)]
  simp only [Option.map_some']
  rw [List.getElem?_eq_getElem hk]
  rfl

theorem heapN_congr (cmp : α → α → Int) (d d' : List α) (m : Nat)
    (h : ∀ k, k < m → d'[k]? = d[k]?) (hh : HeapN cmp d m) : HeapN cmp d' m := by
  intro k a b hk1 hkm hka hkb
  rw [h _ (by omega)] at hka
  rw [h _ hkm] at hkb
  exact hh k a b hk1 hkm hka hkb

/-- The function `addEntry` returns on every well-formed queue, with one more
entry, and keeps the heap when `compare` is the comparison of a total
preorder. -/
theorem addEntry_spec (pq : PQ α) (entry : α) (fresh : Nat → α) (hwf : WF pq) :
    ∃ pq', addEntry pq entry fresh = Outcome.returned pq' ∧ WF pq' ∧
      pq'.compare = pq.compare ∧ pq'.count = pq.count + 1 ∧
      (TotalOrder pq.compare → HeapN pq.compare pq.data pq.count.toNat →
        HeapN pq'.compare pq'.data pq'.count.toNat) := by
  obtain ⟨n, hn⟩ := Int.eq_ofNat_of_zero_le hwf.cnt
  have hfacts : ∃ pq1 : PQ α,
      (if pq.count = (pq.length : Int) then grow pq fresh else pq) = pq1 ∧
      pq1.count = pq.count ∧ pq1.compare = pq.compare ∧ n < pq1.length ∧
      pq1.data.length = pq1.length ∧ ∀ k, k < n → pq1.data[k]? = pq.data[k]? := by
    have hcap := hwf.cap
    have hdl := hwf.dlen
    have hpos := hwf.pos
    by_cases hfull : pq.count = (pq.length : Int)
    · refine ⟨grow pq fresh, if_pos hfull, rfl, rfl, ?_, ?_, ?_⟩
      · show n < pq.length * 2
        omega
      · show ((List.range (pq.length * 2)).map _).length = pq.length * 2
        simp
      · intro k hk
        exact grow_getElem? pq fresh hdl k (by omega)
    · exact ⟨pq, if_neg hfull, rfl, rfl, by omega, hdl, fun _ _ => rfl⟩
  obtain ⟨pq1, hpq1, hc1, hcmp1, hlen1, hdl1, hsame⟩ := hfacts
  obtain ⟨j, d, hrun, hj, hd⟩ := heapUp_returns pq1.compare entry (n + 1) n pq1.data
    (by omega) (by omega)
  have hfuel : pq1.count.toNat + 1 = n + 1 := by omega
  have hcnt : pq1.count = (n : Int) := by omega
  refine ⟨{ pq1 with data := d.set j entry, count := pq1.count + 1 }, ?_, ?_, hcmp1,
    by show pq1.count + 1 = pq.count + 1; omega, ?_⟩
  · unfold addEntry
    simp only
    rw [hpq1, hfuel, hcnt, hrun]
    simp only
    rw [writeAt_nat _ _ _ (by omega)]
  · refine ⟨by show 0 < pq1.length; omega, ?_, by show 0 ≤ pq1.count + 1; omega,
      by show pq1.count + 1 ≤ (pq1.length : Int); omega⟩
    show (d.set j entry).length = pq1.length
    rw [List.length_set, hd, hdl1]
  · intro hto hheap
    show HeapN pq1.compare (d.set j entry) (pq1.count + 1).toNat
    have hm : (pq1.count + 1).toNat = n + 1 := by omega
    have hn' : pq.count.toNat = n := by omega
    rw [hm, hcmp1]
    rw [hn'] at hheap
    rw [hcmp1] at hrun
    refine heapUp_heap pq.compare hto entry n (n + 1) n j pq1.data d (le_refl n) (by omega)
      ?_ ?_ hrun
    · intro k a b hk1 hkn hne hka hkb
      have hkn' : k < n := by
        rcases hne with h | h
        · omega
        · exact absurd rfl h
      rw [hsame _ (by omega)] at hka
      rw [hsame _ hkn'] at hkb
      exact hheap k a b hk1 hkn' hka hkb
    · intro k b hk1 hkn hpk _
      omega

/-- The function `removeEntry` returns on every well-formed queue with
`count > 0`: it returns `data[0]`, leaves one entry less, and keeps the heap
when `compare` is the comparison of a total preorder. -/
theorem removeEntry_spec (pq : PQ α) (hwf : WF pq) (hpos : 0 < pq.count) :
    ∃ pq' min, removeEntry pq = Reply.returned pq' min ∧ pq.data[0]? = some min ∧
      WF pq' ∧ pq'.compare = pq.compare ∧ pq'.count = pq.count - 1 ∧
      (TotalOrder pq.compare → HeapN pq.compare pq.data pq.count.toNat →
        HeapN pq'.compare pq'.data pq'.count.toNat) := by
  obtain ⟨m, hm⟩ := Int.eq_ofNat_of_zero_le (by omega : 0 ≤ pq.count - 1)
  have hcap := hwf.cap
  have hdl := hwf.dlen
  have hml : m < pq.data.length := by omega
  obtain ⟨min, hmin⟩ := Lab6.getElem?_some_of_lt pq.data 0 (by omega)
  obtain ⟨last, hlast⟩ := Lab6.getElem?_some_of_lt pq.data m hml
  have hlast0 : (pq.data.set 0 last)[m]? = some last := by
    rw [List.getElem?_set]
    by_cases h0 : 0 = m
    · rw [if_pos h0, if_pos (by omega)]
    · rw [if_neg h0]
      exact hlast
  obtain ⟨j, d, hrun, _, hjm, hd, hdm⟩ := heapDown_returns pq.compare m (m + 1) 0
    (pq.data.set 0 last) (by omega) (by omega) (by rw [List.length_set]; exact hml)
  rw [List.length_set] at hd
  rw [hlast0] at hdm
  have hjl : j < d.length := by omega
  have hfuel : pq.count.toNat = m + 1 := by omega
  refine ⟨{ pq with count := pq.count - 1, data := d.set j last }, min, ?_, hmin, ?_, rfl, rfl,
    ?_⟩
  · unfold removeEntry
    rw [if_pos hpos, hm, hfuel]
    have h0 : readAt pq.data 0 = some min := by
      have := readAt_nat pq.data 0
      rw [hmin] at this
      exact this
    have hw0 : writeAt pq.data 0 last = some (pq.data.set 0 last) := by
      have := writeAt_nat pq.data 0 last (by omega)
      exact this
    rw [h0, readAt_nat, hlast]
    simp only
    rw [hw0]
    simp only
    have hrun' : heapDown pq.compare (m : Int) (m + 1) 0 (pq.data.set 0 last) =
        some (Result.value ((j : Int), d)) := hrun
    rw [hrun']
    simp only
    rw [readAt_nat, hdm]
    simp only
    rw [writeAt_nat _ _ _ hjl]
  · refine ⟨hwf.pos, ?_, by show 0 ≤ pq.count - 1; omega,
      by show pq.count - 1 ≤ (pq.length : Int); omega⟩
    show (d.set j last).length = pq.length
    rw [List.length_set, hd, hdl]
  · intro hto hheap
    show HeapN pq.compare (d.set j last) (pq.count - 1).toNat
    have hm' : (pq.count - 1).toNat = m := by omega
    rw [hm']
    rw [hfuel] at hheap
    refine heapDown_heap pq.compare hto last m (m + 1) 0 j (pq.data.set 0 last) d
      (Nat.zero_le _) (by rw [List.length_set]; exact hml) hlast0 ?_ ?_ hrun
    · intro k a b hk1 hkm hne hka hkb
      have hpk : (k - 1) / 2 ≠ 0 := by
        rcases hne with h | h
        · exact h
        · omega
      rw [List.getElem?_set, if_neg (fun h => hpk h.symm)] at hka
      rw [List.getElem?_set, if_neg (by omega)] at hkb
      exact hheap k a b hk1 (by omega) hka hkb
    · intro h
      omega

theorem createQueue_wf (cmp : α → α → Int) (data0 : Nat → α) : WF (createQueue cmp data0) :=
  ⟨by show 0 < 10; omega, by simp [createQueue], le_refl _,
    by show (0 : Int) ≤ ((10 : Nat) : Int); omega⟩

/-- Every reachable queue is well formed, and a min heap when `compare` is the
comparison of a total preorder. -/
theorem reachable_heap (pq : PQ α) (hr : Reachable pq) :
    WF pq ∧ (TotalOrder pq.compare → HeapN pq.compare pq.data pq.count.toNat) := by
  induction hr with
  | create cmp data0 =>
    refine ⟨createQueue_wf cmp data0, fun _ => ?_⟩
    intro k a b hk1 hkm
    have : (createQueue cmp data0).count.toNat = 0 := rfl
    omega
  | add pq pq' entry fresh _ hadd ih =>
    obtain ⟨q, hq, hwf, hcmp, _, hheap⟩ := addEntry_spec pq entry fresh ih.1
    rw [hq] at hadd
    cases hadd
    exact ⟨hwf, fun hto => hheap (by rw [← hcmp]; exact hto)
      (ih.2 (by rw [← hcmp]; exact hto))⟩
  | remove pq pq' m _ hrem ih =>
    by_cases hpos : 0 < pq.count
    · obtain ⟨q, min, hq, _, hwf, hcmp, _, hheap⟩ := removeEntry_spec pq ih.1 hpos
      rw [hq] at hrem
      cases hrem
      exact ⟨hwf, fun hto => hheap (by rw [← hcmp]; exact hto)
        (ih.2 (by rw [← hcmp]; exact hto))⟩
    · unfold removeEntry at hrem
      rw [if_neg hpos] at hrem
      cases hrem

/-- The root of a heap is not greater than any of its entries. -/
theorem heap_root_min (cmp : α → α → Int) (hto : TotalOrder cmp) (d : List α) (m : Nat)
    (hlen : m ≤ d.length) (hh : HeapN cmp d m) (a : α) (ha : d[0]? = some a) :
    ∀ (k : Nat) (b : α), k < m → d[k]? = some b → cmp a b ≤ 0 := by
  intro k
  induction k using Nat.strong_induction_on with
  | _ k ih =>
    intro b hkm hkb
    by_cases hk0 : k = 0
    · subst hk0
      rw [ha] at hkb
      cases hkb
      exact cmp_refl cmp hto _
    · obtain ⟨c, hc⟩ := Lab6.getElem?_some_of_lt d ((k - 1) / 2) (by omega)
      have h1 := ih ((k - 1) / 2) (by omega) c (by omega) hc
      have h2 := hh k c b (by omega) hkm hc hkb
      exact hto.trans _ _ _ h1 h2

end Lab5

namespace Lab5

open Lab6 (TotalOrder)

variable {α : Type}

theorem pq3_reachable : Reachable pq3 := by
  have h0 : Reachable (createQueue Lab6.natCompare (fun _ => 0)) := Reachable.create _ _
  have h1 : Reachable ⟨1, 10, [5, 0, 0, 0, 0, 0, 0, 0, 0, 0], Lab6.natCompare⟩ :=
    Reachable.add _ _ 5 (fun _ => 0) h0 rfl
  have h2 : Reachable ⟨2, 10, [3, 5, 0, 0, 0, 0, 0, 0, 0, 0], Lab6.natCompare⟩ :=
    Reachable.add _ _ 3 (fun _ => 0) h1 rfl
  exact Reachable.add _ _ 8 (fun _ => 0) h2 rfl

/-- C23 (Lab 5 priority queue, `removeEntry` returns the minimum).  For every
queue reachable from `createQueue(compare)` by `addEntry` and `removeEntry`,
with `compare` the comparison of a total preorder and `count > 0`:
`removeEntry` returns an entry `m` of the queue with `compare(m, x) ≤ 0` for
every entry `x` of the queue, and `numEntries` is decremented by 1. -/
theorem removeEntry_returns_minimum (pq : PQ α) (hr : Reachable pq)
    (hto : TotalOrder pq.compare) (hpos : 0 < pq.count) :
    ∃ pq' m, removeEntry pq = Reply.returned pq' m ∧ m ∈ entries pq ∧
      (∀ x ∈ entries pq, pq.compare m x ≤ 0) ∧ numEntries pq' = numEntries pq - 1 := by
  obtain ⟨hwf, hheap⟩ := reachable_heap pq hr
  obtain ⟨pq', m, hrem, hm, _, _, hcnt, _⟩ := removeEntry_spec pq hwf hpos
  have hcap := hwf.cap
  have hdl := hwf.dlen
  refine ⟨pq', m, hrem, ?_, ?_, hcnt⟩
  · apply List.mem_iff_getElem?.2
    refine ⟨0, ?_⟩
    unfold entries
    rw [List.getElem?_take, if_pos (by omega)]
    exact hm
  · intro x hx
    obtain ⟨k, hk⟩ := List.mem_iff_getElem?.1 hx
    unfold entries at hk
    rw [List.getElem?_take] at hk
    by_cases hkn : k < pq.count.toNat
    · rw [if_pos hkn] at hk
      exact heap_root_min pq.compare hto pq.data pq.count.toNat (by omega) (hheap hto) m hm
        k x hkn hk
    · rw [if_neg hkn] at hk
      cases hk

/-- Witness of `removeEntry_returns_minimum`: the queue that holds 3, 5, 8. -/
theorem removeEntry_returns_minimum_witness :
    ∃ pq' m, removeEntry pq3 = Reply.returned pq' m ∧ m ∈ entries pq3 ∧
      (∀ x ∈ entries pq3, pq3.compare m x ≤ 0) ∧ numEntries pq' = numEntries pq3 - 1 :=
  removeEntry_returns_minimum pq3 pq3_reachable Lab6.natCompare_totalOrder (by decide)

/-- C24 (Lab 5 priority queue, min-heap invariant).  In every state reachable
from `createQueue` by `addEntry` and `removeEntry`, with `compare` the
comparison of a total preorder: for every index `i` with `1 ≤ i < count`,
`compare(data[(i-1)/2], data[i]) ≤ 0`.  Both loops preserve it: `addEntry`
(heap-up) returns with a heap of `count + 1` entries, and for `count > 0`
`removeEntry` (heap-down, which compares the smaller child with the displaced
last entry kept at `data[count]`) returns with a heap of `count - 1` entries. -/
theorem min_heap_invariant (pq : PQ α) (hr : Reachable pq) (hto : TotalOrder pq.compare) :
    (∀ i : Nat, 1 ≤ i → (i : Int) < pq.count →
      ∃ a b, readAt pq.data (p (i : Int)) = some a ∧ readAt pq.data (i : Int) = some b ∧
        pq.compare a b ≤ 0) ∧
    (∀ (entry : α) (fresh : Nat → α),
      ∃ pq', addEntry pq entry fresh = Outcome.returned pq' ∧
        numEntries pq' = numEntries pq + 1 ∧
        HeapN pq'.compare pq'.data pq'.count.toNat) ∧
    (0 < pq.count →
      ∃ pq' m, removeEntry pq = Reply.returned pq' m ∧
        numEntries pq' = numEntries pq - 1 ∧
        HeapN pq'.compare pq'.data pq'.count.toNat) := by
  obtain ⟨hwf, hheap⟩ := reachable_heap pq hr
  have hcap := hwf.cap
  have hdl := hwf.dlen
  refine ⟨?_, ?_, ?_⟩
  · intro i hi1 hic
    obtain ⟨a, ha⟩ := Lab6.getElem?_some_of_lt pq.data ((i - 1) / 2) (by omega)
    obtain ⟨b, hb⟩ := Lab6.getElem?_some_of_lt pq.data i (by omega)
    refine ⟨a, b, ?_, ?_, hheap hto i a b hi1 (by omega) ha hb⟩
    · rw [p_nat i (by omega), readAt_nat]
      exact ha
    · rw [readAt_nat]
      exact hb
  · intro entry fresh
    obtain ⟨pq', hadd, _, _, hcnt, hh⟩ := addEntry_spec pq entry fresh hwf
    exact ⟨pq', hadd, hcnt, hh hto (hheap hto)⟩
  · intro hpos
    obtain ⟨pq', m, hrem, _, _, _, hcnt, hh⟩ := removeEntry_spec pq hwf hpos
    exact ⟨pq', m, hrem, hcnt, hh hto (hheap hto)⟩

/-- Witness of `min_heap_invariant`: the queue that holds 3, 5, 8. -/
theorem min_heap_invariant_witness :
    (∀ i : Nat, 1 ≤ i → (i : Int) < pq3.count →
      ∃ a b, readAt pq3.data (p (i : Int)) = some a ∧ readAt pq3.data (i : Int) = some b ∧
        pq3.compare a b ≤ 0) ∧
    (∀ (entry : Nat) (fresh : Nat → Nat),
      ∃ pq', addEntry pq3 entry fresh = Outcome.returned pq' ∧
        numEntries pq' = numEntries pq3 + 1 ∧
        HeapN pq'.compare pq'.data pq'.count.toNat) ∧
    (0 < pq3.count →
      ∃ pq' m, removeEntry pq3 = Reply.returned pq' m ∧
        numEntries pq' = numEntries pq3 - 1 ∧
        HeapN pq'.compare pq'.data pq'.count.toNat) :=
  min_heap_invariant pq3 pq3_reachable Lab6.natCompare_totalOrder

end Lab5

namespace Lab6

variable {α : Type}

/-! ### Lab 6: no duplicates, free slots and the lifetime of flags -/

theorem exHole_reachable : Reachable exHole :=
  Reachable.remove _ _ 0 exFull_reachable rfl

/-- C31 (Lab 6 table, no duplicates).  In every state reachable from
`createSet` by `addElement` and `removeElement` (`compare(a, b) == 0` an
equivalence, equal elements hashing identically), no two distinct `FILLED`
slots hold elements that compare equal.  In particular `addElement` of an
element equal to a stored one returns without a store, also when a tombstone
precedes the stored element on its probe chain, and the state after any
`addElement` has no two equal elements either. -/
theorem no_duplicates (sp : SET α) (hr : Reachable sp) (hl : Lawful sp) :
    (∀ (i j : Nat) (x y : α), Holds sp i x → Holds sp j y → i ≠ j → sp.compare x y ≠ 0) ∧
    (∀ (e : α) (i : Nat) (y : α), Holds sp i y → sp.compare y e = 0 →
      addElement sp e = Outcome.returned sp) ∧
    (∀ (e : α) (s' : SET α), addElement sp e = Outcome.returned s' →
      ∀ (i j : Nat) (x y : α), Holds s' i x → Holds s' j y → i ≠ j → sp.compare x y ≠ 0) := by
  have hp := reachable_probeInv sp hr
  have hn := reachable_noDup sp hr hl
  refine ⟨fun i j x y hx hy hij hc => hij (hn i j x y hx hy hc),
    fun e i y hy hc => addElement_present sp e hl hp i y hy hc, ?_⟩
  intro e s' hadd i j x y hx hy hij hc
  have hn' := addElement_noDup sp s' e hl hp hn hadd
  have hcmp : s'.compare = sp.compare := (addElement_compare sp s' e hadd).1
  exact hij (hn' i j x y hx hy (by rw [hcmp]; exact hc))

/-- Witness of `no_duplicates`: the table in which 2 is stored in slot 1
behind the tombstone of its home slot 0. -/
theorem no_duplicates_witness :
    (∀ (i j : Nat) (x y : Nat), Holds exPast i x → Holds exPast j y → i ≠ j →
      exPast.compare x y ≠ 0) ∧
    (∀ (e : Nat) (i : Nat) (y : Nat), Holds exPast i y → exPast.compare y e = 0 →
      addElement exPast e = Outcome.returned exPast) ∧
    (∀ (e : Nat) (s' : SET Nat), addElement exPast e = Outcome.returned s' →
      ∀ (i j : Nat) (x y : Nat), Holds s' i x → Holds s' j y → i ≠ j →
        exPast.compare x y ≠ 0) :=
  no_duplicates exPast exPast_reachable (natCompare_lawful exPast rfl rfl)

end Lab6

namespace Lab6

variable {α : Type}

/-- C36 (Lab 6 table, `search` returns a usable free slot).  For a table with
`length > 0`, flags in `{EMPTY, FILLED, DELETED}`, `count` the number of
`FILLED` slots and `count < length`: the index returned by `search` lies in
`[0, length)` (it is never `-1`), and when `found` is false its flag is not
`FILLED`; `addElement` returns and every live element stays in its slot. -/
theorem search_usable_slot (sp : SET α) (e : α) (hwf : WF sp) (hc : CountInv sp)
    (hlt : sp.count < (sp.length : Int)) :
    (∃ i : Nat, (search sp e).1 = (i : Int) ∧ i < sp.length ∧
      ((search sp e).2 = false → flagAt sp i = EMPTY ∨ flagAt sp i = DELETED)) ∧
    (∃ s', addElement sp e = Outcome.returned s' ∧
      ∀ (j : Nat) (x : α), Holds sp j x → Holds s' j x) := by
  have hfree := exists_not_filled sp hwf hc hlt
  constructor
  · cases hs : search sp e with
    | mk l b =>
      cases b with
      | false =>
        obtain ⟨i, hi, hil⟩ := search_in_bounds sp e l hwf hfree hs
        subst hi
        obtain ⟨k, _, _, hfl, _⟩ := search_free sp e i hs
        exact ⟨i, rfl, hil, fun _ => hfl⟩
      | true =>
        obtain ⟨i, x, hi, hil, _, _⟩ := search_found sp e l hwf hs
        exact ⟨i, hi, hil, fun h => by cases h⟩
  · obtain ⟨s', hadd⟩ := addElement_progress sp e hwf hc hlt
    refine ⟨s', hadd, ?_⟩
    intro j x hx
    rcases addElement_returned sp s' e hadd with ⟨_, h1⟩ | ⟨l, hs, _, hld, hlf, h1⟩
    · rw [h1]; exact hx
    · rw [h1]
      apply (holds_add sp _ l e j x hlf hld).2
      right
      refine ⟨?_, hx⟩
      intro hjl
      subst hjl
      obtain ⟨k, _, _, hfl, _⟩ := search_free sp e j hs
      rw [hx.1] at hfl
      rcases hfl with h | h <;> exact absurd h (by decide)

/-- Witness of `search_usable_slot`: the table of capacity 2 with a tombstone
and one element, and the absent element 4. -/
theorem search_usable_slot_witness :
    (∃ i : Nat, (search exHole 4).1 = (i : Int) ∧ i < exHole.length ∧
      ((search exHole 4).2 = false → flagAt exHole i = EMPTY ∨ flagAt exHole i = DELETED)) ∧
    (∃ s', addElement exHole 4 = Outcome.returned s' ∧
      ∀ (j : Nat) (x : Nat), Holds exHole j x → Holds s' j x) :=
  search_usable_slot exHole 4 (reachable_wf_count exHole exHole_reachable).1
    (reachable_wf_count exHole exHole_reachable).2 (by decide)

/-! ### Lab 6: flags never return to `EMPTY` -/

theorem addElement_flags (sp s' : SET α) (e : α)
    (hadd : addElement sp e = Outcome.returned s') (i : Nat) :
    flagAt s' i = flagAt sp i ∨ (flagAt sp i = EMPTY ∧ flagAt s' i = FILLED) ∨
      (flagAt sp i = DELETED ∧ flagAt s' i = FILLED) := by
  rcases addElement_returned sp s' e hadd with ⟨_, h1⟩ | ⟨l, hs, _, hld, hlf, h1⟩
  · rw [h1]; exact Or.inl rfl
  · rw [h1, flagAt_set sp _ _ l FILLED i hlf]
    by_cases hil : i = l
    · rw [if_pos hil]
      subst hil
      obtain ⟨k, _, _, hfl, _⟩ := search_free sp e i hs
      rcases hfl with h | h
      · exact Or.inr (Or.inl ⟨h, rfl⟩)
      · exact Or.inr (Or.inr ⟨h, rfl⟩)
    · rw [if_neg hil]; exact Or.inl rfl

theorem removeElement_flags (sp s' : SET α) (e : α) (hwf : WF sp)
    (hrem : removeElement sp e = Outcome.returned s') (i : Nat) :
    flagAt s' i = flagAt sp i ∨ (flagAt sp i = FILLED ∧ flagAt s' i = DELETED) := by
  rcases removeElement_returned sp s' e hrem with ⟨_, h1⟩ | ⟨l, hs, hlf, h1⟩
  · rw [h1]; exact Or.inl rfl
  · rw [h1, flagAt_set sp sp.data _ l DELETED i hlf]
    by_cases hil : i = l
    · rw [if_pos hil]
      subst hil
      obtain ⟨j, x, hj, _, hx, _⟩ := search_found sp e i hwf hs
      have : i = j := by omega
      subst this
      exact Or.inr ⟨hx.1, rfl⟩
    · rw [if_neg hil]; exact Or.inl rfl

theorem count_empty_set (flags : List Nat) (l v : Nat) (hl : l < flags.length)
    (hv : v ≠ EMPTY) : (flags.set l v).count EMPTY ≤ flags.count EMPTY := by
  rw [List.count_set _ _ _ _ hl]
  have : (v == EMPTY) = false := by
    simpa using hv
  rw [this]
  simp

theorem addElement_emptySlots (sp s' : SET α) (e : α)
    (hadd : addElement sp e = Outcome.returned s') : emptySlots s' ≤ emptySlots sp := by
  rcases addElement_returned sp s' e hadd with ⟨_, h1⟩ | ⟨l, hs, _, hld, hlf, h1⟩
  · rw [h1]
  · rw [h1]
    exact count_empty_set sp.flags l FILLED hlf (by decide)

theorem removeElement_emptySlots (sp s' : SET α) (e : α)
    (hrem : removeElement sp e = Outcome.returned s') : emptySlots s' ≤ emptySlots sp := by
  rcases removeElement_returned sp s' e hrem with ⟨_, h1⟩ | ⟨l, hs, hlf, h1⟩
  · rw [h1]
  · rw [h1]
    exact count_empty_set sp.flags l DELETED hlf (by decide)

theorem evolves_reachable (sp s' : SET α) (hr : Reachable sp) (he : Evolves sp s') :
    Reachable s' := by
  induction he with
  | refl => exact hr
  | add s1 s2 elt _ hadd ih => exact Reachable.add s1 s2 elt ih hadd
  | remove s1 s2 elt _ hrem ih => exact Reachable.remove s1 s2 elt ih hrem

end Lab6

namespace Lab6

variable {α : Type}

/-- C34 (Lab 6 table, tombstones persist).  For a reachable table: a call of
`addElement` leaves every flag unchanged or turns one `EMPTY` or `DELETED`
flag into `FILLED`; a call of `removeElement` leaves every flag unchanged or
turns one `FILLED` flag into `DELETED`; so over any further sequence of calls
no slot that is `FILLED` or `DELETED` becomes `EMPTY` again and the number of
`EMPTY` slots does not increase. -/
theorem tombstones_persist (sp : SET α) (hr : Reachable sp) :
    (∀ (e : α) (s' : SET α), addElement sp e = Outcome.returned s' → ∀ i : Nat,
      flagAt s' i = flagAt sp i ∨ (flagAt sp i = EMPTY ∧ flagAt s' i = FILLED) ∨
        (flagAt sp i = DELETED ∧ flagAt s' i = FILLED)) ∧
    (∀ (e : α) (s' : SET α), removeElement sp e = Outcome.returned s' → ∀ i : Nat,
      flagAt s' i = flagAt sp i ∨ (flagAt sp i = FILLED ∧ flagAt s' i = DELETED)) ∧
    (∀ s' : SET α, Evolves sp s' →
      emptySlots s' ≤ emptySlots sp ∧
      ∀ i : Nat, flagAt sp i ≠ EMPTY → flagAt s' i ≠ EMPTY) := by
  refine ⟨fun e s' h i => addElement_flags sp s' e h i,
    fun e s' h i => removeElement_flags sp s' e (reachable_wf_count sp hr).1 h i, ?_⟩
  intro s' he
  induction he with
  | refl => exact ⟨le_refl _, fun _ h => h⟩
  | add s1 s2 elt h1 hadd ih =>
    refine ⟨le_trans (addElement_emptySlots s1 s2 elt hadd) ih.1, fun i hi => ?_⟩
    have h0 := ih.2 i hi
    rcases addElement_flags s1 s2 elt hadd i with h | ⟨_, h⟩ | ⟨_, h⟩
    · rw [h]; exact h0
    · rw [h]; decide
    · rw [h]; decide
  | remove s1 s2 elt h1 hrem ih =>
    refine ⟨le_trans (removeElement_emptySlots s1 s2 elt hrem) ih.1, fun i hi => ?_⟩
    have h0 := ih.2 i hi
    have hwf := (reachable_wf_count s1 (evolves_reachable sp s1 hr h1)).1
    rcases removeElement_flags s1 s2 elt hwf hrem i with h | ⟨_, h⟩
    · rw [h]; exact h0
    · rw [h]; decide

/-- Witness of `tombstones_persist`: the full table of capacity 2; it evolves
by `removeElement(0)` and `addElement(5)` into a table whose slot 0 was
`FILLED`, then `DELETED`, then `FILLED` again. -/
theorem tombstones_persist_witness :
    (∀ (e : Nat) (s' : SET Nat), addElement exFull e = Outcome.returned s' → ∀ i : Nat,
      flagAt s' i = flagAt exFull i ∨ (flagAt exFull i = EMPTY ∧ flagAt s' i = FILLED) ∨
        (flagAt exFull i = DELETED ∧ flagAt s' i = FILLED)) ∧
    (∀ (e : Nat) (s' : SET Nat), removeElement exFull e = Outcome.returned s' → ∀ i : Nat,
      flagAt s' i = flagAt exFull i ∨ (flagAt exFull i = FILLED ∧ flagAt s' i = DELETED)) ∧
    (∀ s' : SET Nat, Evolves exFull s' →
      emptySlots s' ≤ emptySlots exFull ∧
      ∀ i : Nat, flagAt exFull i ≠ EMPTY → flagAt s' i ≠ EMPTY) :=
  tombstones_persist exFull exFull_reachable

/-! ### Lab 6: `partition` and the recursion of `quicksort` -/

theorem frame_slice_perm (lo hi : Nat) (a a' : List α) (hlh : lo ≤ hi + 1)
    (hf : Frame lo (hi : Int) a a') :
    ((a'.drop lo).take (hi + 1 - lo)).Perm ((a.drop lo).take (hi + 1 - lo)) := by
  have htake : a'.take lo = a.take lo := by
    apply List.ext_getElem?
    intro k
    rw [List.getElem?_take, List.getElem?_take]
    by_cases hk : k < lo
    · rw [if_pos hk, if_pos hk]
      exact hf.out k (Or.inl hk)
    · rw [if_neg hk, if_neg hk]
  have hdrop : a'.drop (hi + 1) = a.drop (hi + 1) := by
    apply List.ext_getElem?
    intro k
    rw [List.getElem?_drop, List.getElem?_drop]
    exact hf.out _ (Or.inr (by omega))
  have h1 := slice_decomp a lo hi hlh
  have h2 := slice_decomp a' lo hi hlh
  have hp : (List.take lo a' ++ (List.take (hi + 1 - lo) (List.drop lo a') ++
      List.drop (hi + 1) a')).Perm
      (List.take lo a ++ (List.take (hi + 1 - lo) (List.drop lo a) ++
        List.drop (hi + 1) a)) := by
    rw [h1, h2]
    exact hf.perm
  rw [htake, hdrop] at hp
  exact (List.perm_append_right_iff _).1 ((List.perm_append_left_iff _).1 hp)

/-- C32 (Lab 6 quicksort, postcondition of `partition`).  For every array and
indices `0 ≤ low ≤ high` within bounds, `partition(low, high, array, sp)`
returns `j` with `low ≤ j ≤ high` such that `array[j]` is the old
`array[high]` (the pivot), every element of `array[low..j)` compares `< 0`
with the pivot, every element of `array(j..high]` compares `≥ 0` with it,
`array[low..high]` is a permutation of its old contents, and the elements
outside `[low, high]` are unchanged. -/
theorem partition_postcondition (sp : SET α) (low high : Nat) (a : List α)
    (hlh : low ≤ high) (hh : high < a.length) :
    ∃ (j : Nat) (a' : List α) (pivot : α),
      partition (low : Int) (high : Int) a sp = some ((j : Int), a') ∧
      low ≤ j ∧ j ≤ high ∧ a[high]? = some pivot ∧ a'[j]? = some pivot ∧
      (∀ k, low ≤ k → k < j → ∃ x, a'[k]? = some x ∧ sp.compare x pivot < 0) ∧
      (∀ k, j < k → k ≤ high → ∃ x, a'[k]? = some x ∧ 0 ≤ sp.compare x pivot) ∧
      a'.length = a.length ∧
      ((a'.drop low).take (high + 1 - low)).Perm ((a.drop low).take (high + 1 - low)) ∧
      (∀ k, k < low ∨ high < k → a'[k]? = a[k]?) := by
  obtain ⟨j, a', p, hrun, hlj, hjh, hf, hp, hp', hlt, hge⟩ :=
    partition_spec sp low high a hlh hh
  refine ⟨j, a', p, hrun, hlj, hjh, hp, hp', hlt, ?_, hf.len,
    frame_slice_perm low high a a' (by omega) hf, ?_⟩
  · intro k h1 h2
    obtain ⟨x, hx, hc⟩ := hge k h1 h2
    exact ⟨x, hx, by omega⟩
  · intro k hk
    exact hf.out k (hk.imp id (fun h => by omega))

/-- Witness of `partition_postcondition`: the array `[3, 1, 2]` with the
comparison of numbers. -/
theorem partition_postcondition_witness :
    ∃ (j : Nat) (a' : List Nat) (pivot : Nat),
      partition ((0 : Nat) : Int) ((2 : Nat) : Int) [3, 1, 2] ex5 = some ((j : Int), a') ∧
      0 ≤ j ∧ j ≤ 2 ∧ [3, 1, 2][2]? = some pivot ∧ a'[j]? = some pivot ∧
      (∀ k, 0 ≤ k → k < j → ∃ x, a'[k]? = some x ∧ ex5.compare x pivot < 0) ∧
      (∀ k, j < k → k ≤ 2 → ∃ x, a'[k]? = some x ∧ 0 ≤ ex5.compare x pivot) ∧
      a'.length = [3, 1, 2].length ∧
      ((a'.drop 0).take (2 + 1 - 0)).Perm (([3, 1, 2].drop 0).take (2 + 1 - 0)) ∧
      (∀ k, k < 0 ∨ 2 < k → a'[k]? = [3, 1, 2][k]?) :=
  partition_postcondition ex5 0 2 [3, 1, 2] (by decide) (by decide)

end Lab6

namespace Lab6

variable {α : Type}

theorem quicksort_fuel_succ (sp : SET α) :
    ∀ (fuel : Nat) (low high : Int) (a a' : List α),
      quicksort fuel low high a sp = some a' → quicksort (fuel + 1) low high a sp = some a' := by
  intro fuel
  induction fuel with
  | zero =>
    intro low high a a' h
    simp only [quicksort] at h ⊢
    by_cases hlh : low < high
    · rw [if_pos hlh] at h
      cases h
    · rw [if_neg hlh] at h
      rw [if_neg hlh]
      exact h
  | succ fuel ih =>
    intro low high a a' h
    rw [quicksort] at h
    rw [quicksort]
    by_cases hlh : low < high
    · rw [if_pos hlh] at h
      rw [if_pos hlh]
      cases hp : partition low high a sp with
      | none => rw [hp] at h; cases h
      | some r =>
        obtain ⟨j, a1⟩ := r
        rw [hp] at h
        simp only at h ⊢
        cases hq : quicksort fuel low (j - 1) a1 sp with
        | none => rw [hq] at h; cases h
        | some a2 =>
          rw [hq] at h
          simp only at h
          rw [ih low (j - 1) a1 a2 hq]
          simp only
          exact ih (j + 1) high a2 a' h
    · rw [if_neg hlh] at h
      rw [if_neg hlh]
      exact h

theorem quicksort_fuel_le (sp : SET α) (fuel fuel' : Nat) (hle : fuel ≤ fuel')
    (low high : Int) (a a' : List α) (h : quicksort fuel low high a sp = some a') :
    quicksort fuel' low high a sp = some a' := by
  induction fuel', hle using Nat.le_induction with
  | base => exact h
  | succ n _ ih => exact quicksort_fuel_succ sp n low high a a' ih

/-- C33 (Lab 6 quicksort, termination).  For every array and every pair
`low`, `high` whose range, when it has more than one element, lies within the
array: `quicksort(low, high, array, sp)` returns, with the same result for
every bound on the depth of the recursion of at least `high - low + 1`.  A
range of length at most 1 (also `high = low - 1`, the call made for an empty
set) returns at once without calling `partition`; otherwise `partition`
returns `j` with `low ≤ j ≤ high`, so both recursive calls, on `[low, j-1]` and
`[j+1, high]`, are on strictly shorter ranges. -/
theorem quicksort_terminates (sp : SET α) (a : List α) (low high : Int)
    (hb : low < high → 0 ≤ low ∧ high < (a.length : Int)) :
    (∃ a', ∀ fuel : Nat, (high - low + 1).toNat ≤ fuel →
      quicksort fuel low high a sp = some a') ∧
    (high ≤ low → ∀ fuel : Nat, quicksort fuel low high a sp = some a) ∧
    (low < high → ∃ (j : Int) (a1 : List α), partition low high a sp = some (j, a1) ∧
      low ≤ j ∧ j ≤ high ∧
      (j - 1) - low + 1 < high - low + 1 ∧ high - (j + 1) + 1 < high - low + 1) := by
  have hbase : high ≤ low → ∀ fuel : Nat, quicksort fuel low high a sp = some a := by
    intro hle fuel
    cases fuel with
    | zero => simp only [quicksort]; rw [if_neg (by omega)]
    | succ n => rw [quicksort, if_neg (by omega)]
  refine ⟨?_, hbase, ?_⟩
  · by_cases hlh : low < high
    · obtain ⟨h0, hh⟩ := hb hlh
      obtain ⟨l, rfl⟩ := Int.eq_ofNat_of_zero_le h0
      obtain ⟨a', hq, _⟩ := quicksort_spec sp (high - (l : Int) + 1).toNat l high a hh
        (by omega)
      exact ⟨a', fun fuel hf => quicksort_fuel_le sp _ fuel hf _ _ a a' hq⟩
    · exact ⟨a, fun fuel _ => hbase (by omega) fuel⟩
  · intro hlh
    obtain ⟨h0, hh⟩ := hb hlh
    obtain ⟨l, rfl⟩ := Int.eq_ofNat_of_zero_le h0
    obtain ⟨h, rfl⟩ := Int.eq_ofNat_of_zero_le (by omega : 0 ≤ high)
    obtain ⟨j, a1, _, hrun, hlj, hjh, _⟩ := partition_spec sp l h a (by omega) (by omega)
    exact ⟨(j : Int), a1, hrun, by omega, by omega, by omega, by omega⟩

/-- Witness of `quicksort_terminates`: the array `[3, 1, 2]` with the
comparison of numbers, sorted over its whole range. -/
theorem quicksort_terminates_witness :
    (∃ a', ∀ fuel : Nat, ((2 : Int) - 0 + 1).toNat ≤ fuel →
      quicksort fuel 0 2 [3, 1, 2] ex5 = some a') ∧
    ((2 : Int) ≤ 0 → ∀ fuel : Nat, quicksort fuel 0 2 [3, 1, 2] ex5 = some [3, 1, 2]) ∧
    ((0 : Int) < 2 → ∃ (j : Int) (a1 : List Nat),
      partition 0 2 [3, 1, 2] ex5 = some (j, a1) ∧
      0 ≤ j ∧ j ≤ 2 ∧
      (j - 1) - 0 + 1 < (2 : Int) - 0 + 1 ∧ 2 - (j + 1) + 1 < (2 : Int) - 0 + 1) :=
  quicksort_terminates ex5 [3, 1, 2] 0 2 (fun _ => ⟨by decide, by decide⟩)

end Lab6

namespace Lab3G

open Lab6 (SET flagAt)

variable {α : Type}

/-! ### The two generic tables: `search` and `addElement` side by side -/

/-- The loops of the two `search` functions agree when `available` of Lab 6
is `deleteIndex` of Lab 3 (`-1` while `deleteFound` is false). -/
theorem searchLoop_eq (sp : SET α) (elt : α) (start : Nat)
    (hfv : ∀ i, flagAt sp i = EMPTY ∨ flagAt sp i = FILLED ∨ flagAt sp i = DELETED) :
    ∀ (n i : Nat) (deleteFound : Bool) (deleteIndex : Int),
      (deleteFound = true → deleteIndex ≠ -1) → (deleteFound = false → deleteIndex = -1) →
      searchLoop sp elt start n i deleteFound deleteIndex =
        Lab6.searchLoop sp elt start n i deleteIndex := by
  intro n
  induction n with
  | zero => intro i df di _ _; rfl
  | succ n ih =>
    intro i df di h1 h2
    simp only [searchLoop, Lab6.searchLoop]
    rcases hfv ((start + i) % sp.length) with he | hf | hd
    · rw [he]
      cases df with
      | true =>
        have := h1 rfl
        simp [this]
      | false =>
        have := h2 rfl
        simp [this]
    · rw [hf]
      have e1 : ¬ (FILLED = EMPTY) := by decide
      have e2 : ¬ (FILLED = DELETED) := by decide
      have e3 : ¬ (FILLED = DELETED ∧ df = false) := fun h => e2 h.1
      rw [if_neg e1, if_neg e3, if_pos rfl, if_neg e1, if_neg e2]
      cases hx : sp.data[(start + i) % sp.length]? with
      | none => exact ih (i + 1) df di h1 h2
      | some x =>
        simp only
        by_cases hc : sp.compare x elt = 0
        · rw [if_pos hc, if_pos hc]
        · rw [if_neg hc, if_neg hc]
          exact ih (i + 1) df di h1 h2
    · rw [hd]
      have e1 : ¬ (DELETED = EMPTY) := by decide
      have e2 : ¬ (DELETED = FILLED) := by decide
      rw [if_neg e1, if_neg e1, if_pos rfl]
      cases df with
      | false =>
        rw [if_pos ⟨rfl, rfl⟩, if_pos (h2 rfl)]
        exact ih (i + 1) true _ (fun _ => by omega) (fun h => by cases h)
      | true =>
        rw [if_neg (fun h => by cases h.2), if_neg e2, if_neg (h1 rfl)]
        exact ih (i + 1) true di h1 h2

/-- C38 (search equivalence of the two generic tables).  For every table
state with `length > 0` and flags in `{EMPTY, FILLED, DELETED}` and every
element, `search` of `Lab3 Code/generic/table.c` and `search` of
`Lab 6 Code/table.c` (same `compare` and `hash`) return the same index and
the same value of `found`. -/
theorem search_equivalent (sp : SET α) (elt : α) (hpos : 0 < sp.length)
    (hfv : ∀ i, flagAt sp i = EMPTY ∨ flagAt sp i = FILLED ∨ flagAt sp i = DELETED) :
    search sp elt = Lab6.search sp elt ∧
    (search sp elt).1 = (Lab6.search sp elt).1 ∧
    (search sp elt).2 = (Lab6.search sp elt).2 ∧
    sp.hash elt % sp.length < sp.length := by
  have h : search sp elt = Lab6.search sp elt :=
    searchLoop_eq sp elt _ hfv sp.length 0 false (-1) (fun h => by cases h) (fun _ => rfl)
  exact ⟨h, by rw [h], by rw [h], Nat.mod_lt _ hpos⟩

/-- Witness of `search_equivalent`: the element 2 stored behind a tombstone. -/
theorem search_equivalent_witness :
    search Lab6.exPast 2 = Lab6.search Lab6.exPast 2 ∧
    (search Lab6.exPast 2).1 = (Lab6.search Lab6.exPast 2).1 ∧
    (search Lab6.exPast 2).2 = (Lab6.search Lab6.exPast 2).2 ∧
    Lab6.exPast.hash 2 % Lab6.exPast.length < Lab6.exPast.length :=
  search_equivalent Lab6.exPast 2 (by decide)
    (Lab6.reachable_wf_count Lab6.exPast Lab6.exPast_reachable).1.fval

end Lab3G

namespace Lab2S

open Lab3S (Ptr strcmp)

/-! ### Lab 2 sorted array: the indices of the shift loop -/

/-- The last iteration of the shift loop writes `data[p]` and reads
`data[p - 1]`, where `p` is the index it stops at. -/
theorem shiftUpIndices_last :
    ∀ (n : Nat) (i : Int), (i - (n : Int), i - (n : Int) - 1) ∈ shiftUpIndices (n + 1) i := by
  intro n
  induction n with
  | zero =>
    intro i
    simp [shiftUpIndices]
  | succ n ih =>
    intro i
    rw [shiftUpIndices]
    apply List.mem_cons_of_mem
    have := ih (i - 1)
    have e : i - 1 - (n : Int) = i - ((n + 1 : Nat) : Int) := by push_cast; omega
    rw [e] at this
    exact this

/-- C37 (Lab 2 sorted array, the shift stays in bounds), evaluated at failing
inputs.  On the empty set of capacity 1 (`count = 0 < length`), `search` gives
the insertion index 0 for "a", the shift loop runs once and executes
`data[0] = data[-1]`: it reads index `-1`, which is outside `[0, count]` and
outside the block.  The same happens whenever the insertion index is 0: on the
set that holds "a", "c", "e", the loop for "0" reads the indices 2, 1, 0, -1. -/
theorem sorted_shift_reads_before_block :
    (createSet 1).count < ((createSet 1).length : Int) ∧
    search (createSet 1) "a" = Result.value (0, false) ∧
    shiftUpIndices ((createSet 1).count - 0 + 1).toNat (createSet 1).count = [(0, -1)] ∧
    readAt (createSet 1).data (-1) = none ∧
    search ace4 "0" = Result.value (0, false) ∧
    shiftUpIndices (ace4.count - 0 + 1).toNat ace4.count =
      [(3, 2), (2, 1), (1, 0), (0, -1)] ∧
    readAt ace4.data (-1) = none := by
  decide

end Lab2S

namespace Lab5

variable {α : Type}

/-! ### Lab 5: the shape of the results of `addEntry` and `removeEntry` -/

theorem addEntry_returned (pq pq' : PQ α) (entry : α) (fresh : Nat → α)
    (h : addEntry pq entry fresh = Outcome.returned pq') :
    ∃ (i : Int) (d d1 : List α),
      heapUp pq.compare entry (pq.count.toNat + 1) pq.count
        (if pq.count = (pq.length : Int) then grow pq fresh else pq).data =
          some (Result.value (i, d)) ∧
      writeAt d i entry = some d1 ∧
      pq' = ⟨pq.count + 1, (if pq.count = (pq.length : Int) then grow pq fresh else pq).length,
        d1, pq.compare⟩ := by
  have hc : (if pq.count = (pq.length : Int) then grow pq fresh else pq).count = pq.count := by
    split <;> rfl
  have hcmp : (if pq.count = (pq.length : Int) then grow pq fresh else pq).compare =
      pq.compare := by
    split <;> rfl
  unfold addEntry at h
  simp only at h
  rw [hc, hcmp] at h
  cases hrun : heapUp pq.compare entry (pq.count.toNat + 1) pq.count
      (if pq.count = (pq.length : Int) then grow pq fresh else pq).data with
  | none => rw [hrun] at h; cases h
  | some r =>
    rw [hrun] at h
    cases r with
    | undefined => cases h
    | value v =>
      obtain ⟨i, d⟩ := v
      simp only at h
      cases hw : writeAt d i entry with
      | none => rw [hw] at h; cases h
      | some d1 =>
        rw [hw] at h
        simp only [Outcome.returned.injEq] at h
        exact ⟨i, d, d1, rfl, hw, h.symm⟩

theorem removeEntry_returned (pq pq' : PQ α) (m : α)
    (h : removeEntry pq = Reply.returned pq' m) :
    0 < pq.count ∧ readAt pq.data 0 = some m ∧
    ∃ (last : α) (i : Int) (d d1 : List α) (last1 : α),
      readAt pq.data (pq.count - 1) = some last ∧
      heapDown pq.compare (pq.count - 1) pq.count.toNat 0 (pq.data.set 0 last) =
        some (Result.value (i, d)) ∧
      readAt d (pq.count - 1) = some last1 ∧ writeAt d i last1 = some d1 ∧
      pq' = { pq with count := pq.count - 1, data := d1 } := by
  unfold removeEntry at h
  by_cases hpos : pq.count > 0
  · rw [if_pos hpos] at h
    cases h0 : readAt pq.data 0 with
    | none => rw [h0] at h; cases h
    | some min =>
      cases hl : readAt pq.data (pq.count - 1) with
      | none => rw [h0, hl] at h; cases h
      | some last =>
        rw [h0, hl] at h
        simp only at h
        cases hw : writeAt pq.data 0 last with
        | none => rw [hw] at h; cases h
        | some d0 =>
          rw [hw] at h
          simp only at h
          have hd0 : d0 = pq.data.set 0 last := by
            unfold writeAt at hw
            split at hw
            · cases hw; rfl
            · cases hw
          subst hd0
          cases hrun : heapDown pq.compare (pq.count - 1) pq.count.toNat 0
              (pq.data.set 0 last) with
          | none => rw [hrun] at h; cases h
          | some r =>
            rw [hrun] at h
            cases r with
            | undefined => cases h
            | value v =>
              obtain ⟨i, d⟩ := v
              simp only at h
              cases hl1 : readAt d (pq.count - 1) with
              | none => rw [hl1] at h; cases h
              | some last1 =>
                rw [hl1] at h
                simp only at h
                cases hw1 : writeAt d i last1 with
                | none => rw [hw1] at h; cases h
                | some d1 =>
                  rw [hw1] at h
                  simp only [Reply.returned.injEq] at h
                  obtain ⟨h1, h2⟩ := h
                  subst h2
                  exact ⟨hpos, rfl, last, i, d, d1, last1, rfl, hrun, hl1, hw1, h1.symm⟩
  · rw [if_neg hpos] at h
    cases h

theorem addEntry_length (pq pq' : PQ α) (entry : α) (fresh : Nat → α)
    (h : addEntry pq entry fresh = Outcome.returned pq') :
    pq'.length = if pq.count = (pq.length : Int) then 2 * pq.length else pq.length := by
  obtain ⟨i, d, d1, _, _, hpq⟩ := addEntry_returned pq pq' entry fresh h
  rw [hpq]
  show (if pq.count = (pq.length : Int) then grow pq fresh else pq).length = _
  by_cases hfull : pq.count = (pq.length : Int)
  · rw [if_pos hfull, if_pos hfull]
    show pq.length * 2 = 2 * pq.length
    omega
  · rw [if_neg hfull, if_neg hfull]

theorem removeEntry_length (pq pq' : PQ α) (m : α)
    (h : removeEntry pq = Reply.returned pq' m) : pq'.length = pq.length := by
  obtain ⟨_, _, last, i, d, d1, last1, _, _, _, _, hpq⟩ := removeEntry_returned pq pq' m h
  rw [hpq]

/-- The length of the block of a reachable queue is 10 times a power of 2. -/
theorem reachable_length (pq : PQ α) (hr : Reachable pq) : ∃ k : Nat, pq.length = 10 * 2 ^ k := by
  induction hr with
  | create cmp data0 => exact ⟨0, rfl⟩
  | add pq pq' entry fresh _ hadd ih =>
    obtain ⟨k, hk⟩ := ih
    rw [addEntry_length pq pq' entry fresh hadd]
    by_cases hfull : pq.count = (pq.length : Int)
    · rw [if_pos hfull]
      exact ⟨k + 1, by rw [hk, pow_succ]; ring⟩
    · rw [if_neg hfull]
      exact ⟨k, hk⟩
  | remove pq pq' m _ hrem ih =>
    rw [removeEntry_length pq pq' m hrem]
    exact ih

theorem reachable_addAll5 (fresh : Nat → α) (es : List α) :
    ∀ (pq pq' : PQ α), Reachable pq → addAll pq fresh es = Outcome.returned pq' →
      Reachable pq' := by
  induction es with
  | nil =>
    intro pq pq' hr h
    simp only [addAll, Outcome.returned.injEq] at h
    rw [← h]
    exact hr
  | cons e rest ih =>
    intro pq pq' hr h
    simp only [addAll] at h
    cases hadd : addEntry pq e fresh with
    | returned q =>
      rw [hadd] at h
      exact ih q pq' (Reachable.add pq q e fresh hr hadd) h
    | aborted q => rw [hadd] at h; cases h
    | undefined => rw [hadd] at h; cases h

theorem pq10_reachable : Reachable pq10 :=
  reachable_addAll5 (fun _ => 0) [1, 2, 3, 4, 5, 6, 7, 8, 9, 10]
    (createQueue Lab6.natCompare (fun _ => 0)) pq10 (Reachable.create _ _)
    (by set_option maxRecDepth 100000 in rfl)

/-- C40 (Lab 5 priority queue, capacity and index safety).  In every state
reachable from `createQueue` by `addEntry` and `removeEntry` (which returns
only for `count > 0`): `0 ≤ count ≤ length`, the block has `length` entries
and `length` is 10 times a power of 2.  `addEntry` returns, so every index it
uses (`i`, `(i-1)/2` for `i > 0`) is inside the block, which has twice the old
`length` exactly when it was called with `count == length`.  For `count > 0`,
`removeEntry` returns, so every index it uses (`i`, `2i+1`, `2i+2`, and `count`
after the decrement) is inside the block, whose `length` is unchanged. -/
theorem capacity_and_index_safety (pq : PQ α) (hr : Reachable pq) :
    0 ≤ pq.count ∧ pq.count ≤ (pq.length : Int) ∧ pq.data.length = pq.length ∧
    (∃ k : Nat, pq.length = 10 * 2 ^ k) ∧
    (∀ (entry : α) (fresh : Nat → α),
      ∃ pq', addEntry pq entry fresh = Outcome.returned pq' ∧
        pq'.length = (if pq.count = (pq.length : Int) then 2 * pq.length else pq.length) ∧
        pq'.data.length = pq'.length ∧ pq'.count = pq.count + 1 ∧
        pq'.count ≤ (pq'.length : Int)) ∧
    (0 < pq.count →
      ∃ pq' m, removeEntry pq = Reply.returned pq' m ∧ pq'.length = pq.length ∧
        pq'.data.length = pq'.length ∧ pq'.count = pq.count - 1) := by
  obtain ⟨hwf, _⟩ := reachable_heap pq hr
  refine ⟨hwf.cnt, hwf.cap, hwf.dlen, reachable_length pq hr, ?_, ?_⟩
  · intro entry fresh
    obtain ⟨pq', hadd, hwf', _, hcnt, _⟩ := addEntry_spec pq entry fresh hwf
    exact ⟨pq', hadd, addEntry_length pq pq' entry fresh hadd, hwf'.dlen, hcnt, hwf'.cap⟩
  · intro hpos
    obtain ⟨pq', m, hrem, _, hwf', _, hcnt, _⟩ := removeEntry_spec pq hwf hpos
    exact ⟨pq', m, hrem, removeEntry_length pq pq' m hrem, hwf'.dlen, hcnt⟩

/-- Witness of `capacity_and_index_safety`: the full queue that holds
1, ..., 10, on which `addEntry` doubles the block. -/
theorem capacity_and_index_safety_witness :
    0 ≤ pq10.count ∧ pq10.count ≤ (pq10.length : Int) ∧ pq10.data.length = pq10.length ∧
    (∃ k : Nat, pq10.length = 10 * 2 ^ k) ∧
    (∀ (entry : Nat) (fresh : Nat → Nat),
      ∃ pq', addEntry pq10 entry fresh = Outcome.returned pq' ∧
        pq'.length =
          (if pq10.count = (pq10.length : Int) then 2 * pq10.length else pq10.length) ∧
        pq'.data.length = pq'.length ∧ pq'.count = pq10.count + 1 ∧
        pq'.count ≤ (pq'.length : Int)) ∧
    (0 < pq10.count →
      ∃ pq' m, removeEntry pq10 = Reply.returned pq' m ∧ pq'.length = pq10.length ∧
        pq'.data.length = pq'.length ∧ pq'.count = pq10.count - 1) :=
  capacity_and_index_safety pq10 pq10_reachable

end Lab5

namespace Lab5

variable {α : Type}

/-! ### Lab 5: the moves of the two loops keep the entries -/

/-- Moving the entry of index `p` into the hole `i` and the new entry into
`p` rearranges the list with the new entry in the hole. -/
theorem set_move_perm (L : List α) (i p : Nat) (x y : α) (hi : i < L.length)
    (hp : L[p]? = some y) (hne : p ≠ i) : ((L.set i y).set p x).Perm (L.set i x) := by
  have h1 : (L.set i x)[i]? = some x := by
    rw [List.getElem?_set, if_pos rfl, if_pos hi]
  have h2 : (L.set i x)[p]? = some y := by
    rw [List.getElem?_set, if_neg (fun h => hne h.symm)]
    exact hp
  have := Lab6.set_set_perm (L.set i x) i p x y h1 h2
  rw [List.set_set] at this
  exact this

theorem take_set_last (l : List α) (n : Nat) (x : α) (hn : n < l.length) :
    ((l.set n x).take (n + 1)).Perm (x :: l.take n) := by
  have h1 : (l.set n x).take (n + 1) = l.take n ++ [x] := by
    rw [List.take_succ, List.set_take, List.set_eq_of_length_le (by simp),
      List.getElem?_set, if_pos rfl, if_pos hn]
    rfl
  rw [h1]
  exact List.perm_append_singleton x (l.take n)

theorem heapUp_perm (cmp : α → α → Int) (entry : α) (m : Nat) :
    ∀ (fuel i j : Nat) (data d : List α), i < m → m ≤ data.length →
      heapUp cmp entry fuel (i : Int) data = some (Result.value ((j : Int), d)) →
      ∀ x, ((d.set j x).take m).Perm ((data.set i x).take m) := by
  intro fuel
  induction fuel with
  | zero => intro i j data d _ _ h; cases h
  | succ fuel ih =>
    intro i j data d him hlen h x
    simp only [heapUp] at h
    by_cases hi : (i : Int) > 0
    · rw [if_pos hi, p_nat i (by omega), readAt_nat] at h
      obtain ⟨parent, hpar⟩ := Lab6.getElem?_some_of_lt data ((i - 1) / 2) (by omega)
      rw [hpar] at h
      simp only at h
      by_cases hc : cmp parent entry > 0
      · rw [if_pos hc, writeAt_nat _ _ _ (by omega)] at h
        simp only at h
        have h1 := ih ((i - 1) / 2) j (data.set i parent) d (by omega)
          (by rw [List.length_set]; exact hlen) h x
        refine h1.trans ?_
        rw [List.set_take, List.set_take, List.set_take]
        apply set_move_perm
        · rw [List.length_take]; omega
        · rw [List.getElem?_take, if_pos (by omega)]; exact hpar
        · omega
      · rw [if_neg hc] at h
        simp only [Option.some.injEq, Result.value.injEq, Prod.mk.injEq] at h
        obtain ⟨h1, h2⟩ := h
        have hji : j = i := by omega
        subst hji
        subst h2
        exact List.Perm.refl _
    · rw [if_neg hi] at h
      simp only [Option.some.injEq, Result.value.injEq, Prod.mk.injEq] at h
      obtain ⟨h1, h2⟩ := h
      have hji : j = i := by omega
      subst hji
      subst h2
      exact List.Perm.refl _

theorem heapDown_perm (cmp : α → α → Int) (m : Nat) :
    ∀ (fuel i j : Nat) (data d : List α), m < data.length →
      heapDown cmp (m : Int) fuel (i : Int) data = some (Result.value ((j : Int), d)) →
      ∀ x, ((d.set j x).take m).Perm ((data.set i x).take m) := by
  intro fuel
  induction fuel with
  | zero => intro i j data d _ h; cases h
  | succ fuel ih =>
    intro i j data d hlen h x
    simp only [heapDown] at h
    rw [l_nat] at h
    by_cases hl : ((2 * i + 1 : Nat) : Int) < (m : Int)
    · rw [if_pos hl] at h
      obtain ⟨s, hs, hs2, hsm, _⟩ := smallerLoc_spec cmp m i data (by omega) (by omega)
      rw [hs] at h
      simp only at h
      rw [readAt_nat, readAt_nat] at h
      obtain ⟨c, hc⟩ := Lab6.getElem?_some_of_lt data s (by omega)
      obtain ⟨last, hlast⟩ := Lab6.getElem?_some_of_lt data m hlen
      rw [hc, hlast] at h
      simp only at h
      by_cases hcl : cmp c last < 0
      · rw [if_pos hcl, writeAt_nat _ _ _ (by omega)] at h
        simp only at h
        have h1 := ih s j (data.set i c) d (by rw [List.length_set]; exact hlen) h x
        refine h1.trans ?_
        rw [List.set_take, List.set_take, List.set_take]
        apply set_move_perm
        · rw [List.length_take]; omega
        · rw [List.getElem?_take, if_pos hsm]; exact hc
        · omega
      · rw [if_neg hcl] at h
        simp only [Option.some.injEq, Result.value.injEq, Prod.mk.injEq] at h
        obtain ⟨h1, h2⟩ := h
        have hji : j = i := by omega
        subst hji
        subst h2
        exact List.Perm.refl _
    · rw [if_neg hl] at h
      simp only [Option.some.injEq, Result.value.injEq, Prod.mk.injEq] at h
      obtain ⟨h1, h2⟩ := h
      have hji : j = i := by omega
      subst hji
      subst h2
      exact List.Perm.refl _

/-- Replacing the root by the last entry and dropping the last slot removes
one occurrence of the root from the entries. -/
theorem root_replaced_perm (data : List α) (m : Nat) (min last : α) (hmin : data[0]? = some min)
    (hlast : data[m]? = some last) :
    (data.take (m + 1)).Perm (min :: (data.set 0 last).take m) := by
  cases data with
  | nil => cases hmin
  | cons a rest =>
    simp only [List.getElem?_cons_zero, Option.some.injEq] at hmin
    subst hmin
    cases m with
    | zero =>
      simp only [List.getElem?_cons_zero, Option.some.injEq] at hlast
      subst hlast
      simp
    | succ k =>
      simp only [List.getElem?_cons_succ] at hlast
      simp only [List.set_cons_zero, List.take_succ_cons]
      rw [List.take_succ, hlast]
      apply List.Perm.cons
      exact List.perm_append_singleton last (rest.take k)

end Lab5

namespace Lab5

variable {α : Type}

theorem addEntry_entries (pq pq' : PQ α) (entry : α) (fresh : Nat → α) (hwf : WF pq)
    (h : addEntry pq entry fresh = Outcome.returned pq') :
    (entries pq').Perm (entry :: entries pq) := by
  obtain ⟨n, hn⟩ := Int.eq_ofNat_of_zero_le hwf.cnt
  have hcap := hwf.cap
  have hdl := hwf.dlen
  have hpos := hwf.pos
  obtain ⟨i, d, d1, hrun, hw, hpq⟩ := addEntry_returned pq pq' entry fresh h
  have hfacts : n < (if pq.count = (pq.length : Int) then grow pq fresh else pq).data.length ∧
      ∀ k, k < n →
        (if pq.count = (pq.length : Int) then grow pq fresh else pq).data[k]? = pq.data[k]? := by
    by_cases hfull : pq.count = (pq.length : Int)
    · rw [if_pos hfull]
      refine ⟨?_, fun k hk => grow_getElem? pq fresh hdl k (by omega)⟩
      show n < ((List.range (pq.length * 2)).map _).length
      simp only [List.length_map, List.length_range]
      omega
    · rw [if_neg hfull]
      exact ⟨by omega, fun _ _ => rfl⟩
  obtain ⟨data1, hg⟩ : ∃ data1,
      (if pq.count = (pq.length : Int) then grow pq fresh else pq).data = data1 := ⟨_, rfl⟩
  rw [hg] at hfacts hrun
  obtain ⟨hlen1, hsame⟩ := hfacts
  have hfuel : pq.count.toNat + 1 = n + 1 := by omega
  rw [hfuel, hn] at hrun
  obtain ⟨j, d', hrun', hj, hd⟩ := heapUp_returns pq.compare entry (n + 1) n data1
    (by omega) hlen1
  rw [hrun'] at hrun
  simp only [Option.some.injEq, Result.value.injEq, Prod.mk.injEq] at hrun
  obtain ⟨hi, hdd⟩ := hrun
  subst hi
  subst hdd
  rw [writeAt_nat _ _ _ (by omega)] at hw
  cases hw
  have hp := heapUp_perm pq.compare entry (n + 1) (n + 1) n j data1 d' (by omega) (by omega)
    hrun' entry
  have htake : data1.take n = pq.data.take n := by
    apply List.ext_getElem?
    intro k
    rw [List.getElem?_take, List.getElem?_take]
    by_cases hk : k < n
    · rw [if_pos hk, if_pos hk]
      exact hsame k hk
    · rw [if_neg hk, if_neg hk]
  have he' : entries pq' = (d'.set j entry).take (n + 1) := by
    rw [hpq]
    unfold entries
    show (d'.set j entry).take (pq.count + 1).toNat = _
    have : (pq.count + 1).toNat = n + 1 := by omega
    rw [this]
  have he : entries pq = pq.data.take n := by
    unfold entries
    have : pq.count.toNat = n := by omega
    rw [this]
  rw [he', he, ← htake]
  exact hp.trans (take_set_last _ n entry hlen1)

theorem removeEntry_entries (pq pq' : PQ α) (min : α) (hwf : WF pq)
    (h : removeEntry pq = Reply.returned pq' min) :
    (entries pq).Perm (min :: entries pq') := by
  obtain ⟨hpos, hmin, last, i, d, d1, last1, hlast, hrun, hl1, hw, hpq⟩ :=
    removeEntry_returned pq pq' min h
  obtain ⟨m, hm⟩ := Int.eq_ofNat_of_zero_le (by omega : 0 ≤ pq.count - 1)
  have hcap := hwf.cap
  have hdl := hwf.dlen
  have hml : m < pq.data.length := by omega
  have hmin' : pq.data[0]? = some min := by
    have := readAt_nat pq.data 0
    rw [← this]
    exact hmin
  rw [hm, readAt_nat] at hlast hl1
  have hfuel : pq.count.toNat = m + 1 := by omega
  rw [hm, hfuel] at hrun
  have hlast0 : (pq.data.set 0 last)[m]? = some last := by
    rw [List.getElem?_set]
    by_cases h0 : 0 = m
    · rw [if_pos h0, if_pos (by omega)]
    · rw [if_neg h0]
      exact hlast
  obtain ⟨j, d', hrun', _, hjm, hd, hdm⟩ := heapDown_returns pq.compare m (m + 1) 0
    (pq.data.set 0 last) (by omega) (by omega) (by rw [List.length_set]; exact hml)
  have hrun'' : heapDown pq.compare (m : Int) (m + 1) 0 (pq.data.set 0 last) =
      some (Result.value ((j : Int), d')) := hrun'
  rw [hrun''] at hrun
  simp only [Option.some.injEq, Result.value.injEq, Prod.mk.injEq] at hrun
  obtain ⟨hi, hdd⟩ := hrun
  subst hi
  subst hdd
  rw [hdm, hlast0] at hl1
  cases hl1
  rw [List.length_set] at hd
  rw [writeAt_nat _ _ _ (by omega)] at hw
  cases hw
  have hp := heapDown_perm pq.compare m (m + 1) 0 j (pq.data.set 0 last) d'
    (by rw [List.length_set]; exact hml) hrun' last
  rw [List.set_set] at hp
  have he' : entries pq' = (d'.set j last).take m := by
    rw [hpq]
    unfold entries
    show (d'.set j last).take (pq.count - 1).toNat = _
    have : (pq.count - 1).toNat = m := by omega
    rw [this]
  have he : entries pq = pq.data.take (m + 1) := by
    unfold entries
    rw [hfuel]
  rw [he', he]
  exact (root_replaced_perm pq.data m min last hmin' hlast).trans (hp.symm.cons min)

/-- C35 (Lab 5 priority queue, multiset preservation).  For every reachable
queue: `addEntry(e)` returns and the entries `data[0..count)` afterwards are,
as a multiset, the old entries plus `e`; for `count > 0`, `removeEntry` returns
an entry `m` and the old entries are, as a multiset, the new entries plus `m`.
The moves of the two loops lose and duplicate no entry. -/
theorem multiset_preservation (pq : PQ α) (hr : Reachable pq) :
    (∀ (entry : α) (fresh : Nat → α),
      ∃ pq', addEntry pq entry fresh = Outcome.returned pq' ∧
        (entries pq').Perm (entry :: entries pq)) ∧
    (0 < pq.count →
      ∃ pq' m, removeEntry pq = Reply.returned pq' m ∧
        (entries pq).Perm (m :: entries pq')) := by
  obtain ⟨hwf, _⟩ := reachable_heap pq hr
  constructor
  · intro entry fresh
    obtain ⟨pq', hadd, _⟩ := addEntry_spec pq entry fresh hwf
    exact ⟨pq', hadd, addEntry_entries pq pq' entry fresh hwf hadd⟩
  · intro hpos
    obtain ⟨pq', m, hrem, _⟩ := removeEntry_spec pq hwf hpos
    exact ⟨pq', m, hrem, removeEntry_entries pq pq' m hwf hrem⟩

/-- Witness of `multiset_preservation`: the full queue that holds 1, ..., 10. -/
theorem multiset_preservation_witness :
    (∀ (entry : Nat) (fresh : Nat → Nat),
      ∃ pq', addEntry pq10 entry fresh = Outcome.returned pq' ∧
        (entries pq').Perm (entry :: entries pq10)) ∧
    (0 < pq10.count →
      ∃ pq' m, removeEntry pq10 = Reply.returned pq' m ∧
        (entries pq10).Perm (m :: entries pq')) :=
  multiset_preservation pq10 pq10_reachable

end Lab5
